import Mathlib

/-!
# Constraint solver of `game/common/constraintSolver.h`

A shallow embedding of `solver::Variable` and `solver::ConstraintSolver`
(together with the row/column uniqueness constraints installed by the
sudoku and futoshiki drivers), followed by the theorems proved about it.

Conventions of the embedding.

* A `std::set<T>` is the list of its elements in ascending order; a
  `std::map<K, V>` is the list of its `(key, value)` pairs in ascending key
  order.  Insertion, lookup, assignment through an iterator and erasure are
  the functions `setInsert`, `mapFind`, `mapInsert`, `mapAssign`, `mapErase`.
* A `std::reference_wrapper<variable_t>` into the map `Variables` is the key
  of the entry it refers to; reading through it is `ConstraintSolver.get`.
* The data members a constraint can reach through `solver_t&` form the
  structure `ConstraintSolver`; the three callbacks (`Comparator`, `Selector`,
  `Constraints`) are kept apart in `Policies`, because a constraint is a
  function on `ConstraintSolver`.
* `while` loops take an iteration budget.  A run ends in `Run.ret` (normal
  return), `Run.raise` (`std::out_of_range` leaves the function) or
  `Run.stall` (budget exhausted); each carries the state reached.
-/

set_option autoImplicit false
set_option linter.unusedSectionVars false

namespace solver

/-! ## Ordered containers -/

section containers

variable {κ β : Type}

/-- Insertion into a `std::set` (no effect when the element is present). -/
def setInsert [LinearOrder κ] (x : κ) : List κ → List κ
  | [] => [x]
  | y :: ys =>
    if x < y then x :: y :: ys
    else if x = y then y :: ys
    else y :: setInsert x ys

/-- Range constructor `std::set<T>{first, last}`. -/
def setOfRange [LinearOrder κ] (xs : List κ) : List κ :=
  xs.foldl (fun acc x => setInsert x acc) []

/-- Lookup `std::map::find`; `none` stands for `end()`. -/
def mapFind [DecidableEq κ] (k : κ) : List (κ × β) → Option β
  | [] => none
  | (k1, v) :: m => if k1 = k then some v else mapFind k m

/-- Insertion `std::map::insert`: the map afterwards and the `.second` flag
(false, and no change, when the key is present). -/
def mapInsert [LinearOrder κ] (k : κ) (v : β) : List (κ × β) → List (κ × β) × Bool
  | [] => ([(k, v)], true)
  | (k1, v1) :: m =>
    if k < k1 then ((k, v) :: (k1, v1) :: m, true)
    else if k = k1 then ((k1, v1) :: m, false)
    else ((k1, v1) :: (mapInsert k v m).1, (mapInsert k v m).2)

/-- Assignment `it->second = v` for `it = find(k)`, and any other mutation of
the mapped value through a reference (no effect when the key is absent). -/
def mapAssign [DecidableEq κ] (k : κ) (v : β) : List (κ × β) → List (κ × β)
  | [] => []
  | (k1, v1) :: m => if k1 = k then (k1, v) :: m else (k1, v1) :: mapAssign k v m

/-- Erasure `std::map::erase(key)`. -/
def mapErase [DecidableEq κ] (k : κ) : List (κ × β) → List (κ × β)
  | [] => []
  | (k1, v1) :: m => if k1 = k then m else (k1, v1) :: mapErase k m

end containers

/-! ## `solver::Variable` -/

/-- Class `Variable<ValueT, IndiceT>`: an index and a domain (`std::set`). -/
structure Variable (α ι : Type) where
  /-- Member `Indice`. -/
  Indice : ι
  /-- Member `Domain`, ascending. -/
  Domain : List α
deriving DecidableEq

namespace Variable

variable {α ι : Type}

/-- Method `isInstantiated` (line 40). -/
def isInstantiated (v : Variable α ι) : Bool := v.Domain.length == 1

/-- Method `isCompromised` (line 45). -/
def isCompromised (v : Variable α ι) : Bool := v.Domain.length == 0

/-- Method `domainSize` (line 50). -/
def domainSize (v : Variable α ι) : Nat := v.Domain.length

/-- Method `domain` (line 55). -/
def domain (v : Variable α ι) : List α := v.Domain

/-- Method `exclude` (line 60): `Domain.erase(value)`. -/
def exclude [DecidableEq α] (v : Variable α ι) (value : α) : Variable α ι :=
  { v with Domain := v.Domain.filter (fun x => decide (x ≠ value)) }

/-- Method `set` (line 65): `Domain.clear(); Domain.insert(value)`. -/
def set (v : Variable α ι) (value : α) : Variable α ι :=
  { v with Domain := [value] }

/-- Method `canBe` (line 71). -/
def canBe [DecidableEq α] (v : Variable α ι) (value : α) : Bool :=
  decide (value ∈ v.Domain)

/-- Method `value` (line 76): the first element of the domain; `none` stands
for the `std::out_of_range` thrown on an empty domain. -/
def value (v : Variable α ι) : Option α := v.Domain.head?

/-- Method `indice` (line 85). -/
def indice (v : Variable α ι) : ι := v.Indice

end Variable

/-! ## `solver::ConstraintSolver` -/

/-- Data members of `ConstraintSolver<ValueT, IndiceT>` that a constraint
reaches through its `solver_t&` argument. -/
structure ConstraintSolver (α ι : Type) where
  /-- Member `IsSolveInProgress`. -/
  IsSolveInProgress : Bool
  /-- Member `Variables` (`std::map<indice_t, variable_t>`). -/
  Variables : List (ι × Variable α ι)
  /-- Member `AdditionalIndices` (`std::vector<indice_t>`). -/
  AdditionalIndices : List ι
  /-- Member `RejectedIndices` (`std::set<indice_t>`). -/
  RejectedIndices : List ι
  /-- Member `SolutionList` (`std::vector<solution_t>`). -/
  SolutionList : List (List (Variable α ι))

/-- Type `constraint_t`: called with the solver, an index and a value; gives
its boolean result and the solver as the call leaves it. -/
abbrev constraint_t (α ι : Type) : Type :=
  ConstraintSolver α ι → ι → α → Bool × ConstraintSolver α ι

/-- Members `Comparator`, `Selector`, `Constraints` (`none` is an empty
`std::function`), and the sorting routine behind `std::sort`, which the
standard leaves free in the order it gives to equivalent elements. -/
structure Policies (α ι : Type) where
  /-- Member `Comparator`. -/
  Comparator : Option (Variable α ι → Variable α ι → Bool)
  /-- Member `Selector`. -/
  Selector : Option (Variable α ι → α)
  /-- Member `Constraints`, in registration order. -/
  Constraints : List (constraint_t α ι)
  /-- The routine `std::sort` applied to a vector of references. -/
  StdSort : (ι → ι → Bool) → List ι → List ι

/-- Type `record_t` (line 226). -/
structure record_t (α ι : Type) where
  /-- Member `Register`. -/
  Register : List ι
  /-- Member `RemainingVariables` (copies). -/
  RemainingVariables : List (Variable α ι)
  /-- Member `ChoiceIndice`. -/
  ChoiceIndice : ι
  /-- Member `ChoiceValue`. -/
  ChoiceValue : α

/-- Type `parameters_t` (line 234).  `Processing` holds references into
`Variables`; `Backup` lists the records most recent first, so that its head is
`Backup.back()`. -/
structure parameters_t (α ι : Type) where
  /-- Member `Processing`. -/
  Processing : List ι
  /-- Member `Register`. -/
  Register : List ι
  /-- Member `Backup`. -/
  Backup : List (record_t α ι)

/-- State of the private member functions: the solver and the `parameters_t`
they receive by reference. -/
structure search_t (α ι : Type) where
  /-- The object `*this`. -/
  Solver : ConstraintSolver α ι
  /-- The argument `parameters`. -/
  Parameters : parameters_t α ι

/-- Outcome of a function that loops or may throw. -/
inductive Run (σ β : Type) where
  /-- Normal return of `b` in state `s`. -/
  | ret (b : β) (s : σ)
  /-- The exception `std::out_of_range` leaves the function in state `s`. -/
  | raise (s : σ)
  /-- The iteration budget ran out in state `s`. -/
  | stall (s : σ)

/-- The state carried by a run. -/
def Run.state {σ β : Type} : Run σ β → σ
  | Run.ret _ s => s
  | Run.raise s => s
  | Run.stall s => s

namespace ConstraintSolver

variable {α ι : Type} [LinearOrder α] [LinearOrder ι]

/-- Constructor `ConstraintSolver()` (line 107). -/
def new : ConstraintSolver α ι :=
  { IsSolveInProgress := false, Variables := [], AdditionalIndices := [],
    RejectedIndices := [], SolutionList := [] }

/-- Method `addVariable` (lines 134-150) on the values of the range
`[first, last)`. -/
def addVariable (domain : List α) (indice : ι) (s : ConstraintSolver α ι) :
    Bool × ConstraintSolver α ι :=
  let r := mapInsert indice (Variable.mk indice (setOfRange domain)) s.Variables
  let success := r.2
  if success && s.IsSolveInProgress then
    (success, { s with Variables := r.1,
                       AdditionalIndices := s.AdditionalIndices ++ [indice] })
  else
    (success, { s with Variables := r.1 })

/-- Method `exclude` (lines 152-170). -/
def exclude (value : α) (indice : ι) (s : ConstraintSolver α ι) :
    Bool × ConstraintSolver α ι :=
  match mapFind indice s.Variables with
  | some var =>
    if !var.isInstantiated && !var.isCompromised then
      (true, { s with Variables := mapAssign indice (var.exclude value) s.Variables })
    else
      (!(var.canBe value), s)
  | none => (false, s)

/-- Method `hasBeenRejected` (line 172). -/
def hasBeenRejected (indice : ι) (s : ConstraintSolver α ι) : Bool :=
  decide (indice ∈ s.RejectedIndices)

/-- Method `exists` (line 179). -/
def «exists» (indice : ι) (s : ConstraintSolver α ι) : Bool :=
  (mapFind indice s.Variables).isSome

/-- Method `get` (line 186); also the reading of a reference to the entry of
key `indice`. -/
def get (s : ConstraintSolver α ι) (indice : ι) : Variable α ι :=
  match mapFind indice s.Variables with
  | some var => var
  | none => Variable.mk indice []

/-- Method `solutionsSize` (line 197). -/
def solutionsSize (s : ConstraintSolver α ι) : Nat := s.SolutionList.length

/-- Method `solutions` (line 202). -/
def solutions (s : ConstraintSolver α ι) : List (List (Variable α ι)) := s.SolutionList

/-- Lines 369-374: the constraints, in order, on the instantiated variable
behind `ref`, stopping at the first that fails. -/
def applyConstraints (ref : ι) :
    List (constraint_t α ι) → ConstraintSolver α ι → Run (ConstraintSolver α ι) Bool
  | [], s => Run.ret true s
  | c :: cs, s =>
    match (s.get ref).value with
    | none => Run.raise s
    | some v =>
      let r := c s (s.get ref).indice v
      if r.1 then applyConstraints ref cs r.2 else Run.ret false r.2

/-- Lines 367-377: the loop over `instantiatedVars`, stopping at the first
variable for which a constraint fails. -/
def applyInstantiated (cs : List (constraint_t α ι)) :
    List ι → ConstraintSolver α ι → Run (ConstraintSolver α ι) Bool
  | [], s => Run.ret true s
  | ref :: refs, s =>
    match applyConstraints ref cs s with
    | Run.ret true s1 => applyInstantiated cs refs s1
    | other => other

/-- The `while` loop of `partitionAndConstrain` (lines 345-382), entered with
the current values of the four flags. -/
def partitionLoop (P : Policies α ι) :
    Nat → Bool → Bool → Bool → Bool → search_t α ι → Run (search_t α ι) (Bool × Bool)
  | fuel, sastified, hasNoInstantiatedVars, hasInstantiatedVars, hasAdditionnalVars, st =>
    if sastified && ((hasInstantiatedVars && hasNoInstantiatedVars) || hasAdditionnalVars) then
      match fuel with
      | 0 => Run.stall st
      | fuel + 1 =>
        let s := st.Solver
        let processing := st.Parameters.Processing ++
          s.AdditionalIndices.filter (fun i => (mapFind i s.Variables).isSome)
        let register := st.Parameters.Register ++ s.AdditionalIndices
        let instantiatedVars := processing.filter (fun r => (s.get r).isInstantiated)
        let noInstantiatedVars := processing.filter (fun r => !(s.get r).isInstantiated)
        match applyInstantiated P.Constraints instantiatedVars s with
        | Run.ret sat s1 =>
          partitionLoop P fuel sat (!noInstantiatedVars.isEmpty) (!instantiatedVars.isEmpty)
            (!s1.AdditionalIndices.isEmpty)
            { Solver := s1,
              Parameters := { st.Parameters with Processing := noInstantiatedVars,
                                                 Register := register } }
        | Run.raise s1 =>
          Run.raise { Solver := s1,
                      Parameters := { st.Parameters with Processing := processing,
                                                         Register := register } }
        | Run.stall s1 =>
          Run.stall { Solver := s1,
                      Parameters := { st.Parameters with Processing := processing,
                                                         Register := register } }
    else
      Run.ret (sastified, sastified && hasNoInstantiatedVars) st

/-- Method `partitionAndConstrain` (lines 333-383): the pair
`(sastified, sastified && hasNoInstantiatedVars)`. -/
def partitionAndConstrain (P : Policies α ι) (fuel : Nat) (st : search_t α ι) :
    Run (search_t α ι) (Bool × Bool) :=
  partitionLoop P fuel true true true false st

/-- Lines 389-392 of `selectVariableAndValue`: `Processing` after the sort by
the comparator, when one is installed. -/
def sortProcessing (P : Policies α ι) (st : search_t α ι) : List ι :=
  match P.Comparator with
  | some cmp =>
    P.StdSort (fun a b => cmp (st.Solver.get a) (st.Solver.get b)) st.Parameters.Processing
  | none => st.Parameters.Processing

/-- Lines 393-410 of `selectVariableAndValue`, on the sorted `processing`: the
front variable, the value chosen for it, the record pushed on `Backup` and the
variable set to the value.  `front()` of an empty vector is undefined in the
source and is reported as `Run.raise`. -/
def selectFront (P : Policies α ι) (st : search_t α ι) (processing : List ι) :
    Run (search_t α ι) Unit :=
  let s := st.Solver
  match processing with
  | [] => Run.raise { st with Parameters := { st.Parameters with Processing := processing } }
  | ref :: _ =>
    let var := s.get ref
    match var.value with
    | none => Run.raise { st with Parameters := { st.Parameters with Processing := processing } }
    | some v0 =>
      let val :=
        match P.Selector with
        | some sel => sel var
        | none => v0
      let save : record_t α ι :=
        { Register := st.Parameters.Register,
          RemainingVariables := processing.map (fun r => s.get r),
          ChoiceIndice := var.indice,
          ChoiceValue := val }
      Run.ret ()
        { Solver := { s with Variables := mapAssign ref (var.set val) s.Variables },
          Parameters := { Processing := processing,
                          Register := st.Parameters.Register,
                          Backup := save :: st.Parameters.Backup } }

/-- Method `selectVariableAndValue` (lines 385-411). -/
def selectVariableAndValue (P : Policies α ι) (st : search_t α ι) :
    Run (search_t α ι) Unit :=
  selectFront P st (sortProcessing P st)

/-- Lines 423-424 and 428-429: one index moved to the rejected set and erased
from the map. -/
def reject (s : ConstraintSolver α ι) (indice : ι) : ConstraintSolver α ι :=
  { s with RejectedIndices := setInsert indice s.RejectedIndices,
           Variables := mapErase indice s.Variables }

/-- Lines 432-441: the saved variables written back, each pushed to the new
`Processing` when its index is still in the map. -/
def restore : List (Variable α ι) → List (ι × Variable α ι) → List ι →
    List (ι × Variable α ι) × List ι
  | [], vars, processing => (vars, processing)
  | var :: rest, vars, processing =>
    match mapFind var.indice vars with
    | some _ => restore rest (mapAssign var.indice var vars) (processing ++ [var.indice])
    | none => restore rest vars processing

/-- Method `backtracking` (lines 413-450).  `back()` of an empty `Backup` is
undefined in the source; the model leaves the state as it is. -/
def backtracking (st : search_t α ι) : search_t α ι :=
  match st.Parameters.Backup with
  | [] => st
  | save :: backup =>
    let s1 := (st.Parameters.Register.drop save.Register.length).foldl reject st.Solver
    let s2 := s1.AdditionalIndices.foldl reject s1
    let r := restore save.RemainingVariables s2.Variables []
    let vars :=
      match mapFind save.ChoiceIndice r.1 with
      | some var => mapAssign save.ChoiceIndice (var.exclude save.ChoiceValue) r.1
      | none => r.1
    { Solver := { s2 with Variables := vars, AdditionalIndices := [] },
      Parameters := { Processing := r.2, Register := save.Register, Backup := backup } }

/-- Lines 303-320 of `SearchSolution`: the values of `sastified` and
`isPartialSolution` after the `if`. -/
def searchBody (P : Policies α ι) (total : Nat) (st : search_t α ι) :
    Run (search_t α ι) (Bool × Bool) :=
  if !st.Parameters.Processing.isEmpty then
    match partitionAndConstrain P total st with
    | Run.ret (sastified, isPartialSolution) st1 =>
      if isPartialSolution then
        match selectVariableAndValue P st1 with
        | Run.ret _ st2 => Run.ret (sastified, isPartialSolution) st2
        | Run.raise st2 => Run.raise st2
        | Run.stall st2 => Run.stall st2
      else Run.ret (sastified, isPartialSolution) st1
    | other => other
  else Run.ret (false, true) st

/-- Method `SearchSolution` (lines 290-331).  Every loop of the search may
run `total` times. -/
def SearchSolution (P : Policies α ι) (total : Nat) :
    Nat → search_t α ι → Run (search_t α ι) Bool
  | 0, st => Run.stall st
  | fuel + 1, st =>
    match searchBody P total st with
    | Run.ret (sastified, isPartialSolution) st1 =>
      let isSolution := sastified && !isPartialSolution
      if !sastified && !st1.Parameters.Backup.isEmpty then
        SearchSolution P total fuel (backtracking st1)
      else if !isSolution && sastified then SearchSolution P total fuel st1
      else Run.ret isSolution st1
    | Run.raise st1 => Run.raise st1
    | Run.stall st1 => Run.stall st1

/-- Lines 272-281: the solution copied from `Variables` in `Register` order and
appended to `SolutionList`. -/
def recordSolution (st : search_t α ι) : search_t α ι :=
  { st with Solver := { st.Solver with
      SolutionList := st.Solver.SolutionList ++
        [st.Parameters.Register.filterMap (fun i => mapFind i st.Solver.Variables)] } }

/-- The `while (nextSolution)` loop of `internSolve` (lines 264-285). -/
def internSolveLoop (P : Policies α ι) (all : Bool) (total : Nat) :
    Nat → search_t α ι → Run (search_t α ι) Unit
  | 0, st => Run.stall st
  | fuel + 1, st =>
    match SearchSolution P total total st with
    | Run.ret isSolution st1 =>
      let st2 := if isSolution then recordSolution st1 else st1
      if all && !st2.Parameters.Backup.isEmpty && isSolution then
        internSolveLoop P all total fuel st2
      else Run.ret () st2
    | Run.raise st1 => Run.raise st1
    | Run.stall st1 => Run.stall st1

/-- Lines 245-258 of `internSolve`: the state in which the first search
starts. -/
def startSearch (s : ConstraintSolver α ι) : search_t α ι :=
  { Solver := { s with IsSolveInProgress := true },
    Parameters := { Processing := s.Variables.map Prod.fst,
                    Register := s.Variables.map Prod.fst,
                    Backup := [] } }

/-- Method `internSolve` (lines 241-288), each loop running at most `fuel`
times. -/
def internSolve (P : Policies α ι) (all : Bool) (fuel : Nat) (s : ConstraintSolver α ι) :
    Run (ConstraintSolver α ι) Bool :=
  match internSolveLoop P all fuel fuel (startSearch s) with
  | Run.ret _ st =>
    Run.ret (!st.Solver.SolutionList.isEmpty) { st.Solver with IsSolveInProgress := false }
  | Run.raise st => Run.raise st.Solver
  | Run.stall st => Run.stall st.Solver

/-- Method `solve` (line 207). -/
def solve (P : Policies α ι) (fuel : Nat) (s : ConstraintSolver α ι) :
    Run (ConstraintSolver α ι) Bool :=
  internSolve P false fuel s

/-- Method `solveAll` (line 212); the boolean of `internSolve` is dropped by
the caller. -/
def solveAll (P : Policies α ι) (fuel : Nat) (s : ConstraintSolver α ι) :
    Run (ConstraintSolver α ι) Bool :=
  internSolve P true fuel s

/-! ## The uniqueness constraints of the drivers -/

/-- The loop of the drivers' uniqueness constraints
(`sudoku_constraint.cpp` lines 75-81, 91-97, 109-118;
`futoshiki_constraint.cpp` lines 245-251, 261-267):
`sastified = solver.exclude(value, j)` for the targets `j` in turn, left as
soon as a call fails. -/
def excludeAll (value : α) : List ι → ConstraintSolver α ι → Bool × ConstraintSolver α ι
  | [], s => (true, s)
  | j :: js, s =>
    if (exclude value j s).1 then excludeAll value js (exclude value j s).2
    else (false, (exclude value j s).2)

/-- A not-equal propagator: called for the index `i` instantiated to `value`,
it excludes `value` from the indices `targets i`. -/
def differs (targets : ι → List ι) : constraint_t α ι :=
  fun s i value => excludeAll value (targets i) s

/-! ## Vocabulary of the proofs -/

/-- The indices of the active set, in map order. -/
def keys (s : ConstraintSolver α ι) : List ι := s.Variables.map Prod.fst

/-- The domain of the variable of index `i` (empty when there is none). -/
def dom (s : ConstraintSolver α ι) (i : ι) : List α := (s.get i).Domain

/-- The map is in ascending key order (so it holds each index once) and holds
every variable under its own index. -/
def WF (s : ConstraintSolver α ι) : Prop :=
  s.keys.Pairwise (fun a b => a < b) ∧ ∀ k ∈ s.keys, (s.get k).Indice = k

/-- Every domain of the active set is duplicate-free, as a `std::set` is. -/
def DomNodup (s : ConstraintSolver α ι) : Prop := ∀ k, (s.dom k).Nodup

/-- Solver states reached from `s` by engine-level `exclude` calls. -/
inductive ExclReach : ConstraintSolver α ι → ConstraintSolver α ι → Prop
  | refl (s : ConstraintSolver α ι) : ExclReach s s
  | step {s t : ConstraintSolver α ι} (v : α) (i : ι) :
      ExclReach s t → ExclReach s (exclude v i t).2

/-- A constraint that acts on the solver only by calling `exclude`. -/
def ExcludeOnly (c : constraint_t α ι) : Prop :=
  ∀ s i v, ExclReach s (c s i v).2

/-- What a run of `exclude` calls does to a solver: same indices, domains that
only lose values, and no change to a domain of at most one value. -/
structure Shrinks (s t : ConstraintSolver α ι) : Prop where
  keys : t.keys = s.keys
  progress : t.IsSolveInProgress = s.IsSolveInProgress
  additional : t.AdditionalIndices = s.AdditionalIndices
  rejected : t.RejectedIndices = s.RejectedIndices
  solutions : t.SolutionList = s.SolutionList
  indice : ∀ i, (t.get i).Indice = (s.get i).Indice
  sub : ∀ i, List.Sublist (t.dom i) (s.dom i)
  fixed : ∀ i, (s.dom i).length ≤ 1 → t.dom i = s.dom i
  nonempty : ∀ i, s.dom i ≠ [] → t.dom i ≠ []

/-- Constraints under which duplicate-free domains only shrink (see
`Shrinks`); constraints that only call `exclude` are of this kind. -/
def ShrinkOnly (cs : List (constraint_t α ι)) : Prop :=
  ∀ c ∈ cs, ∀ s i v, DomNodup s → Shrinks s (c s i v).2

/-- A fresh solver: constructed, then filled by `addVariable` calls. -/
inductive Fresh : ConstraintSolver α ι → Prop
  | new : Fresh new
  | add (domain : List α) (indice : ι) {s : ConstraintSolver α ι} :
      Fresh s → Fresh (addVariable domain indice s).2

/-- The indices saved in a record. -/
def idx (r : record_t α ι) : List ι := r.RemainingVariables.map Variable.indice

/-- Shape of the backtracking stack in a search without added variables: each
record saves the canonical order, holds one copy per index, covers the
processing set that was current above it, and the index chosen by a record is
not saved by the records above. -/
def StackOk (keys : List ι) : List ι → List (record_t α ι) → Prop
  | _, [] => True
  | proc, r :: rs =>
    r.Register = keys ∧ (idx r).Nodup ∧ (∀ i ∈ proc, i ∈ idx r) ∧ (∀ i ∈ idx r, i ∈ keys) ∧
    r.ChoiceIndice ∈ idx r ∧ (∀ r2 ∈ rs, r2.ChoiceIndice ∉ idx r) ∧ StackOk keys (idx r) rs

/-- Structural invariant of a search in which no variable is added. -/
structure SInv (st : search_t α ι) : Prop where
  wf : WF st.Solver
  noAdd : st.Solver.AdditionalIndices = []
  reg : st.Parameters.Register = st.Solver.keys
  procNodup : st.Parameters.Processing.Nodup
  procSub : ∀ i ∈ st.Parameters.Processing, i ∈ st.Solver.keys
  inst : ∀ k ∈ st.Solver.keys, k ∉ st.Parameters.Processing → (st.Solver.dom k).length = 1
  stack : StackOk st.Solver.keys st.Parameters.Processing st.Parameters.Backup
  choice : ∀ r ∈ st.Parameters.Backup, st.Solver.dom r.ChoiceIndice = [r.ChoiceValue]
  domNodup : DomNodup st.Solver
  recNodup : ∀ r ∈ st.Parameters.Backup, ∀ var ∈ r.RemainingVariables, var.Domain.Nodup

/-- What a call of `partitionAndConstrain` from `st` leaves behind in a search
without added variables: it does not throw; domains have only shrunk; when it
returns, the second flag is `sastified && !Processing.empty()`, the variables
that left `Processing` are instantiated and, on success, those that stay are
not. -/
def PartPost (st : search_t α ι) : Run (search_t α ι) (Bool × Bool) → Prop
  | Run.ret b st1 =>
    b.2 = (b.1 && !st1.Parameters.Processing.isEmpty) ∧
    Shrinks st.Solver st1.Solver ∧
    st1.Parameters.Register = st.Parameters.Register ∧
    st1.Parameters.Backup = st.Parameters.Backup ∧
    List.Sublist st1.Parameters.Processing st.Parameters.Processing ∧
    (∀ k ∈ st.Parameters.Processing, k ∉ st1.Parameters.Processing →
      (st1.Solver.dom k).length = 1) ∧
    (b.1 = true → ∀ i ∈ st1.Parameters.Processing, (st1.Solver.dom i).length ≠ 1)
  | Run.raise _ => False
  | Run.stall st1 => Shrinks st.Solver st1.Solver

/-- The state left by a branching step. -/
def SelectPost (P : Policies α ι) (st st2 : search_t α ι) : Prop :=
  ∃ (x : ι) (rest : List ι) (v0 : α) (tl : List α),
    List.Perm (x :: rest) st.Parameters.Processing ∧
    st.Solver.dom x = v0 :: tl ∧
    st2.Parameters.Processing = x :: rest ∧
    st2.Parameters.Register = st.Parameters.Register ∧
    st2.Parameters.Backup =
      { Register := st.Parameters.Register,
        RemainingVariables := (x :: rest).map (fun r => st.Solver.get r),
        ChoiceIndice := x,
        ChoiceValue := (match P.Selector with
          | some sel => sel (st.Solver.get x)
          | none => v0) } :: st.Parameters.Backup ∧
    st2.Solver = { st.Solver with
      Variables := mapAssign x ((st.Solver.get x).set (match P.Selector with
          | some sel => sel (st.Solver.get x)
          | none => v0)) st.Solver.Variables }

/-- One turn of the loop of `SearchSolution`: `none` when the loop goes on,
`some isSolution` when it ends. -/
def searchIteration (P : Policies α ι) (total : Nat) (st : search_t α ι) :
    Run (search_t α ι) (Option Bool) :=
  match searchBody P total st with
  | Run.ret (sastified, isPartialSolution) st1 =>
    if !sastified && !st1.Parameters.Backup.isEmpty then Run.ret none (backtracking st1)
    else if !(sastified && !isPartialSolution) && sastified then Run.ret none st1
    else Run.ret (some (sastified && !isPartialSolution)) st1
  | Run.raise st1 => Run.raise st1
  | Run.stall st1 => Run.stall st1

/-- The ways one turn of the loop of `SearchSolution` can go in a search
without added variables. -/
inductive IterCase (P : Policies α ι) (total : Nat) (st : search_t α ι) :
    Run (search_t α ι) (Option Bool) → Prop
  | emptyStop : st.Parameters.Processing = [] → st.Parameters.Backup = [] →
      IterCase P total st (Run.ret (some false) st)
  | emptyBack (r : record_t α ι) (rs : List (record_t α ι)) :
      st.Parameters.Processing = [] → st.Parameters.Backup = r :: rs →
      IterCase P total st (Run.ret none (backtracking st))
  | failStop (st1 : search_t α ι) : st.Parameters.Processing ≠ [] →
      partitionAndConstrain P total st = Run.ret (false, false) st1 →
      st1.Parameters.Backup = [] → IterCase P total st (Run.ret (some false) st1)
  | failBack (st1 : search_t α ι) (r : record_t α ι) (rs : List (record_t α ι)) :
      st.Parameters.Processing ≠ [] →
      partitionAndConstrain P total st = Run.ret (false, false) st1 →
      st1.Parameters.Backup = r :: rs → IterCase P total st (Run.ret none (backtracking st1))
  | solved (st1 : search_t α ι) : st.Parameters.Processing ≠ [] →
      partitionAndConstrain P total st = Run.ret (true, false) st1 →
      st1.Parameters.Processing = [] → IterCase P total st (Run.ret (some true) st1)
  | branch (st1 st2 : search_t α ι) : st.Parameters.Processing ≠ [] →
      partitionAndConstrain P total st = Run.ret (true, true) st1 →
      st1.Parameters.Processing ≠ [] →
      (∀ i ∈ st1.Parameters.Processing, (st1.Solver.dom i).length ≠ 1) →
      SelectPost P st1 st2 → IterCase P total st (Run.ret none st2)
  | throws (st1 st2 : search_t α ι) : st.Parameters.Processing ≠ [] →
      partitionAndConstrain P total st = Run.ret (true, true) st1 →
      st2.Solver = st1.Solver →
      (∃ x ∈ st1.Parameters.Processing, st1.Solver.dom x = []) →
      IterCase P total st (Run.raise st2)
  | stalls (st1 : search_t α ι) : st.Parameters.Processing ≠ [] →
      partitionAndConstrain P total st = Run.stall st1 →
      ¬ st.Parameters.Processing.length < total →
      IterCase P total st (Run.stall st1)

/-- The parts of the solver that a search without added variables leaves as
they are while it looks for the next solution. -/
def Kept (s t : ConstraintSolver α ι) : Prop :=
  t.keys = s.keys ∧ t.SolutionList = s.SolutionList ∧
  t.RejectedIndices = s.RejectedIndices ∧ t.IsSolveInProgress = s.IsSolveInProgress

/-- A recorded solution over the indices `K`: one entry per index, in the
order of `K`, each instantiated. -/
def GoodSolution (K : List ι) (sol : List (Variable α ι)) : Prop :=
  sol.map Variable.indice = K ∧ ∀ var ∈ sol, var.isInstantiated = true

/-- The domains that `backtracking` to the record `r` would install: the saved
ones (the chosen value removed from the chosen index), and the current ones for
the indices the record does not save. -/
def frameDom (s : ConstraintSolver α ι) (r : record_t α ι) (k : ι) : List α :=
  match r.RemainingVariables.find? (fun var => decide (var.indice = k)) with
  | some var =>
    if k = r.ChoiceIndice then var.Domain.filter (fun w => decide (w ≠ r.ChoiceValue))
    else var.Domain
  | none => s.dom k

/-- The frames of the stack: for each record, most recent first, the domains
that backtracking to it would install. -/
def frameTail (st : search_t α ι) : List (ι → List α) :=
  st.Parameters.Backup.map (fun r => frameDom st.Solver r)

/-- A selector that returns a member of the domain whenever the domain is not
empty (the default, the minimum, is of this kind). -/
def SelectorInDomain (P : Policies α ι) : Prop :=
  ∀ sel, P.Selector = some sel → ∀ var : Variable α ι, var.Domain ≠ [] → sel var ∈ var.Domain

/-- Every value of every entry of the solution `sol` is allowed by the
domains `f`. -/
def Within (sol : List (Variable α ι)) (f : ι → List α) : Prop :=
  ∀ var ∈ sol, ∀ w ∈ var.Domain, w ∈ f var.indice

/-- Two solutions that give different values to some index. -/
def Differ (A B : List (Variable α ι)) : Prop :=
  ∃ va ∈ A, ∃ vb ∈ B, va.indice = vb.indice ∧ va.Domain ≠ vb.Domain ∧ va.value ≠ vb.value

/-- No solution of the registry `L` is allowed by a frame of the stack, nor by
the current domains while `Processing` is not empty. -/
def SepInv (L : List (List (Variable α ι))) (st : search_t α ι) : Prop :=
  (∀ A ∈ L, ∀ f ∈ frameTail st, ¬ Within A f) ∧
  (st.Parameters.Processing ≠ [] → ∀ A ∈ L, ¬ Within A st.Solver.dom)

/-! ## Example inputs -/

/-- No comparator, no selector, no constraint; the sort is never called. -/
def plainPolicies : Policies Nat Nat :=
  { Comparator := none, Selector := none, Constraints := [], StdSort := fun _ l => l }

/-- The fresh solver with the variables `0`, `1`, `2`, each of domain
`{1, 2, 3}`. -/
def threeByThree : ConstraintSolver Nat Nat :=
  (addVariable [1, 2, 3] 2 (addVariable [1, 2, 3] 1 (addVariable [1, 2, 3] 0 new).2).2).2

/-- The solver after a sequence of engine-level `exclude(value, indice)`
calls, results ignored. -/
def excludeSeq (calls : List (α × ι)) (s : ConstraintSolver α ι) : ConstraintSolver α ι :=
  calls.foldl (fun t c => (exclude c.1 c.2 t).2) s

/-- The state reached by one branching step from the start of a search on the
variables `0 ↦ {1, 2}` and `1 ↦ {1, 2, 3}` (no comparator, no selector). -/
def branchedOnce : Run (search_t Nat Nat) Unit :=
  selectVariableAndValue plainPolicies
    (startSearch (addVariable [1, 2, 3] 1 (addVariable [1, 2] 0 new).2).2)

/-- Targets of the not-equal propagator that links the indices `0` and `1`. -/
def pairTargets (k : Nat) : List Nat := if k = 0 then [1] else [0]

/-- A not-equal propagator between the indices `0` and `1`; no comparator, no
selector. -/
def pairPolicies : Policies Nat Nat :=
  { Comparator := none, Selector := none, Constraints := [differs pairTargets],
    StdSort := fun _ l => l }

end ConstraintSolver

end solver


namespace solver

namespace ConstraintSolver

variable {α ι : Type} [LinearOrder α] [LinearOrder ι]

/-! ## Vocabulary of the termination proof -/

/-- The number of values that the domains `f` of the indices `K` can still
lose before each holds a single value. -/
def slack (K : List ι) (f : ι → List α) : Nat :=
  (K.map (fun k => (f k).length - 1)).sum

/-- A bound on the number of turns of the search below domains of slack `n`:
`weight n = 2 ^ (n + 1) - 1`. -/
def weight : Nat → Nat
  | 0 => 1
  | n + 1 => 2 * weight n + 1

/-- The weight of the current domains and of the frames of the stack. -/
def potential (st : search_t α ι) : Nat :=
  weight (slack st.Solver.keys st.Solver.dom) +
    ((frameTail st).map (fun f => weight (slack st.Solver.keys f))).sum

/-- The measure that every turn of the loop of `SearchSolution` lowers. -/
def searchMeasure (st : search_t α ι) : Nat :=
  2 * potential st + (if st.Parameters.Processing.isEmpty then 0 else 1)

/-- An iteration budget under which `internSolve` returns on the solver `s`
(when its domains are not empty). -/
def budget (s : ConstraintSolver α ι) : Nat :=
  max s.keys.length (searchMeasure (startSearch s)) + 1

/-- No domain is empty, neither among the current ones nor in a frame. -/
def AllNonempty (st : search_t α ι) : Prop :=
  (∀ k ∈ st.Solver.keys, st.Solver.dom k ≠ []) ∧
  ∀ f ∈ frameTail st, ∀ k ∈ st.Solver.keys, f k ≠ []

/-! ## Vocabulary of the not-equal propagators -/

/-- The assignment `a` takes, at every index of `K`, a value that the domains
`f` allow. -/
def Fits (K : List ι) (a : ι → α) (f : ι → List α) : Prop := ∀ k ∈ K, a k ∈ f k

/-- The assignment `a` gives different values to the two ends of every pair
`(i, j)` with `j` among the targets of `i`. -/
def Valid (K : List ι) (Ts : List (ι → List ι)) (a : ι → α) : Prop :=
  ∀ i ∈ K, ∀ t ∈ Ts, ∀ j ∈ t i, a i ≠ a j

/-- Every target of a variable is a variable. -/
def Closed (K : List ι) (Ts : List (ι → List ι)) : Prop :=
  ∀ i ∈ K, ∀ t ∈ Ts, ∀ j ∈ t i, j ∈ K

/-- The values of the indices that left `proc` have been excluded from the
domains of their targets. -/
def Settled (K : List ι) (Ts : List (ι → List ι)) (proc : List ι) (f : ι → List α) : Prop :=
  ∀ i ∈ K, i ∉ proc → ∀ t ∈ Ts, ∀ j ∈ t i, ∀ v ∈ f i, v ∉ f j

/-- The frames of the stack, each with the indices that backtracking to it
would put back in `Processing`. -/
def frames (st : search_t α ι) : List (List ι × (ι → List α)) :=
  st.Parameters.Backup.map (fun r => (idx r, frameDom st.Solver r))

/-- The solution that `internSolve` records for the assignment `a`. -/
def solutionOf (K : List ι) (a : ι → α) : List (Variable α ι) :=
  K.map (fun k => Variable.mk k [a k])

/-- The state `partitionAndConstrain` goes on with after a round that left
the solver `s1`. -/
def afterRound (st : search_t α ι) (s1 : ConstraintSolver α ι) : search_t α ι :=
  { Solver := s1,
    Parameters := { st.Parameters with
      Processing := st.Parameters.Processing.filter
        (fun r => !(st.Solver.get r).isInstantiated),
      Register := st.Parameters.Register } }

/-- Invariant of the search under not-equal propagators, on the domains and
the frames: they hold values of the declared domains `D0` only, and every
frame is settled for the indices it does not put back in `Processing`. -/
structure FInv (K : List ι) (Ts : List (ι → List ι)) (D0 : ι → List α)
    (st : search_t α ι) : Prop where
  bnd : ∀ k w, w ∈ st.Solver.dom k → w ∈ D0 k
  bndF : ∀ f ∈ frameTail st, ∀ k w, w ∈ f k → w ∈ D0 k
  settledF : ∀ c ∈ frames st, Settled K Ts c.1 c.2

/-- Every valid assignment over the declared domains `D0` is still allowed by
the current domains (when `live`), or by a frame of the stack, or its solution
is in the registry `L`. -/
def Cover (K : List ι) (Ts : List (ι → List ι)) (D0 : ι → List α)
    (L : List (List (Variable α ι))) (live : Prop) (st : search_t α ι) : Prop :=
  ∀ a, Valid K Ts a → Fits K a D0 →
    (live ∧ Fits K a st.Solver.dom) ∨ (∃ f ∈ frameTail st, Fits K a f) ∨ solutionOf K a ∈ L

end ConstraintSolver

end solver


namespace tda

/-! ## The grids of the drivers (`carre.h`, `sudoku_constraint.cpp`) -/

/-- Type `tda::Coord` (`carre.h`, line 9). -/
structure Coord where
  /-- Member `X`. -/
  X : Nat
  /-- Member `Y`. -/
  Y : Nat
deriving DecidableEq

/-- The defaulted `operator<=>` (`carre.h`, line 21): lexicographic, `X`
first. -/
instance : LinearOrder Coord :=
  LinearOrder.lift' (fun c => toLex (c.X, c.Y)) (fun a b h => by
    cases a
    cases b
    simpa using h)

/-- Constant `tda::ValueEnum<N>` (`carre.h`, line 25): the values `1 .. N`. -/
def ValueEnum (N : Nat) : List Nat := List.range' 1 N

end tda

namespace solver

deriving instance DecidableEq for ConstraintSolver

deriving instance DecidableEq for Run

namespace ConstraintSolver

open tda

/-- The targets of the row constraint (`sudoku_constraint.cpp`, lines 75-81):
the cells `{i, k}` for `k < N`, `k != j`, in ascending `k`. -/
def rowTargets (N : Nat) (coord : Coord) : List Coord :=
  ((List.range N).filter (fun k => k != coord.Y)).map (fun k => Coord.mk coord.X k)

/-- The targets of the column constraint (`sudoku_constraint.cpp`, lines
91-97): the cells `{k, j}` for `k < N`, `k != i`, in ascending `k`. -/
def colTargets (N : Nat) (coord : Coord) : List Coord :=
  ((List.range N).filter (fun k => k != coord.X)).map (fun k => Coord.mk k coord.Y)

/-- The cells of the grid in the order of the two `for` loops that add the
variables (`sudoku_constraint.cpp`, lines 122-136). -/
def cells (N : Nat) : List Coord :=
  (List.range N).flatMap (fun i => (List.range N).map (fun j => Coord.mk i j))

/-- The domain a cell is declared with (lines 126-133): `ValueEnum<N>` for an
empty cell (`values[i][j] == 0`), the value itself for a pre-filled cell. -/
def cellDomain (N : Nat) (value : Nat) : List Nat :=
  if value = 0 then ValueEnum N else [value]

/-- The solver after the loops that add the variables (lines 122-136). -/
def latinGrid (N : Nat) (values : Nat → Nat → Nat) : ConstraintSolver Nat Coord :=
  (cells N).foldl (fun s c => (addVariable (cellDomain N (values c.X c.Y)) c s).2) new

/-- The row and column constraints registered, in this order; no comparator,
no selector. -/
def latinPolicies (N : Nat) : Policies Nat Coord :=
  { Comparator := none, Selector := none,
    Constraints := [differs (rowTargets N), differs (colTargets N)],
    StdSort := fun _ l => l }

/-- The values `get({i, j}).value()` of row `i`, for `j < N`. -/
def rowValues (N : Nat) (s : ConstraintSolver Nat Coord) (i : Nat) : List Nat :=
  (List.range N).filterMap (fun j => (s.get (Coord.mk i j)).value)

/-- The values `get({i, j}).value()` of column `j`, for `i < N`. -/
def colValues (N : Nat) (s : ConstraintSolver Nat Coord) (j : Nat) : List Nat :=
  (List.range N).filterMap (fun i => (s.get (Coord.mk i j)).value)

/-- A grid with the two pre-filled cells `c1 ↦ v1` and `c2 ↦ v2`, all other
cells empty. -/
def twoCells (c1 : Coord) (v1 : Nat) (c2 : Coord) (v2 : Nat) (i j : Nat) : Nat :=
  if Coord.mk i j = c1 then v1 else if Coord.mk i j = c2 then v2 else 0

/-- The entry of row `i` and column `j` of a square given by its rows. -/
def entry (sq : List (List Nat)) (i j : Nat) : Nat := (sq.getD i []).getD j 0

/-- The rows and columns of `sq` hold values of `1 .. N`, no two alike in a
row or in a column. -/
def isLatin (N : Nat) (sq : List (List Nat)) : Bool :=
  (List.range N).all (fun i => (List.range N).all (fun j =>
    decide (1 ≤ entry sq i j) && decide (entry sq i j ≤ N) &&
    (List.range N).all (fun k =>
      (k == j || entry sq i k != entry sq i j) && (k == i || entry sq k j != entry sq i j))))

/-- Latin squares of order 4 that, between them, extend every two compatible
pre-filled cells. -/
def squares4 : List (List (List Nat)) :=
  [[[1, 2, 3, 4], [2, 1, 4, 3], [3, 4, 1, 2], [4, 3, 2, 1]],
   [[2, 1, 4, 3], [1, 2, 3, 4], [4, 3, 2, 1], [3, 4, 1, 2]],
   [[3, 4, 1, 2], [4, 3, 2, 1], [1, 2, 3, 4], [2, 1, 4, 3]],
   [[4, 3, 2, 1], [3, 4, 1, 2], [2, 1, 4, 3], [1, 2, 3, 4]],
   [[1, 2, 3, 4], [3, 4, 1, 2], [4, 3, 2, 1], [2, 1, 4, 3]],
   [[1, 2, 3, 4], [4, 3, 2, 1], [2, 1, 4, 3], [3, 4, 1, 2]],
   [[2, 1, 4, 3], [3, 4, 1, 2], [1, 2, 3, 4], [4, 3, 2, 1]],
   [[2, 1, 4, 3], [4, 3, 2, 1], [3, 4, 1, 2], [1, 2, 3, 4]],
   [[3, 4, 1, 2], [1, 2, 3, 4], [2, 1, 4, 3], [4, 3, 2, 1]],
   [[3, 4, 1, 2], [2, 1, 4, 3], [4, 3, 2, 1], [1, 2, 3, 4]],
   [[4, 3, 2, 1], [1, 2, 3, 4], [3, 4, 1, 2], [2, 1, 4, 3]],
   [[4, 3, 2, 1], [2, 1, 4, 3], [1, 2, 3, 4], [3, 4, 1, 2]],
   [[1, 3, 4, 2], [2, 4, 3, 1], [3, 1, 2, 4], [4, 2, 1, 3]],
   [[1, 4, 2, 3], [2, 3, 1, 4], [3, 2, 4, 1], [4, 1, 3, 2]],
   [[2, 3, 1, 4], [1, 4, 2, 3], [4, 1, 3, 2], [3, 2, 4, 1]],
   [[2, 4, 3, 1], [1, 3, 4, 2], [4, 2, 1, 3], [3, 1, 2, 4]],
   [[3, 1, 2, 4], [4, 2, 1, 3], [1, 3, 4, 2], [2, 4, 3, 1]],
   [[3, 2, 4, 1], [4, 1, 3, 2], [1, 4, 2, 3], [2, 3, 1, 4]],
   [[4, 1, 3, 2], [3, 2, 4, 1], [2, 3, 1, 4], [1, 4, 2, 3]],
   [[4, 2, 1, 3], [3, 1, 2, 4], [2, 4, 3, 1], [1, 3, 4, 2]],
   [[1, 3, 4, 2], [4, 2, 1, 3], [2, 4, 3, 1], [3, 1, 2, 4]],
   [[2, 4, 3, 1], [3, 1, 2, 4], [1, 3, 4, 2], [4, 2, 1, 3]],
   [[3, 1, 2, 4], [2, 4, 3, 1], [4, 2, 1, 3], [1, 3, 4, 2]],
   [[4, 2, 1, 3], [1, 3, 4, 2], [3, 1, 2, 4], [2, 4, 3, 1]]]

/-- Two pre-filled cells are compatible when they do not put the same value
twice in a row or in a column. -/
def compatible (c1 : Coord) (v1 : Nat) (c2 : Coord) (v2 : Nat) : Bool :=
  c1 != c2 && ((c1.X != c2.X && c1.Y != c2.Y) || v1 != v2)

/-- Every two compatible pre-filled cells of the 4×4 grid, with values of
`1 .. 4`, are extended by a square of `squares4`. -/
def squares4Cover : Bool :=
  (List.range 4).all (fun i1 => (List.range 4).all (fun j1 =>
  (List.range 4).all (fun i2 => (List.range 4).all (fun j2 =>
  (List.range' 1 4).all (fun v1 => (List.range' 1 4).all (fun v2 =>
    !compatible (Coord.mk i1 j1) v1 (Coord.mk i2 j2) v2 ||
    squares4.any (fun sq => entry sq i1 j1 == v1 && entry sq i2 j2 == v2)))))))

end ConstraintSolver

end solver


namespace solver

deriving instance DecidableEq for record_t

deriving instance DecidableEq for parameters_t

deriving instance DecidableEq for search_t

namespace ConstraintSolver

variable {α ι : Type} [LinearOrder α] [LinearOrder ι]

/-! ## Further vocabulary of the proofs -/

/-- The current domains and the frames of the stack hold values of the
domains `D0` only. -/
def Bounded (D0 : ι → List α) (st : search_t α ι) : Prop :=
  (∀ k w, w ∈ st.Solver.dom k → w ∈ D0 k) ∧
  ∀ f ∈ frameTail st, ∀ k w, w ∈ f k → w ∈ D0 k

/-- A constraint that leaves the solution registry as it is (the registry is
a private member that only `internSolve` writes). -/
def KeepsRegistry (c : constraint_t α ι) : Prop :=
  ∀ s i v, (c s i v).2.SolutionList = s.SolutionList

/-- The loop of `partitionAndConstrain` as the specification describes it,
and as the sibling engine has it (`constraintAlgo.h`, lines 586-590, where
`splice` moves the queued indices): `AdditionalIndices` is emptied when it is
merged.  It differs from `partitionLoop` in this only. -/
def partitionLoopSpliced (P : Policies α ι) :
    Nat → Bool → Bool → Bool → Bool → search_t α ι → Run (search_t α ι) (Bool × Bool)
  | fuel, sastified, hasNoInstantiatedVars, hasInstantiatedVars, hasAdditionnalVars, st =>
    if sastified && ((hasInstantiatedVars && hasNoInstantiatedVars) || hasAdditionnalVars) then
      match fuel with
      | 0 => Run.stall st
      | fuel + 1 =>
        let s := st.Solver
        let processing := st.Parameters.Processing ++
          s.AdditionalIndices.filter (fun i => (mapFind i s.Variables).isSome)
        let register := st.Parameters.Register ++ s.AdditionalIndices
        let instantiatedVars := processing.filter (fun r => (s.get r).isInstantiated)
        let noInstantiatedVars := processing.filter (fun r => !(s.get r).isInstantiated)
        match applyInstantiated P.Constraints instantiatedVars
            { s with AdditionalIndices := [] } with
        | Run.ret sat s1 =>
          partitionLoopSpliced P fuel sat (!noInstantiatedVars.isEmpty)
            (!instantiatedVars.isEmpty) (!s1.AdditionalIndices.isEmpty)
            { Solver := s1,
              Parameters := { st.Parameters with Processing := noInstantiatedVars,
                                                 Register := register } }
        | Run.raise s1 =>
          Run.raise { Solver := s1,
                      Parameters := { st.Parameters with Processing := processing,
                                                         Register := register } }
        | Run.stall s1 =>
          Run.stall { Solver := s1,
                      Parameters := { st.Parameters with Processing := processing,
                                                         Register := register } }
    else
      Run.ret (sastified, sastified && hasNoInstantiatedVars) st

/-! ## Further example inputs -/

/-- A constraint that, called for the index `0`, calls
`addVariable({1, 2}, 5)` and reports success. -/
def addsFive : constraint_t Nat Nat :=
  fun s i _ => if i = 0 then (true, (addVariable [1, 2] 5 s).2) else (true, s)

/-- The constraint `addsFive`; no comparator, no selector. -/
def growingPolicies : Policies Nat Nat :=
  { Comparator := none, Selector := none, Constraints := [addsFive],
    StdSort := fun _ l => l }

/-- The fresh solver with the single variable `0 ↦ {1}`. -/
def oneVariable : ConstraintSolver Nat Nat := (addVariable [1] 0 new).2

/-- The solver of the search on `oneVariable` once `addsFive` has run. -/
def grownSolver : ConstraintSolver Nat Nat :=
  { IsSolveInProgress := true,
    Variables := [(0, Variable.mk 0 [1]), (5, Variable.mk 5 [1, 2])],
    AdditionalIndices := [5], RejectedIndices := [], SolutionList := [] }


/-- A search state in which the variable `5` entered the canonical order
after the choice `0 ↦ 1` was made, and the index `6` is still queued. -/
def lateState : search_t Nat Nat :=
  { Solver :=
      { IsSolveInProgress := true,
        Variables := [(0, Variable.mk 0 [1]), (1, Variable.mk 1 [2]), (5, Variable.mk 5 [4]),
          (6, Variable.mk 6 [4])],
        AdditionalIndices := [6], RejectedIndices := [], SolutionList := [] },
    Parameters :=
      { Processing := [], Register := [0, 1, 5],
        Backup := [{ Register := [0, 1],
                     RemainingVariables := [Variable.mk 0 [1, 2], Variable.mk 1 [1, 2]],
                     ChoiceIndice := 0, ChoiceValue := 1 }] } }

end ConstraintSolver

end solver


namespace solver

namespace ConstraintSolver

variable {α ι : Type} [LinearOrder α] [LinearOrder ι]

/-! ## The comparator of the drivers and the contract of `std::sort` -/

/-- The comparator that both drivers install (`sudoku_constraint.cpp`, lines
58-62; `futoshiki_constraint.cpp`, lines 228-232):
`variable1.domainSize() < variable2.domainSize()`. -/
def domainSizeLess (variable1 variable2 : Variable α ι) : Bool :=
  decide (variable1.domainSize < variable2.domainSize)

/-- The requirement `Compare` of the standard library on the argument of
`std::sort`: a strict weak ordering (irreflexive, transitive, and such that
an element below another is below, or the other above, any third one). -/
def StrictWeak {κ : Type} (lt : κ → κ → Bool) : Prop :=
  (∀ a, lt a a = false) ∧ (∀ a b c, lt a b = true → lt b c = true → lt a c = true) ∧
  (∀ a b c, lt a c = true → lt a b = true ∨ lt b c = true)

/-- The contract of `std::sort`: on a strict weak ordering, the result is a
permutation of the argument in which no element is below one that comes
before it. -/
def SortContract (P : Policies α ι) : Prop :=
  ∀ lt : ι → ι → Bool, StrictWeak lt → ∀ l : List ι,
    List.Perm (P.StdSort lt l) l ∧ (P.StdSort lt l).Pairwise (fun a b => lt b a = false)

/-- The comparator of the drivers, no selector, no constraint; the sort is an
insertion sort. -/
def sizePolicies : Policies Nat Nat :=
  { Comparator := some domainSizeLess, Selector := none, Constraints := [],
    StdSort := fun lt l => l.insertionSort (fun a b => lt b a = false) }

/-! ## Vocabulary of the registry and of the rejected set -/

/-- A constraint that leaves a registry that starts with the registry it
found (a constraint that never touches the registry is of this kind). -/
def ExtendsRegistry (c : constraint_t α ι) : Prop :=
  ∀ s i v, s.SolutionList <+: (c s i v).2.SolutionList

/-- Solver states reached from `s` by calls of the public methods `exclude`
and `addVariable`, the latter only for indices that `hasBeenRejected` does
not report. -/
inductive GuardedReach : ConstraintSolver α ι → ConstraintSolver α ι → Prop
  | refl (s : ConstraintSolver α ι) : GuardedReach s s
  | excl {s t : ConstraintSolver α ι} (v : α) (i : ι) :
      GuardedReach s t → GuardedReach s (exclude v i t).2
  | add {s t : ConstraintSolver α ι} (domain : List α) (i : ι) :
      GuardedReach s t → t.hasBeenRejected i = false →
      GuardedReach s (addVariable domain i t).2

/-- A constraint that acts on the solver by `exclude` and `addVariable` only,
and never adds an index that has been rejected. -/
def Guarded (c : constraint_t α ι) : Prop :=
  ∀ s i v, GuardedReach s (c s i v).2

/-- What a run of guarded calls does to a solver whose rejected indices are
all out of the active set: the map stays in ascending key order, the rejected
set is the same, the active set has only gained indices, none of them
rejected. -/
def Grows (s t : ConstraintSolver α ι) : Prop :=
  t.keys.Pairwise (fun a b => a < b) ∧ t.RejectedIndices = s.RejectedIndices ∧
  (∀ i ∈ s.keys, i ∈ t.keys) ∧ (∀ i ∈ t.RejectedIndices, i ∉ t.keys)

/-- No rejected index is in the active set (a map in ascending key order) or
in the processing set. -/
def NoGhost (st : search_t α ι) : Prop :=
  st.Solver.keys.Pairwise (fun a b => a < b) ∧
  (∀ i ∈ st.Solver.RejectedIndices, i ∉ st.Solver.keys) ∧
  (∀ i ∈ st.Solver.RejectedIndices, i ∉ st.Parameters.Processing)

/-- The fresh solver with the single variable `0 ↦ {1, 2}`. -/
def twoValued : ConstraintSolver Nat Nat := (addVariable [1, 2] 0 new).2

/-- A constraint that uses `addVariable` without looking at the rejected
set.  Called for the index `0` with the value `1`, it adds the variable
`5 ↦ {7, 8}` and fails; called for the index `0` with another value, it adds
`5 ↦ {7, 8}` and `6 ↦ {9}` and succeeds; called for another index, it fails. -/
def readds : constraint_t Nat Nat :=
  fun s i v =>
    if i = 0 then
      if v = 1 then (false, (addVariable [7, 8] 5 s).2)
      else (true, (addVariable [9] 6 (addVariable [7, 8] 5 s).2).2)
    else (false, s)

/-- The constraint `readds`; no comparator, no selector. -/
def readdPolicies : Policies Nat Nat :=
  { Comparator := none, Selector := none, Constraints := [readds],
    StdSort := fun _ l => l }

/-- A constraint that adds the variable `5 ↦ {7, 8}` and fails, unless
`hasBeenRejected(5)` holds, in which case it succeeds without a call. -/
def addsUnlessRejected : constraint_t Nat Nat :=
  fun s _ _ =>
    if s.hasBeenRejected 5 = false then (false, (addVariable [7, 8] 5 s).2) else (true, s)

/-- The constraint `addsUnlessRejected`; no comparator, no selector. -/
def guardedPolicies : Policies Nat Nat :=
  { Comparator := none, Selector := none, Constraints := [addsUnlessRejected],
    StdSort := fun _ l => l }

/-! ## The calls of the constraints -/

end ConstraintSolver

/-- One call `constraint(*this, var.indice(), var.value())` (line 371): the
position of the constraint in `Constraints`, the two arguments passed and the
result returned. -/
structure call_t (α ι : Type) where
  /-- Position of the constraint in `Constraints`, from `0`. -/
  Constraint : Nat
  /-- The argument `var.indice()`. -/
  Indice : ι
  /-- The argument `var.value()`. -/
  Value : α
  /-- The value returned, assigned to `sastified`. -/
  Result : Bool
deriving DecidableEq

/-- One round of the loop of `partitionAndConstrain`: the solver and the
processing set at the moment of the partition (line 359), and the calls that
the round makes, in order. -/
structure round_t (α ι : Type) where
  /-- The object `*this` when `std::partition_copy` runs. -/
  Solver : ConstraintSolver α ι
  /-- The vector `parameters.Processing` when `std::partition_copy` runs. -/
  Processing : List ι
  /-- The calls of lines 367-377. -/
  Calls : List (call_t α ι)

namespace ConstraintSolver

variable {α ι : Type} [LinearOrder α] [LinearOrder ι]

/-- Lines 369-374 (see `applyConstraints`), together with the calls made; `n`
is the position in `Constraints` of the first constraint of the list. -/
def applyConstraintsLog (ref : ι) :
    Nat → List (constraint_t α ι) → ConstraintSolver α ι →
      Run (ConstraintSolver α ι) Bool × List (call_t α ι)
  | _, [], s => (Run.ret true s, [])
  | n, c :: cs, s =>
    match (s.get ref).value with
    | none => (Run.raise s, [])
    | some v =>
      let r := c s (s.get ref).indice v
      let call : call_t α ι :=
        { Constraint := n, Indice := (s.get ref).indice, Value := v, Result := r.1 }
      if r.1 then
        ((applyConstraintsLog ref (n + 1) cs r.2).1,
          call :: (applyConstraintsLog ref (n + 1) cs r.2).2)
      else (Run.ret false r.2, [call])

/-- Lines 367-377 (see `applyInstantiated`), together with the calls made. -/
def applyInstantiatedLog (cs : List (constraint_t α ι)) :
    List ι → ConstraintSolver α ι → Run (ConstraintSolver α ι) Bool × List (call_t α ι)
  | [], s => (Run.ret true s, [])
  | ref :: refs, s =>
    match applyConstraintsLog ref 0 cs s with
    | (Run.ret true s1, log) =>
      ((applyInstantiatedLog cs refs s1).1, log ++ (applyInstantiatedLog cs refs s1).2)
    | other => other

/-- The `while` loop of `partitionAndConstrain` (see `partitionLoop`),
together with its rounds. -/
def partitionLoopLog (P : Policies α ι) :
    Nat → Bool → Bool → Bool → Bool → search_t α ι →
      Run (search_t α ι) (Bool × Bool) × List (round_t α ι)
  | fuel, sastified, hasNoInstantiatedVars, hasInstantiatedVars, hasAdditionnalVars, st =>
    if sastified && ((hasInstantiatedVars && hasNoInstantiatedVars) || hasAdditionnalVars) then
      match fuel with
      | 0 => (Run.stall st, [])
      | fuel + 1 =>
        let s := st.Solver
        let processing := st.Parameters.Processing ++
          s.AdditionalIndices.filter (fun i => (mapFind i s.Variables).isSome)
        let register := st.Parameters.Register ++ s.AdditionalIndices
        let instantiatedVars := processing.filter (fun r => (s.get r).isInstantiated)
        let noInstantiatedVars := processing.filter (fun r => !(s.get r).isInstantiated)
        let round : round_t α ι :=
          { Solver := s, Processing := processing,
            Calls := (applyInstantiatedLog P.Constraints instantiatedVars s).2 }
        match (applyInstantiatedLog P.Constraints instantiatedVars s).1 with
        | Run.ret sat s1 =>
          ((partitionLoopLog P fuel sat (!noInstantiatedVars.isEmpty)
              (!instantiatedVars.isEmpty) (!s1.AdditionalIndices.isEmpty)
              { Solver := s1,
                Parameters := { st.Parameters with Processing := noInstantiatedVars,
                                                   Register := register } }).1,
            round :: (partitionLoopLog P fuel sat (!noInstantiatedVars.isEmpty)
              (!instantiatedVars.isEmpty) (!s1.AdditionalIndices.isEmpty)
              { Solver := s1,
                Parameters := { st.Parameters with Processing := noInstantiatedVars,
                                                   Register := register } }).2)
        | Run.raise s1 =>
          (Run.raise { Solver := s1,
                       Parameters := { st.Parameters with Processing := processing,
                                                          Register := register } }, [round])
        | Run.stall s1 =>
          (Run.stall { Solver := s1,
                       Parameters := { st.Parameters with Processing := processing,
                                                          Register := register } }, [round])
    else
      (Run.ret (sastified, sastified && hasNoInstantiatedVars) st, [])

/-- Method `partitionAndConstrain` (see the definition of that name),
together with its rounds. -/
def partitionAndConstrainLog (P : Policies α ι) (fuel : Nat) (st : search_t α ι) :
    Run (search_t α ι) (Bool × Bool) × List (round_t α ι) :=
  partitionLoopLog P fuel true true true false st

/-- The references that a round puts in `instantiatedVars` (line 359). -/
def instantiatedVars (R : round_t α ι) : List ι :=
  R.Processing.filter (fun r => (R.Solver.get r).isInstantiated)

/-- The calls due in a round with `m` constraints: for each instantiated
variable in the order of `refs`, each constraint in the order of
registration. -/
def due (m : Nat) (refs : List ι) : List (ι × Nat) :=
  refs.flatMap (fun r => (List.range m).map (fun n => (r, n)))

/-- The variable and the constraint of a call. -/
def key (c : call_t α ι) : ι × Nat := (c.Indice, c.Constraint)

/-- A constraint that adds no variable during the search: it leaves the queue
of added indices as it is. -/
def KeepsQueue (c : constraint_t α ι) : Prop :=
  ∀ s i v, (c s i v).2.AdditionalIndices = s.AdditionalIndices

/-- The not-equal propagator between the indices `0` and `1`, registered
twice; no comparator, no selector. -/
def twicePolicies : Policies Nat Nat :=
  { Comparator := none, Selector := none,
    Constraints := [differs pairTargets, differs pairTargets], StdSort := fun _ l => l }

/-- The calls of all the rounds, in order. -/
def allCalls (rounds : List (round_t α ι)) : List (call_t α ι) :=
  rounds.flatMap (fun R => R.Calls)

end ConstraintSolver

end solver

/-! ## `DependencyGraph` of `game/common/dependencyGraph.h` -/

/-- Class `DependencyGraph<T>` (line 11). -/
structure DependencyGraph (T : Type) where
  /-- Member `graph` (`std::map<T, std::vector<T>>`), in ascending key order. -/
  graph : List (T × List T)
  /-- Member `vertices` (`std::set<T>`), ascending. -/
  vertices : List T
deriving DecidableEq

namespace DependencyGraph

variable {T : Type} [LinearOrder T]

/-- Constructor `DependencyGraph()` (line 17). -/
def new : DependencyGraph T := { graph := [], vertices := [] }

/-- The map once `graph[k]` has been evaluated: `operator[]` inserts an empty
vector under a key that the map does not hold. -/
def touch (k : T) (m : List (T × List T)) : List (T × List T) :=
  (solver.mapInsert k [] m).1

/-- The vector that `graph[k]` refers to (empty when the key is absent, as
`operator[]` would make it). -/
def edges (k : T) (m : List (T × List T)) : List T :=
  match solver.mapFind k m with
  | some l => l
  | none => []

/-- Method `addDependency` (lines 20-25). -/
def addDependency (u v : T) (g : DependencyGraph T) : DependencyGraph T :=
  { vertices := solver.setInsert v (solver.setInsert u g.vertices),
    graph := solver.mapAssign u (edges u (touch u g.graph) ++ [v]) (touch u g.graph) }

/-- What `parseDependencies` works on: the member `graph` of the object and
the arguments `visited` and `stack`, passed by reference. -/
structure walk_t (T : Type) where
  /-- Member `graph` of the object. -/
  graph : List (T × List T)
  /-- The set `visited`. -/
  visited : List T
  /-- The vector `stack` (`sorted` in `topologicalSort`). -/
  stack : List T
deriving DecidableEq

/-- The loops of lines 33-39 and 47-53: for each element in turn, the call
`f` (a call of `parseDependencies`) unless the element has been visited.
`none` when a call runs out of budget. -/
def visitAll (f : T → walk_t T → Option (walk_t T)) : List T → walk_t T → Option (walk_t T)
  | [], w => some w
  | x :: rest, w =>
    if x ∈ w.visited then visitAll f rest w
    else
      match f x w with
      | some w1 => visitAll f rest w1
      | none => none

/-- Method `parseDependencies` (lines 44-55), with a budget for the depth of
the recursion (`none` when it runs out).  The vector `graph[vertice]` over
which the loop runs is not changed by the calls below it, which only insert
other keys in the map. -/
def parseDependencies : Nat → T → walk_t T → Option (walk_t T)
  | 0, _, _ => none
  | fuel + 1, vertice, w =>
    match visitAll (parseDependencies fuel) (edges vertice (touch vertice w.graph))
        { graph := touch vertice w.graph,
          visited := solver.setInsert vertice w.visited,
          stack := w.stack } with
    | some w1 => some { w1 with stack := w1.stack ++ [vertice] }
    | none => none

/-- Method `topologicalSort` (lines 27-41): the vector returned, and the
object as the calls of `graph[...]` leave it. -/
def topologicalSort (fuel : Nat) (g : DependencyGraph T) :
    Option (List T × DependencyGraph T) :=
  match visitAll (parseDependencies fuel) g.vertices
      { graph := g.graph, visited := [], stack := [] } with
  | some w => some (w.stack, { g with graph := w.graph })
  | none => none

/-- The object after `addDependency(u, v)` for the pairs `(u, v)` of `deps`,
in order (`futoshiki_constraint.cpp`, lines 217-221). -/
def build (deps : List (T × T)) : DependencyGraph T :=
  deps.foldl (fun g d => addDependency d.1 d.2 g) new

/-- The dependencies `deps` contain no cycle. -/
def Acyclic (deps : List (T × T)) : Prop :=
  ∀ x, ¬ Relation.TransGen (fun a b => (a, b) ∈ deps) x x

/-- The vertices of `V` that have not been visited. -/
def unvisited (V : List T) (w : walk_t T) : List T :=
  V.filter (fun x => decide (x ∉ w.visited))

/-- Every element of the list `rev` (a stack read from its last element)
was pushed after everything it depends on. -/
def OrderedRev (A : T → List T) : List T → Prop
  | [] => True
  | x :: older => (∀ d ∈ A x, d ∈ older) ∧ OrderedRev A older

/-- Invariant of the walk below the vertices `anc` (those whose call of
`parseDependencies` has not returned yet), for the dependencies `A` on the
vertices `V`: the map is in ascending key order and holds `A`; the visited
vertices are those of the stack and those of `anc`, all of them in `V`; and
the stack holds no vertex twice and each after everything it depends on. -/
structure WInv (A : T → List T) (V : List T) (anc : List T) (w : walk_t T) : Prop where
  sorted : (w.graph.map Prod.fst).Pairwise (fun a b => a < b)
  adj : ∀ x, edges x w.graph = A x
  vis : ∀ x, x ∈ w.visited ↔ x ∈ w.stack ∨ x ∈ anc
  inV : ∀ x ∈ w.visited, x ∈ V
  apart : ∀ a ∈ anc, a ∉ w.stack
  nodup : w.stack.Nodup
  ordered : OrderedRev A w.stack.reverse

end DependencyGraph


namespace solver

namespace ConstraintSolver

variable {α ι : Type} [LinearOrder α] [LinearOrder ι]

/-! ## Example inputs with a selector -/

/-- A selector that returns `5` whatever the variable; no comparator, no
constraint. -/
def fivePolicies : Policies Nat Nat :=
  { Comparator := none, Selector := some (fun _ => 5), Constraints := [],
    StdSort := fun _ l => l }

/-- The targets of a one-way propagator: `0` excludes its value from `1`,
and `1` from nothing. -/
def oneWayTargets (k : Nat) : List Nat := if k = 0 then [1] else []

/-- A selector that returns `3` whatever the variable, with the one-way
propagator `oneWayTargets`; no comparator. -/
def oneWayPolicies : Policies Nat Nat :=
  { Comparator := none, Selector := some (fun _ => 3),
    Constraints := [differs oneWayTargets], StdSort := fun _ l => l }

/-! ## Vocabulary for a search over an empty domain -/

/-- The number of variables of the processing set that are not instantiated. -/
def pending (st : search_t α ι) : Nat :=
  (st.Parameters.Processing.filter (fun i => decide ((st.Solver.dom i).length ≠ 1))).length

end ConstraintSolver

end solver

namespace DependencyGraph

variable {T : Type} [LinearOrder T]

/-- Invariant of the walk that holds with or without cycles (the invariant
`WInv` less the order of the stack): below the vertices `anc`, the map is in
ascending key order and holds `A`; the visited vertices are those of the stack
and those of `anc`, all of them in `V`; and the stack holds no vertex twice. -/
structure WReach (A : T → List T) (V : List T) (anc : List T) (w : walk_t T) : Prop where
  sorted : (w.graph.map Prod.fst).Pairwise (fun a b => a < b)
  adj : ∀ x, edges x w.graph = A x
  vis : ∀ x, x ∈ w.visited ↔ x ∈ w.stack ∨ x ∈ anc
  inV : ∀ x ∈ w.visited, x ∈ V
  apart : ∀ a ∈ anc, a ∉ w.stack
  nodup : w.stack.Nodup

end DependencyGraph

namespace tda

/-! ## The Futoshiki grid of the annealing driver (`futoshiki.h`) -/

/-- The number of values of `size_t` (64 bits). -/
def sizeMod : Nat := 2 ^ 64

/-- Enumeration `Direction` (lines 10-15). -/
inductive Direction where
  | Up
  | Right
  | Left
  | Down
deriving DecidableEq

/-- Class `InferiorConstraint` (lines 17-52). -/
structure InferiorConstraint where
  /-- Member `CoordInf`. -/
  CoordInf : Coord
  /-- Member `CoordSup`. -/
  CoordSup : Coord
  /-- Member `Side`. -/
  Side : Direction
deriving DecidableEq

namespace InferiorConstraint

/-- Constructor `InferiorConstraint(inf, side)` (lines 19-40); `+ 1U` and
`- 1U` are those of `size_t`. -/
def new (inf : Coord) (side : Direction) : InferiorConstraint :=
  { CoordInf := inf,
    CoordSup :=
      (match side with
      | Direction.Down => Coord.mk ((inf.X + 1) % sizeMod) inf.Y
      | Direction.Up => Coord.mk ((inf.X + sizeMod - 1) % sizeMod) inf.Y
      | Direction.Left => Coord.mk inf.X ((inf.Y + sizeMod - 1) % sizeMod)
      | Direction.Right => Coord.mk inf.X ((inf.Y + 1) % sizeMod)),
    Side := side }

/-- Method `Inf` (line 41). -/
def Inf (c : InferiorConstraint) : Coord := c.CoordInf

/-- Method `Sup` (line 45). -/
def Sup (c : InferiorConstraint) : Coord := c.CoordSup

end InferiorConstraint

/-- Structure `PotentialValues<N>` (lines 59-83). -/
structure PotentialValues where
  /-- Member `Values`. -/
  Values : List Nat
  /-- Member `Selected`, a `std::optional<size_t>`. -/
  Selected : Option Nat

/-- Class `Futoshiki<N>` (lines 104-191); the `N`×`N` array `Grid` is read at
`Grid i j` for `i, j < N`. -/
structure Futoshiki (N : Nat) where
  /-- Member `Index`. -/
  Index : List Coord
  /-- Member `Constraints`. -/
  Constraints : List InferiorConstraint
  /-- Member `Grid`. -/
  Grid : Nat → Nat → PotentialValues

/-- The locals of `getViolationsCount` (lines 153-158). -/
structure tally_t where
  /-- Local `violations`. -/
  violations : Nat
  /-- Local `lines`, an `N`×`N` array of `bool`. -/
  lines : Nat → Nat → Bool
  /-- Local `columns`, an `N`×`N` array of `bool`. -/
  columns : Nat → Nat → Bool

/-- The assignment `a[i][value] = true` in an array of arrays of `bool`. -/
def mark (a : Nat → Nat → Bool) (i value : Nat) : Nat → Nat → Bool :=
  fun x y => if x = i ∧ y = value then true else a x y

/-- A range-based or counted `for` loop whose body may have no defined
result (`none`). -/
def forEach {β σ : Type} (body : β → σ → Option σ) : List β → σ → Option σ
  | [], s => some s
  | x :: rest, s =>
    match body x s with
    | some s1 => forEach body rest s1
    | none => none

/-- The comparison `lhs >= rhs` of two `std::optional<size_t>`. -/
def optionGe : Option Nat → Option Nat → Bool
  | _, none => true
  | none, some _ => false
  | some a, some b => decide (a ≥ b)

namespace Futoshiki

variable {N : Nat}

/-- The element `Grid[c.X][c.Y]`, defined for indices within the array. -/
def cellAt (f : Futoshiki N) (c : Coord) : Option PotentialValues :=
  if c.X < N ∧ c.Y < N then some (f.Grid c.X c.Y) else none

/-- Lines 161-174: the body of the inner loop of `getViolationsCount` for the
cell `(i, j)`.  No result when `Selected` is empty (`*` of an empty optional)
or when `value` is not an index of the arrays. -/
def visitCell (f : Futoshiki N) (i j : Nat) (t : tally_t) : Option tally_t :=
  match (f.Grid i j).Selected with
  | none => none
  | some selected =>
    let value := (selected + sizeMod - 1) % sizeMod
    if value < N then
      let t1 : tally_t :=
        if t.lines i value then { t with violations := (t.violations + 1) % sizeMod }
        else { t with lines := mark t.lines i value }
      let t2 : tally_t :=
        if t1.columns j value then { t1 with violations := (t1.violations + 1) % sizeMod }
        else { t1 with columns := mark t1.columns j value }
      some t2
    else none

/-- Lines 177-181: the body of the loop over `Constraints`. -/
def checkConstraint (f : Futoshiki N) (c : InferiorConstraint) (violations : Nat) :
    Option Nat :=
  match f.cellAt c.Inf, f.cellAt c.Sup with
  | some a, some b =>
    some (if optionGe a.Selected b.Selected then (violations + 1) % sizeMod else violations)
  | _, _ => none

/-- Method `getViolationsCount` (lines 152-183). -/
def getViolationsCount (f : Futoshiki N) : Option Nat :=
  match forEach
      (fun i t => forEach (fun j t1 => f.visitCell i j t1) (List.range N) t)
      (List.range N)
      { violations := 0, lines := fun _ _ => false, columns := fun _ _ => false } with
  | some t => forEach (fun c v => f.checkConstraint c v) f.Constraints t.violations
  | none => none

end Futoshiki

/-! ### The count in the words of the specification -/

/-- The number of repeated occurrences in a list of values: the occurrences
beyond the first of each value. -/
def repeats (l : List Nat) : Nat := l.length - l.dedup.length

/-- Row `i` of the `N`×`N` grid of values `val`. -/
def rowOf (N : Nat) (val : Nat → Nat → Nat) (i : Nat) : List Nat :=
  (List.range N).map (fun j => val i j)

/-- Column `j` of the `N`×`N` grid of values `val`. -/
def columnOf (N : Nat) (val : Nat → Nat → Nat) (j : Nat) : List Nat :=
  (List.range N).map (fun i => val i j)

/-- The repeated occurrences in the rows. -/
def rowRepeats (N : Nat) (val : Nat → Nat → Nat) : Nat :=
  ((List.range N).map (fun i => repeats (rowOf N val i))).sum

/-- The repeated occurrences in the columns. -/
def colRepeats (N : Nat) (val : Nat → Nat → Nat) : Nat :=
  ((List.range N).map (fun j => repeats (columnOf N val j))).sum

/-- The inequality `c` is violated: the value at `Inf()` is not strictly less
than the value at `Sup()`. -/
def violated (val : Nat → Nat → Nat) (c : InferiorConstraint) : Bool :=
  decide (¬ val c.Inf.X c.Inf.Y < val c.Sup.X c.Sup.Y)

/-- The number of violated inequalities. -/
def violatedCount (val : Nat → Nat → Nat) (cs : List InferiorConstraint) : Nat :=
  (cs.filter (violated val)).length

/-- The values, with their cells, of the cells of `done` for which `key` is
`a`: the part of row or column `a` that lies in `done`. -/
def valuesAt (val : Nat → Nat → Nat) (key : Coord → Nat) (done : List Coord) (a : Nat) :
    List Nat :=
  (done.filter (fun c => decide (key c = a))).map (fun c => val c.X c.Y)

/-- Invariant of the loops over the cells in `getViolationsCount`, once the
cells `done` have been handled, for the grid of values `val`: `lines[a][b]`
holds when the value `b + 1` occurs in the part of row `a` handled, likewise
`columns`, and `violations` counts the repeated occurrences so far. -/
structure TallyInv (N : Nat) (val : Nat → Nat → Nat) (done : List Coord) (t : tally_t) :
    Prop where
  lines : ∀ a b, t.lines a b = true ↔ b + 1 ∈ valuesAt val Coord.X done a
  columns : ∀ a b, t.columns a b = true ↔ b + 1 ∈ valuesAt val Coord.Y done a
  count : t.violations =
    ((List.range N).map (fun a => repeats (valuesAt val Coord.X done a))).sum +
    ((List.range N).map (fun a => repeats (valuesAt val Coord.Y done a))).sum
  bound : t.violations ≤ 2 * done.length

/-- The grid of values `rows`, each cell selected, with the constraints `cs`. -/
def gridOf (N : Nat) (rows : List (List Nat)) (cs : List InferiorConstraint) : Futoshiki N :=
  { Index := [], Constraints := cs,
    Grid := fun i j => { Values := ValueEnum N, Selected := some ((rows.getD i []).getD j 0) } }

end tda


namespace solver

/-! ## Lemmas on the containers -/

section containers

variable {κ β : Type} [DecidableEq κ]

theorem mapFind_mapAssign_self (k : κ) (v : β) (m : List (κ × β)) :
    mapFind k (mapAssign k v m) = (mapFind k m).map (fun _ => v) := by
  induction m with
  | nil => rfl
  | cons p m ih =>
    obtain ⟨k1, v1⟩ := p
    by_cases h : k1 = k
    · simp [mapAssign, mapFind, h]
    · simp [mapAssign, mapFind, h, ih]

theorem mapFind_mapAssign_ne {k k2 : κ} (h : k2 ≠ k) (v : β) (m : List (κ × β)) :
    mapFind k2 (mapAssign k v m) = mapFind k2 m := by
  induction m with
  | nil => rfl
  | cons p m ih =>
    obtain ⟨k1, v1⟩ := p
    by_cases h1 : k1 = k
    · subst h1
      have : ¬ k1 = k2 := fun e => h e.symm
      simp [mapAssign, mapFind, this]
    · by_cases h2 : k1 = k2
      · subst h2
        simp [mapAssign, mapFind, h]
      · simp [mapAssign, mapFind, h1, h2, ih]

theorem map_fst_mapAssign (k : κ) (v : β) (m : List (κ × β)) :
    (mapAssign k v m).map Prod.fst = m.map Prod.fst := by
  induction m with
  | nil => rfl
  | cons p m ih =>
    obtain ⟨k1, v1⟩ := p
    by_cases h : k1 = k
    · simp [mapAssign, h]
    · simp [mapAssign, h, ih]

theorem mapFind_isSome_iff (k : κ) (m : List (κ × β)) :
    (mapFind k m).isSome = true ↔ k ∈ m.map Prod.fst := by
  induction m with
  | nil => simp [mapFind]
  | cons p m ih =>
    obtain ⟨k1, v1⟩ := p
    by_cases h : k1 = k
    · simp [mapFind, h]
    · have h2 : ¬ k = k1 := fun e => h e.symm
      simp only [mapFind, h, if_false, ih, List.map_cons, List.mem_cons, h2, false_or]

theorem mapFind_eq_none_iff (k : κ) (m : List (κ × β)) :
    mapFind k m = none ↔ k ∉ m.map Prod.fst := by
  rw [← mapFind_isSome_iff]
  cases mapFind k m <;> simp

end containers

namespace ConstraintSolver

variable {α ι : Type} [LinearOrder α] [LinearOrder ι]

theorem exists_iff_mem_keys (s : ConstraintSolver α ι) (i : ι) :
    s.exists i = true ↔ i ∈ s.keys :=
  mapFind_isSome_iff i s.Variables

theorem get_of_find {s : ConstraintSolver α ι} {i : ι} {var : Variable α ι}
    (h : mapFind i s.Variables = some var) : s.get i = var := by
  simp [get, h]

theorem exclude_fst_snd (value : α) (indice : ι) (s : ConstraintSolver α ι) :
    (match mapFind indice s.Variables with
      | some var =>
        if var.Domain.length ≤ 1 then
          (exclude value indice s).1 = !(var.canBe value) ∧ (exclude value indice s).2 = s
        else
          (exclude value indice s).1 = true ∧
          (exclude value indice s).2 =
            { s with Variables := mapAssign indice (var.exclude value) s.Variables }
      | none => (exclude value indice s).1 = false ∧ (exclude value indice s).2 = s) := by
  unfold exclude
  cases h : mapFind indice s.Variables with
  | none => simp
  | some var =>
    simp only [Variable.isInstantiated, Variable.isCompromised]
    rcases Nat.lt_or_ge 1 var.Domain.length with h1 | h1
    · have h2 : ¬ var.Domain.length ≤ 1 := by omega
      have h3 : var.Domain.length ≠ 1 := by omega
      have h4 : var.Domain.length ≠ 0 := by omega
      simp [h2, h3, h4]
    · have : var.Domain.length = 1 ∨ var.Domain.length = 0 := by omega
      rcases this with h3 | h3 <;> simp [h1, h3]

/-- The domain of every index after an engine-level `exclude`. -/
theorem get_exclude (value : α) (indice j : ι) (s : ConstraintSolver α ι) :
    (exclude value indice s).2.get j =
      if j = indice ∧ s.exists indice = true ∧ 1 < (s.get indice).Domain.length then
        (s.get indice).exclude value
      else s.get j := by
  have h := exclude_fst_snd value indice s
  cases hf : mapFind indice s.Variables with
  | none =>
    rw [hf] at h
    simp [h.2, «exists», hf]
  | some var =>
    rw [hf] at h
    simp only at h
    have hg : s.get indice = var := get_of_find hf
    by_cases h1 : var.Domain.length ≤ 1
    · rw [if_pos h1] at h
      have : ¬ 1 < var.Domain.length := by omega
      simp [h.2, hg, this]
    · rw [if_neg h1] at h
      have h2 : 1 < var.Domain.length := by omega
      rw [h.2]
      by_cases hj : j = indice
      · subst hj
        simp [get, mapFind_mapAssign_self, hf, «exists», h2]
      · simp [get, mapFind_mapAssign_ne hj, hj]

theorem keys_exclude (value : α) (indice : ι) (s : ConstraintSolver α ι) :
    (exclude value indice s).2.keys = s.keys := by
  have h := exclude_fst_snd value indice s
  cases hf : mapFind indice s.Variables with
  | none => rw [hf] at h; rw [h.2]
  | some var =>
    rw [hf] at h
    simp only at h
    by_cases h1 : var.Domain.length ≤ 1
    · rw [if_pos h1] at h; rw [h.2]
    · rw [if_neg h1] at h; rw [h.2]; exact map_fst_mapAssign _ _ _

end ConstraintSolver

end solver


namespace solver

section containers

variable {κ β : Type} [DecidableEq κ]

theorem mapFind_mapErase_ne {k k2 : κ} (h : k2 ≠ k) (m : List (κ × β)) :
    mapFind k2 (mapErase k m) = mapFind k2 m := by
  induction m with
  | nil => rfl
  | cons p m ih =>
    obtain ⟨k1, v1⟩ := p
    by_cases h1 : k1 = k
    · subst h1
      have : ¬ k1 = k2 := fun e => h e.symm
      simp [mapErase, mapFind, this]
    · by_cases h2 : k1 = k2
      · subst h2
        simp [mapErase, mapFind, h]
      · simp [mapErase, mapFind, h1, h2, ih]

theorem map_fst_mapErase (k : κ) (m : List (κ × β)) :
    (mapErase k m).map Prod.fst = (m.map Prod.fst).erase k := by
  induction m with
  | nil => rfl
  | cons p m ih =>
    obtain ⟨k1, v1⟩ := p
    by_cases h : k1 = k
    · subst h
      simp [mapErase]
    · simp [mapErase, h, ih, List.erase_cons_tail]

theorem mapErase_of_not_mem {k : κ} {m : List (κ × β)} (h : k ∉ m.map Prod.fst) :
    mapErase k m = m := by
  induction m with
  | nil => rfl
  | cons p m ih =>
    obtain ⟨k1, v1⟩ := p
    simp only [List.map_cons, List.mem_cons, not_or] at h
    have h1 : ¬ k1 = k := fun e => h.1 e.symm
    simp [mapErase, h1, ih h.2]

theorem mapFind_isSome_mapAssign (k k2 : κ) (v : β) (m : List (κ × β)) :
    (mapFind k2 (mapAssign k v m)).isSome = (mapFind k2 m).isSome := by
  by_cases h : k2 = k
  · subst h
    rw [mapFind_mapAssign_self]
    cases mapFind k2 m <;> rfl
  · rw [mapFind_mapAssign_ne h]

end containers

namespace ConstraintSolver

variable {α ι : Type} [LinearOrder α] [LinearOrder ι]

theorem foldl_reject_additional (l : List ι) (s : ConstraintSolver α ι) :
    (l.foldl reject s).AdditionalIndices = s.AdditionalIndices ∧
    (l.foldl reject s).IsSolveInProgress = s.IsSolveInProgress ∧
    (l.foldl reject s).SolutionList = s.SolutionList := by
  induction l generalizing s with
  | nil => exact ⟨rfl, rfl, rfl⟩
  | cons x l ih => exact ih (reject s x)

theorem mapFind_foldl_reject {l : List ι} {j : ι} (h : j ∉ l) (s : ConstraintSolver α ι) :
    mapFind j (l.foldl reject s).Variables = mapFind j s.Variables := by
  induction l generalizing s with
  | nil => rfl
  | cons x l ih =>
    simp only [List.mem_cons, not_or] at h
    rw [List.foldl_cons, ih h.2]
    exact mapFind_mapErase_ne h.1 _

theorem foldl_reject_nil_variables (s : ConstraintSolver α ι) :
    (([] : List ι).foldl reject s) = s := rfl

/-- The map after the saved variables are written back, when each is still
present. -/
theorem restore_eq (rem : List (Variable α ι)) (vars : List (ι × Variable α ι))
    (proc : List ι) (h : ∀ var ∈ rem, (mapFind var.indice vars).isSome = true) :
    restore rem vars proc =
      (rem.foldl (fun m var => mapAssign var.indice var m) vars,
       proc ++ rem.map Variable.indice) := by
  induction rem generalizing vars proc with
  | nil => simp [restore]
  | cons var rem ih =>
    have h0 := h var (List.mem_cons_self _ _)
    cases hf : mapFind var.indice vars with
    | none => rw [hf] at h0; cases h0
    | some w =>
      simp only [restore, hf]
      rw [ih]
      · simp
      · intro x hx
        rw [mapFind_isSome_mapAssign]
        exact h x (List.mem_cons_of_mem _ hx)

theorem mapFind_foldl_assign_not_mem (rem : List (Variable α ι))
    (vars : List (ι × Variable α ι)) (j : ι) (h : j ∉ rem.map Variable.indice) :
    mapFind j (rem.foldl (fun m var => mapAssign var.indice var m) vars) = mapFind j vars := by
  induction rem generalizing vars with
  | nil => rfl
  | cons var rem ih =>
    simp only [List.map_cons, List.mem_cons, not_or] at h
    rw [List.foldl_cons, ih _ h.2]
    exact mapFind_mapAssign_ne h.1 _ _

theorem mapFind_foldl_assign_mem (rem : List (Variable α ι))
    (vars : List (ι × Variable α ι)) (hn : (rem.map Variable.indice).Nodup)
    (var : Variable α ι) (hv : var ∈ rem) (hp : (mapFind var.indice vars).isSome = true) :
    mapFind var.indice (rem.foldl (fun m x => mapAssign x.indice x m) vars) = some var := by
  induction rem generalizing vars with
  | nil => cases hv
  | cons x rem ih =>
    simp only [List.map_cons, List.nodup_cons] at hn
    rw [List.foldl_cons]
    rcases List.mem_cons.1 hv with e | hmem
    · subst e
      rw [mapFind_foldl_assign_not_mem _ _ _ hn.1, mapFind_mapAssign_self]
      cases hf : mapFind var.indice vars with
      | none => rw [hf] at hp; cases hp
      | some w => rfl
    · apply ih _ hn.2 hmem
      rw [mapFind_isSome_mapAssign]
      exact hp

theorem map_fst_foldl_assign (rem : List (Variable α ι)) (vars : List (ι × Variable α ι)) :
    (rem.foldl (fun m x => mapAssign x.indice x m) vars).map Prod.fst = vars.map Prod.fst := by
  induction rem generalizing vars with
  | nil => rfl
  | cons x rem ih => rw [List.foldl_cons, ih, map_fst_mapAssign]

end ConstraintSolver

end solver


namespace solver

namespace ConstraintSolver

variable {α ι : Type} [LinearOrder α] [LinearOrder ι]

/-- The map that `backtracking` builds for the record `save`. -/
theorem backtracking_variables (st : search_t α ι) (save : record_t α ι)
    (backup : List (record_t α ι)) (hB : st.Parameters.Backup = save :: backup)
    (hp : ∀ var ∈ save.RemainingVariables, st.Solver.exists var.indice = true)
    (hl : ∀ var ∈ save.RemainingVariables,
      var.indice ∉ st.Parameters.Register.drop save.Register.length ∧
      var.indice ∉ st.Solver.AdditionalIndices) :
    ∃ vars2 : List (ι × Variable α ι),
      (∀ j, j ∉ st.Parameters.Register.drop save.Register.length →
        j ∉ st.Solver.AdditionalIndices → mapFind j vars2 = mapFind j st.Solver.Variables) ∧
      (backtracking st).Parameters =
        { Processing := save.RemainingVariables.map Variable.indice,
          Register := save.Register, Backup := backup } ∧
      (backtracking st).Solver.Variables =
        (match mapFind save.ChoiceIndice
            (save.RemainingVariables.foldl (fun m x => mapAssign x.indice x m) vars2) with
          | some var => mapAssign save.ChoiceIndice (var.exclude save.ChoiceValue)
              (save.RemainingVariables.foldl (fun m x => mapAssign x.indice x m) vars2)
          | none => save.RemainingVariables.foldl (fun m x => mapAssign x.indice x m) vars2) := by
  have hadd := (foldl_reject_additional
    (st.Parameters.Register.drop save.Register.length) st.Solver).1
  refine ⟨((st.Parameters.Register.drop save.Register.length).foldl reject st.Solver
    |>.AdditionalIndices.foldl reject
      ((st.Parameters.Register.drop save.Register.length).foldl reject st.Solver)).Variables,
    ?_, ?_⟩
  · intro j h1 h2
    rw [mapFind_foldl_reject (by rw [hadd]; exact h2), mapFind_foldl_reject h1]
  · have hpres : ∀ var ∈ save.RemainingVariables,
        (mapFind var.indice
          ((st.Parameters.Register.drop save.Register.length).foldl reject st.Solver
            |>.AdditionalIndices.foldl reject
              ((st.Parameters.Register.drop save.Register.length).foldl reject
                st.Solver)).Variables).isSome = true := by
      intro var hv
      rw [mapFind_foldl_reject (by rw [hadd]; exact (hl var hv).2),
        mapFind_foldl_reject (hl var hv).1]
      exact hp var hv
    have hr := restore_eq save.RemainingVariables _ [] hpres
    unfold backtracking
    simp only [hB]
    rw [hr]
    simp only [List.nil_append]
    constructor
    · trivial
    · trivial

end ConstraintSolver

end solver


namespace solver

namespace ConstraintSolver

variable {α ι : Type} [LinearOrder α] [LinearOrder ι]

/-! ## Runs of `exclude` calls -/

theorem Shrinks.refl (s : ConstraintSolver α ι) : Shrinks s s :=
  { keys := rfl, progress := rfl, additional := rfl, rejected := rfl, solutions := rfl,
    indice := fun _ => rfl, sub := fun _ => List.Sublist.refl _,
    fixed := fun _ _ => rfl, nonempty := fun _ h => h }

theorem Shrinks.trans {s t u : ConstraintSolver α ι} (h1 : Shrinks s t) (h2 : Shrinks t u) :
    Shrinks s u :=
  { keys := h2.keys.trans h1.keys
    progress := h2.progress.trans h1.progress
    additional := h2.additional.trans h1.additional
    rejected := h2.rejected.trans h1.rejected
    solutions := h2.solutions.trans h1.solutions
    indice := fun i => (h2.indice i).trans (h1.indice i)
    sub := fun i => (h2.sub i).trans (h1.sub i)
    fixed := fun i h => by
      have e := h1.fixed i h
      rw [h2.fixed i (by rw [e]; exact h), e]
    nonempty := fun i h => h2.nonempty i (h1.nonempty i h) }

theorem exclude_fields (v : α) (i : ι) (s : ConstraintSolver α ι) :
    (exclude v i s).2.IsSolveInProgress = s.IsSolveInProgress ∧
    (exclude v i s).2.AdditionalIndices = s.AdditionalIndices ∧
    (exclude v i s).2.RejectedIndices = s.RejectedIndices ∧
    (exclude v i s).2.SolutionList = s.SolutionList := by
  have h := exclude_fst_snd v i s
  cases hf : mapFind i s.Variables with
  | none => rw [hf] at h; rw [h.2]; exact ⟨rfl, rfl, rfl, rfl⟩
  | some var =>
    rw [hf] at h
    simp only at h
    by_cases h1 : var.Domain.length ≤ 1
    · rw [if_pos h1] at h; rw [h.2]; exact ⟨rfl, rfl, rfl, rfl⟩
    · rw [if_neg h1] at h; rw [h.2]; exact ⟨rfl, rfl, rfl, rfl⟩

theorem filter_ne_length_pos {l : List α} (v : α) (h : 1 < l.length) (hn : l.Nodup) :
    0 < (l.filter (fun w => decide (w ≠ v))).length := by
  match l, h, hn with
  | a :: b :: l, _, hn =>
    have hab : a ≠ b := by
      intro e
      rw [List.nodup_cons] at hn
      exact hn.1 (e ▸ List.mem_cons_self _ _)
    by_cases ha : a = v
    · have hb : b ≠ v := fun e => hab (ha.trans e.symm)
      simp [List.filter_cons, ha, hb]
    · simp [List.filter_cons, ha]

theorem Shrinks.exclude (v : α) (i : ι) (s : ConstraintSolver α ι) (hn : DomNodup s) :
    Shrinks s (exclude v i s).2 := by
  have hf := exclude_fields v i s
  have hg := fun j => get_exclude v i j s
  refine { keys := keys_exclude v i s, progress := hf.1, additional := hf.2.1,
           rejected := hf.2.2.1, solutions := hf.2.2.2, indice := ?_, sub := ?_,
           fixed := ?_, nonempty := ?_ }
  · intro j
    rw [hg j]
    split
    · rename_i h; rw [h.1]; rfl
    · rfl
  · intro j
    unfold dom
    rw [hg j]
    split
    · rename_i h; rw [h.1]; exact List.filter_sublist _
    · exact List.Sublist.refl _
  · intro j hj
    unfold dom at hj ⊢
    rw [hg j]
    split
    · rename_i h
      rw [h.1] at hj
      omega
    · rfl
  · intro j hj
    unfold dom at hj ⊢
    rw [hg j]
    split
    · rename_i h
      have := filter_ne_length_pos v h.2.2 (hn i)
      intro e
      simp only [Variable.exclude] at e
      rw [e] at this
      simp at this
    · exact hj

theorem DomNodup.of_shrinks {s t : ConstraintSolver α ι} (h : Shrinks s t) (hn : DomNodup s) :
    DomNodup t :=
  fun k => (h.sub k).nodup (hn k)

theorem Shrinks.of_exclReach {s t : ConstraintSolver α ι} (h : ExclReach s t)
    (hn : DomNodup s) : Shrinks s t := by
  induction h with
  | refl => exact Shrinks.refl _
  | step v i _ ih =>
    exact ih.trans (Shrinks.exclude v i _ (DomNodup.of_shrinks ih hn))

theorem WF.after_shrinks {s t : ConstraintSolver α ι} (h : Shrinks s t) (hw : WF s) : WF t := by
  refine ⟨by rw [h.keys]; exact hw.1, ?_⟩
  intro k hk
  rw [h.keys] at hk
  rw [h.indice k]
  exact hw.2 k hk

end ConstraintSolver

end solver


namespace solver

namespace ConstraintSolver

variable {α ι : Type} [LinearOrder α] [LinearOrder ι]

/-! ## Propagation -/

theorem ShrinkOnly.of_excludeOnly {cs : List (constraint_t α ι)}
    (h : ∀ c ∈ cs, ExcludeOnly c) : ShrinkOnly cs :=
  fun c hc s i v hn => Shrinks.of_exclReach (h c hc s i v) hn

theorem value_of_length_one {s : ConstraintSolver α ι} {ref : ι}
    (h : (s.dom ref).length = 1) : ∃ v, s.dom ref = [v] ∧ (s.get ref).value = some v := by
  unfold dom at h ⊢
  unfold Variable.value
  match hd : (s.get ref).Domain, h with
  | [v], _ => exact ⟨v, rfl, rfl⟩

theorem applyConstraints_shrinks (cs : List (constraint_t α ι)) (hS : ShrinkOnly cs)
    (ref : ι) (s : ConstraintSolver α ι) (hn : DomNodup s) (hinst : (s.dom ref).length = 1) :
    ∃ b s1, applyConstraints ref cs s = Run.ret b s1 ∧ Shrinks s s1 := by
  induction cs generalizing s with
  | nil => exact ⟨true, s, rfl, Shrinks.refl s⟩
  | cons c cs ih =>
    obtain ⟨v, _, hv⟩ := value_of_length_one hinst
    have hc := hS c (List.mem_cons_self _ _) s (s.get ref).indice v hn
    simp only [applyConstraints, hv]
    by_cases hb : (c s (s.get ref).indice v).1 = true
    · rw [if_pos hb]
      have hinst2 : ((c s (s.get ref).indice v).2.dom ref).length = 1 := by
        rw [hc.fixed ref (by omega)]; exact hinst
      obtain ⟨b, s1, h1, h2⟩ :=
        ih (fun c1 h1 => hS c1 (List.mem_cons_of_mem _ h1)) _ (DomNodup.of_shrinks hc hn) hinst2
      exact ⟨b, s1, h1, hc.trans h2⟩
    · rw [if_neg hb]
      exact ⟨false, _, rfl, hc⟩

theorem applyInstantiated_shrinks (cs : List (constraint_t α ι)) (hS : ShrinkOnly cs)
    (refs : List ι) (s : ConstraintSolver α ι) (hn : DomNodup s)
    (hinst : ∀ ref ∈ refs, (s.dom ref).length = 1) :
    ∃ b s1, applyInstantiated cs refs s = Run.ret b s1 ∧ Shrinks s s1 := by
  induction refs generalizing s with
  | nil => exact ⟨true, s, rfl, Shrinks.refl s⟩
  | cons ref refs ih =>
    obtain ⟨b, s1, h1, h2⟩ :=
      applyConstraints_shrinks cs hS ref s hn (hinst ref (List.mem_cons_self _ _))
    simp only [applyInstantiated, h1]
    cases b with
    | false => exact ⟨false, s1, rfl, h2⟩
    | true =>
      have hinst2 : ∀ r ∈ refs, (s1.dom r).length = 1 := by
        intro r hr
        have := hinst r (List.mem_cons_of_mem _ hr)
        rw [h2.fixed r (by omega)]; exact this
      obtain ⟨b2, s2, h3, h4⟩ := ih s1 (DomNodup.of_shrinks h2 hn) hinst2
      exact ⟨b2, s2, h3, h2.trans h4⟩

theorem PartPost.extend (st st2 : search_t α ι) {r : Run (search_t α ι) (Bool × Bool)}
    (h1 : Shrinks st.Solver st2.Solver)
    (h2 : st2.Parameters.Register = st.Parameters.Register)
    (h3 : st2.Parameters.Backup = st.Parameters.Backup)
    (h4 : List.Sublist st2.Parameters.Processing st.Parameters.Processing)
    (h5 : ∀ k ∈ st.Parameters.Processing, k ∉ st2.Parameters.Processing →
      (st2.Solver.dom k).length = 1)
    (h : PartPost st2 r) : PartPost st r := by
  cases r with
  | raise _ => exact h
  | stall st1 => exact h1.trans h
  | ret b st1 =>
    obtain ⟨e0, e1, e2, e3, e4, e5, e6⟩ := h
    refine ⟨e0, h1.trans e1, e2.trans h2, e3.trans h3, e4.trans h4, ?_, e6⟩
    intro k hk hk2
    by_cases hk3 : k ∈ st2.Parameters.Processing
    · exact e5 k hk3 hk2
    · have := h5 k hk hk3
      rw [e1.fixed k (by omega)]
      exact this

/-- The state after one round of `partitionAndConstrain`. -/
theorem round_facts (P : Policies α ι) (hS : ShrinkOnly P.Constraints) (st : search_t α ι)
    (hn : DomNodup st.Solver) :
    ∃ b s1,
      applyInstantiated P.Constraints (st.Parameters.Processing.filter
        (fun r => (st.Solver.get r).isInstantiated)) st.Solver = Run.ret b s1 ∧
      Shrinks st.Solver s1 ∧
      (st.Parameters.Processing.filter (fun r => (st.Solver.get r).isInstantiated) = [] →
        b = true ∧ s1 = st.Solver) ∧
      (∀ k ∈ st.Parameters.Processing,
        k ∉ st.Parameters.Processing.filter (fun r => !(st.Solver.get r).isInstantiated) →
        (s1.dom k).length = 1) ∧
      (∀ i ∈ st.Parameters.Processing.filter (fun r => !(st.Solver.get r).isInstantiated),
        (st.Solver.dom i).length ≠ 1) ∧
      (st.Parameters.Processing.filter (fun r => (st.Solver.get r).isInstantiated) ≠ [] →
        (st.Parameters.Processing.filter
          (fun r => !(st.Solver.get r).isInstantiated)).length < st.Parameters.Processing.length) := by
  have hinst : ∀ ref ∈ st.Parameters.Processing.filter
      (fun r => (st.Solver.get r).isInstantiated), (st.Solver.dom ref).length = 1 := by
    intro ref hr
    have := (List.mem_filter.1 hr).2
    simpa [Variable.isInstantiated, dom] using this
  obtain ⟨b, s1, h1, h2⟩ := applyInstantiated_shrinks P.Constraints hS _ st.Solver hn hinst
  refine ⟨b, s1, h1, h2, ?_, ?_, ?_, ?_⟩
  · intro hl
    rw [hl] at h1
    simp only [applyInstantiated] at h1
    cases h1
    exact ⟨rfl, rfl⟩
  · intro k hk hk3
    have hki : (st.Solver.dom k).length = 1 := by
      have : ¬ ((!(st.Solver.get k).isInstantiated) = true) :=
        fun h => hk3 (List.mem_filter.2 ⟨hk, h⟩)
      simpa [Variable.isInstantiated, dom] using this
    rw [h2.fixed k (by omega)]
    exact hki
  · intro i hmem
    have := (List.mem_filter.1 hmem).2
    simpa [Variable.isInstantiated, dom] using this
  · intro hne
    have hpos : 0 < (st.Parameters.Processing.filter
        (fun r => (st.Solver.get r).isInstantiated)).length :=
      List.length_pos.2 hne
    have hsum := @List.length_eq_length_filter_add _ st.Parameters.Processing
      (fun r => (st.Solver.get r).isInstantiated)
    simp only at hsum
    omega

theorem isEmpty_not_eq_true {κ : Type} (l : List κ) : (!l.isEmpty) = true ↔ l ≠ [] := by
  cases l <;> simp

/-- Outcome of the loop of `partitionAndConstrain` entered after a round, in a
search without added variables. -/
theorem partitionLoop_spec (P : Policies α ι) (hS : ShrinkOnly P.Constraints) :
    ∀ (fuel : Nat) (sat hasI : Bool) (st : search_t α ι),
      st.Solver.AdditionalIndices = [] → DomNodup st.Solver →
      (hasI = false → ∀ i ∈ st.Parameters.Processing, (st.Solver.dom i).length ≠ 1) →
      PartPost st
        (partitionLoop P fuel sat (!st.Parameters.Processing.isEmpty) hasI false st) ∧
      ((hasI = true → st.Parameters.Processing.length ≤ fuel) →
        ∃ b st1, partitionLoop P fuel sat (!st.Parameters.Processing.isEmpty) hasI false st =
          Run.ret b st1) := by
  intro fuel
  induction fuel with
  | zero =>
    intro sat hasI st hadd hn hflag
    rw [partitionLoop]
    by_cases hc : (sat && ((hasI && !st.Parameters.Processing.isEmpty) || false)) = true
    · rw [if_pos hc]
      simp only [Bool.or_false, Bool.and_eq_true, isEmpty_not_eq_true] at hc
      refine ⟨Shrinks.refl _, ?_⟩
      intro hfuel
      exact absurd (List.length_eq_zero.1 (Nat.le_zero.1 (hfuel hc.2.1))) hc.2.2
    · rw [if_neg hc]
      refine ⟨⟨rfl, Shrinks.refl _, rfl, rfl, List.Sublist.refl _, ?_, ?_⟩, fun _ => ⟨_, _, rfl⟩⟩
      · intro k hk hk2; exact absurd hk hk2
      · intro hsat i hi
        simp only at hsat
        simp only [Bool.or_false, hsat, Bool.true_and, Bool.and_eq_true, not_and,
          isEmpty_not_eq_true, not_not] at hc
        cases hI : hasI with
        | false => exact hflag hI i hi
        | true => rw [hc hI] at hi; cases hi
  | succ fuel ih =>
    intro sat hasI st hadd hn hflag
    rw [partitionLoop]
    by_cases hc : (sat && ((hasI && !st.Parameters.Processing.isEmpty) || false)) = true
    · rw [if_pos hc]
      simp only [Bool.or_false, Bool.and_eq_true, isEmpty_not_eq_true] at hc
      obtain ⟨hsat, hI, hne⟩ := hc
      simp only [hadd, List.filter_nil, List.append_nil]
      obtain ⟨b, s1, h1, h2, h3, h4, h5, h6⟩ := round_facts P hS st hn
      rw [h1]
      have hadd1 : s1.AdditionalIndices = [] := by rw [h2.additional]; exact hadd
      simp only [hadd1, List.isEmpty_nil, Bool.not_true]
      have hih := ih b (!(st.Parameters.Processing.filter
            (fun r => (st.Solver.get r).isInstantiated)).isEmpty)
          { Solver := s1,
            Parameters := { st.Parameters with
              Processing := st.Parameters.Processing.filter
                (fun r => !(st.Solver.get r).isInstantiated),
              Register := st.Parameters.Register } }
          hadd1 (DomNodup.of_shrinks h2 hn)
          (by
            intro hi i hmem
            have hl : st.Parameters.Processing.filter
                (fun r => (st.Solver.get r).isInstantiated) = [] := by
              cases hl : st.Parameters.Processing.filter
                  (fun r => (st.Solver.get r).isInstantiated) with
              | nil => rfl
              | cons a l => rw [hl] at hi; simp at hi
            rw [(h3 hl).2]
            exact h5 i hmem)
      refine ⟨PartPost.extend st (search_t.mk s1 (parameters_t.mk
          (st.Parameters.Processing.filter (fun r => !(st.Solver.get r).isInstantiated))
          st.Parameters.Register st.Parameters.Backup))
        h2 rfl rfl (List.filter_sublist _) h4 hih.1, ?_⟩
      intro hfuel
      apply hih.2
      intro hi
      have := h6 ((isEmpty_not_eq_true _).1 hi)
      have := hfuel hI
      simp only
      omega
    · rw [if_neg hc]
      refine ⟨⟨rfl, Shrinks.refl _, rfl, rfl, List.Sublist.refl _, ?_, ?_⟩, fun _ => ⟨_, _, rfl⟩⟩
      · intro k hk hk2; exact absurd hk hk2
      · intro hsat i hi
        simp only at hsat
        simp only [Bool.or_false, hsat, Bool.true_and, Bool.and_eq_true, not_and,
          isEmpty_not_eq_true, not_not] at hc
        cases hI : hasI with
        | false => exact hflag hI i hi
        | true => rw [hc hI] at hi; cases hi

/-- Outcome of `partitionAndConstrain` in a search without added variables,
and its return when the budget exceeds the size of `Processing`. -/
theorem partitionAndConstrain_spec (P : Policies α ι) (hS : ShrinkOnly P.Constraints)
    (fuel : Nat) (st : search_t α ι) (hadd : st.Solver.AdditionalIndices = [])
    (hn : DomNodup st.Solver) :
    PartPost st (partitionAndConstrain P fuel st) ∧
    (st.Parameters.Processing.length < fuel →
      ∃ b st1, partitionAndConstrain P fuel st = Run.ret b st1) := by
  unfold partitionAndConstrain
  cases fuel with
  | zero =>
    rw [partitionLoop]
    simp only [Bool.and_self, Bool.or_false, if_true]
    exact ⟨Shrinks.refl _, fun h => absurd h (Nat.not_lt_zero _)⟩
  | succ n =>
    rw [partitionLoop]
    simp only [Bool.and_self, Bool.or_false, if_true]
    simp only [hadd, List.filter_nil, List.append_nil]
    obtain ⟨b, s1, h1, h2, h3, h4, h5, h6⟩ := round_facts P hS st hn
    rw [h1]
    have hadd1 : s1.AdditionalIndices = [] := by rw [h2.additional]; exact hadd
    simp only [hadd1, List.isEmpty_nil, Bool.not_true]
    have hih := partitionLoop_spec P hS n b (!(st.Parameters.Processing.filter
          (fun r => (st.Solver.get r).isInstantiated)).isEmpty)
        { Solver := s1,
          Parameters := { st.Parameters with
            Processing := st.Parameters.Processing.filter
              (fun r => !(st.Solver.get r).isInstantiated),
            Register := st.Parameters.Register } }
        hadd1 (DomNodup.of_shrinks h2 hn)
        (by
          intro hi i hmem
          have hl : st.Parameters.Processing.filter
              (fun r => (st.Solver.get r).isInstantiated) = [] := by
            cases hl : st.Parameters.Processing.filter
                (fun r => (st.Solver.get r).isInstantiated) with
            | nil => rfl
            | cons a l => rw [hl] at hi; simp at hi
          rw [(h3 hl).2]
          exact h5 i hmem)
    refine ⟨PartPost.extend st (search_t.mk s1 (parameters_t.mk
          (st.Parameters.Processing.filter (fun r => !(st.Solver.get r).isInstantiated))
          st.Parameters.Register st.Parameters.Backup))
        h2 rfl rfl (List.filter_sublist _) h4 hih.1, ?_⟩
    intro hfuel
    apply hih.2
    intro _
    have := (@List.filter_sublist _ (fun r => !(st.Solver.get r).isInstantiated)
      st.Parameters.Processing).length_le
    simp only
    omega

end ConstraintSolver

end solver


namespace solver

namespace ConstraintSolver

variable {α ι : Type} [LinearOrder α] [LinearOrder ι]

/-! ## Branching -/

theorem get_assign (s : ConstraintSolver α ι) (x k : ι) (var : Variable α ι)
    (vars : List (ι × Variable α ι)) (hv : vars = mapAssign x var s.Variables) :
    ({ s with Variables := vars } : ConstraintSolver α ι).get k =
      if k = x ∧ x ∈ s.keys then var else s.get k := by
  subst hv
  unfold get
  simp only
  by_cases hk : k = x
  · subst hk
    rw [mapFind_mapAssign_self]
    by_cases hm : k ∈ s.keys
    · rw [if_pos ⟨rfl, hm⟩]
      have := (mapFind_isSome_iff k s.Variables).2 hm
      cases hf : mapFind k s.Variables with
      | none => rw [hf] at this; cases this
      | some w => rfl
    · rw [if_neg (fun h => hm h.2)]
      rw [(mapFind_eq_none_iff k s.Variables).2 hm]
      rfl
  · rw [mapFind_mapAssign_ne hk, if_neg (fun h => hk h.1)]

theorem dom_nil_of_not_mem {s : ConstraintSolver α ι} {k : ι} (h : k ∉ s.keys) :
    s.dom k = [] := by
  unfold dom get
  rw [(mapFind_eq_none_iff k s.Variables).2 h]

theorem mem_keys_of_dom_ne_nil {s : ConstraintSolver α ι} {k : ι} (h : s.dom k ≠ []) :
    k ∈ s.keys := by
  by_contra hk
  exact h (dom_nil_of_not_mem hk)

theorem StackOk.mono {keys proc proc2 : List ι} {B : List (record_t α ι)}
    (h : StackOk keys proc B) (hsub : ∀ i ∈ proc2, i ∈ proc) : StackOk keys proc2 B := by
  cases B with
  | nil => trivial
  | cons r rs =>
    obtain ⟨h1, h2, h3, h4, h5, h6, h7⟩ := h
    exact ⟨h1, h2, fun i hi => h3 i (hsub i hi), h4, h5, h6, h7⟩

theorem StackOk.covers {keys : List ι} : ∀ {proc : List ι} {B : List (record_t α ι)},
    StackOk keys proc B → ∀ r ∈ B, ∀ i ∈ proc, i ∈ idx r := by
  intro proc B
  induction B generalizing proc with
  | nil => intro _ r hr; cases hr
  | cons r0 rs ih =>
    intro h r hr i hi
    obtain ⟨_, _, h3, _, _, _, h7⟩ := h
    rcases List.mem_cons.1 hr with e | hmem
    · subst e; exact h3 i hi
    · exact ih h7 r hmem i (h3 i hi)

theorem StackOk.keys_eq {keys keys2 : List ι} (e : keys2 = keys) {proc : List ι}
    {B : List (record_t α ι)} (h : StackOk keys proc B) : StackOk keys2 proc B := by
  subst e; exact h

theorem selectVariableAndValue_spec (P : Policies α ι)
    (hsort : ∀ cmp l, List.Perm (P.StdSort cmp l) l) (st : search_t α ι) (hw : WF st.Solver)
    (hsub : ∀ i ∈ st.Parameters.Processing, i ∈ st.Solver.keys) :
    (∃ st2, selectVariableAndValue P st = Run.ret () st2 ∧ SelectPost P st st2) ∨
    (∃ st2, selectVariableAndValue P st = Run.raise st2 ∧ st2.Solver = st.Solver ∧
      st2.Parameters.Backup = st.Parameters.Backup ∧
      (st.Parameters.Processing = [] ∨ ∃ x ∈ st.Parameters.Processing, st.Solver.dom x = [])) := by
  unfold selectVariableAndValue
  have hperm : List.Perm (sortProcessing P st) st.Parameters.Processing := by
    unfold sortProcessing
    cases P.Comparator with
    | none => exact List.Perm.refl _
    | some cmp => exact hsort _ _
  generalize sortProcessing P st = processing at hperm ⊢
  unfold selectFront
  cases processing with
  | nil =>
    right
    refine ⟨_, rfl, rfl, rfl, Or.inl ?_⟩
    exact List.Perm.eq_nil hperm.symm
  | cons x rest =>
    simp only
    have hx : x ∈ st.Parameters.Processing := hperm.subset (List.mem_cons_self _ _)
    cases hd : (st.Solver.get x).Domain with
    | nil =>
      right
      simp only [Variable.value, hd, List.head?_nil]
      exact ⟨_, rfl, rfl, rfl, Or.inr ⟨x, hx, hd⟩⟩
    | cons v0 tl =>
      left
      simp only [Variable.value, hd, List.head?_cons]
      have hix : (st.Solver.get x).indice = x := hw.2 x (hsub x hx)
      refine ⟨_, rfl, x, rest, v0, tl, hperm, hd, rfl, rfl, ?_, ?_⟩
      · simp only [hix]
      · rfl

end ConstraintSolver

end solver


namespace solver

namespace ConstraintSolver

variable {α ι : Type} [LinearOrder α] [LinearOrder ι]

/-! ## The structural invariant along a search -/

theorem SInv.of_part {st st1 : search_t α ι} {b : Bool × Bool} (h : SInv st)
    (hp : PartPost st (Run.ret b st1)) : SInv st1 := by
  obtain ⟨_, e1, e2, e3, e4, e5, _⟩ := hp
  refine { wf := WF.after_shrinks e1 h.wf, noAdd := by rw [e1.additional]; exact h.noAdd,
           reg := by rw [e2, e1.keys]; exact h.reg,
           procNodup := e4.nodup h.procNodup,
           procSub := ?_, inst := ?_, stack := ?_, choice := ?_,
           domNodup := DomNodup.of_shrinks e1 h.domNodup,
           recNodup := by rw [e3]; exact h.recNodup }
  · intro i hi
    rw [e1.keys]
    exact h.procSub i (e4.subset hi)
  · intro k hk hk2
    rw [e1.keys] at hk
    by_cases hk3 : k ∈ st.Parameters.Processing
    · exact e5 k hk3 hk2
    · have := h.inst k hk hk3
      rw [e1.fixed k (by omega)]
      exact this
  · rw [e1.keys, e3]
    exact h.stack.mono (fun i hi => e4.subset hi)
  · intro r hr
    rw [e3] at hr
    have := h.choice r hr
    rw [e1.fixed _ (by rw [this]; simp)]
    exact this

theorem map_get_indice {s : ConstraintSolver α ι} (hw : WF s) (l : List ι)
    (hl : ∀ i ∈ l, i ∈ s.keys) :
    (l.map (fun r => s.get r)).map Variable.indice = l := by
  induction l with
  | nil => rfl
  | cons a l ih =>
    simp only [List.map_cons, List.cons.injEq]
    exact ⟨hw.2 a (hl a (List.mem_cons_self _ _)),
      ih (fun i hi => hl i (List.mem_cons_of_mem _ hi))⟩

/-- Reading the solver after a branching step. -/
theorem SelectPost.get {P : Policies α ι} {st st2 : search_t α ι} (h : SelectPost P st st2)
    (hsub : ∀ i ∈ st.Parameters.Processing, i ∈ st.Solver.keys) :
    ∃ (x : ι) (val : α), x ∈ st.Parameters.Processing ∧
      st2.Parameters.Processing.head? = some x ∧
      (∀ k, st2.Solver.get k = if k = x then (st.Solver.get x).set val else st.Solver.get k) ∧
      st2.Solver.keys = st.Solver.keys ∧
      (∃ r, st2.Parameters.Backup = r :: st.Parameters.Backup ∧ r.ChoiceIndice = x ∧
        r.ChoiceValue = val ∧ r.Register = st.Parameters.Register ∧
        r.RemainingVariables = st2.Parameters.Processing.map (fun r => st.Solver.get r)) ∧
      (P.Selector = none → ∃ tl, st.Solver.dom x = val :: tl) ∧
      (∀ sel, P.Selector = some sel → val = sel (st.Solver.get x)) ∧
      st.Solver.dom x ≠ [] := by
  obtain ⟨x, rest, v0, tl, hperm, hd, hp, hr, hb, hs⟩ := h
  have hx : x ∈ st.Parameters.Processing := hperm.subset (List.mem_cons_self _ _)
  refine ⟨x, _, hx, by rw [hp]; rfl, ?_, ?_, ⟨_, hb, rfl, rfl, rfl, by rw [hp]⟩, ?_, ?_, ?_⟩
  · intro k
    rw [hs, get_assign st.Solver x k _ _ rfl]
    by_cases hk : k = x
    · rw [if_pos ⟨hk, hsub x hx⟩, if_pos hk]
    · rw [if_neg (fun h => hk h.1), if_neg hk]
  · rw [hs]
    exact map_fst_mapAssign _ _ _
  · intro hsel
    rw [hsel]
    exact ⟨tl, hd⟩
  · intro sel hsel
    rw [hsel]
  · rw [hd]; simp

theorem SInv.of_select {P : Policies α ι} {st st2 : search_t α ι} (h : SInv st)
    (hnon : ∀ i ∈ st.Parameters.Processing, (st.Solver.dom i).length ≠ 1)
    (hp : SelectPost P st st2) : SInv st2 := by
  obtain ⟨x, val, hx, _, hget, hkeys, ⟨r, hB, hci, hcv, hreg, hrem⟩, _, _, _⟩ :=
    hp.get h.procSub
  obtain ⟨x1, rest, v0, tl, hperm, hd, hproc, hr2, hb, hs⟩ := hp
  have hdom : ∀ k, st2.Solver.dom k = if k = x then [val] else st.Solver.dom k := by
    intro k
    unfold dom
    rw [hget k]
    split <;> rfl
  have hperm2 : List.Perm st2.Parameters.Processing st.Parameters.Processing := by
    rw [hproc]; exact hperm
  have hidx : idx r = st2.Parameters.Processing := by
    unfold idx
    rw [hrem]
    exact map_get_indice h.wf _ (fun i hi => h.procSub i (hperm2.subset hi))
  have hchoice : ∀ r2 ∈ st.Parameters.Backup, r2.ChoiceIndice ∉ st.Parameters.Processing := by
    intro r2 hr2 hmem
    have := h.choice r2 hr2
    exact hnon _ hmem (by rw [this]; rfl)
  refine { wf := ?_, noAdd := by rw [hs]; exact h.noAdd, reg := by rw [hr2, hkeys]; exact h.reg,
           procNodup := hperm2.nodup_iff.2 h.procNodup,
           procSub := ?_, inst := ?_, stack := ?_, choice := ?_, domNodup := ?_,
           recNodup := ?_ }
  · refine ⟨by rw [hkeys]; exact h.wf.1, ?_⟩
    intro k hk
    rw [hkeys] at hk
    rw [hget k]
    split
    · rename_i e
      subst e
      exact h.wf.2 k hk
    · exact h.wf.2 k hk
  · intro i hi
    rw [hkeys]
    exact h.procSub i (hperm2.subset hi)
  · intro k hk hk2
    rw [hkeys] at hk
    have hk3 : k ∉ st.Parameters.Processing := fun hm => hk2 (hperm2.symm.subset hm)
    have hkx : k ≠ x := fun e => hk3 (e ▸ hx)
    rw [hdom k, if_neg hkx]
    exact h.inst k hk hk3
  · rw [hB, hkeys]
    refine ⟨hreg.trans h.reg, ?_, ?_, ?_, ?_, ?_, ?_⟩
    · rw [hidx]; exact hperm2.nodup_iff.2 h.procNodup
    · intro i hi; rw [hidx]; exact hi
    · intro i hi
      rw [hidx] at hi
      exact h.procSub i (hperm2.subset hi)
    · rw [hidx, hci]
      exact hperm2.symm.subset hx
    · intro r2 hr2 hmem
      rw [hidx] at hmem
      exact hchoice r2 hr2 (hperm2.subset hmem)
    · exact h.stack.mono (fun i hi => by rw [hidx] at hi; exact hperm2.subset hi)
  · intro r2 hr2
    rw [hB] at hr2
    rcases List.mem_cons.1 hr2 with e | hmem
    · subst e
      rw [hdom, hci, if_pos rfl, hcv]
    · have hne : r2.ChoiceIndice ≠ x := fun e => hchoice r2 hmem (e ▸ hx)
      rw [hdom, if_neg hne]
      exact h.choice r2 hmem
  · intro k
    rw [hdom k]
    split
    · exact List.nodup_singleton _
    · exact h.domNodup k
  · intro r2 hr2
    rw [hB] at hr2
    rcases List.mem_cons.1 hr2 with e | hmem
    · subst e
      intro var hvar
      rw [hrem] at hvar
      obtain ⟨i, _, rfl⟩ := List.mem_map.1 hvar
      exact h.domNodup i
    · exact h.recNodup r2 hmem

end ConstraintSolver

end solver


namespace solver

namespace ConstraintSolver

variable {α ι : Type} [LinearOrder α] [LinearOrder ι]

/-! ## Backtracking in a search without added variables -/

theorem backtracking_noLate (st : search_t α ι) (r : record_t α ι) (rs : List (record_t α ι))
    (hB : st.Parameters.Backup = r :: rs)
    (hreg : st.Parameters.Register.drop r.Register.length = [])
    (hadd : st.Solver.AdditionalIndices = [])
    (hp : ∀ var ∈ r.RemainingVariables, (mapFind var.indice st.Solver.Variables).isSome = true) :
    backtracking st =
      { Solver := { st.Solver with
          Variables :=
            (match mapFind r.ChoiceIndice
                (r.RemainingVariables.foldl (fun m x => mapAssign x.indice x m)
                  st.Solver.Variables) with
              | some var => mapAssign r.ChoiceIndice (var.exclude r.ChoiceValue)
                  (r.RemainingVariables.foldl (fun m x => mapAssign x.indice x m)
                    st.Solver.Variables)
              | none => r.RemainingVariables.foldl (fun m x => mapAssign x.indice x m)
                  st.Solver.Variables),
          AdditionalIndices := [] },
        Parameters := { Processing := idx r, Register := r.Register, Backup := rs } } := by
  unfold backtracking
  simp only [hB, hreg, List.foldl_nil, hadd]
  rw [restore_eq _ _ _ hp]
  simp only [List.nil_append]
  rfl

theorem find?_indice_of_mem {l : List (Variable α ι)} (hn : (l.map Variable.indice).Nodup)
    {var : Variable α ι} (hv : var ∈ l) :
    l.find? (fun x => decide (x.indice = var.indice)) = some var := by
  induction l with
  | nil => cases hv
  | cons a l ih =>
    simp only [List.map_cons, List.nodup_cons] at hn
    rcases List.mem_cons.1 hv with e | hmem
    · subst e
      simp [List.find?_cons]
    · have hne : a.indice ≠ var.indice := by
        intro e
        exact hn.1 (e ▸ List.mem_map_of_mem _ hmem)
      simp only [List.find?_cons, hne, decide_False]
      exact ih hn.2 hmem

theorem find?_indice_none {l : List (Variable α ι)} {k : ι}
    (hk : k ∉ l.map Variable.indice) :
    l.find? (fun x => decide (x.indice = k)) = none := by
  rw [List.find?_eq_none]
  intro x hx
  have : x.indice ≠ k := fun e => hk (e ▸ List.mem_map_of_mem _ hx)
  simpa using this

/-- The solver after `backtracking`, read through the record that was popped. -/
theorem backtracking_get (st : search_t α ι) (h : SInv st) (r : record_t α ι)
    (rs : List (record_t α ι)) (hB : st.Parameters.Backup = r :: rs) :
    (backtracking st).Parameters =
      { Processing := idx r, Register := st.Parameters.Register, Backup := rs } ∧
    (backtracking st).Solver.keys = st.Solver.keys ∧
    (backtracking st).Solver.AdditionalIndices = [] ∧
    (backtracking st).Solver.SolutionList = st.Solver.SolutionList ∧
    (backtracking st).Solver.RejectedIndices = st.Solver.RejectedIndices ∧
    (backtracking st).Solver.IsSolveInProgress = st.Solver.IsSolveInProgress ∧
    (∀ var ∈ r.RemainingVariables, (backtracking st).Solver.get var.indice =
      if var.indice = r.ChoiceIndice then var.exclude r.ChoiceValue else var) ∧
    (∀ k, k ∉ idx r → (backtracking st).Solver.get k = st.Solver.get k) := by
  have hst := h.stack
  rw [hB] at hst
  obtain ⟨h1, h2, h3, h4, h5, h6, h7⟩ := hst
  have hp : ∀ var ∈ r.RemainingVariables,
      (mapFind var.indice st.Solver.Variables).isSome = true := by
    intro var hv
    exact (mapFind_isSome_iff _ _).2 (h4 _ (List.mem_map_of_mem _ hv))
  have hreg : st.Parameters.Register.drop r.Register.length = [] := by
    rw [h1, h.reg]; simp
  rw [backtracking_noLate st r rs hB hreg h.noAdd hp]
  have hfind : ∀ var ∈ r.RemainingVariables,
      mapFind var.indice (r.RemainingVariables.foldl (fun m x => mapAssign x.indice x m)
        st.Solver.Variables) = some var :=
    fun var hv => mapFind_foldl_assign_mem _ _ h2 var hv (hp var hv)
  obtain ⟨cvar, hcv, hci⟩ := List.mem_map.1 h5
  have hfc := hfind cvar hcv
  rw [hci] at hfc
  simp only [hfc]
  refine ⟨by rw [h1, h.reg], ?_, trivial, trivial, trivial, trivial, ?_, ?_⟩
  · unfold keys
    simp only
    rw [map_fst_mapAssign, map_fst_foldl_assign]
  · intro var hv
    unfold get
    simp only
    by_cases he : var.indice = r.ChoiceIndice
    · rw [if_pos he, he, mapFind_mapAssign_self, hfc]
      have : cvar = var := by
        have e1 := hfind var hv
        rw [he, hfc] at e1
        exact Option.some.inj e1
      subst this
      rfl
    · rw [if_neg he, mapFind_mapAssign_ne he, hfind var hv]
  · intro k hk
    have hne : k ≠ r.ChoiceIndice := fun e => hk (e ▸ h5)
    unfold get
    simp only
    rw [mapFind_mapAssign_ne hne, mapFind_foldl_assign_not_mem _ _ _ hk]

/-- The domains after `backtracking` are the frame of the record popped. -/
theorem backtracking_dom (st : search_t α ι) (h : SInv st) (r : record_t α ι)
    (rs : List (record_t α ι)) (hB : st.Parameters.Backup = r :: rs) (k : ι) :
    (backtracking st).Solver.dom k = frameDom st.Solver r k := by
  obtain ⟨_, _, _, _, _, _, hin, hout⟩ := backtracking_get st h r rs hB
  have hst := h.stack
  rw [hB] at hst
  obtain ⟨h1, h2, h3, h4, h5, h6, h7⟩ := hst
  unfold frameDom dom
  by_cases hk : k ∈ idx r
  · obtain ⟨var, hv, rfl⟩ := List.mem_map.1 hk
    rw [find?_indice_of_mem h2 hv, hin var hv]
    simp only
    split
    · rfl
    · rfl
  · rw [find?_indice_none hk, hout k hk]

theorem SInv.of_backtracking {st : search_t α ι} (h : SInv st) (r : record_t α ι)
    (rs : List (record_t α ι)) (hB : st.Parameters.Backup = r :: rs) :
    SInv (backtracking st) := by
  obtain ⟨hP, hkeys, hadd, _, _, _, hin, hout⟩ := backtracking_get st h r rs hB
  have hst := h.stack
  rw [hB] at hst
  obtain ⟨h1, h2, h3, h4, h5, h6, h7⟩ := hst
  refine { wf := ?_, noAdd := hadd, reg := by rw [hP, hkeys]; exact h.reg,
           procNodup := by rw [hP]; exact h2,
           procSub := ?_, inst := ?_, stack := ?_, choice := ?_, domNodup := ?_,
           recNodup := ?_ }
  · refine ⟨by rw [hkeys]; exact h.wf.1, ?_⟩
    intro k hk
    rw [hkeys] at hk
    by_cases hki : k ∈ idx r
    · obtain ⟨var, hv, rfl⟩ := List.mem_map.1 hki
      rw [hin var hv]
      split <;> rfl
    · rw [hout k hki]
      exact h.wf.2 k hk
  · intro i hi
    rw [hP] at hi
    rw [hkeys]
    exact h4 i hi
  · intro k hk hk2
    rw [hkeys] at hk
    rw [hP] at hk2
    unfold dom
    rw [hout k hk2]
    exact h.inst k hk (fun hm => hk2 (h3 k hm))
  · rw [hP, hkeys]
    exact h7
  · intro r2 hr2
    rw [hP] at hr2
    have hmem : r2 ∈ st.Parameters.Backup := by rw [hB]; exact List.mem_cons_of_mem _ hr2
    unfold dom
    rw [hout _ (h6 r2 hr2)]
    exact h.choice r2 hmem
  · intro k
    by_cases hki : k ∈ idx r
    · obtain ⟨var, hv, rfl⟩ := List.mem_map.1 hki
      unfold dom
      rw [hin var hv]
      have hvn := h.recNodup r (by rw [hB]; exact List.mem_cons_self _ _) var hv
      split
      · exact hvn.filter _
      · exact hvn
    · unfold dom
      rw [hout k hki]
      exact h.domNodup k
  · intro r2 hr2
    rw [hP] at hr2
    exact h.recNodup r2 (by rw [hB]; exact List.mem_cons_of_mem _ hr2)

/-! ## Frames of the stack -/

theorem frameDom_congr {s t : ConstraintSolver α ι} (r : record_t α ι) (k : ι)
    (h : k ∉ idx r → t.dom k = s.dom k) : frameDom t r k = frameDom s r k := by
  unfold frameDom
  by_cases hk : k ∈ idx r
  · obtain ⟨var, hv, rfl⟩ := List.mem_map.1 hk
    cases hf : r.RemainingVariables.find? (fun x => decide (x.indice = var.indice)) with
    | none =>
      have := List.find?_eq_none.1 hf var hv
      simp at this
    | some w => rfl
  · rw [find?_indice_none hk]
    exact h hk

theorem SInv.frozen {st : search_t α ι} (h : SInv st) (r : record_t α ι)
    (hr : r ∈ st.Parameters.Backup) (k : ι) (hk : k ∉ idx r) : (st.Solver.dom k).length ≤ 1 := by
  by_cases hkeys : k ∈ st.Solver.keys
  · have := h.inst k hkeys (fun hm => hk (h.stack.covers r hr k hm))
    omega
  · rw [dom_nil_of_not_mem hkeys]; simp

/-- Propagation leaves the frames of the stack as they are. -/
theorem frameDom_of_shrinks {st : search_t α ι} (h : SInv st) {t : ConstraintSolver α ι}
    (hs : Shrinks st.Solver t) (r : record_t α ι) (hr : r ∈ st.Parameters.Backup) (k : ι) :
    frameDom t r k = frameDom st.Solver r k :=
  frameDom_congr r k (fun hk => hs.fixed k (h.frozen r hr k hk))

/-- Backtracking leaves the frames of the records that stay as they are. -/
theorem frameDom_of_backtracking {st : search_t α ι} (h : SInv st) (r : record_t α ι)
    (rs : List (record_t α ι)) (hB : st.Parameters.Backup = r :: rs) (r2 : record_t α ι)
    (hr2 : r2 ∈ rs) (k : ι) :
    frameDom (backtracking st).Solver r2 k = frameDom st.Solver r2 k := by
  apply frameDom_congr
  intro hk
  obtain ⟨_, _, _, _, _, _, _, hout⟩ := backtracking_get st h r rs hB
  have hst := h.stack
  rw [hB] at hst
  obtain ⟨h1, h2, h3, h4, h5, h6, h7⟩ := hst
  unfold dom
  rw [hout k (fun hm => hk (h7.covers r2 hr2 k hm))]

/-- A branching step leaves the frames of the older records as they are, and
the frame of the new record is the current box without the chosen value. -/
theorem frameDom_of_select {P : Policies α ι} {st st2 : search_t α ι} (h : SInv st)
    (hp : SelectPost P st st2) (r2 : record_t α ι) (hr2 : r2 ∈ st.Parameters.Backup) (k : ι) :
    frameDom st2.Solver r2 k = frameDom st.Solver r2 k := by
  apply frameDom_congr
  intro hk
  obtain ⟨x, val, hx, _, hget, _, _, _, _, _⟩ := hp.get h.procSub
  have hne : k ≠ x := fun e => hk (e ▸ h.stack.covers r2 hr2 x hx)
  unfold dom
  rw [hget k, if_neg hne]

end ConstraintSolver

end solver


namespace solver

namespace ConstraintSolver

variable {α ι : Type} [LinearOrder α] [LinearOrder ι]

/-! ## The loop of `SearchSolution` -/

theorem SearchSolution_zero (P : Policies α ι) (total : Nat) (st : search_t α ι) :
    SearchSolution P total 0 st = Run.stall st := rfl

theorem SearchSolution_succ (P : Policies α ι) (total fuel : Nat) (st : search_t α ι) :
    SearchSolution P total (fuel + 1) st =
      match searchIteration P total st with
      | Run.ret none st1 => SearchSolution P total fuel st1
      | Run.ret (some b) st1 => Run.ret b st1
      | Run.raise st1 => Run.raise st1
      | Run.stall st1 => Run.stall st1 := by
  rw [SearchSolution]
  unfold searchIteration
  cases hb : searchBody P total st with
  | raise st1 => rfl
  | stall st1 => rfl
  | ret b st1 =>
    obtain ⟨sat, part⟩ := b
    simp only
    by_cases h1 : (!sat && !st1.Parameters.Backup.isEmpty) = true
    · rw [if_pos h1, if_pos h1]
    · rw [if_neg h1, if_neg h1]
      by_cases h2 : (!(sat && !part) && sat) = true
      · rw [if_pos h2, if_pos h2]
      · rw [if_neg h2, if_neg h2]

/-- Safety rule for the loop: an invariant of the turns that go on holds of
the state in which the loop ends, whatever the budget. -/
theorem SearchSolution_safe (P : Policies α ι) (total : Nat)
    (Inv : search_t α ι → Prop) (Fin : Bool → search_t α ι → Prop)
    (Weak : search_t α ι → Prop) (hw : ∀ st, Inv st → Weak st)
    (hstep : ∀ st, Inv st →
      match searchIteration P total st with
      | Run.ret none st1 => Inv st1
      | Run.ret (some b) st1 => Fin b st1
      | Run.raise st1 => Weak st1
      | Run.stall st1 => Weak st1) :
    ∀ (fuel : Nat) (st : search_t α ι), Inv st →
      match SearchSolution P total fuel st with
      | Run.ret b st1 => Fin b st1
      | Run.raise st1 => Weak st1
      | Run.stall st1 => Weak st1 := by
  intro fuel
  induction fuel with
  | zero => intro st h; exact hw st h
  | succ fuel ih =>
    intro st h
    rw [SearchSolution_succ]
    have hs := hstep st h
    cases hi : searchIteration P total st with
    | raise st1 => rw [hi] at hs; exact hs
    | stall st1 => rw [hi] at hs; exact hs
    | ret o st1 =>
      rw [hi] at hs
      cases o with
      | none => exact ih st1 hs
      | some b => exact hs

/-- Termination rule for the loop: when every turn from a state of the
invariant either ends the loop or goes on to a state of smaller measure, the
loop returns within a budget above the measure. -/
theorem SearchSolution_total (P : Policies α ι) (total : Nat)
    (Inv : search_t α ι → Prop) (Fin : Bool → search_t α ι → Prop)
    (μ : search_t α ι → Nat)
    (hstep : ∀ st, Inv st →
      match searchIteration P total st with
      | Run.ret none st1 => Inv st1 ∧ μ st1 < μ st
      | Run.ret (some b) st1 => Fin b st1 ∧ μ st1 ≤ μ st
      | Run.raise _ => False
      | Run.stall _ => False) :
    ∀ (fuel : Nat) (st : search_t α ι), Inv st → μ st < fuel →
      ∃ b st1, SearchSolution P total fuel st = Run.ret b st1 ∧ Fin b st1 ∧ μ st1 ≤ μ st := by
  intro fuel
  induction fuel with
  | zero => intro st _ hf; exact absurd hf (Nat.not_lt_zero _)
  | succ fuel ih =>
    intro st h hf
    rw [SearchSolution_succ]
    have hs := hstep st h
    cases hi : searchIteration P total st with
    | raise st1 => rw [hi] at hs; exact hs.elim
    | stall st1 => rw [hi] at hs; exact hs.elim
    | ret o st1 =>
      rw [hi] at hs
      cases o with
      | none =>
        obtain ⟨b, st2, e1, e2, e3⟩ := ih st1 hs.1 (by have := hs.2; omega)
        exact ⟨b, st2, e1, e2, by have := hs.2; omega⟩
      | some b => exact ⟨b, st1, rfl, hs.1, hs.2⟩

end ConstraintSolver

end solver


namespace solver

namespace ConstraintSolver

variable {α ι : Type} [LinearOrder α] [LinearOrder ι]

/-- The state after a propagation that returned. -/
theorem SInv.of_partition {P : Policies α ι} (hS : ShrinkOnly P.Constraints) {total : Nat}
    {st st1 : search_t α ι} {b : Bool × Bool} (h : SInv st)
    (hp : partitionAndConstrain P total st = Run.ret b st1) :
    PartPost st (Run.ret b st1) ∧ SInv st1 := by
  have := (partitionAndConstrain_spec P hS total st h.noAdd h.domNodup).1
  rw [hp] at this
  exact ⟨this, h.of_part this⟩

/-- One turn of the loop of `SearchSolution` from a state of the structural
invariant. -/
theorem searchIteration_cases (P : Policies α ι) (hS : ShrinkOnly P.Constraints)
    (hsort : ∀ cmp l, List.Perm (P.StdSort cmp l) l) (total : Nat) (st : search_t α ι)
    (h : SInv st) : IterCase P total st (searchIteration P total st) := by
  unfold searchIteration searchBody
  cases hproc : st.Parameters.Processing with
  | nil =>
    simp only [List.isEmpty_nil, Bool.not_true, Bool.false_eq_true, if_false, Bool.not_false,
      Bool.true_and]
    cases hB : st.Parameters.Backup with
    | nil =>
      simp only [List.isEmpty_nil, Bool.not_true, Bool.false_eq_true, if_false,
        Bool.false_and, Bool.and_false]
      exact IterCase.emptyStop hproc hB
    | cons r rs =>
      simp only [List.isEmpty_cons, Bool.not_false, if_true]
      exact IterCase.emptyBack r rs hproc hB
  | cons p0 ps =>
    have hne : st.Parameters.Processing ≠ [] := by rw [hproc]; simp
    simp only [List.isEmpty_cons, Bool.not_false, if_true]
    have hspec := partitionAndConstrain_spec P hS total st h.noAdd h.domNodup
    cases hpc : partitionAndConstrain P total st with
    | raise st1 =>
      have := hspec.1
      rw [hpc] at this
      exact this.elim
    | stall st1 =>
      simp only
      refine IterCase.stalls st1 hne hpc ?_
      intro hlt
      obtain ⟨b, st2, e⟩ := hspec.2 hlt
      rw [hpc] at e
      cases e
    | ret b st1 =>
      obtain ⟨hpost, hinv1⟩ := h.of_partition hS hpc
      obtain ⟨sat, part⟩ := b
      obtain ⟨e0, e1, e2, e3, e4, e5, e6⟩ := hpost
      simp only at e0 e6
      cases part with
      | false =>
        simp only [Bool.false_eq_true, if_false, Bool.not_false, Bool.and_true]
        cases sat with
        | false =>
          simp only [Bool.not_false, Bool.true_and, Bool.false_and, Bool.and_false]
          cases hB : st1.Parameters.Backup with
          | nil =>
            simp only [List.isEmpty_nil, Bool.not_true, Bool.false_eq_true, if_false]
            exact IterCase.failStop st1 hne hpc hB
          | cons r rs =>
            simp only [List.isEmpty_cons, Bool.not_false, if_true]
            exact IterCase.failBack st1 r rs hne hpc hB
        | true =>
          simp only [Bool.not_true, Bool.false_and, Bool.false_eq_true, if_false,
            Bool.and_true]
          refine IterCase.solved st1 hne hpc ?_
          have : (!st1.Parameters.Processing.isEmpty) = false := by simpa using e0.symm
          cases hp1 : st1.Parameters.Processing with
          | nil => rfl
          | cons a l => rw [hp1] at this; simp at this
      | true =>
        have hsat : sat = true := by
          cases sat with
          | false => simp at e0
          | true => rfl
        subst hsat
        have hne1 : st1.Parameters.Processing ≠ [] := by
          intro e
          rw [e] at e0
          simp at e0
        simp only [if_true]
        rcases selectVariableAndValue_spec P hsort st1 hinv1.wf hinv1.procSub with
          ⟨st2, hs, hpost2⟩ | ⟨st2, hs, hs1, hs2, hs3⟩
        · rw [hs]
          simp only [Bool.not_true, Bool.false_and, Bool.false_eq_true, if_false,
            Bool.and_false, Bool.not_false, Bool.and_self, if_true]
          exact IterCase.branch st1 st2 hne hpc hne1 (e6 rfl) hpost2
        · rw [hs]
          simp only
          refine IterCase.throws st1 st2 hne hpc hs1 ?_
          rcases hs3 with e | e
          · exact absurd e hne1
          · exact e

/-- The structural invariant after one turn of the loop. -/
theorem IterCase.sinv {P : Policies α ι} (hS : ShrinkOnly P.Constraints) {total : Nat}
    {st : search_t α ι} (h : SInv st) {o : Option Bool} {st2 : search_t α ι}
    (hc : IterCase P total st (Run.ret o st2)) : SInv st2 := by
  cases hc with
  | emptyStop _ _ => exact h
  | emptyBack r rs _ hB => exact h.of_backtracking r rs hB
  | failStop st1 _ hpc _ => exact (h.of_partition hS hpc).2
  | failBack st1 r rs _ hpc hB => exact (h.of_partition hS hpc).2.of_backtracking r rs hB
  | solved st1 _ hpc _ => exact (h.of_partition hS hpc).2
  | branch st1 _ _ hpc _ hnon hsel => exact (h.of_partition hS hpc).2.of_select hnon hsel

end ConstraintSolver

end solver


namespace solver

section containers

variable {κ β : Type} [LinearOrder κ]

theorem mem_setInsert (x y : κ) (l : List κ) : y ∈ setInsert x l ↔ y = x ∨ y ∈ l := by
  induction l with
  | nil => simp [setInsert]
  | cons a l ih =>
    unfold setInsert
    by_cases h1 : x < a
    · simp [h1]
    · by_cases h2 : x = a
      · subst h2
        simp [h1]
      · simp only [h1, h2, if_false, List.mem_cons, ih]
        tauto

theorem setInsert_sorted (x : κ) (l : List κ) (h : l.Pairwise (fun a b => a < b)) :
    (setInsert x l).Pairwise (fun a b => a < b) := by
  induction l with
  | nil => simp [setInsert]
  | cons a l ih =>
    unfold setInsert
    rw [List.pairwise_cons] at h
    by_cases h1 : x < a
    · rw [if_pos h1]
      refine List.pairwise_cons.2 ⟨?_, List.pairwise_cons.2 h⟩
      intro b hb
      rcases List.mem_cons.1 hb with e | hm
      · rw [e]; exact h1
      · exact lt_trans h1 (h.1 b hm)
    · rw [if_neg h1]
      by_cases h2 : x = a
      · rw [if_pos h2]
        exact List.pairwise_cons.2 h
      · rw [if_neg h2]
        refine List.pairwise_cons.2 ⟨?_, ih h.2⟩
        intro b hb
        rcases (mem_setInsert x b l).1 hb with e | hm
        · rw [e]
          exact lt_of_le_of_ne (not_lt.1 h1) (fun e2 => h2 e2.symm)
        · exact h.1 b hm

theorem setOfRange_sorted (xs : List κ) : (setOfRange xs).Pairwise (fun a b => a < b) := by
  unfold setOfRange
  have : ∀ (acc : List κ), acc.Pairwise (fun a b => a < b) →
      (xs.foldl (fun acc x => setInsert x acc) acc).Pairwise (fun a b => a < b) := by
    induction xs with
    | nil => intro acc h; exact h
    | cons x xs ih => intro acc h; exact ih _ (setInsert_sorted x acc h)
  exact this [] List.Pairwise.nil

theorem mem_setOfRange (xs : List κ) (y : κ) : y ∈ setOfRange xs ↔ y ∈ xs := by
  unfold setOfRange
  have : ∀ (acc : List κ),
      y ∈ xs.foldl (fun acc x => setInsert x acc) acc ↔ y ∈ acc ∨ y ∈ xs := by
    induction xs with
    | nil => intro acc; simp
    | cons x xs ih =>
      intro acc
      rw [List.foldl_cons, ih, mem_setInsert]
      simp only [List.mem_cons]
      tauto
  simpa using this []

theorem setOfRange_nodup (xs : List κ) : (setOfRange xs).Nodup :=
  (setOfRange_sorted xs).imp (fun h => ne_of_lt h)

theorem mapInsert_spec (k : κ) (v : β) (m : List (κ × β))
    (h : (m.map Prod.fst).Pairwise (fun a b => a < b)) :
    ((mapInsert k v m).2 = true ↔ k ∉ m.map Prod.fst) ∧
    ((mapInsert k v m).1.map Prod.fst).Pairwise (fun a b => a < b) ∧
    (∀ j, j ∈ (mapInsert k v m).1.map Prod.fst ↔ j = k ∨ j ∈ m.map Prod.fst) ∧
    (∀ j, mapFind j (mapInsert k v m).1 =
      if j = k ∧ k ∉ m.map Prod.fst then some v else mapFind j m) := by
  induction m with
  | nil =>
    refine ⟨by simp [mapInsert], by simp [mapInsert], by simp [mapInsert], ?_⟩
    intro j
    by_cases hj : j = k
    · subst hj; simp [mapInsert, mapFind]
    · have : ¬ k = j := fun e => hj e.symm
      simp [mapInsert, mapFind, hj, this]
  | cons p m ih =>
    obtain ⟨k1, v1⟩ := p
    simp only [List.map_cons, List.pairwise_cons] at h
    obtain ⟨ih1, ih2, ih3, ih4⟩ := ih h.2
    unfold mapInsert
    by_cases h1 : k < k1
    · have hk1 : k ≠ k1 := ne_of_lt h1
      have hnot : k ∉ m.map Prod.fst := by
        intro hm
        exact lt_asymm h1 (h.1 k hm)
      have hnot2 : k ∉ ((k1, v1) :: m).map Prod.fst := by
        simp only [List.map_cons, List.mem_cons, not_or]
        exact ⟨hk1, hnot⟩
      simp only [h1, if_true]
      refine ⟨⟨fun _ => hnot2, fun _ => trivial⟩, ?_, by simp, ?_⟩
      · simp only [List.map_cons, List.pairwise_cons]
        refine ⟨?_, h⟩
        intro b hb
        rcases List.mem_cons.1 hb with e | hm
        · rw [e]; exact h1
        · exact lt_trans h1 (h.1 b hm)
      · intro j
        by_cases hj : j = k
        · subst hj
          rw [if_pos ⟨rfl, hnot2⟩]
          simp [mapFind]
        · have : ¬ k = j := fun e => hj e.symm
          rw [if_neg (fun hh => hj hh.1)]
          simp [mapFind, this]
    · simp only [h1, if_false]
      by_cases h2 : k = k1
      · subst h2
        simp only [if_true]
        refine ⟨by simp, by simpa using h, by simp, ?_⟩
        intro j
        rw [if_neg]
        simp
      · simp only [h2, if_false]
        have hlt : k1 < k := lt_of_le_of_ne (not_lt.1 h1) (fun e => h2 e.symm)
        refine ⟨?_, ?_, ?_, ?_⟩
        · rw [ih1]
          simp [h2]
        · simp only [List.map_cons, List.pairwise_cons]
          refine ⟨?_, ih2⟩
          intro b hb
          rcases (ih3 b).1 hb with e | hm
          · rw [e]; exact hlt
          · exact h.1 b hm
        · intro j
          simp only [List.map_cons, List.mem_cons, ih3]
          tauto
        · intro j
          simp only [mapFind]
          by_cases hj1 : k1 = j
          · rw [if_pos hj1, if_pos hj1, if_neg]
            intro hh
            exact h2 (hh.1.symm.trans hj1.symm)
          · rw [if_neg hj1, if_neg hj1, ih4 j]
            by_cases hc : j = k ∧ k ∉ m.map Prod.fst
            · rw [if_pos hc, if_pos]
              refine ⟨hc.1, ?_⟩
              simp only [List.map_cons, List.mem_cons, not_or]
              exact ⟨h2, hc.2⟩
            · rw [if_neg hc, if_neg]
              intro hh
              apply hc
              refine ⟨hh.1, ?_⟩
              intro hm
              exact hh.2 (List.mem_cons_of_mem _ hm)

end containers

namespace ConstraintSolver

variable {α ι : Type} [LinearOrder α] [LinearOrder ι]

theorem WF.nodup {s : ConstraintSolver α ι} (h : WF s) : s.keys.Nodup :=
  h.1.imp (fun h => ne_of_lt h)

/-- What `addVariable` does to a well-formed solver. -/
theorem addVariable_spec (domain : List α) (indice : ι) (s : ConstraintSolver α ι)
    (hw : WF s) :
    ((addVariable domain indice s).1 = true ↔ indice ∉ s.keys) ∧
    WF (addVariable domain indice s).2 ∧
    (∀ j, j ∈ (addVariable domain indice s).2.keys ↔ j = indice ∨ j ∈ s.keys) ∧
    (∀ j, (addVariable domain indice s).2.get j =
      if j = indice ∧ indice ∉ s.keys then Variable.mk indice (setOfRange domain)
      else s.get j) ∧
    (addVariable domain indice s).2.IsSolveInProgress = s.IsSolveInProgress ∧
    (addVariable domain indice s).2.RejectedIndices = s.RejectedIndices ∧
    (addVariable domain indice s).2.SolutionList = s.SolutionList ∧
    (s.IsSolveInProgress = false →
      (addVariable domain indice s).2.AdditionalIndices = s.AdditionalIndices) := by
  obtain ⟨h1, h2, h3, h4⟩ :=
    mapInsert_spec indice (Variable.mk indice (setOfRange domain)) s.Variables hw.1
  have hvars : (addVariable domain indice s).2.Variables =
      (mapInsert indice (Variable.mk indice (setOfRange domain)) s.Variables).1 := by
    unfold addVariable
    simp only
    split <;> rfl
  have hget : ∀ j, (addVariable domain indice s).2.get j =
      if j = indice ∧ indice ∉ s.keys then Variable.mk indice (setOfRange domain)
      else s.get j := by
    intro j
    unfold get
    rw [hvars, h4 j]
    unfold keys
    by_cases hc : j = indice ∧ indice ∉ s.Variables.map Prod.fst
    · rw [if_pos hc, if_pos hc]
    · rw [if_neg hc, if_neg hc]
  refine ⟨?_, ⟨?_, ?_⟩, ?_, hget, ?_, ?_, ?_, ?_⟩
  · have : (addVariable domain indice s).1 =
        (mapInsert indice (Variable.mk indice (setOfRange domain)) s.Variables).2 := by
      unfold addVariable
      simp only
      split <;> rfl
    rw [this]
    exact h1
  · unfold keys; rw [hvars]; exact h2
  · intro k hk
    rw [hget k]
    split
    · rename_i h; exact h.1.symm
    · rename_i h
      have hk2 : k ∈ s.keys := by
        unfold keys at hk
        rw [hvars] at hk
        rcases (h3 k).1 hk with e | hm
        · by_contra hn
          exact h ⟨e, e ▸ hn⟩
        · exact hm
      exact hw.2 k hk2
  · intro j
    unfold keys; rw [hvars]; exact h3 j
  · unfold addVariable; simp only; split <;> rfl
  · unfold addVariable; simp only; split <;> rfl
  · unfold addVariable; simp only; split <;> rfl
  · intro hp
    unfold addVariable
    simp only [hp, Bool.and_false, Bool.false_eq_true, if_false]

/-- A fresh solver is well formed, idle, and has recorded nothing. -/
theorem Fresh.facts {s : ConstraintSolver α ι} (h : Fresh s) :
    WF s ∧ DomNodup s ∧ s.IsSolveInProgress = false ∧ s.AdditionalIndices = [] ∧
    s.RejectedIndices = [] ∧ s.SolutionList = [] := by
  induction h with
  | new =>
    refine ⟨⟨List.Pairwise.nil, fun k hk => by cases hk⟩, ?_, rfl, rfl, rfl, rfl⟩
    intro k
    exact List.nodup_nil
  | add domain indice hs ih =>
    obtain ⟨hw, hn, hp, ha, hr, hl⟩ := ih
    obtain ⟨_, h2, _, h4, h5, h6, h7, h8⟩ := addVariable_spec domain indice _ hw
    refine ⟨h2, ?_, by rw [h5]; exact hp, by rw [h8 hp]; exact ha, by rw [h6]; exact hr,
      by rw [h7]; exact hl⟩
    intro k
    unfold dom
    rw [h4 k]
    split
    · exact setOfRange_nodup domain
    · exact hn k

theorem SInv.start {s : ConstraintSolver α ι} (hw : WF s) (hn : DomNodup s)
    (ha : s.AdditionalIndices = []) : SInv (startSearch s) := by
  have hk : (startSearch s).Solver.keys = s.keys := rfl
  have hd : ∀ k, (startSearch s).Solver.dom k = s.dom k := fun _ => rfl
  refine { wf := ⟨hw.1, hw.2⟩, noAdd := ha, reg := rfl, procNodup := hw.nodup,
           procSub := fun i hi => hi, inst := ?_, stack := trivial,
           choice := ?_, domNodup := hn, recNodup := ?_ }
  · intro k hk1 hk2
    exact absurd hk1 hk2
  · intro r hr
    exact absurd hr (List.not_mem_nil r)
  · intro r hr
    exact absurd hr (List.not_mem_nil r)

end ConstraintSolver

end solver


namespace solver

namespace ConstraintSolver

variable {α ι : Type} [LinearOrder α] [LinearOrder ι]

/-! ## What a search keeps, and what it records -/

theorem Kept.same (s : ConstraintSolver α ι) : Kept s s := ⟨rfl, rfl, rfl, rfl⟩

theorem Kept.andThen {s t u : ConstraintSolver α ι} (h1 : Kept s t) (h2 : Kept t u) : Kept s u :=
  ⟨h2.1.trans h1.1, h2.2.1.trans h1.2.1, h2.2.2.1.trans h1.2.2.1, h2.2.2.2.trans h1.2.2.2⟩

theorem Kept.by_shrinks {s t : ConstraintSolver α ι} (h : Shrinks s t) : Kept s t :=
  ⟨h.keys, h.solutions, h.rejected, h.progress⟩

theorem Kept.by_select {P : Policies α ι} {st st2 : search_t α ι} (h : SelectPost P st st2) :
    Kept st.Solver st2.Solver := by
  obtain ⟨x, rest, v0, tl, _, _, _, _, _, hs⟩ := h
  rw [hs]
  exact ⟨map_fst_mapAssign _ _ _, rfl, rfl, rfl⟩

theorem Kept.by_backtracking {st : search_t α ι} (h : SInv st) (r : record_t α ι)
    (rs : List (record_t α ι)) (hB : st.Parameters.Backup = r :: rs) :
    Kept st.Solver (backtracking st).Solver := by
  obtain ⟨_, hk, _, hl, hr, hp, _, _⟩ := backtracking_get st h r rs hB
  exact ⟨hk, hl, hr, hp⟩

theorem IterCase.kept {P : Policies α ι} (hS : ShrinkOnly P.Constraints) {total : Nat}
    {st : search_t α ι} (h : SInv st) {r : Run (search_t α ι) (Option Bool)}
    (hc : IterCase P total st r) : Kept st.Solver r.state.Solver := by
  cases hc with
  | emptyStop _ _ => exact Kept.same _
  | emptyBack r rs _ hB => exact Kept.by_backtracking h r rs hB
  | failStop st1 _ hpc _ => exact Kept.by_shrinks (h.of_partition hS hpc).1.2.1
  | failBack st1 r rs _ hpc hB =>
    exact (Kept.by_shrinks (h.of_partition hS hpc).1.2.1).andThen
      (Kept.by_backtracking (h.of_partition hS hpc).2 r rs hB)
  | solved st1 _ hpc _ => exact Kept.by_shrinks (h.of_partition hS hpc).1.2.1
  | branch st1 st2 _ hpc _ hnon hsel =>
    exact (Kept.by_shrinks (h.of_partition hS hpc).1.2.1).andThen (Kept.by_select hsel)
  | throws st1 st2 _ hpc hs _ =>
    have := Kept.by_shrinks (h.of_partition hS hpc).1.2.1
    simp only [Run.state]
    rw [hs]
    exact this
  | stalls st1 _ hpc _ =>
    have := (partitionAndConstrain_spec P hS total st h.noAdd h.domNodup).1
    rw [hpc] at this
    exact Kept.by_shrinks this

/-- The loop of `SearchSolution` keeps the structural invariant, the indices
and the registry; when it reports a solution, `Processing` is empty. -/
theorem SearchSolution_sinv (P : Policies α ι) (hS : ShrinkOnly P.Constraints)
    (hsort : ∀ cmp l, List.Perm (P.StdSort cmp l) l) (total fuel : Nat) (st : search_t α ι)
    (h : SInv st) :
    match SearchSolution P total fuel st with
    | Run.ret b st1 => SInv st1 ∧ Kept st.Solver st1.Solver ∧
        (b = true → st1.Parameters.Processing = [])
    | Run.raise st1 => Kept st.Solver st1.Solver
    | Run.stall st1 => Kept st.Solver st1.Solver := by
  refine SearchSolution_safe P total (fun st1 => SInv st1 ∧ Kept st.Solver st1.Solver)
    (fun b st1 => SInv st1 ∧ Kept st.Solver st1.Solver ∧
      (b = true → st1.Parameters.Processing = []))
    (fun st1 => Kept st.Solver st1.Solver) (fun _ h1 => h1.2) ?_ fuel st ⟨h, Kept.same _⟩
  intro st1 ⟨h1, hk⟩
  have hc := searchIteration_cases P hS hsort total st1 h1
  have hkept := hc.kept hS h1
  cases hi : searchIteration P total st1 with
  | raise st2 => rw [hi] at hkept; exact hk.andThen hkept
  | stall st2 => rw [hi] at hkept; exact hk.andThen hkept
  | ret o st2 =>
    rw [hi] at hkept hc
    have hs2 := hc.sinv hS h1
    cases o with
    | none => exact ⟨hs2, hk.andThen hkept⟩
    | some b =>
      refine ⟨hs2, hk.andThen hkept, ?_⟩
      intro hb
      subst hb
      cases hc with
      | solved _ _ _ hp => exact hp

/-- Reading the map at an index of a well-formed solver. -/
theorem mapFind_eq_get {s : ConstraintSolver α ι} {k : ι} (hk : k ∈ s.keys) :
    mapFind k s.Variables = some (s.get k) := by
  unfold get
  have := (mapFind_isSome_iff k s.Variables).2 hk
  cases hf : mapFind k s.Variables with
  | none => rw [hf] at this; cases this
  | some w => rfl

theorem filterMap_find_keys (s : ConstraintSolver α ι) (l : List ι) (hl : ∀ k ∈ l, k ∈ s.keys) :
    l.filterMap (fun i => mapFind i s.Variables) = l.map (fun i => s.get i) := by
  induction l with
  | nil => rfl
  | cons a l ih =>
    rw [List.filterMap_cons, mapFind_eq_get (hl a (List.mem_cons_self _ _)),
      ih (fun k hk => hl k (List.mem_cons_of_mem _ hk))]
    rfl

/-- The solution recorded from a state in which `Processing` is empty. -/
theorem recordSolution_spec {st : search_t α ι} (h : SInv st)
    (hp : st.Parameters.Processing = []) :
    (recordSolution st).Solver.SolutionList =
      st.Solver.SolutionList ++ [st.Solver.keys.map (fun i => st.Solver.get i)] ∧
    GoodSolution st.Solver.keys (st.Solver.keys.map (fun i => st.Solver.get i)) ∧
    (recordSolution st).Parameters = st.Parameters ∧
    (recordSolution st).Solver.Variables = st.Solver.Variables ∧
    SInv (recordSolution st) := by
  have e : (recordSolution st).Solver.SolutionList =
      st.Solver.SolutionList ++ [st.Solver.keys.map (fun i => st.Solver.get i)] := by
    unfold recordSolution
    simp only
    rw [h.reg, filterMap_find_keys _ _ (fun k hk => hk)]
  refine ⟨e, ⟨?_, ?_⟩, rfl, rfl, ?_⟩
  · exact map_get_indice h.wf _ (fun k hk => hk)
  · intro var hv
    obtain ⟨k, hk, rfl⟩ := List.mem_map.1 hv
    have := h.inst k hk (by rw [hp]; exact List.not_mem_nil k)
    simpa [Variable.isInstantiated, dom] using this
  · exact { wf := h.wf, noAdd := h.noAdd, reg := h.reg, procNodup := h.procNodup,
            procSub := h.procSub, inst := h.inst, stack := h.stack, choice := h.choice,
            domNodup := h.domNodup, recNodup := h.recNodup }

/-- Every solution in the registry when `internSolve` stops, however it
stops, is a good solution over the indices the search started with. -/
theorem internSolveLoop_good (P : Policies α ι) (hS : ShrinkOnly P.Constraints)
    (hsort : ∀ cmp l, List.Perm (P.StdSort cmp l) l) (all : Bool) (total : Nat)
    (K : List ι) :
    ∀ (fuel : Nat) (st : search_t α ι), SInv st → st.Solver.keys = K →
      (∀ sol ∈ st.Solver.SolutionList, GoodSolution K sol) →
      ∀ sol ∈ (internSolveLoop P all total fuel st).state.Solver.SolutionList,
        GoodSolution K sol := by
  intro fuel
  induction fuel with
  | zero => intro st _ _ hg; exact hg
  | succ fuel ih =>
    intro st h hK hg
    rw [internSolveLoop]
    have hss := SearchSolution_sinv P hS hsort total total st h
    cases hr : SearchSolution P total total st with
    | raise st1 =>
      rw [hr] at hss
      simp only [Run.state]
      rw [hss.2.1]
      exact hg
    | stall st1 =>
      rw [hr] at hss
      simp only [Run.state]
      rw [hss.2.1]
      exact hg
    | ret b st1 =>
      rw [hr] at hss
      obtain ⟨h1, hk1, hb⟩ := hss
      simp only
      cases b with
      | false =>
        simp only [Bool.false_eq_true, if_false, Bool.and_false]
        simp only [Run.state]
        rw [hk1.2.1]
        exact hg
      | true =>
        obtain ⟨e1, e2, e3, e4, e5⟩ := recordSolution_spec h1 (hb rfl)
        have hg2 : ∀ sol ∈ (recordSolution st1).Solver.SolutionList, GoodSolution K sol := by
          intro sol hsol
          rw [e1, hk1.2.1] at hsol
          rcases List.mem_append.1 hsol with hm | hm
          · exact hg sol hm
          · rw [List.mem_singleton.1 hm, ← hK, ← hk1.1]
            exact e2
        simp only [if_true, Bool.and_true]
        by_cases hc : (all && !(recordSolution st1).Parameters.Backup.isEmpty) = true
        · rw [if_pos hc]
          exact ih _ e5 (by
            have : (recordSolution st1).Solver.keys = st1.Solver.keys := by
              unfold keys; rw [e4]
            rw [this, hk1.1, hK]) hg2
        · rw [if_neg hc]
          exact hg2

end ConstraintSolver

end solver


namespace solver

namespace ConstraintSolver

variable {α ι : Type} [LinearOrder α] [LinearOrder ι]

/-! ## Not-equal propagators -/

/-- Result and effect of an engine-level `exclude`, read through the domains. -/
theorem exclude_dom (v : α) (i : ι) (s : ConstraintSolver α ι) :
    ((exclude v i s).1 = true ↔ i ∈ s.keys ∧ (1 < (s.dom i).length ∨ v ∉ s.dom i)) ∧
    (∀ j, (exclude v i s).2.dom j =
      if j = i ∧ 1 < (s.dom i).length then (s.dom i).filter (fun w => decide (w ≠ v))
      else s.dom j) ∧
    ((s.dom i).length ≤ 1 → (exclude v i s).2 = s) := by
  have h := exclude_fst_snd v i s
  have hg := fun j => get_exclude v i j s
  refine ⟨?_, ?_, ?_⟩
  · cases hf : mapFind i s.Variables with
    | none =>
      rw [hf] at h
      have : i ∉ s.keys := (mapFind_eq_none_iff i s.Variables).1 hf
      simp [h.1, this]
    | some var =>
      rw [hf] at h
      have hk : i ∈ s.keys := (mapFind_isSome_iff i s.Variables).1 (by rw [hf]; rfl)
      have hd : s.dom i = var.Domain := by unfold dom; rw [get_of_find hf]
      simp only at h
      by_cases h1 : var.Domain.length ≤ 1
      · rw [if_pos h1] at h
        rw [h.1, hd]
        have : ¬ 1 < var.Domain.length := by omega
        simp [hk, this, Variable.canBe]
      · rw [if_neg h1] at h
        rw [h.1, hd]
        have : 1 < var.Domain.length := by omega
        simp [hk, this]
  · intro j
    unfold dom
    rw [hg j]
    by_cases hj : j = i
    · subst hj
      by_cases h1 : 1 < (s.get j).Domain.length
      · have hk : s.exists j = true := by
          rw [exists_iff_mem_keys]
          apply mem_keys_of_dom_ne_nil
          intro e
          unfold dom at e
          rw [e] at h1
          simp at h1
        rw [if_pos ⟨rfl, hk, h1⟩, if_pos ⟨rfl, h1⟩]
        rfl
      · rw [if_neg (fun hh => h1 hh.2.2), if_neg (fun hh => h1 hh.2)]
    · rw [if_neg (fun hh => hj hh.1), if_neg (fun hh => hj hh.1)]
  · intro hle
    cases hf : mapFind i s.Variables with
    | none => rw [hf] at h; exact h.2
    | some var =>
      rw [hf] at h
      have hd : s.dom i = var.Domain := by unfold dom; rw [get_of_find hf]
      simp only at h
      rw [hd] at hle
      rw [if_pos hle] at h
      exact h.2

/-- The loop of a not-equal propagator on a solver whose targets all have at
most one value: nothing changes, and it succeeds exactly when every target is a
variable that cannot take the value. -/
theorem excludeAll_fixed (v : α) (l : List ι) (s : ConstraintSolver α ι)
    (h : ∀ t ∈ l, (s.dom t).length ≤ 1) :
    (excludeAll v l s).2 = s ∧
    ((excludeAll v l s).1 = true ↔ ∀ t ∈ l, t ∈ s.keys ∧ v ∉ s.dom t) := by
  induction l with
  | nil => simp [excludeAll]
  | cons t l ih =>
    obtain ⟨e1, e2, e3⟩ := exclude_dom v t s
    have ht := h t (List.mem_cons_self _ _)
    have hs := e3 ht
    obtain ⟨i1, i2⟩ := ih (fun x hx => h x (List.mem_cons_of_mem _ hx))
    unfold excludeAll
    by_cases hb : (exclude v t s).1 = true
    · rw [if_pos hb, hs]
      refine ⟨i1, ?_⟩
      rw [i2]
      have := e1.1 hb
      constructor
      · intro hall x hx
        rcases List.mem_cons.1 hx with e | hm
        · subst e
          refine ⟨this.1, ?_⟩
          rcases this.2 with h2 | h2
          · omega
          · exact h2
        · exact hall x hm
      · intro hall x hx
        exact hall x (List.mem_cons_of_mem _ hx)
    · rw [if_neg hb, hs]
      refine ⟨rfl, ?_⟩
      constructor
      · intro hh; cases hh
      · intro hall
        exfalso
        apply hb
        rw [e1]
        exact ⟨(hall t (List.mem_cons_self _ _)).1, Or.inr (hall t (List.mem_cons_self _ _)).2⟩

/-- A contradiction met with an empty stack ends the search: `SearchSolution`
returns `false` and `internSolve` records nothing. -/
theorem contradiction_ends_search (P : Policies α ι) (all : Bool) (total fuel : Nat)
    (st st1 : search_t α ι) (flag : Bool) (hne : st.Parameters.Processing ≠ [])
    (hp : partitionAndConstrain P total st = Run.ret (false, flag) st1)
    (hB : st1.Parameters.Backup = []) :
    SearchSolution P total (fuel + 1) st = Run.ret false st1 ∧
    internSolveLoop P all total (fuel + 1) st = Run.ret () st1 := by
  have hflag : flag = false := by
    unfold partitionAndConstrain at hp
    have : ∀ (n : Nat) (a b c d : Bool) (x y : search_t α ι) (r : Bool × Bool),
        partitionLoop P n a b c d x = Run.ret r y → r.2 = (r.1 && r.2) := by
      intro n
      induction n with
      | zero =>
        intro a b c d x y r hr
        rw [partitionLoop] at hr
        split at hr
        · cases hr
        · cases hr; cases a <;> simp
      | succ n ih =>
        intro a b c d x y r hr
        rw [partitionLoop] at hr
        split at hr
        · simp only at hr
          split at hr
          · exact ih _ _ _ _ _ _ _ hr
          · cases hr
          · cases hr
        · cases hr; cases a <;> simp
    simpa using this _ _ _ _ _ _ _ _ hp
  subst hflag
  have hbody : searchBody P total st = Run.ret (false, false) st1 := by
    unfold searchBody
    have : (!st.Parameters.Processing.isEmpty) = true := (isEmpty_not_eq_true _).2 hne
    rw [if_pos this, hp]
    simp
  have hss : ∀ n, SearchSolution P total (n + 1) st = Run.ret false st1 := by
    intro n
    rw [SearchSolution, hbody]
    simp [hB]
  refine ⟨hss fuel, ?_⟩
  cases total with
  | zero =>
    unfold partitionAndConstrain at hp
    rw [partitionLoop] at hp
    simp at hp
  | succ n =>
    rw [internSolveLoop, hss n]
    simp

theorem partitionLoop_false (P : Policies α ι) (n : Nat) (b c d : Bool) (st : search_t α ι) :
    partitionLoop P n false b c d st = Run.ret (false, false) st := by
  cases n <;> rw [partitionLoop] <;> simp

/-- One round of propagation that fails on the first instantiated variable of
`Processing`, all variables being instantiated. -/
theorem partition_fails_at_head (P : Policies α ι) (n : Nat) (st : search_t α ι)
    (x : ι) (rest : List ι) (a : α) (c : constraint_t α ι) (cs : List (constraint_t α ι))
    (hP : P.Constraints = c :: cs)
    (hadd : st.Solver.AdditionalIndices = [])
    (hproc : st.Parameters.Processing = x :: rest)
    (hall : ∀ k ∈ st.Parameters.Processing, (st.Solver.dom k).length = 1)
    (hx : st.Solver.dom x = [a]) (hix : (st.Solver.get x).indice = x)
    (hc : c st.Solver x a = (false, st.Solver)) :
    partitionAndConstrain P (n + 1) st =
      Run.ret (false, false)
        { Solver := st.Solver, Parameters := { st.Parameters with Processing := [] } } := by
  have hinst : st.Parameters.Processing.filter (fun r => (st.Solver.get r).isInstantiated) =
      st.Parameters.Processing := by
    apply List.filter_eq_self.2
    intro k hk
    have := hall k hk
    simpa [Variable.isInstantiated, dom] using this
  have hnon : st.Parameters.Processing.filter (fun r => !(st.Solver.get r).isInstantiated) =
      [] := by
    apply List.filter_eq_nil_iff.2
    intro k hk
    have := hall k hk
    simpa [Variable.isInstantiated, dom] using this
  have hval : (st.Solver.get x).value = some a := by
    unfold Variable.value
    unfold dom at hx
    rw [hx]; rfl
  have happly : applyInstantiated P.Constraints st.Parameters.Processing st.Solver =
      Run.ret false st.Solver := by
    rw [hproc, hP]
    simp only [applyInstantiated, applyConstraints, hval, hix, hc]
    simp
  unfold partitionAndConstrain
  rw [partitionLoop]
  simp only [Bool.and_self, Bool.or_false, if_true, hadd, List.filter_nil, List.append_nil,
    hinst, hnon, happly]
  rw [partitionLoop_false]

/-- Two variables of the same one-value domain under a not-equal propagator
that links them: `solve` returns `false` and records nothing. -/
theorem solve_unsat_pair (P : Policies α ι) (targets : ι → List ι) (i j : ι) (a : α)
    (fuel : Nat) (hP : P.Constraints = [differs targets]) (hij : i ≠ j)
    (hj : j ∈ targets i) (hi : i ∈ targets j) (hfuel : 0 < fuel) :
    ∃ s1, solve P fuel (addVariable [a] j (addVariable [a] i new).2).2 = Run.ret false s1 ∧
      s1.SolutionList = [] := by
  obtain ⟨n, rfl⟩ : ∃ n, fuel = n + 1 := ⟨fuel - 1, by omega⟩
  have hf0 : Fresh (addVariable [a] i (new : ConstraintSolver α ι)).2 := Fresh.add _ _ Fresh.new
  have hf : Fresh (addVariable [a] j (addVariable [a] i (new : ConstraintSolver α ι)).2).2 :=
    Fresh.add _ _ hf0
  obtain ⟨hw0, _⟩ := hf0.facts
  obtain ⟨hw, _, _, ha, _, hl⟩ := hf.facts
  have hwn : WF (new : ConstraintSolver α ι) := (Fresh.facts Fresh.new).1
  obtain ⟨_, _, k0, g0, _⟩ := addVariable_spec [a] i (new : ConstraintSolver α ι) hwn
  obtain ⟨_, _, k1, g1, _⟩ := addVariable_spec [a] j _ hw0
  generalize hs : (addVariable [a] j (addVariable [a] i (new : ConstraintSolver α ι)).2).2 = s
    at *
  have hkeys : ∀ k, k ∈ s.keys ↔ k = j ∨ k = i := by
    intro k
    rw [k1 k, k0 k]
    simp [keys, new]
  have hset : setOfRange [a] = [a] := rfl
  have hji : j ∉ (addVariable [a] i (new : ConstraintSolver α ι)).2.keys := by
    rw [k0 j]
    simp only [keys, new, List.map_nil, List.not_mem_nil, or_false]
    exact fun e => hij e.symm
  have hdj : s.dom j = [a] := by
    unfold dom
    rw [g1 j, if_pos ⟨rfl, hji⟩, hset]
  have hdi : s.dom i = [a] := by
    unfold dom
    rw [g1 i, if_neg (fun hh => hij hh.1), g0 i, if_pos ⟨rfl, by simp [keys, new]⟩, hset]
  have hdom : ∀ k, (s.dom k).length ≤ 1 := by
    intro k
    by_cases hk : k ∈ s.keys
    · rcases (hkeys k).1 hk with e | e
      · rw [e, hdj]; simp
      · rw [e, hdi]; simp
    · rw [dom_nil_of_not_mem hk]; simp
  have hone : ∀ k ∈ s.keys, s.dom k = [a] := by
    intro k hk
    rcases (hkeys k).1 hk with e | e
    · rw [e, hdj]
    · rw [e, hdi]
  have hfail : ∀ x ∈ s.keys, differs targets (startSearch s).Solver x a =
      (false, (startSearch s).Solver) := by
    intro x hx
    unfold differs
    obtain ⟨e1, e2⟩ := excludeAll_fixed a (targets x) (startSearch s).Solver
      (fun t _ => hdom t)
    have hb : (excludeAll a (targets x) (startSearch s).Solver).1 = false := by
      cases hv : (excludeAll a (targets x) (startSearch s).Solver).1 with
      | false => rfl
      | true =>
        exfalso
        have hall := e2.1 hv
        rcases (hkeys x).1 hx with e | e
        · have h3 : a ∉ s.dom i := (hall i (e ▸ hi)).2
          rw [hdi] at h3
          simp at h3
        · have h3 : a ∉ s.dom j := (hall j (e ▸ hj)).2
          rw [hdj] at h3
          simp at h3
    exact Prod.ext hb e1
  cases hk : s.keys with
  | nil =>
    have : i ∈ s.keys := (hkeys i).2 (Or.inr rfl)
    rw [hk] at this
    cases this
  | cons x rest =>
    have hx : x ∈ s.keys := by rw [hk]; exact List.mem_cons_self _ _
    have hpart := partition_fails_at_head P n (startSearch s) x rest a (differs targets) [] hP ha
      hk (fun k hk2 => by
        have := hone k hk2
        show (s.dom k).length = 1
        rw [this]; rfl)
      (hone x hx) (hw.2 x hx) (hfail x hx)
    have hne : (startSearch s).Parameters.Processing ≠ [] := by
      show s.keys ≠ []
      rw [hk]; simp
    obtain ⟨_, h2⟩ := contradiction_ends_search P false (n + 1) n (startSearch s) _ false hne
      hpart rfl
    refine ⟨{ (startSearch s).Solver with IsSolveInProgress := false }, ?_, hl⟩
    unfold solve internSolve
    rw [h2]
    simp only
    have : (startSearch s).Solver.SolutionList = [] := hl
    rw [this]
    rfl

end ConstraintSolver

end solver


namespace solver

namespace ConstraintSolver

variable {α ι : Type} [LinearOrder α] [LinearOrder ι]

/-! ## How the frames move -/

theorem frameTail_of_partition {P : Policies α ι} (hS : ShrinkOnly P.Constraints)
    {total : Nat} {st st1 : search_t α ι} {b : Bool × Bool} (h : SInv st)
    (hp : partitionAndConstrain P total st = Run.ret b st1) :
    frameTail st1 = frameTail st := by
  obtain ⟨⟨_, e1, _, e3, _⟩, _⟩ := h.of_partition hS hp
  unfold frameTail
  rw [e3]
  apply List.map_congr_left
  intro r hr
  funext k
  exact frameDom_of_shrinks h e1 r hr k

theorem frameTail_of_backtracking {st : search_t α ι} (h : SInv st) (r : record_t α ι)
    (rs : List (record_t α ι)) (hB : st.Parameters.Backup = r :: rs) :
    (backtracking st).Solver.dom = frameDom st.Solver r ∧
    frameTail st = frameDom st.Solver r :: frameTail (backtracking st) := by
  constructor
  · funext k
    exact backtracking_dom st h r rs hB k
  · obtain ⟨hP, _⟩ := backtracking_get st h r rs hB
    unfold frameTail
    rw [hB, hP]
    simp only [List.map_cons, List.cons.injEq, true_and]
    apply List.map_congr_left
    intro r2 hr2
    funext k
    exact (frameDom_of_backtracking h r rs hB r2 hr2 k).symm

/-- The domains after a branching step, and the frame of the record pushed. -/
theorem frameTail_of_select {P : Policies α ι} {st st2 : search_t α ι} (h : SInv st)
    (hp : SelectPost P st st2) :
    ∃ (x : ι) (val : α), x ∈ st.Parameters.Processing ∧ st.Solver.dom x ≠ [] ∧
      (P.Selector = none → ∃ tl, st.Solver.dom x = val :: tl) ∧
      (∀ sel, P.Selector = some sel → val = sel (st.Solver.get x)) ∧
      st2.Parameters.Processing.head? = some x ∧
      st2.Solver.dom = Function.update st.Solver.dom x [val] ∧
      frameTail st2 =
        Function.update st.Solver.dom x
          ((st.Solver.dom x).filter (fun w => decide (w ≠ val))) :: frameTail st := by
  obtain ⟨x, val, hx, hhead, hget, hkeys, ⟨r, hB, hci, hcv, hreg, hrem⟩, hsel0, hsel1, hne⟩ :=
    hp.get h.procSub
  obtain ⟨x1, rest, v0, tl, hperm, hd, hproc, hr2, hb, hs⟩ := hp
  have hperm2 : List.Perm st2.Parameters.Processing st.Parameters.Processing := by
    rw [hproc]; exact hperm
  have hidx : idx r = st2.Parameters.Processing := by
    unfold idx
    rw [hrem]
    exact map_get_indice h.wf _ (fun i hi => h.procSub i (hperm2.subset hi))
  have hdom2 : st2.Solver.dom = Function.update st.Solver.dom x [val] := by
    funext k
    unfold dom
    rw [hget k]
    by_cases hk : k = x
    · subst hk
      simp [Variable.set]
    · rw [if_neg hk, Function.update_noteq hk]
  refine ⟨x, val, hx, hne, hsel0, hsel1, hhead, hdom2, ?_⟩
  unfold frameTail
  rw [hB]
  simp only [List.map_cons, List.cons.injEq]
  constructor
  · funext k
    unfold frameDom
    by_cases hk : k ∈ idx r
    · have hmem : st.Solver.get k ∈ r.RemainingVariables := by
        rw [hrem]
        rw [hidx] at hk
        exact List.mem_map_of_mem _ hk
      have hik : (st.Solver.get k).indice = k := by
        rw [hidx] at hk
        exact h.wf.2 k (h.procSub k (hperm2.subset hk))
      have hnd : (r.RemainingVariables.map Variable.indice).Nodup := by
        show (idx r).Nodup
        rw [hidx]
        exact hperm2.nodup_iff.2 h.procNodup
      have hf := find?_indice_of_mem hnd hmem
      rw [hik] at hf
      rw [hf]
      simp only
      by_cases hkx : k = x
      · subst hkx
        rw [if_pos hci.symm, Function.update_same, hcv]
        rfl
      · rw [if_neg (fun e => hkx (e.trans hci)), Function.update_noteq hkx]
        rfl
    · rw [find?_indice_none hk]
      simp only
      have hkx : k ≠ x := by
        intro e
        apply hk
        rw [hidx, e]
        exact hperm2.symm.subset hx
      rw [hdom2, Function.update_noteq hkx, Function.update_noteq hkx]
  · apply List.map_congr_left
    intro r2 hr2m
    funext k
    exact frameDom_of_select h ⟨x1, rest, v0, tl, hperm, hd, hproc, hr2, hb, hs⟩ r2 hr2m k

end ConstraintSolver

end solver


namespace solver

namespace ConstraintSolver

variable {α ι : Type} [LinearOrder α] [LinearOrder ι]

/-! ## Solutions already recorded are not found again -/

theorem Within.weaken {A : List (Variable α ι)} {f g : ι → List α}
    (h : ∀ k w, w ∈ g k → w ∈ f k) (hw : Within A g) : Within A f :=
  fun var hv w hw2 => h _ _ (hw var hv w hw2)

/-- The value chosen at a branching step is a member of the domain. -/
theorem chosen_mem {P : Policies α ι} (hsel : SelectorInDomain P) (s : ConstraintSolver α ι)
    (x : ι) (val : α) (hne : s.dom x ≠ [])
    (h0 : P.Selector = none → ∃ tl, s.dom x = val :: tl)
    (h1 : ∀ sel, P.Selector = some sel → val = sel (s.get x)) : val ∈ s.dom x := by
  cases hs : P.Selector with
  | none =>
    obtain ⟨tl, e⟩ := h0 hs
    rw [e]; exact List.mem_cons_self _ _
  | some sel =>
    rw [h1 sel hs]
    exact hsel sel hs (s.get x) hne

theorem update_singleton_sub (f : ι → List α) (x : ι) (val : α) (hv : val ∈ f x) :
    ∀ k w, w ∈ Function.update f x [val] k → w ∈ f k := by
  intro k w hw
  by_cases hk : k = x
  · subst hk
    rw [Function.update_same] at hw
    rw [List.mem_singleton.1 hw]
    exact hv
  · rw [Function.update_noteq hk] at hw
    exact hw

theorem update_filter_sub (f : ι → List α) (x : ι) (val : α) :
    ∀ k w, w ∈ Function.update f x ((f x).filter (fun w => decide (w ≠ val))) k → w ∈ f k := by
  intro k w hw
  by_cases hk : k = x
  · subst hk
    rw [Function.update_same] at hw
    exact (List.mem_filter.1 hw).1
  · rw [Function.update_noteq hk] at hw
    exact hw

/-- One turn of the loop keeps recorded solutions out of the frames. -/
theorem IterCase.sep {P : Policies α ι} (hS : ShrinkOnly P.Constraints)
    (hsel : SelectorInDomain P) {total : Nat} {st : search_t α ι} (h : SInv st)
    (L : List (List (Variable α ι))) (hL : SepInv L st) {o : Option Bool}
    {st2 : search_t α ι} (hc : IterCase P total st (Run.ret o st2)) :
    SepInv L st2 ∧ (o = some true → ∀ A ∈ L, ¬ Within A st2.Solver.dom) := by
  have hback : ∀ (st1 : search_t α ι) (r : record_t α ι) (rs : List (record_t α ι)),
      SInv st1 → st1.Parameters.Backup = r :: rs →
      (∀ A ∈ L, ∀ f ∈ frameTail st1, ¬ Within A f) → SepInv L (backtracking st1) := by
    intro st1 r rs h1 hB hf
    obtain ⟨e1, e2⟩ := frameTail_of_backtracking h1 r rs hB
    constructor
    · intro A hA f hfm
      exact hf A hA f (by rw [e2]; exact List.mem_cons_of_mem _ hfm)
    · intro _ A hA
      rw [e1]
      exact hf A hA _ (by rw [e2]; exact List.mem_cons_self _ _)
  cases hc with
  | emptyStop _ _ => exact ⟨hL, fun e => by cases e⟩
  | emptyBack r rs _ hB => exact ⟨hback st r rs h hB hL.1, fun e => by cases e⟩
  | failStop st1 _ hpc _ =>
    have e := frameTail_of_partition hS h hpc
    have hsub := (h.of_partition hS hpc).1.2.1.sub
    refine ⟨⟨by rw [e]; exact hL.1, ?_⟩, fun e => by cases e⟩
    intro _ A hA hw
    rename_i hne _ _
    exact hL.2 hne A hA (hw.weaken (fun k w hw2 => (hsub k).subset hw2))
  | failBack st1 r rs _ hpc hB =>
    have e := frameTail_of_partition hS h hpc
    exact ⟨hback st1 r rs (h.of_partition hS hpc).2 hB (by rw [e]; exact hL.1),
      fun e => by cases e⟩
  | solved st1 hne hpc _ =>
    have e := frameTail_of_partition hS h hpc
    have hsub := (h.of_partition hS hpc).1.2.1.sub
    have hcur : ∀ A ∈ L, ¬ Within A st2.Solver.dom := by
      intro A hA hw
      exact hL.2 hne A hA (hw.weaken (fun k w hw2 => (hsub k).subset hw2))
    exact ⟨⟨by rw [e]; exact hL.1, fun _ => hcur⟩, fun _ => hcur⟩
  | branch st1 _ hne hpc _ hnon hselp =>
    have e := frameTail_of_partition hS h hpc
    have hsub := (h.of_partition hS hpc).1.2.1.sub
    have h1 := (h.of_partition hS hpc).2
    have hcur1 : ∀ A ∈ L, ¬ Within A st1.Solver.dom := by
      intro A hA hw
      exact hL.2 hne A hA (hw.weaken (fun k w hw2 => (hsub k).subset hw2))
    obtain ⟨x, val, hx, hne1, hs0, hs1, _, hd2, hft⟩ := frameTail_of_select h1 hselp
    have hval := chosen_mem hsel st1.Solver x val hne1 hs0 hs1
    refine ⟨⟨?_, ?_⟩, fun e => by cases e⟩
    · intro A hA f hfm
      rw [hft] at hfm
      rcases List.mem_cons.1 hfm with e2 | hm
      · rw [e2]
        intro hw
        exact hcur1 A hA (hw.weaken (update_filter_sub _ x val))
      · rw [e] at hm
        exact hL.1 A hA f hm
    · intro _ A hA hw
      rw [hd2] at hw
      exact hcur1 A hA (hw.weaken (update_singleton_sub _ x val hval))

/-- The loop of `SearchSolution` keeps recorded solutions out of the frames,
and a solution it reports is not allowed for any of them. -/
theorem SearchSolution_sep (P : Policies α ι) (hS : ShrinkOnly P.Constraints)
    (hsort : ∀ cmp l, List.Perm (P.StdSort cmp l) l) (hsel : SelectorInDomain P)
    (total fuel : Nat) (st : search_t α ι) (h : SInv st) (L : List (List (Variable α ι)))
    (hL : SepInv L st) :
    match SearchSolution P total fuel st with
    | Run.ret b st1 => SInv st1 ∧ Kept st.Solver st1.Solver ∧ SepInv L st1 ∧
        (b = true → st1.Parameters.Processing = [] ∧ ∀ A ∈ L, ¬ Within A st1.Solver.dom)
    | Run.raise st1 => Kept st.Solver st1.Solver
    | Run.stall st1 => Kept st.Solver st1.Solver := by
  refine SearchSolution_safe P total
    (fun st1 => SInv st1 ∧ Kept st.Solver st1.Solver ∧ SepInv L st1)
    (fun b st1 => SInv st1 ∧ Kept st.Solver st1.Solver ∧ SepInv L st1 ∧
      (b = true → st1.Parameters.Processing = [] ∧ ∀ A ∈ L, ¬ Within A st1.Solver.dom))
    (fun st1 => Kept st.Solver st1.Solver) (fun _ h1 => h1.2.1) ?_ fuel st
    ⟨h, Kept.same _, hL⟩
  intro st1 ⟨h1, hk, hL1⟩
  have hc := searchIteration_cases P hS hsort total st1 h1
  have hkept := hc.kept hS h1
  cases hi : searchIteration P total st1 with
  | raise st2 => rw [hi] at hkept; exact hk.andThen hkept
  | stall st2 => rw [hi] at hkept; exact hk.andThen hkept
  | ret o st2 =>
    rw [hi] at hkept hc
    have hs2 := hc.sinv hS h1
    obtain ⟨hsep, hfin⟩ := hc.sep hS hsel h1 L hL1
    cases o with
    | none => exact ⟨hs2, hk.andThen hkept, hsep⟩
    | some b =>
      refine ⟨hs2, hk.andThen hkept, hsep, ?_⟩
      intro hb
      subst hb
      refine ⟨?_, hfin rfl⟩
      cases hc with
      | solved _ _ _ hp => exact hp

end ConstraintSolver

end solver


namespace solver

namespace ConstraintSolver

variable {α ι : Type} [LinearOrder α] [LinearOrder ι]

/-- A good solution that the current domains do not allow differs from the
solution recorded from them. -/
theorem differ_of_not_within {st : search_t α ι} (h : SInv st)
    (hp : st.Parameters.Processing = []) {A : List (Variable α ι)}
    (hA : GoodSolution st.Solver.keys A) (hw : ¬ Within A st.Solver.dom) :
    Differ A (st.Solver.keys.map (fun i => st.Solver.get i)) := by
  unfold Within at hw
  push_neg at hw
  obtain ⟨va, hva, w, hwa, hwn⟩ := hw
  have hk : va.indice ∈ st.Solver.keys := by
    rw [← hA.1]
    exact List.mem_map_of_mem _ hva
  have hinst := h.inst va.indice hk (by rw [hp]; exact List.not_mem_nil _)
  have hai := hA.2 va hva
  have hal : va.Domain.length = 1 := by
    simpa [Variable.isInstantiated] using hai
  refine ⟨va, hva, st.Solver.get va.indice, List.mem_map_of_mem _ hk, ?_, ?_, ?_⟩
  · exact (h.wf.2 va.indice hk).symm
  · intro e
    apply hwn
    unfold dom
    rw [← e]
    exact hwa
  · match hd : va.Domain, hal with
    | [w1], _ =>
      rw [hd] at hwa
      have hw1 : w = w1 := List.mem_singleton.1 hwa
      unfold dom at hinst hwn
      match hd2 : (st.Solver.get va.indice).Domain, hinst with
      | [w2], _ =>
        rw [hd2] at hwn
        unfold Variable.value
        rw [hd, hd2]
        simp only [List.head?_cons, ne_eq, Option.some.injEq]
        intro e
        apply hwn
        rw [hw1, e]
        exact List.mem_singleton_self _

/-- The solution recorded from the current domains is not allowed by any
frame of the stack: the frame of a record lacks the value chosen there. -/
theorem recorded_not_within_frames {st : search_t α ι} (h : SInv st) :
    ∀ f ∈ frameTail st, ¬ Within (st.Solver.keys.map (fun i => st.Solver.get i)) f := by
  intro f hf hw
  unfold frameTail at hf
  obtain ⟨r, hr, rfl⟩ := List.mem_map.1 hf
  have hcov : ∀ rs (proc : List ι), StackOk st.Solver.keys proc rs → r ∈ rs →
      r.ChoiceIndice ∈ idx r ∧ (idx r).Nodup ∧ ∀ i ∈ idx r, i ∈ st.Solver.keys := by
    intro rs
    induction rs with
    | nil => intro _ _ hm; cases hm
    | cons r0 rs ih =>
      intro proc hs hm
      obtain ⟨_, h2, _, h4, h5, _, h7⟩ := hs
      rcases List.mem_cons.1 hm with e | hm2
      · subst e; exact ⟨h5, h2, h4⟩
      · exact ih _ h7 hm2
  obtain ⟨hci, hnd, hsub⟩ := hcov _ _ h.stack hr
  have hk : r.ChoiceIndice ∈ st.Solver.keys := hsub _ hci
  have hch := h.choice r hr
  have hmem : st.Solver.get r.ChoiceIndice ∈ st.Solver.keys.map (fun i => st.Solver.get i) :=
    List.mem_map_of_mem _ hk
  have hin := hw _ hmem r.ChoiceValue (by
    unfold dom at hch
    rw [hch]; exact List.mem_singleton_self _)
  have hI : (st.Solver.get r.ChoiceIndice).indice = r.ChoiceIndice := h.wf.2 _ hk
  rw [hI] at hin
  unfold frameDom at hin
  obtain ⟨var, hv, hvi⟩ := List.mem_map.1 hci
  have hf2 := find?_indice_of_mem hnd hv
  rw [hvi] at hf2
  rw [hf2] at hin
  simp only [if_true] at hin
  have := (List.mem_filter.1 hin).2
  simp at this

theorem frameTail_recordSolution (st : search_t α ι) :
    frameTail (recordSolution st) = frameTail st := rfl

/-- The registry when `internSolve` stops, however it stops, holds good
solutions that differ pairwise. -/
theorem internSolveLoop_distinct (P : Policies α ι) (hS : ShrinkOnly P.Constraints)
    (hsort : ∀ cmp l, List.Perm (P.StdSort cmp l) l) (hsel : SelectorInDomain P)
    (all : Bool) (total : Nat) (K : List ι) :
    ∀ (fuel : Nat) (st : search_t α ι), SInv st → st.Solver.keys = K →
      (∀ sol ∈ st.Solver.SolutionList, GoodSolution K sol) →
      st.Solver.SolutionList.Pairwise Differ → SepInv st.Solver.SolutionList st →
      (internSolveLoop P all total fuel st).state.Solver.SolutionList.Pairwise Differ := by
  intro fuel
  induction fuel with
  | zero => intro st _ _ _ hpw _; exact hpw
  | succ fuel ih =>
    intro st h hK hg hpw hsep
    rw [internSolveLoop]
    have hss := SearchSolution_sep P hS hsort hsel total total st h _ hsep
    cases hr : SearchSolution P total total st with
    | raise st1 =>
      rw [hr] at hss
      simp only [Run.state]
      rw [hss.2.1]
      exact hpw
    | stall st1 =>
      rw [hr] at hss
      simp only [Run.state]
      rw [hss.2.1]
      exact hpw
    | ret b st1 =>
      rw [hr] at hss
      obtain ⟨h1, hk1, hsep1, hb⟩ := hss
      simp only
      cases b with
      | false =>
        simp only [Bool.false_eq_true, if_false, Bool.and_false]
        simp only [Run.state]
        rw [hk1.2.1]
        exact hpw
      | true =>
        obtain ⟨hp1, hnw⟩ := hb rfl
        obtain ⟨e1, e2, e3, e4, e5⟩ := recordSolution_spec h1 hp1
        have hK1 : st1.Solver.keys = K := by rw [hk1.1, hK]
        have hg2 : ∀ sol ∈ (recordSolution st1).Solver.SolutionList, GoodSolution K sol := by
          intro sol hsol
          rw [e1, hk1.2.1] at hsol
          rcases List.mem_append.1 hsol with hm | hm
          · exact hg sol hm
          · rw [List.mem_singleton.1 hm, ← hK1]
            exact e2
        have hpw2 : (recordSolution st1).Solver.SolutionList.Pairwise Differ := by
          rw [e1, hk1.2.1]
          refine List.pairwise_append.2 ⟨hpw, List.pairwise_singleton _ _, ?_⟩
          intro A hA B hB
          rw [List.mem_singleton.1 hB]
          exact differ_of_not_within h1 hp1 (by rw [hK1]; exact hg A hA) (hnw A hA)
        have hsep2 : SepInv (recordSolution st1).Solver.SolutionList (recordSolution st1) := by
          constructor
          · intro A hA f hf
            rw [frameTail_recordSolution] at hf
            rw [e1, hk1.2.1] at hA
            rcases List.mem_append.1 hA with hm | hm
            · exact hsep1.1 A hm f hf
            · rw [List.mem_singleton.1 hm]
              exact recorded_not_within_frames h1 f hf
          · intro hne
            rw [e3] at hne
            exact absurd hp1 hne
        simp only [if_true, Bool.and_true]
        by_cases hc : (all && !(recordSolution st1).Parameters.Backup.isEmpty) = true
        · rw [if_pos hc]
          exact ih _ e5 (by
            have : (recordSolution st1).Solver.keys = st1.Solver.keys := by
              unfold keys; rw [e4]
            rw [this, hK1]) hg2 hpw2 hsep2
        · rw [if_neg hc]
          exact hpw2

end ConstraintSolver

end solver


namespace solver

namespace ConstraintSolver

variable {α ι : Type} [LinearOrder α] [LinearOrder ι]

/-! ## The measure of the search -/

theorem weight_pos (n : Nat) : 0 < weight n := by
  cases n <;> simp [weight]

theorem weight_le {m n : Nat} (h : m ≤ n) : weight m ≤ weight n := by
  induction n with
  | zero =>
    have : m = 0 := by omega
    rw [this]
  | succ n ih =>
    rcases Nat.lt_or_ge m (n + 1) with h1 | h1
    · have := ih (by omega)
      simp only [weight]
      omega
    · have : m = n + 1 := by omega
      rw [this]

theorem weight_halves {m n : Nat} (h : m < n) : 2 * weight m + 1 ≤ weight n := by
  cases n with
  | zero => omega
  | succ n =>
    have := @weight_le m n (by omega)
    simp only [weight]
    omega

theorem slack_le (K : List ι) (f g : ι → List α)
    (h : ∀ k ∈ K, (g k).length ≤ (f k).length) : slack K g ≤ slack K f := by
  induction K with
  | nil => simp [slack]
  | cons k K ih =>
    have h1 := h k (List.mem_cons_self _ _)
    have h2 := ih (fun x hx => h x (List.mem_cons_of_mem _ hx))
    simp only [slack, List.map_cons, List.sum_cons] at h2 ⊢
    omega

theorem slack_lt (K : List ι) (f g : ι → List α) (x : ι) (hx : x ∈ K)
    (h1 : (g x).length < (f x).length) (h2 : 1 ≤ (g x).length)
    (h : ∀ k ∈ K, (g k).length ≤ (f k).length) : slack K g < slack K f := by
  induction K with
  | nil => cases hx
  | cons k K ih =>
    have hle := slack_le K f g (fun y hy => h y (List.mem_cons_of_mem _ hy))
    have hk := h k (List.mem_cons_self _ _)
    simp only [slack, List.map_cons, List.sum_cons] at hle ⊢
    rcases List.mem_cons.1 hx with e | hm
    · subst e
      omega
    · have := ih hm (fun y hy => h y (List.mem_cons_of_mem _ hy))
      simp only [slack] at this
      omega

theorem length_update_le (f : ι → List α) (x : ι) (l : List α) (hl : l.length ≤ (f x).length)
    (k : ι) : (Function.update f x l k).length ≤ (f k).length := by
  by_cases hk : k = x
  · subst hk
    rw [Function.update_same]
    exact hl
  · rw [Function.update_noteq hk]

theorem processing_length_le {st : search_t α ι} (h : SInv st) :
    st.Parameters.Processing.length ≤ st.Solver.keys.length :=
  (List.subperm_of_subset h.procNodup (fun i hi => h.procSub i hi)).length_le

theorem potential_of_partition {P : Policies α ι} (hS : ShrinkOnly P.Constraints)
    {total : Nat} {st st1 : search_t α ι} {b : Bool × Bool} (h : SInv st)
    (hne : AllNonempty st) (hp : partitionAndConstrain P total st = Run.ret b st1) :
    AllNonempty st1 ∧ potential st1 ≤ potential st := by
  have e1 := (h.of_partition hS hp).1.2.1
  have ef := frameTail_of_partition hS h hp
  refine ⟨⟨?_, ?_⟩, ?_⟩
  · intro k hk
    rw [e1.keys] at hk
    exact e1.nonempty k (hne.1 k hk)
  · intro f hf k hk
    rw [ef] at hf
    rw [e1.keys] at hk
    exact hne.2 f hf k hk
  · unfold potential
    rw [ef, e1.keys]
    have := weight_le (slack_le st.Solver.keys st.Solver.dom st1.Solver.dom
      (fun k _ => (e1.sub k).length_le))
    omega

theorem potential_of_backtracking {st : search_t α ι} (h : SInv st) (hne : AllNonempty st)
    (r : record_t α ι) (rs : List (record_t α ι)) (hB : st.Parameters.Backup = r :: rs) :
    AllNonempty (backtracking st) ∧ potential (backtracking st) + 1 ≤ potential st := by
  obtain ⟨e1, e2⟩ := frameTail_of_backtracking h r rs hB
  have hk := (Kept.by_backtracking h r rs hB).1
  refine ⟨⟨?_, ?_⟩, ?_⟩
  · intro k hkk
    rw [e1]
    rw [hk] at hkk
    exact hne.2 _ (by rw [e2]; exact List.mem_cons_self _ _) k hkk
  · intro f hf k hkk
    rw [hk] at hkk
    exact hne.2 f (by rw [e2]; exact List.mem_cons_of_mem _ hf) k hkk
  · unfold potential
    rw [e2, hk, e1]
    simp only [List.map_cons, List.sum_cons]
    have := weight_pos (slack st.Solver.keys st.Solver.dom)
    omega

theorem potential_of_select {P : Policies α ι} (hsel : SelectorInDomain P)
    {st st2 : search_t α ι} (h : SInv st) (hne : AllNonempty st)
    (hnon : ∀ i ∈ st.Parameters.Processing, (st.Solver.dom i).length ≠ 1)
    (hp : SelectPost P st st2) :
    AllNonempty st2 ∧ potential st2 + 1 ≤ potential st ∧ st2.Parameters.Processing ≠ [] := by
  obtain ⟨x, val, hx, hne1, hs0, hs1, hhead, hd2, hft⟩ := frameTail_of_select h hp
  have hval := chosen_mem hsel st.Solver x val hne1 hs0 hs1
  have hk := (Kept.by_select hp).1
  have hxk := h.procSub x hx
  have hlen : 2 ≤ (st.Solver.dom x).length := by
    have := hnon x hx
    have := List.length_pos.2 hne1
    omega
  have hfpos := filter_ne_length_pos val (by omega : 1 < (st.Solver.dom x).length)
    (h.domNodup x)
  have hflt : ((st.Solver.dom x).filter (fun w => decide (w ≠ val))).length <
      (st.Solver.dom x).length := by
    apply List.length_filter_lt_length_iff_exists.2
    exact ⟨val, hval, by simp⟩
  refine ⟨⟨?_, ?_⟩, ?_, ?_⟩
  · intro k hkk
    rw [hk] at hkk
    rw [hd2]
    by_cases hkx : k = x
    · subst hkx
      rw [Function.update_same]
      exact List.cons_ne_nil _ _
    · rw [Function.update_noteq hkx]
      exact hne.1 k hkk
  · intro f hf k hkk
    rw [hk] at hkk
    rw [hft] at hf
    rcases List.mem_cons.1 hf with e | hm
    · rw [e]
      by_cases hkx : k = x
      · subst hkx
        rw [Function.update_same]
        exact List.length_pos.1 hfpos
      · rw [Function.update_noteq hkx]
        exact hne.1 k hkk
    · exact hne.2 f hm k hkk
  · unfold potential
    rw [hft, hk, hd2]
    simp only [List.map_cons, List.sum_cons]
    have h1 := slack_lt st.Solver.keys st.Solver.dom (Function.update st.Solver.dom x [val]) x
      hxk (by rw [Function.update_same]; simpa using hlen)
      (by rw [Function.update_same]; simp)
      (fun k _ => length_update_le _ x _ (by simpa using (by omega : 1 ≤ (st.Solver.dom x).length)) k)
    have h2 := slack_lt st.Solver.keys st.Solver.dom
      (Function.update st.Solver.dom x
        ((st.Solver.dom x).filter (fun w => decide (w ≠ val)))) x
      hxk (by rw [Function.update_same]; exact hflt)
      (by rw [Function.update_same]; exact hfpos)
      (fun k _ => length_update_le _ x _ (Nat.le_of_lt hflt) k)
    have h3 := weight_halves (Nat.lt_of_lt_of_le h1 (Nat.le_refl _))
    have h4 := weight_le (Nat.le_of_lt_succ (Nat.lt_succ_of_lt h2))
    have h5 : weight (slack st.Solver.keys (Function.update st.Solver.dom x
        ((st.Solver.dom x).filter (fun w => decide (w ≠ val))))) ≤
        weight (slack st.Solver.keys (Function.update st.Solver.dom x [val])) ∨
        weight (slack st.Solver.keys (Function.update st.Solver.dom x [val])) ≤
        weight (slack st.Solver.keys (Function.update st.Solver.dom x
        ((st.Solver.dom x).filter (fun w => decide (w ≠ val))))) := Nat.le_total _ _
    have h6 := weight_halves h2
    omega
  · intro e
    rw [e] at hhead
    cases hhead

theorem flag_le (l : List ι) : (if l.isEmpty then 0 else 1) ≤ 1 := by
  split <;> omega

theorem flag_of_ne {l : List ι} (h : l ≠ []) : (if l.isEmpty then 0 else 1) = 1 := by
  cases l with
  | nil => exact absurd rfl h
  | cons a l => rfl

theorem flag_of_nil {l : List ι} (h : l = []) : (if l.isEmpty then 0 else 1) = 0 := by
  rw [h]; rfl

/-- One turn of the loop of `SearchSolution`, on domains that are not empty
and with a budget above the number of variables: it neither throws nor stalls,
and it lowers the measure unless it ends the loop with `false`. -/
theorem IterCase.term {P : Policies α ι} (hS : ShrinkOnly P.Constraints)
    (hsel : SelectorInDomain P) {total : Nat} {st : search_t α ι} (h : SInv st)
    (hne : AllNonempty st) (ht : st.Solver.keys.length < total) :
    ∀ r : Run (search_t α ι) (Option Bool), IterCase P total st r →
      match r with
      | Run.ret o st2 => AllNonempty st2 ∧ searchMeasure st2 ≤ searchMeasure st ∧
          (o ≠ some false → searchMeasure st2 < searchMeasure st)
      | Run.raise _ => False
      | Run.stall _ => False := by
  intro r hc
  cases hc with
  | emptyStop _ _ => exact ⟨hne, Nat.le_refl _, fun e => absurd rfl e⟩
  | emptyBack r rs hp hB =>
    obtain ⟨h1, h2⟩ := potential_of_backtracking h hne r rs hB
    have hf := flag_le (backtracking st).Parameters.Processing
    have : searchMeasure (backtracking st) < searchMeasure st := by
      unfold searchMeasure
      omega
    exact ⟨h1, Nat.le_of_lt this, fun _ => this⟩
  | failStop st1 hp hpc _ =>
    obtain ⟨h1, h2⟩ := potential_of_partition hS h hne hpc
    refine ⟨h1, ?_, fun e => absurd rfl e⟩
    have hf := flag_le st1.Parameters.Processing
    have hf2 := flag_of_ne hp
    unfold searchMeasure
    omega
  | failBack st1 r rs hp hpc hB =>
    obtain ⟨h1, h2⟩ := potential_of_partition hS h hne hpc
    obtain ⟨h3, h4⟩ := potential_of_backtracking (h.of_partition hS hpc).2 h1 r rs hB
    have hf := flag_le (backtracking st1).Parameters.Processing
    have : searchMeasure (backtracking st1) < searchMeasure st := by
      unfold searchMeasure
      omega
    exact ⟨h3, Nat.le_of_lt this, fun _ => this⟩
  | solved st1 hp hpc hp1 =>
    obtain ⟨h1, h2⟩ := potential_of_partition hS h hne hpc
    have hf := flag_of_nil hp1
    have hf2 := flag_of_ne hp
    have : searchMeasure st1 < searchMeasure st := by
      unfold searchMeasure
      omega
    exact ⟨h1, Nat.le_of_lt this, fun _ => this⟩
  | branch st1 st2 hp hpc hp1 hnon hselp =>
    obtain ⟨h1, h2⟩ := potential_of_partition hS h hne hpc
    obtain ⟨h3, h4, h5⟩ := potential_of_select hsel (h.of_partition hS hpc).2 h1 hnon hselp
    have hf := flag_of_ne h5
    have hf2 := flag_of_ne hp
    have : searchMeasure st2 < searchMeasure st := by
      unfold searchMeasure
      omega
    exact ⟨h3, Nat.le_of_lt this, fun _ => this⟩
  | throws st1 st2 hp hpc _ hx =>
    obtain ⟨h1, _⟩ := potential_of_partition hS h hne hpc
    obtain ⟨x, hx1, hx2⟩ := hx
    exact h1.1 x ((h.of_partition hS hpc).2.procSub x hx1) hx2
  | stalls st1 hp hpc hlt =>
    exact hlt (Nat.lt_of_le_of_lt (processing_length_le h) ht)

/-- Termination of `SearchSolution`: on domains that are not empty, a budget
above the measure and above the number of variables gives a return. -/
theorem SearchSolution_returns (P : Policies α ι) (hS : ShrinkOnly P.Constraints)
    (hsort : ∀ cmp l, List.Perm (P.StdSort cmp l) l) (hsel : SelectorInDomain P)
    (total fuel : Nat) (st : search_t α ι) (h : SInv st) (hne : AllNonempty st)
    (ht : st.Solver.keys.length < total) (hf : searchMeasure st < fuel) :
    ∃ b st1, SearchSolution P total fuel st = Run.ret b st1 ∧ AllNonempty st1 ∧
      searchMeasure st1 ≤ searchMeasure st ∧ (b = true → searchMeasure st1 < searchMeasure st) := by
  obtain ⟨b, st1, e1, e2, _⟩ := SearchSolution_total P total
    (fun st1 => SInv st1 ∧ AllNonempty st1 ∧ st1.Solver.keys = st.Solver.keys ∧
      searchMeasure st1 ≤ searchMeasure st)
    (fun b st1 => AllNonempty st1 ∧ searchMeasure st1 ≤ searchMeasure st ∧
      (b = true → searchMeasure st1 < searchMeasure st))
    searchMeasure (by
      intro st1 ⟨h1, hn1, hk1, hm1⟩
      have hc := searchIteration_cases P hS hsort total st1 h1
      have hkept := hc.kept hS h1
      have hterm := IterCase.term hS hsel h1 hn1 (by rw [hk1]; exact ht) _ hc
      cases hi : searchIteration P total st1 with
      | raise st2 => rw [hi] at hterm; exact hterm
      | stall st2 => rw [hi] at hterm; exact hterm
      | ret o st2 =>
        rw [hi] at hterm hc hkept
        obtain ⟨t1, t2, t3⟩ := hterm
        cases o with
        | none =>
          exact ⟨⟨hc.sinv hS h1, t1, hkept.1.trans hk1, Nat.le_trans t2 hm1⟩,
            t3 (fun e => by cases e)⟩
        | some b =>
          refine ⟨⟨t1, Nat.le_trans t2 hm1, ?_⟩, t2⟩
          intro hb
          subst hb
          exact Nat.lt_of_lt_of_le (t3 (fun e => by cases e)) hm1)
    fuel st ⟨h, hne, rfl, Nat.le_refl _⟩ hf
  exact ⟨b, st1, e1, e2⟩

end ConstraintSolver

end solver


namespace solver

namespace ConstraintSolver

variable {α ι : Type} [LinearOrder α] [LinearOrder ι]

/-! ## Propagation by not-equal propagators -/

theorem differs_excludeOnly (targets : ι → List ι) :
    ExcludeOnly (differs targets : constraint_t α ι) := by
  intro s i v
  unfold differs
  generalize targets i = js
  have : ∀ (js : List ι) (s t : ConstraintSolver α ι), ExclReach s t →
      ExclReach s (excludeAll v js t).2 := by
    intro js
    induction js with
    | nil => intro s t h; exact h
    | cons j js ih =>
      intro s t h
      unfold excludeAll
      by_cases hb : (exclude v j t).1 = true
      · rw [if_pos hb]
        exact ih s _ (ExclReach.step v j h)
      · rw [if_neg hb]
        exact ExclReach.step v j h
  exact this js s s (ExclReach.refl s)

theorem shrinkOnly_differs (Ts : List (ι → List ι)) :
    ShrinkOnly (Ts.map differs : List (constraint_t α ι)) := by
  apply ShrinkOnly.of_excludeOnly
  intro c hc
  obtain ⟨t, _, rfl⟩ := List.mem_map.1 hc
  exact differs_excludeOnly t

/-- The loop of a not-equal propagator: when it succeeds no target can take
the value any more, and it succeeds, keeping an assignment that gives the
targets other values, whenever the domains allow such an assignment. -/
theorem excludeAll_spec (v : α) (js : List ι) (s : ConstraintSolver α ι) (hn : DomNodup s) :
    Shrinks s (excludeAll v js s).2 ∧
    ((excludeAll v js s).1 = true → ∀ j ∈ js, v ∉ (excludeAll v js s).2.dom j) ∧
    (∀ (K : List ι) (a : ι → α), Fits K a s.dom → (∀ j ∈ js, j ∈ K ∧ a j ≠ v) →
      (excludeAll v js s).1 = true ∧ Fits K a (excludeAll v js s).2.dom) := by
  induction js generalizing s with
  | nil =>
    refine ⟨Shrinks.refl s, fun _ j hj => absurd hj (List.not_mem_nil j), fun K a hf _ => ⟨rfl, hf⟩⟩
  | cons j js ih =>
    obtain ⟨e1, e2, _⟩ := exclude_dom v j s
    have hsh := Shrinks.exclude v j s hn
    obtain ⟨i1, i2, i3⟩ := ih (exclude v j s).2 (DomNodup.of_shrinks hsh hn)
    have hcov : ∀ (K : List ι) (a : ι → α), Fits K a s.dom → j ∈ K → a j ≠ v →
        (exclude v j s).1 = true ∧ Fits K a (exclude v j s).2.dom := by
      intro K a hf hj hne
      have haj := hf j hj
      constructor
      · rw [e1]
        refine ⟨mem_keys_of_dom_ne_nil (List.ne_nil_of_mem haj), ?_⟩
        by_cases hl : 1 < (s.dom j).length
        · exact Or.inl hl
        · right
          intro hv
          have hl1 : (s.dom j).length = 1 := by
            have := List.length_pos_of_mem haj
            omega
          obtain ⟨w, hw⟩ := List.length_eq_one.1 hl1
          rw [hw, List.mem_singleton] at haj hv
          exact hne (haj.trans hv.symm)
      · intro k hk
        rw [e2 k]
        by_cases hc : k = j ∧ 1 < (s.dom j).length
        · rw [if_pos hc]
          obtain ⟨rfl, _⟩ := hc
          exact List.mem_filter.2 ⟨hf k hk, by simpa using hne⟩
        · rw [if_neg hc]
          exact hf k hk
    unfold excludeAll
    by_cases hb : (exclude v j s).1 = true
    · rw [if_pos hb]
      refine ⟨hsh.trans i1, ?_, ?_⟩
      · intro hok x hx
        rcases List.mem_cons.1 hx with e | hm
        · subst e
          intro hv
          have hv1 : v ∈ (exclude v x s).2.dom x := (i1.sub x).subset hv
          rw [e2 x] at hv1
          by_cases hc : x = x ∧ 1 < (s.dom x).length
          · rw [if_pos hc] at hv1
            have := (List.mem_filter.1 hv1).2
            simp at this
          · rw [if_neg hc] at hv1
            rcases (e1.1 hb).2 with h1 | h1
            · exact hc ⟨rfl, h1⟩
            · exact h1 hv1
        · exact i2 hok x hm
      · intro K a hf hall
        obtain ⟨_, c2⟩ := hcov K a hf (hall j (List.mem_cons_self _ _)).1
          (hall j (List.mem_cons_self _ _)).2
        exact i3 K a c2 (fun x hx => hall x (List.mem_cons_of_mem _ hx))
    · rw [if_neg hb]
      refine ⟨hsh, fun h => Bool.noConfusion h, ?_⟩
      intro K a hf hall
      exact absurd (hcov K a hf (hall j (List.mem_cons_self _ _)).1
        (hall j (List.mem_cons_self _ _)).2).1 hb

/-- The not-equal propagators applied to one instantiated variable. -/
theorem applyConstraints_differs (Ts : List (ι → List ι)) (ref : ι) (v : α)
    (s : ConstraintSolver α ι) (hn : DomNodup s) (hd : s.dom ref = [v])
    (hi : (s.get ref).indice = ref) :
    ∃ b s1, applyConstraints ref (Ts.map differs) s = Run.ret b s1 ∧ Shrinks s s1 ∧
      (b = true → ∀ t ∈ Ts, ∀ j ∈ t ref, v ∉ s1.dom j) ∧
      (∀ (K : List ι) (a : ι → α), Fits K a s.dom →
        (∀ t ∈ Ts, ∀ j ∈ t ref, j ∈ K ∧ a j ≠ v) → b = true ∧ Fits K a s1.dom) := by
  induction Ts generalizing s with
  | nil =>
    exact ⟨true, s, rfl, Shrinks.refl s, fun _ t ht => absurd ht (List.not_mem_nil t),
      fun K a hf _ => ⟨rfl, hf⟩⟩
  | cons t Ts ih =>
    have hval : (s.get ref).value = some v := by
      unfold Variable.value
      unfold dom at hd
      rw [hd]; rfl
    obtain ⟨sh, hset, hcov⟩ := excludeAll_spec v (t ref) s hn
    simp only [List.map_cons, applyConstraints, hval, hi, differs]
    by_cases hb : (excludeAll v (t ref) s).1 = true
    · rw [if_pos hb]
      have hd2 : (excludeAll v (t ref) s).2.dom ref = [v] := by
        rw [sh.fixed ref (by rw [hd]; simp), hd]
      have hi2 : ((excludeAll v (t ref) s).2.get ref).indice = ref :=
        (sh.indice ref).trans hi
      obtain ⟨b, s1, h1, h2, h3, h4⟩ := ih _ (DomNodup.of_shrinks sh hn) hd2 hi2
      refine ⟨b, s1, h1, sh.trans h2, ?_, ?_⟩
      · intro hbt t1 ht1 j hj
        rcases List.mem_cons.1 ht1 with e | hm
        · subst e
          intro hv
          exact hset hb j hj ((h2.sub j).subset hv)
        · exact h3 hbt t1 hm j hj
      · intro K a hf hall
        obtain ⟨_, c2⟩ := hcov K a hf (hall t (List.mem_cons_self _ _))
        exact h4 K a c2 (fun t1 ht1 => hall t1 (List.mem_cons_of_mem _ ht1))
    · rw [if_neg hb]
      refine ⟨false, _, rfl, sh, fun h => Bool.noConfusion h, ?_⟩
      intro K a hf hall
      exact absurd (hcov K a hf (hall t (List.mem_cons_self _ _))).1 hb

/-- The not-equal propagators applied to the instantiated variables of one
round. -/
theorem applyInstantiated_differs (Ts : List (ι → List ι)) (refs : List ι)
    (s : ConstraintSolver α ι) (hn : DomNodup s) (hw : WF s)
    (hk : ∀ ref ∈ refs, ref ∈ s.keys) (hinst : ∀ ref ∈ refs, (s.dom ref).length = 1) :
    ∃ b s1, applyInstantiated (Ts.map differs) refs s = Run.ret b s1 ∧ Shrinks s s1 ∧
      (b = true → ∀ ref ∈ refs, ∀ t ∈ Ts, ∀ j ∈ t ref, ∀ v ∈ s.dom ref, v ∉ s1.dom j) ∧
      (∀ (K : List ι) (a : ι → α), Fits K a s.dom → Valid K Ts a → Closed K Ts →
        (∀ ref ∈ refs, ref ∈ K) → b = true ∧ Fits K a s1.dom) := by
  induction refs generalizing s with
  | nil =>
    exact ⟨true, s, rfl, Shrinks.refl s, fun _ r hr => absurd hr (List.not_mem_nil r),
      fun K a hf _ _ _ => ⟨rfl, hf⟩⟩
  | cons ref refs ih =>
    obtain ⟨v, hd, _⟩ := value_of_length_one (hinst ref (List.mem_cons_self _ _))
    have hi : (s.get ref).indice = ref := hw.2 ref (hk ref (List.mem_cons_self _ _))
    obtain ⟨b, s1, h1, h2, h3, h4⟩ := applyConstraints_differs Ts ref v s hn hd hi
    have hcov1 : ∀ (K : List ι) (a : ι → α), Fits K a s.dom → Valid K Ts a → Closed K Ts →
        ref ∈ K → b = true ∧ Fits K a s1.dom := by
      intro K a hf hv hc hr
      apply h4 K a hf
      intro t ht j hj
      refine ⟨hc ref hr t ht j hj, ?_⟩
      have har := hf ref hr
      rw [hd, List.mem_singleton] at har
      intro e
      exact hv ref hr t ht j hj (har.trans e.symm)
    simp only [applyInstantiated, h1]
    cases b with
    | false =>
      refine ⟨false, s1, rfl, h2, fun h => Bool.noConfusion h, ?_⟩
      intro K a hf hv hc hr
      exact absurd (hcov1 K a hf hv hc (hr ref (List.mem_cons_self _ _))).1 (by simp)
    | true =>
      have hinst2 : ∀ r ∈ refs, (s1.dom r).length = 1 := by
        intro r hr
        have := hinst r (List.mem_cons_of_mem _ hr)
        rw [h2.fixed r (by omega)]; exact this
      obtain ⟨b2, s2, g1, g2, g3, g4⟩ := ih s1 (DomNodup.of_shrinks h2 hn)
        (WF.after_shrinks h2 hw)
        (fun r hr => by rw [h2.keys]; exact hk r (List.mem_cons_of_mem _ hr)) hinst2
      refine ⟨b2, s2, g1, h2.trans g2, ?_, ?_⟩
      · intro hb r hr t ht j hj w hw2
        rcases List.mem_cons.1 hr with e | hm
        · subst e
          rw [hd, List.mem_singleton] at hw2
          subst hw2
          intro hin
          exact h3 rfl t ht j hj ((g2.sub j).subset hin)
        · have hfix : s1.dom r = s.dom r :=
            h2.fixed r (by have := hinst r hr; omega)
          exact g3 hb r hm t ht j hj w (by rw [hfix]; exact hw2)
      · intro K a hf hv hc hr
        obtain ⟨_, c2⟩ := hcov1 K a hf hv hc (hr ref (List.mem_cons_self _ _))
        exact g4 K a c2 hv hc (fun r hr2 => hr r (List.mem_cons_of_mem _ hr2))

/-- Induction over the rounds of `partitionAndConstrain` in a search without
added variables: a relation between the state before, the flag `sastified`
and the state after that holds when no round is run and is carried through
one round holds of every return. -/
theorem partitionLoop_induct (P : Policies α ι) (hS : ShrinkOnly P.Constraints)
    (Q : search_t α ι → Bool → search_t α ι → Prop)
    (hexit : ∀ st, Q st true st)
    (hround : ∀ (st : search_t α ι) (b : Bool) (s1 : ConstraintSolver α ι) (b2 : Bool)
      (st2 : search_t α ι), st.Solver.AdditionalIndices = [] → DomNodup st.Solver →
      applyInstantiated P.Constraints (st.Parameters.Processing.filter
        (fun r => (st.Solver.get r).isInstantiated)) st.Solver = Run.ret b s1 →
      Shrinks st.Solver s1 →
      (b = true → Q (afterRound st s1) b2 st2) →
      (b = false → b2 = false ∧ st2 = afterRound st s1) → Q st b2 st2) :
    ∀ (fuel : Nat) (sat hN hI : Bool) (st : search_t α ι),
      st.Solver.AdditionalIndices = [] → DomNodup st.Solver →
      ∀ (r : Bool × Bool) (st2 : search_t α ι),
        partitionLoop P fuel sat hN hI false st = Run.ret r st2 →
        (sat = true → Q st r.1 st2) ∧ (sat = false → r.1 = false ∧ st2 = st) := by
  intro fuel
  induction fuel with
  | zero =>
    intro sat hN hI st hadd hn r st2 hr
    rw [partitionLoop] at hr
    by_cases hc : (sat && ((hI && hN) || false)) = true
    · rw [if_pos hc] at hr
      cases hr
    · rw [if_neg hc] at hr
      cases hr
      exact ⟨fun e => by subst e; exact hexit st, fun e => ⟨e, rfl⟩⟩
  | succ fuel ih =>
    intro sat hN hI st hadd hn r st2 hr
    rw [partitionLoop] at hr
    by_cases hc : (sat && ((hI && hN) || false)) = true
    · rw [if_pos hc] at hr
      have hsat : sat = true := by
        cases sat with
        | false => simp at hc
        | true => rfl
      simp only [hadd, List.filter_nil, List.append_nil] at hr
      have hinst : ∀ ref ∈ st.Parameters.Processing.filter
          (fun r => (st.Solver.get r).isInstantiated), (st.Solver.dom ref).length = 1 := by
        intro ref hr
        have := (List.mem_filter.1 hr).2
        simpa [Variable.isInstantiated, dom] using this
      obtain ⟨b, s1, h1, h2⟩ := applyInstantiated_shrinks P.Constraints hS _ st.Solver hn hinst
      rw [h1] at hr
      have hadd1 : s1.AdditionalIndices = [] := by rw [h2.additional]; exact hadd
      simp only [hadd1, List.isEmpty_nil, Bool.not_true] at hr
      have hih := ih b _ _ (afterRound st s1) hadd1 (DomNodup.of_shrinks h2 hn) r st2 hr
      refine ⟨fun _ => hround st b s1 r.1 st2 hadd hn h1 h2 hih.1 hih.2, ?_⟩
      intro e
      rw [e] at hsat
      cases hsat
    · rw [if_neg hc] at hr
      cases hr
      exact ⟨fun e => by subst e; exact hexit st, fun e => ⟨e, rfl⟩⟩

theorem partitionAndConstrain_induct (P : Policies α ι) (hS : ShrinkOnly P.Constraints)
    (Q : search_t α ι → Bool → search_t α ι → Prop)
    (hexit : ∀ st, Q st true st)
    (hround : ∀ (st : search_t α ι) (b : Bool) (s1 : ConstraintSolver α ι) (b2 : Bool)
      (st2 : search_t α ι), st.Solver.AdditionalIndices = [] → DomNodup st.Solver →
      applyInstantiated P.Constraints (st.Parameters.Processing.filter
        (fun r => (st.Solver.get r).isInstantiated)) st.Solver = Run.ret b s1 →
      Shrinks st.Solver s1 →
      (b = true → Q (afterRound st s1) b2 st2) →
      (b = false → b2 = false ∧ st2 = afterRound st s1) → Q st b2 st2)
    (fuel : Nat) (st : search_t α ι) (hadd : st.Solver.AdditionalIndices = [])
    (hn : DomNodup st.Solver) (r : Bool × Bool) (st2 : search_t α ι)
    (hr : partitionAndConstrain P fuel st = Run.ret r st2) : Q st r.1 st2 :=
  (partitionLoop_induct P hS Q hexit hround fuel true true true st hadd hn r st2 hr).1 rfl

/-- Propagation by not-equal propagators: when it succeeds, the values of the
variables that left `Processing` are excluded from their targets; and it
succeeds, keeping every valid assignment that the domains allowed. -/
theorem partition_differs (P : Policies α ι) (Ts : List (ι → List ι))
    (hP : P.Constraints = Ts.map differs) (K : List ι) (hcl : Closed K Ts) (total : Nat)
    (st : search_t α ι) (h : SInv st) (hK : st.Solver.keys = K) (r : Bool × Bool)
    (st1 : search_t α ι) (hr : partitionAndConstrain P total st = Run.ret r st1) :
    (Settled K Ts st.Parameters.Processing st.Solver.dom → r.1 = true →
      Settled K Ts st1.Parameters.Processing st1.Solver.dom) ∧
    (∀ a, Valid K Ts a → Fits K a st.Solver.dom → r.1 = true ∧ Fits K a st1.Solver.dom) := by
  have hS : ShrinkOnly P.Constraints := by rw [hP]; exact shrinkOnly_differs Ts
  have key := partitionAndConstrain_induct P hS
    (fun st b st1 => WF st.Solver → (∀ i ∈ st.Parameters.Processing, i ∈ st.Solver.keys) →
      st.Solver.keys = K →
      (Settled K Ts st.Parameters.Processing st.Solver.dom → b = true →
        Settled K Ts st1.Parameters.Processing st1.Solver.dom) ∧
      (∀ a, Valid K Ts a → Fits K a st.Solver.dom → b = true ∧ Fits K a st1.Solver.dom))
    (fun st _ _ _ => ⟨fun hs _ => hs, fun a _ hf => ⟨rfl, hf⟩⟩)
    (by
      intro st b s1 b2 st2 _ hn happ hsh hq hstop hw hsub hk
      have hrefs : ∀ ref ∈ st.Parameters.Processing.filter
          (fun r => (st.Solver.get r).isInstantiated), ref ∈ st.Solver.keys :=
        fun ref hr => hsub ref (List.mem_filter.1 hr).1
      have hinst : ∀ ref ∈ st.Parameters.Processing.filter
          (fun r => (st.Solver.get r).isInstantiated), (st.Solver.dom ref).length = 1 := by
        intro ref hr
        have := (List.mem_filter.1 hr).2
        simpa [Variable.isInstantiated, dom] using this
      obtain ⟨b0, s0, a1, _, a3, a4⟩ :=
        applyInstantiated_differs Ts _ st.Solver hn hw hrefs hinst
      rw [hP] at happ
      rw [happ] at a1
      cases a1
      have hcov : ∀ a, Valid K Ts a → Fits K a st.Solver.dom →
          b = true ∧ Fits K a s1.dom := by
        intro a hv hf
        exact a4 K a hf hv hcl (fun ref hr => by rw [← hk]; exact hrefs ref hr)
      cases b with
      | false =>
        obtain ⟨e1, e2⟩ := hstop rfl
        subst e1
        refine ⟨fun _ e => Bool.noConfusion e, ?_⟩
        intro a hv hf
        exact absurd (hcov a hv hf).1 (by simp)
      | true =>
        obtain ⟨q1, q2⟩ := hq rfl (WF.after_shrinks hsh hw)
          (fun i hi => by
            show i ∈ s1.keys
            rw [hsh.keys]
            exact hsub i (List.mem_filter.1 hi).1)
          (by show s1.keys = K; rw [hsh.keys]; exact hk)
        refine ⟨?_, ?_⟩
        · intro hs hb2
          apply q1 ?_ hb2
          intro i hi hnp t ht j hj v hv hvj
          have hv0 : v ∈ st.Solver.dom i := (hsh.sub i).subset hv
          by_cases hip : i ∈ st.Parameters.Processing
          · have hii : (st.Solver.get i).isInstantiated = true := by
              by_contra hni
              apply hnp
              show i ∈ st.Parameters.Processing.filter
                (fun r => !(st.Solver.get r).isInstantiated)
              exact List.mem_filter.2 ⟨hip, by simpa using hni⟩
            exact a3 rfl i (List.mem_filter.2 ⟨hip, hii⟩) t ht j hj v hv0 hvj
          · exact hs i hi hip t ht j hj v hv0 ((hsh.sub j).subset hvj)
        · intro a hv hf
          exact q2 a hv (hcov a hv hf).2)
    total st h.noAdd h.domNodup r st1 hr
  exact key h.wf h.procSub hK

end ConstraintSolver

end solver


namespace solver

namespace ConstraintSolver

variable {α ι : Type} [LinearOrder α] [LinearOrder ι]

/-! ## The search under not-equal propagators -/

theorem frames_eq_zip (st : search_t α ι) :
    frames st = (st.Parameters.Backup.map idx).zip (frameTail st) := by
  unfold frames frameTail
  rw [List.zip_map']

theorem frames_of_partition {P : Policies α ι} (hS : ShrinkOnly P.Constraints)
    {total : Nat} {st st1 : search_t α ι} {b : Bool × Bool} (h : SInv st)
    (hp : partitionAndConstrain P total st = Run.ret b st1) :
    frames st1 = frames st := by
  rw [frames_eq_zip, frames_eq_zip, frameTail_of_partition hS h hp,
    (h.of_partition hS hp).1.2.2.2.1]

theorem frames_of_backtracking {st : search_t α ι} (h : SInv st) (r : record_t α ι)
    (rs : List (record_t α ι)) (hB : st.Parameters.Backup = r :: rs) :
    (backtracking st).Parameters.Processing = idx r ∧
    frames st = (idx r, (backtracking st).Solver.dom) :: frames (backtracking st) := by
  obtain ⟨e1, e2⟩ := frameTail_of_backtracking h r rs hB
  obtain ⟨hP, _⟩ := backtracking_get st h r rs hB
  refine ⟨by rw [hP], ?_⟩
  rw [frames_eq_zip, frames_eq_zip, e2, hB, hP, e1]
  rfl

theorem frames_of_select {P : Policies α ι} {st st2 : search_t α ι} (h : SInv st)
    (hp : SelectPost P st st2) :
    ∃ (x : ι) (val : α), x ∈ st.Parameters.Processing ∧ st.Solver.dom x ≠ [] ∧
      (P.Selector = none → ∃ tl, st.Solver.dom x = val :: tl) ∧
      (∀ sel, P.Selector = some sel → val = sel (st.Solver.get x)) ∧
      List.Perm st2.Parameters.Processing st.Parameters.Processing ∧
      st2.Parameters.Processing ≠ [] ∧
      st2.Solver.dom = Function.update st.Solver.dom x [val] ∧
      frameTail st2 =
        Function.update st.Solver.dom x
          ((st.Solver.dom x).filter (fun w => decide (w ≠ val))) :: frameTail st ∧
      frames st2 =
        (st2.Parameters.Processing, Function.update st.Solver.dom x
          ((st.Solver.dom x).filter (fun w => decide (w ≠ val)))) :: frames st := by
  obtain ⟨x, val, hx, hne1, hs0, hs1, hhead, hd2, hft⟩ := frameTail_of_select h hp
  obtain ⟨_, _, _, _, _, _, ⟨r, hB, _, _, _, hrem⟩, _, _, _⟩ := hp.get h.procSub
  have hperm : List.Perm st2.Parameters.Processing st.Parameters.Processing := by
    obtain ⟨x1, rest, v0, tl, hperm, _, hproc, _⟩ := hp
    rw [hproc]; exact hperm
  have hidx : idx r = st2.Parameters.Processing := by
    unfold idx
    rw [hrem]
    exact map_get_indice h.wf _ (fun i hi => h.procSub i (hperm.subset hi))
  refine ⟨x, val, hx, hne1, hs0, hs1, hperm, ?_, hd2, hft, ?_⟩
  · intro e
    rw [e] at hhead
    cases hhead
  · rw [frames_eq_zip, frames_eq_zip, hft, hB]
    simp only [List.map_cons, List.zip_cons_cons, hidx]

theorem Settled.update {K : List ι} {Ts : List (ι → List ι)} {proc proc2 : List ι}
    {f : ι → List α} (h : Settled K Ts proc f) (x : ι) (l : List α) (hx : x ∈ proc)
    (hp : List.Perm proc2 proc) (hl : ∀ w ∈ l, w ∈ f x) :
    Settled K Ts proc2 (Function.update f x l) := by
  intro i hi hnp t ht j hj v hv hvj
  have hnp1 : i ∉ proc := fun hm => hnp (hp.symm.subset hm)
  have hix : i ≠ x := fun e => hnp1 (e ▸ hx)
  rw [Function.update_noteq hix] at hv
  apply h i hi hnp1 t ht j hj v hv
  by_cases hjx : j = x
  · subst hjx
    rw [Function.update_same] at hvj
    exact hl v hvj
  · rw [Function.update_noteq hjx] at hvj
    exact hvj

theorem frameTail_eq_map_frames (st : search_t α ι) :
    frameTail st = (frames st).map Prod.snd := by
  unfold frames frameTail
  rw [List.map_map]
  rfl

theorem Cover.relax {K : List ι} {Ts : List (ι → List ι)} {D0 : ι → List α}
    {L : List (List (Variable α ι))} {live live2 : Prop} {st : search_t α ι}
    (h : Cover K Ts D0 L live st) (hl : live → live2) : Cover K Ts D0 L live2 st := by
  intro a hv hf
  rcases h a hv hf with ⟨h1, h2⟩ | h2 | h2
  · exact Or.inl ⟨hl h1, h2⟩
  · exact Or.inr (Or.inl h2)
  · exact Or.inr (Or.inr h2)

/-- The invariants of the search under not-equal propagators after a
propagation. -/
theorem FInv.after_partition {P : Policies α ι} {Ts : List (ι → List ι)}
    (hP : P.Constraints = Ts.map differs) {K : List ι} (hcl : Closed K Ts) {D0 : ι → List α}
    {total : Nat} {st st1 : search_t α ι} {b : Bool × Bool} (h : SInv st)
    (hK : st.Solver.keys = K) (hF : FInv K Ts D0 st)
    (hs : Settled K Ts st.Parameters.Processing st.Solver.dom)
    (hp : partitionAndConstrain P total st = Run.ret b st1) :
    FInv K Ts D0 st1 ∧
    (b.1 = true → Settled K Ts st1.Parameters.Processing st1.Solver.dom) ∧
    (∀ (L : List (List (Variable α ι))) (live : Prop), Cover K Ts D0 L live st →
      Cover K Ts D0 L (live ∧ b.1 = true) st1) := by
  have hS : ShrinkOnly P.Constraints := by rw [hP]; exact shrinkOnly_differs Ts
  have hsh := (h.of_partition hS hp).1.2.1
  have eT := frameTail_of_partition hS h hp
  have eF := frames_of_partition hS h hp
  obtain ⟨p1, p2⟩ := partition_differs P Ts hP K hcl total st h hK b st1 hp
  refine ⟨⟨?_, ?_, ?_⟩, p1 hs, ?_⟩
  · intro k w hw
    exact hF.bnd k w ((hsh.sub k).subset hw)
  · rw [eT]; exact hF.bndF
  · rw [eF]; exact hF.settledF
  · intro L live hc a hv hf
    rcases hc a hv hf with ⟨h1, h2⟩ | h2 | h2
    · obtain ⟨q1, q2⟩ := p2 a hv h2
      exact Or.inl ⟨⟨h1, q1⟩, q2⟩
    · rw [eT]; exact Or.inr (Or.inl h2)
    · exact Or.inr (Or.inr h2)

/-- The invariants of the search under not-equal propagators after
backtracking from domains that allow no valid assignment any more. -/
theorem FInv.after_backtracking {K : List ι} {Ts : List (ι → List ι)} {D0 : ι → List α}
    {st : search_t α ι} (h : SInv st) (hF : FInv K Ts D0 st) (r : record_t α ι)
    (rs : List (record_t α ι)) (hB : st.Parameters.Backup = r :: rs)
    (L : List (List (Variable α ι))) (hc : Cover K Ts D0 L False st) :
    FInv K Ts D0 (backtracking st) ∧
    Settled K Ts (backtracking st).Parameters.Processing (backtracking st).Solver.dom ∧
    Cover K Ts D0 L ((backtracking st).Parameters.Processing ≠ []) (backtracking st) := by
  obtain ⟨e1, e2⟩ := frameTail_of_backtracking h r rs hB
  obtain ⟨g1, g2⟩ := frames_of_backtracking h r rs hB
  have hne : (backtracking st).Parameters.Processing ≠ [] := by
    rw [g1]
    have hst := h.stack
    rw [hB] at hst
    exact List.ne_nil_of_mem hst.2.2.2.2.1
  refine ⟨⟨?_, ?_, ?_⟩, ?_, ?_⟩
  · intro k w hw
    rw [e1] at hw
    exact hF.bndF _ (by rw [e2]; exact List.mem_cons_self _ _) k w hw
  · intro f hf
    exact hF.bndF f (by rw [e2]; exact List.mem_cons_of_mem _ hf)
  · intro c hcm
    exact hF.settledF c (by rw [g2]; exact List.mem_cons_of_mem _ hcm)
  · have := hF.settledF _ (by rw [g2]; exact List.mem_cons_self _ _)
    rw [g1]
    exact this
  · intro a hv hf
    rcases hc a hv hf with ⟨h1, _⟩ | ⟨f, hfm, h2⟩ | h2
    · exact h1.elim
    · rw [e2] at hfm
      rcases List.mem_cons.1 hfm with e | hm
      · left
        refine ⟨hne, ?_⟩
        rw [e1, ← e]
        exact h2
      · exact Or.inr (Or.inl ⟨f, hm, h2⟩)
    · exact Or.inr (Or.inr h2)

/-- The invariants of the search under not-equal propagators after a
branching step. -/
theorem FInv.after_select {P : Policies α ι} (hsel : SelectorInDomain P) {K : List ι}
    {Ts : List (ι → List ι)} {D0 : ι → List α} {st st2 : search_t α ι} (h : SInv st)
    (hF : FInv K Ts D0 st)
    (hs : Settled K Ts st.Parameters.Processing st.Solver.dom)
    (hp : SelectPost P st st2) :
    FInv K Ts D0 st2 ∧
    Settled K Ts st2.Parameters.Processing st2.Solver.dom ∧
    (∀ (L : List (List (Variable α ι))), Cover K Ts D0 L True st →
      Cover K Ts D0 L (st2.Parameters.Processing ≠ []) st2) := by
  obtain ⟨x, val, hx, hne1, hs0, hs1, hperm, hne2, hd2, hft, hfr⟩ := frames_of_select h hp
  have hval := chosen_mem hsel st.Solver x val hne1 hs0 hs1
  have hsub1 := update_singleton_sub st.Solver.dom x val hval
  have hsub2 := update_filter_sub st.Solver.dom x val
  have hset2 : Settled K Ts st2.Parameters.Processing (Function.update st.Solver.dom x
      ((st.Solver.dom x).filter (fun w => decide (w ≠ val)))) :=
    hs.update x _ hx hperm (fun w hw => (List.mem_filter.1 hw).1)
  refine ⟨⟨?_, ?_, ?_⟩, ?_, ?_⟩
  · intro k w hw
    rw [hd2] at hw
    exact hF.bnd k w (hsub1 k w hw)
  · intro f hf k w hw
    rw [hft] at hf
    rcases List.mem_cons.1 hf with e | hm
    · rw [e] at hw
      exact hF.bnd k w (hsub2 k w hw)
    · exact hF.bndF f hm k w hw
  · intro c hcm
    rw [hfr] at hcm
    rcases List.mem_cons.1 hcm with e | hm
    · rw [e]; exact hset2
    · exact hF.settledF c hm
  · rw [hd2]
    exact hs.update x _ hx hperm (fun w hw => by rw [List.mem_singleton.1 hw]; exact hval)
  · intro L hc a hv hf
    rcases hc a hv hf with ⟨_, h2⟩ | ⟨f, hfm, h2⟩ | h2
    · by_cases hax : a x = val
      · left
        refine ⟨hne2, ?_⟩
        rw [hd2]
        intro k hk
        by_cases hkx : k = x
        · subst hkx
          rw [Function.update_same, hax]
          exact List.mem_singleton_self _
        · rw [Function.update_noteq hkx]
          exact h2 k hk
      · right; left
        refine ⟨_, by rw [hft]; exact List.mem_cons_self _ _, ?_⟩
        intro k hk
        by_cases hkx : k = x
        · subst hkx
          rw [Function.update_same]
          exact List.mem_filter.2 ⟨h2 k hk, by simpa using hax⟩
        · rw [Function.update_noteq hkx]
          exact h2 k hk
    · exact Or.inr (Or.inl ⟨f, by rw [hft]; exact List.mem_cons_of_mem _ hfm, h2⟩)
    · exact Or.inr (Or.inr h2)

theorem Cover.exhausted {K : List ι} {Ts : List (ι → List ι)} {D0 : ι → List α}
    {L : List (List (Variable α ι))} {st : search_t α ι}
    (hc : Cover K Ts D0 L False st) (hB : st.Parameters.Backup = []) :
    ∀ a, Valid K Ts a → Fits K a D0 → solutionOf K a ∈ L := by
  intro a hv hf
  rcases hc a hv hf with ⟨h1, _⟩ | ⟨f, hfm, _⟩ | h2
  · exact h1.elim
  · unfold frameTail at hfm
    rw [hB] at hfm
    cases hfm
  · exact h2

/-- One turn of the loop of `SearchSolution` under not-equal propagators. -/
theorem IterCase.differs {P : Policies α ι} {Ts : List (ι → List ι)}
    (hP : P.Constraints = Ts.map differs) (hsel : SelectorInDomain P) {K : List ι}
    (hcl : Closed K Ts) {D0 : ι → List α} {total : Nat} {st : search_t α ι} (h : SInv st)
    (hK : st.Solver.keys = K) (hF : FInv K Ts D0 st)
    (hs : Settled K Ts st.Parameters.Processing st.Solver.dom)
    (L : List (List (Variable α ι)))
    (hc : Cover K Ts D0 L (st.Parameters.Processing ≠ []) st) {o : Option Bool}
    {st2 : search_t α ι} (hi : IterCase P total st (Run.ret o st2)) :
    FInv K Ts D0 st2 ∧
    (o = none → Settled K Ts st2.Parameters.Processing st2.Solver.dom ∧
      Cover K Ts D0 L (st2.Parameters.Processing ≠ []) st2) ∧
    (o = some true → Settled K Ts st2.Parameters.Processing st2.Solver.dom ∧
      Cover K Ts D0 L True st2) ∧
    (o = some false → ∀ a, Valid K Ts a → Fits K a D0 → solutionOf K a ∈ L) := by
  have hS : ShrinkOnly P.Constraints := by rw [hP]; exact shrinkOnly_differs Ts
  cases hi with
  | emptyStop hp hB =>
    exact ⟨hF, fun e => Option.noConfusion e, fun e => Bool.noConfusion (Option.some.inj e),
      fun _ => (hc.relax (fun hl => hl hp)).exhausted hB⟩
  | emptyBack r rs hp hB =>
    obtain ⟨b1, b2, b3⟩ := hF.after_backtracking h r rs hB L (hc.relax (fun hl => hl hp))
    exact ⟨b1, fun _ => ⟨b2, b3⟩, fun e => Option.noConfusion e, fun e => Option.noConfusion e⟩
  | failStop st1 hp hpc hB =>
    obtain ⟨a1, _, a3⟩ := hF.after_partition hP hcl h hK hs hpc
    have : Cover K Ts D0 L False _ := (a3 L _ hc).relax (fun hl => Bool.noConfusion hl.2)
    exact ⟨a1, fun e => Option.noConfusion e, fun e => Bool.noConfusion (Option.some.inj e), fun _ => this.exhausted hB⟩
  | failBack st1 r rs hp hpc hB =>
    obtain ⟨a1, _, a3⟩ := hF.after_partition hP hcl h hK hs hpc
    have : Cover K Ts D0 L False _ := (a3 L _ hc).relax (fun hl => Bool.noConfusion hl.2)
    obtain ⟨b1, b2, b3⟩ := a1.after_backtracking (h.of_partition hS hpc).2 r rs hB L this
    exact ⟨b1, fun _ => ⟨b2, b3⟩, fun e => Option.noConfusion e, fun e => Option.noConfusion e⟩
  | solved st1 hp hpc hp1 =>
    obtain ⟨a1, a2, a3⟩ := hF.after_partition hP hcl h hK hs hpc
    exact ⟨a1, fun e => Option.noConfusion e,
      fun _ => ⟨a2 rfl, (a3 L _ hc).relax (fun _ => trivial)⟩, fun e => Bool.noConfusion (Option.some.inj e)⟩
  | branch st1 _ hp hpc hp1 hnon hselp =>
    obtain ⟨a1, a2, a3⟩ := hF.after_partition hP hcl h hK hs hpc
    obtain ⟨c1, c2, c3⟩ := a1.after_select hsel (h.of_partition hS hpc).2 (a2 rfl) hselp
    exact ⟨c1, fun _ => ⟨c2, c3 L ((a3 L _ hc).relax (fun _ => trivial))⟩,
      fun e => Option.noConfusion e, fun e => Option.noConfusion e⟩

/-- The loop of `SearchSolution` under not-equal propagators: it loses no
valid assignment, and when it stops with `false` every valid assignment has its
solution in the registry. -/
theorem SearchSolution_differs (P : Policies α ι) (Ts : List (ι → List ι))
    (hP : P.Constraints = Ts.map differs)
    (hsort : ∀ cmp l, List.Perm (P.StdSort cmp l) l) (hsel : SelectorInDomain P)
    (K : List ι) (hcl : Closed K Ts) (D0 : ι → List α) (total fuel : Nat)
    (st : search_t α ι) (h : SInv st) (hK : st.Solver.keys = K) (hF : FInv K Ts D0 st)
    (hs : Settled K Ts st.Parameters.Processing st.Solver.dom)
    (L : List (List (Variable α ι)))
    (hc : Cover K Ts D0 L (st.Parameters.Processing ≠ []) st) :
    match SearchSolution P total fuel st with
    | Run.ret b st1 => FInv K Ts D0 st1 ∧
        (b = true → Settled K Ts st1.Parameters.Processing st1.Solver.dom ∧
          Cover K Ts D0 L True st1) ∧
        (b = false → ∀ a, Valid K Ts a → Fits K a D0 → solutionOf K a ∈ L)
    | Run.raise _ => True
    | Run.stall _ => True := by
  have hS : ShrinkOnly P.Constraints := by rw [hP]; exact shrinkOnly_differs Ts
  refine SearchSolution_safe P total
    (fun st1 => SInv st1 ∧ st1.Solver.keys = K ∧ FInv K Ts D0 st1 ∧
      Settled K Ts st1.Parameters.Processing st1.Solver.dom ∧
      Cover K Ts D0 L (st1.Parameters.Processing ≠ []) st1)
    (fun b st1 => FInv K Ts D0 st1 ∧
        (b = true → Settled K Ts st1.Parameters.Processing st1.Solver.dom ∧
          Cover K Ts D0 L True st1) ∧
        (b = false → ∀ a, Valid K Ts a → Fits K a D0 → solutionOf K a ∈ L))
    (fun _ => True) (fun _ _ => trivial) ?_ fuel st ⟨h, hK, hF, hs, hc⟩
  intro st1 ⟨h1, hk1, hF1, hs1, hc1⟩
  have hcase := searchIteration_cases P hS hsort total st1 h1
  have hkept := hcase.kept hS h1
  cases hi : searchIteration P total st1 with
  | raise st2 => trivial
  | stall st2 => trivial
  | ret o st2 =>
    rw [hi] at hkept hcase
    obtain ⟨d1, d2, d3, d4⟩ := hcase.differs hP hsel hcl h1 hk1 hF1 hs1 L hc1
    cases o with
    | none =>
      exact ⟨hcase.sinv hS h1, hkept.1.trans hk1, d1, (d2 rfl).1, (d2 rfl).2⟩
    | some b =>
      refine ⟨d1, ?_, ?_⟩
      · intro hb; subst hb; exact d3 rfl
      · intro hb; subst hb; exact d4 rfl

end ConstraintSolver

end solver


namespace solver

namespace ConstraintSolver

variable {α ι : Type} [LinearOrder α] [LinearOrder ι]

/-! ## What `internSolve` records under not-equal propagators -/

/-- The assignment read from a state in which `Processing` is empty and the
domains are settled: it is valid, and its solution is the one that
`internSolve` records. -/
theorem solved_assignment {K : List ι} {Ts : List (ι → List ι)} {D0 : ι → List α}
    (hcl : Closed K Ts) (hne : K ≠ []) {st : search_t α ι} (h : SInv st)
    (hK : st.Solver.keys = K) (hp : st.Parameters.Processing = [])
    (hF : FInv K Ts D0 st) (hs : Settled K Ts st.Parameters.Processing st.Solver.dom) :
    ∃ a, Valid K Ts a ∧ Fits K a D0 ∧ (∀ k ∈ K, st.Solver.dom k = [a k]) ∧
      st.Solver.keys.map (fun i => st.Solver.get i) = solutionOf K a := by
  have hlen : ∀ k ∈ K, (st.Solver.dom k).length = 1 := by
    intro k hk
    exact h.inst k (by rw [hK]; exact hk) (by rw [hp]; exact List.not_mem_nil k)
  obtain ⟨k0, hk0⟩ := List.exists_mem_of_ne_nil K hne
  obtain ⟨v0, _⟩ := List.length_eq_one.1 (hlen k0 hk0)
  have hd : ∀ k ∈ K, st.Solver.dom k = [(st.Solver.dom k).headD v0] := by
    intro k hk
    obtain ⟨w, hw⟩ := List.length_eq_one.1 (hlen k hk)
    rw [hw]
    rfl
  refine ⟨fun k => (st.Solver.dom k).headD v0, ?_, ?_, hd, ?_⟩
  · intro i hi t ht j hj e
    have hj2 := hcl i hi t ht j hj
    apply hs i hi (by rw [hp]; exact List.not_mem_nil i) t ht j hj
      ((st.Solver.dom i).headD v0)
    · have := hd i hi
      rw [this]
      simp
    · have := hd j hj2
      rw [this]
      simp only [List.headD_cons, List.mem_singleton]
      exact e
  · intro k hk
    apply hF.bnd
    have := hd k hk
    rw [this]
    simp
  · rw [hK]
    unfold solutionOf
    apply List.map_congr_left
    intro k hk
    have hi : (st.Solver.get k).Indice = k := h.wf.2 k (by rw [hK]; exact hk)
    have hdk := hd k hk
    unfold dom at hdk
    cases hg : st.Solver.get k with
    | mk i d =>
      rw [hg] at hi hdk
      simp only at hi hdk
      rw [hi, hdk]
      simp only [List.headD_cons, Variable.mk.injEq, true_and]
      unfold dom
      rw [hg]

theorem solutionOf_congr {K : List ι} {a b : ι → α} (h : ∀ k ∈ K, a k = b k) :
    (solutionOf K a : List (Variable α ι)) = solutionOf K b := by
  unfold solutionOf
  apply List.map_congr_left
  intro k hk
  rw [h k hk]

/-- The loop of `internSolve` under not-equal propagators, on domains that
are not empty and with a budget above the measure: it returns; the registry
holds solutions of valid assignments only, all of them when every solution is
asked for, and one at least when there is a valid assignment; and after a
search for one solution that found one, the variables hold a valid
assignment. -/
theorem internSolveLoop_differs (P : Policies α ι) (Ts : List (ι → List ι))
    (hP : P.Constraints = Ts.map differs)
    (hsort : ∀ cmp l, List.Perm (P.StdSort cmp l) l) (hsel : SelectorInDomain P)
    (K : List ι) (hcl : Closed K Ts) (hKne : K ≠ []) (D0 : ι → List α) (all : Bool)
    (total : Nat) (ht : K.length < total) :
    ∀ (fuel : Nat) (st : search_t α ι), SInv st → st.Solver.keys = K → AllNonempty st →
      FInv K Ts D0 st → Settled K Ts st.Parameters.Processing st.Solver.dom →
      Cover K Ts D0 st.Solver.SolutionList (st.Parameters.Processing ≠ []) st →
      (∀ sol ∈ st.Solver.SolutionList, ∃ a, Valid K Ts a ∧ Fits K a D0 ∧ sol = solutionOf K a) →
      searchMeasure st < total → searchMeasure st < fuel →
      ∃ st1, internSolveLoop P all total fuel st = Run.ret () st1 ∧
        (∀ sol ∈ st1.Solver.SolutionList,
          ∃ a, Valid K Ts a ∧ Fits K a D0 ∧ sol = solutionOf K a) ∧
        (all = true → ∀ a, Valid K Ts a → Fits K a D0 →
          solutionOf K a ∈ st1.Solver.SolutionList) ∧
        ((∃ a, Valid K Ts a ∧ Fits K a D0) → st1.Solver.SolutionList ≠ []) ∧
        (all = false → st.Solver.SolutionList = [] → st1.Solver.SolutionList ≠ [] →
          ∃ a, Valid K Ts a ∧ Fits K a D0 ∧ ∀ k ∈ K, st1.Solver.dom k = [a k]) := by
  have hS : ShrinkOnly P.Constraints := by rw [hP]; exact shrinkOnly_differs Ts
  intro fuel
  induction fuel with
  | zero => intro st _ _ _ _ _ _ _ _ hf; exact absurd hf (Nat.not_lt_zero _)
  | succ fuel ih =>
    intro st h hK hne hF hs hc hsound hmt hmf
    obtain ⟨b, st1, e, hn1, hm1, hm2⟩ := SearchSolution_returns P hS hsort hsel total total st
      h hne (by rw [hK]; exact ht) hmt
    have s1 := SearchSolution_sinv P hS hsort total total st h
    have d := SearchSolution_differs P Ts hP hsort hsel K hcl D0 total total st h hK hF hs
      st.Solver.SolutionList hc
    rw [e] at s1 d
    obtain ⟨h1, hk1, hp1⟩ := s1
    obtain ⟨hF1, dt, df⟩ := d
    have hK1 : st1.Solver.keys = K := hk1.1.trans hK
    rw [internSolveLoop, e]
    simp only
    cases b with
    | false =>
      simp only [Bool.false_eq_true, if_false, Bool.and_false]
      refine ⟨st1, rfl, ?_, ?_, ?_, ?_⟩
      · rw [hk1.2.1]; exact hsound
      · intro _; rw [hk1.2.1]; exact df rfl
      · rintro ⟨a, hv, hf⟩
        rw [hk1.2.1]
        exact List.ne_nil_of_mem (df rfl a hv hf)
      · intro _ h0 hne1
        rw [hk1.2.1] at hne1
        exact absurd h0 hne1
    | true =>
      obtain ⟨hset1, hcov1⟩ := dt rfl
      have hproc1 := hp1 rfl
      obtain ⟨a0, va, fa, da, ea⟩ := solved_assignment hcl hKne h1 hK1 hproc1 hF1 hset1
      obtain ⟨e1, _, e3, e4, e5⟩ := recordSolution_spec h1 hproc1
      have hlist : (recordSolution st1).Solver.SolutionList =
          st.Solver.SolutionList ++ [solutionOf K a0] := by
        rw [e1, hk1.2.1, ea]
      have hsound2 : ∀ sol ∈ (recordSolution st1).Solver.SolutionList,
          ∃ a, Valid K Ts a ∧ Fits K a D0 ∧ sol = solutionOf K a := by
        intro sol hsol
        rw [hlist] at hsol
        rcases List.mem_append.1 hsol with hm | hm
        · exact hsound sol hm
        · exact ⟨a0, va, fa, List.mem_singleton.1 hm⟩
      have hcov2 : Cover K Ts D0 (recordSolution st1).Solver.SolutionList
          ((recordSolution st1).Parameters.Processing ≠ []) (recordSolution st1) := by
        intro a hv hf
        rcases hcov1 a hv hf with ⟨_, h2⟩ | h2 | h2
        · right; right
          rw [hlist]
          apply List.mem_append_right
          rw [List.mem_singleton]
          apply solutionOf_congr
          intro k hk
          have := h2 k hk
          rw [da k hk, List.mem_singleton] at this
          exact this
        · exact Or.inr (Or.inl h2)
        · right; right
          rw [hlist]
          exact List.mem_append_left _ h2
      have hne2 : (recordSolution st1).Solver.SolutionList ≠ [] := by
        rw [hlist]; simp
      simp only [if_true, Bool.and_true]
      by_cases hcont : (all && !(recordSolution st1).Parameters.Backup.isEmpty) = true
      · rw [if_pos hcont]
        have hall : all = true := by
          cases all with
          | false => simp at hcont
          | true => rfl
        obtain ⟨st3, r1, r2, r3, r4, _⟩ := ih (recordSolution st1) e5 hK1 hn1
          ⟨hF1.bnd, hF1.bndF, hF1.settledF⟩ hset1 hcov2 hsound2
          (Nat.lt_of_le_of_lt hm1 hmt)
          (by
            have := hm2 rfl
            show searchMeasure st1 < fuel
            omega)
        refine ⟨st3, r1, r2, r3, r4, ?_⟩
        intro hf
        rw [hf] at hall
        cases hall
      · rw [if_neg hcont]
        refine ⟨recordSolution st1, rfl, hsound2, ?_, fun _ => hne2, ?_⟩
        · intro hall
          have hB : (recordSolution st1).Parameters.Backup = [] := by
            rw [hall] at hcont
            cases hb : (recordSolution st1).Parameters.Backup with
            | nil => rfl
            | cons r rs => rw [hb] at hcont; simp at hcont
          have hproc2 : (recordSolution st1).Parameters.Processing = [] := by
            rw [e3]; exact hproc1
          exact (hcov2.relax (fun hl => hl hproc2)).exhausted hB
        · intro _ _ _
          exact ⟨a0, va, fa, da⟩

/-- Method `internSolve` on a fresh solver under not-equal propagators, with
domains that are not empty, at least one variable and a budget of at least
`budget s`: it returns whether the registry is not empty; the registry holds
solutions of valid assignments only, pairwise different, all of them when
every solution is asked for, and one at least when there is a valid
assignment; and after a search for one solution that found one, the variables
hold a valid assignment. -/
theorem internSolve_differs (P : Policies α ι) (Ts : List (ι → List ι))
    (hP : P.Constraints = Ts.map differs)
    (hsort : ∀ cmp l, List.Perm (P.StdSort cmp l) l) (hsel : SelectorInDomain P)
    (s : ConstraintSolver α ι) (hf : Fresh s) (hcl : Closed s.keys Ts) (hKne : s.keys ≠ [])
    (hdom : ∀ k ∈ s.keys, s.dom k ≠ []) (all : Bool) (fuel : Nat) (hfuel : budget s ≤ fuel) :
    ∃ s1, internSolve P all fuel s = Run.ret (!s1.SolutionList.isEmpty) s1 ∧
      (∀ sol ∈ s1.SolutionList,
        ∃ a, Valid s.keys Ts a ∧ Fits s.keys a s.dom ∧ sol = solutionOf s.keys a) ∧
      s1.SolutionList.Pairwise Differ ∧
      (all = true → ∀ a, Valid s.keys Ts a → Fits s.keys a s.dom →
        solutionOf s.keys a ∈ s1.SolutionList) ∧
      ((∃ a, Valid s.keys Ts a ∧ Fits s.keys a s.dom) → s1.SolutionList ≠ []) ∧
      (all = false → s1.SolutionList ≠ [] →
        ∃ a, Valid s.keys Ts a ∧ Fits s.keys a s.dom ∧ ∀ k ∈ s.keys, s1.dom k = [a k]) := by
  have hS : ShrinkOnly P.Constraints := by rw [hP]; exact shrinkOnly_differs Ts
  obtain ⟨hw, hn, _, ha, _, hl⟩ := hf.facts
  have hemp : (startSearch s).Solver.SolutionList = [] := hl
  have hb : s.keys.length < fuel ∧ searchMeasure (startSearch s) < fuel := by
    unfold budget at hfuel
    omega
  have hstart := SInv.start hw hn ha
  obtain ⟨st1, r0, r1, r2, r3, r4⟩ := internSolveLoop_differs P Ts hP hsort hsel s.keys hcl
    hKne s.dom all fuel hb.1 fuel (startSearch s) hstart rfl
    ⟨hdom, fun f hfm => absurd hfm (List.not_mem_nil f)⟩
    ⟨fun _ _ hw2 => hw2, fun f hfm => absurd hfm (List.not_mem_nil f),
      fun c hcm => absurd hcm (List.not_mem_nil c)⟩
    (fun i hi hnp => absurd hi hnp)
    (fun a _ hfit => Or.inl ⟨hKne, hfit⟩)
    (by intro sol hs; rw [hemp] at hs; cases hs)
    hb.2 hb.2
  have hpw := internSolveLoop_distinct P hS hsort hsel all fuel s.keys fuel (startSearch s)
    hstart rfl (by intro sol hs; rw [hemp] at hs; cases hs)
    (by rw [hemp]; exact List.Pairwise.nil)
    (by
      rw [hemp]
      exact ⟨fun A hA => absurd hA (List.not_mem_nil A), fun _ A hA => absurd hA (List.not_mem_nil A)⟩)
  rw [r0] at hpw
  refine ⟨{ st1.Solver with IsSolveInProgress := false }, ?_, r1, hpw, r2, r3, ?_⟩
  · unfold internSolve
    rw [r0]
  · intro hall hne
    exact r4 hall hemp hne

end ConstraintSolver

end solver


namespace solver

namespace ConstraintSolver

variable {α ι : Type} [LinearOrder α] [LinearOrder ι]

/-! ## The registry of a search without constraints -/

theorem length_sections_eq {β : Type} (L : List (List β)) :
    (List.sections L).length = (L.map List.length).prod := by
  induction L with
  | nil => rfl
  | cons l L ih =>
    simp only [List.sections, List.length_flatMap, List.map_cons, List.prod_cons]
    have : List.map (List.length ∘ fun s => List.map (fun a => a :: s) l) (List.sections L) =
        List.replicate (List.sections L).length l.length := by
      rw [List.eq_replicate_iff]
      refine ⟨by simp, ?_⟩
      intro b hb
      obtain ⟨x, _, rfl⟩ := List.mem_map.1 hb
      simp
    rw [this, List.sum_replicate, ih, smul_eq_mul, mul_comm]

theorem nodup_sections {β : Type} (L : List (List β)) (h : ∀ l ∈ L, l.Nodup) :
    (List.sections L).Nodup := by
  induction L with
  | nil => simp [List.sections]
  | cons l L ih =>
    have hl := h l (List.mem_cons_self _ _)
    have hL := ih (fun x hx => h x (List.mem_cons_of_mem _ hx))
    simp only [List.sections]
    rw [List.nodup_flatMap]
    constructor
    · intro s _
      exact hl.map (fun a b e => (List.cons.inj e).1)
    · refine hL.imp ?_
      intro s t hst
      show List.Disjoint _ _
      intro x hx hy
      obtain ⟨a, _, rfl⟩ := List.mem_map.1 hx
      obtain ⟨b, _, e⟩ := List.mem_map.1 hy
      exact hst (List.cons.inj e).2.symm

theorem forall₂_of_fits (K : List ι) (a : ι → α) (D : ι → List α) (h : Fits K a D) :
    List.Forall₂ (fun v l => v ∈ l) (K.map a) (K.map D) := by
  induction K with
  | nil => exact List.Forall₂.nil
  | cons k K ih =>
    exact List.Forall₂.cons (h k (List.mem_cons_self _ _))
      (ih (fun x hx => h x (List.mem_cons_of_mem _ hx)))

theorem exists_assignment (d : α) (K : List ι) (hK : K.Nodup) (D : ι → List α) :
    ∀ t : List α, List.Forall₂ (fun v l => v ∈ l) t (K.map D) →
      ∃ a : ι → α, K.map a = t ∧ Fits K a D := by
  induction K with
  | nil =>
    intro t h
    cases h
    exact ⟨fun _ => d, rfl, fun k hk => absurd hk (List.not_mem_nil k)⟩
  | cons k K ih =>
    intro t h
    rw [List.nodup_cons] at hK
    cases h with
    | cons hv ht =>
      rename_i v t1
      obtain ⟨a, e, hf⟩ := ih hK.2 t1 ht
      refine ⟨Function.update a k v, ?_, ?_⟩
      · simp only [List.map_cons, Function.update_same, List.cons.injEq, true_and]
        rw [← e]
        apply List.map_congr_left
        intro x hx
        have hxk : x ≠ k := fun e2 => hK.1 (by rw [← e2]; exact hx)
        rw [Function.update_noteq hxk]
      · intro x hx
        rcases List.mem_cons.1 hx with e2 | hm
        · subst e2
          rw [Function.update_same]
          exact hv
        · have hxk : x ≠ k := fun e2 => hK.1 (by rw [← e2]; exact hm)
          rw [Function.update_noteq hxk]
          exact hf x hm

theorem values_solutionOf (K : List ι) (a : ι → α) :
    (solutionOf K a).filterMap Variable.value = K.map a := by
  induction K with
  | nil => rfl
  | cons k K ih =>
    unfold solutionOf at ih ⊢
    simp only [List.map_cons]
    rw [List.filterMap_cons]
    simp only [Variable.value, List.head?_cons]
    rw [ih]

/-- A registry that holds the solution of every assignment over the domains
`D`, only such solutions, and no two alike, lists the Cartesian product of the
domains. -/
theorem registry_is_product (K : List ι) (hK : K.Nodup) (hne : K ≠ []) (D : ι → List α)
    (hD : ∀ k ∈ K, D k ≠ []) (hDn : ∀ k, (D k).Nodup) (L : List (List (Variable α ι)))
    (hsound : ∀ sol ∈ L, ∃ a, Fits K a D ∧ sol = solutionOf K a)
    (hpw : L.Pairwise Differ) (hall : ∀ a, Fits K a D → solutionOf K a ∈ L) :
    List.Perm (L.map (fun sol => sol.filterMap Variable.value)) (List.sections (K.map D)) ∧
    L.length = (K.map (fun k => (D k).length)).prod := by
  obtain ⟨k0, hk0⟩ := List.exists_mem_of_ne_nil K hne
  obtain ⟨d, _⟩ := List.exists_mem_of_ne_nil (D k0) (hD k0 hk0)
  have hnd1 : (L.map (fun sol => sol.filterMap Variable.value)).Nodup := by
    unfold List.Nodup
    rw [List.pairwise_map]
    refine hpw.imp_of_mem ?_
    intro A B hA hB hdiff
    obtain ⟨a, _, rfl⟩ := hsound A hA
    obtain ⟨b, _, rfl⟩ := hsound B hB
    obtain ⟨va, hva, vb, hvb, hi, _, hval⟩ := hdiff
    unfold solutionOf at hva hvb
    obtain ⟨k, hk, rfl⟩ := List.mem_map.1 hva
    obtain ⟨k2, _, rfl⟩ := List.mem_map.1 hvb
    have hkk : k = k2 := hi
    subst hkk
    rw [values_solutionOf, values_solutionOf]
    intro e
    apply hval
    have := List.map_inj_left.1 e k hk
    simp only [Variable.value, List.head?_cons]
    rw [this]
  have hnd2 : (List.sections (K.map D)).Nodup := by
    apply nodup_sections
    intro l hl
    obtain ⟨k, _, rfl⟩ := List.mem_map.1 hl
    exact hDn k
  have hperm : List.Perm (L.map (fun sol => sol.filterMap Variable.value))
      (List.sections (K.map D)) := by
    rw [List.perm_ext_iff_of_nodup hnd1 hnd2]
    intro t
    rw [List.mem_sections]
    constructor
    · intro ht
      obtain ⟨sol, hsol, rfl⟩ := List.mem_map.1 ht
      obtain ⟨a, hf, rfl⟩ := hsound sol hsol
      rw [values_solutionOf]
      exact forall₂_of_fits K a D hf
    · intro ht
      obtain ⟨a, e, hf⟩ := exists_assignment d K hK D t ht
      rw [← e, ← values_solutionOf K a]
      exact List.mem_map_of_mem (fun sol => sol.filterMap Variable.value) (hall a hf)
  refine ⟨hperm, ?_⟩
  have := hperm.length_eq
  rw [List.length_map, length_sections_eq, List.map_map] at this
  rw [this]
  rfl

end ConstraintSolver

end solver


namespace solver

namespace ConstraintSolver

variable {α ι : Type} [LinearOrder α] [LinearOrder ι]

/-! ## The state after a successful `solve` -/

/-- After `solve` returned `true` on a fresh solver under not-equal
propagators, whatever the budget, the variables hold a valid assignment. -/
theorem solve_true_differs (P : Policies α ι) (Ts : List (ι → List ι))
    (hP : P.Constraints = Ts.map differs)
    (hsort : ∀ cmp l, List.Perm (P.StdSort cmp l) l) (hsel : SelectorInDomain P)
    (s : ConstraintSolver α ι) (hf : Fresh s) (hcl : Closed s.keys Ts) (hKne : s.keys ≠ [])
    (fuel : Nat) (s1 : ConstraintSolver α ι) (h : solve P fuel s = Run.ret true s1) :
    ∃ a, Valid s.keys Ts a ∧ Fits s.keys a s.dom ∧ ∀ k ∈ s.keys, s1.dom k = [a k] := by
  have hS : ShrinkOnly P.Constraints := by rw [hP]; exact shrinkOnly_differs Ts
  obtain ⟨hw, hn, _, ha, _, hl⟩ := hf.facts
  have hemp : (startSearch s).Solver.SolutionList = [] := hl
  have hstart := SInv.start hw hn ha
  unfold solve internSolve at h
  cases fuel with
  | zero => simp [internSolveLoop] at h
  | succ fuel =>
    rw [internSolveLoop] at h
    have s1f := SearchSolution_sinv P hS hsort (fuel + 1) (fuel + 1) (startSearch s) hstart
    have d := SearchSolution_differs P Ts hP hsort hsel s.keys hcl s.dom (fuel + 1) (fuel + 1)
      (startSearch s) hstart rfl
      ⟨fun _ _ hw2 => hw2, fun f hfm => absurd hfm (List.not_mem_nil f),
        fun c hcm => absurd hcm (List.not_mem_nil c)⟩
      (fun i hi hnp => absurd hi hnp) [] (fun a _ hfit => Or.inl ⟨hKne, hfit⟩)
    cases hr : SearchSolution P (fuel + 1) (fuel + 1) (startSearch s) with
    | raise st1 => rw [hr] at h; simp at h
    | stall st1 => rw [hr] at h; simp at h
    | ret b st1 =>
      rw [hr] at h s1f d
      obtain ⟨h1, hk1, hp1⟩ := s1f
      obtain ⟨hF1, dt, _⟩ := d
      cases b with
      | false =>
        simp only [Bool.false_eq_true, if_false, Bool.and_false, Run.ret.injEq] at h
        have : st1.Solver.SolutionList = [] := by rw [hk1.2.1]; exact hemp
        rw [this] at h
        simp at h
      | true =>
        simp only [if_true, Bool.and_true, Bool.false_and, Bool.false_eq_true, if_false,
          Run.ret.injEq] at h
        obtain ⟨hset1, _⟩ := dt rfl
        obtain ⟨a0, va, fa, da, _⟩ :=
          solved_assignment hcl hKne h1 (hk1.1.trans rfl) (hp1 rfl) hF1 hset1
        refine ⟨a0, va, fa, ?_⟩
        intro k hk
        rw [← h.2]
        exact da k hk

/-! ## Solvers filled by a loop of `addVariable` calls -/

theorem fresh_foldl_addVariable (d : ι → List α) (cs : List ι) :
    ∀ s0 : ConstraintSolver α ι, Fresh s0 →
      Fresh (cs.foldl (fun s c => (addVariable (d c) c s).2) s0) := by
  induction cs with
  | nil => intro s0 h; exact h
  | cons c cs ih => intro s0 h; exact ih _ (Fresh.add (d c) c h)

theorem foldl_addVariable_spec (d : ι → List α) (cs : List ι) (hnd : cs.Nodup) :
    ∀ s0 : ConstraintSolver α ι, WF s0 → (∀ c ∈ cs, c ∉ s0.keys) →
      (∀ j, j ∈ (cs.foldl (fun s c => (addVariable (d c) c s).2) s0).keys ↔
        j ∈ cs ∨ j ∈ s0.keys) ∧
      (∀ c ∈ cs, (cs.foldl (fun s c => (addVariable (d c) c s).2) s0).dom c =
        setOfRange (d c)) ∧
      (∀ j, j ∉ cs → (cs.foldl (fun s c => (addVariable (d c) c s).2) s0).get j = s0.get j) := by
  induction cs with
  | nil =>
    intro s0 _ _
    exact ⟨fun j => by simp, fun c hc => absurd hc (List.not_mem_nil c), fun _ _ => rfl⟩
  | cons c cs ih =>
    intro s0 hw hdis
    rw [List.nodup_cons] at hnd
    obtain ⟨_, h2, h3, h4, _⟩ := addVariable_spec (d c) c s0 hw
    have hc0 : c ∉ s0.keys := hdis c (List.mem_cons_self _ _)
    obtain ⟨i1, i2, i3⟩ := ih hnd.2 (addVariable (d c) c s0).2 h2 (by
      intro c2 hc2 hk
      rcases (h3 c2).1 hk with e | hm
      · exact hnd.1 (e ▸ hc2)
      · exact hdis c2 (List.mem_cons_of_mem _ hc2) hm)
    simp only [List.foldl_cons]
    refine ⟨?_, ?_, ?_⟩
    · intro j
      rw [i1 j, h3 j, List.mem_cons]
      tauto
    · intro c2 hc2
      rcases List.mem_cons.1 hc2 with e | hm
      · subst e
        unfold dom
        rw [i3 c2 hnd.1, h4 c2, if_pos ⟨rfl, hc0⟩]
      · exact i2 c2 hm
    · intro j hj
      have hjc : j ≠ c := fun e => hj (e ▸ List.mem_cons_self _ _)
      rw [i3 j (fun hm => hj (List.mem_cons_of_mem _ hm)), h4 j, if_neg (fun hh => hjc hh.1)]

/-! ## The grid of the drivers -/

open tda

theorem mem_cells (N : Nat) (c : Coord) : c ∈ cells N ↔ c.X < N ∧ c.Y < N := by
  unfold cells
  simp only [List.mem_flatMap, List.mem_range, List.mem_map]
  constructor
  · rintro ⟨i, hi, j, hj, rfl⟩
    exact ⟨hi, hj⟩
  · rintro ⟨hx, hy⟩
    exact ⟨c.X, hx, c.Y, hy, rfl⟩

theorem nodup_cells (N : Nat) : (cells N).Nodup := by
  unfold cells
  rw [List.nodup_flatMap]
  constructor
  · intro i _
    exact (List.nodup_range N).map (fun a b e => by injection e)
  · refine (List.nodup_range N).imp ?_
    intro i k hik
    show List.Disjoint _ _
    intro x hx hy
    obtain ⟨a, _, rfl⟩ := List.mem_map.1 hx
    obtain ⟨b, _, e⟩ := List.mem_map.1 hy
    injection e with e1 e2
    exact hik e1.symm

/-- The solver after the loops that add the variables of the grid. -/
theorem latinGrid_spec (N : Nat) (values : Nat → Nat → Nat) :
    Fresh (latinGrid N values) ∧
    (∀ c, c ∈ (latinGrid N values).keys ↔ c.X < N ∧ c.Y < N) ∧
    (∀ c, c.X < N → c.Y < N → ∀ w, w ∈ (latinGrid N values).dom c ↔
      w ∈ cellDomain N (values c.X c.Y)) := by
  have hfresh : Fresh (new : ConstraintSolver Nat Coord) := Fresh.new
  obtain ⟨h1, h2, _⟩ := foldl_addVariable_spec (fun c : Coord => cellDomain N (values c.X c.Y))
    (cells N) (nodup_cells N) new hfresh.facts.1 (fun c _ hk => by cases hk)
  refine ⟨fresh_foldl_addVariable _ _ _ hfresh, ?_, ?_⟩
  · intro c
    unfold latinGrid
    rw [h1 c, mem_cells]
    constructor
    · rintro (h | h)
      · exact h
      · cases h
    · exact Or.inl
  · intro c hx hy w
    unfold latinGrid
    rw [h2 c ((mem_cells N c).2 ⟨hx, hy⟩), mem_setOfRange]

theorem closed_latinGrid (N : Nat) (values : Nat → Nat → Nat) :
    Closed (latinGrid N values).keys [rowTargets N, colTargets N] := by
  obtain ⟨_, hk, _⟩ := latinGrid_spec N values
  intro i hi t ht j hj
  have hi2 := (hk i).1 hi
  rw [hk j]
  simp only [List.mem_cons, List.mem_singleton, List.not_mem_nil, or_false] at ht
  rcases ht with rfl | rfl
  · unfold rowTargets at hj
    obtain ⟨k, hk2, rfl⟩ := List.mem_map.1 hj
    exact ⟨hi2.1, List.mem_range.1 (List.mem_filter.1 hk2).1⟩
  · unfold colTargets at hj
    obtain ⟨k, hk2, rfl⟩ := List.mem_map.1 hj
    exact ⟨List.mem_range.1 (List.mem_filter.1 hk2).1, hi2.2⟩

/-- Validity on the grid: no value twice in a row or in a column. -/
theorem valid_latinGrid (N : Nat) (values : Nat → Nat → Nat) (a : Coord → Nat) :
    Valid (latinGrid N values).keys [rowTargets N, colTargets N] a ↔
      ∀ i j k, i < N → j < N → k < N →
        (k ≠ j → a (Coord.mk i j) ≠ a (Coord.mk i k)) ∧
        (k ≠ i → a (Coord.mk i j) ≠ a (Coord.mk k j)) := by
  obtain ⟨_, hk, _⟩ := latinGrid_spec N values
  constructor
  · intro hv i j k hi hj hkk
    have hm : Coord.mk i j ∈ (latinGrid N values).keys := (hk _).2 ⟨hi, hj⟩
    constructor
    · intro hne
      apply hv _ hm (rowTargets N) (List.mem_cons_self _ _)
      unfold rowTargets
      exact List.mem_map.2 ⟨k, List.mem_filter.2 ⟨List.mem_range.2 hkk, by simpa using hne⟩, rfl⟩
    · intro hne
      apply hv _ hm (colTargets N) (List.mem_cons_of_mem _ (List.mem_cons_self _ _))
      unfold colTargets
      exact List.mem_map.2 ⟨k, List.mem_filter.2 ⟨List.mem_range.2 hkk, by simpa using hne⟩, rfl⟩
  · intro h c hc t ht j hj
    obtain ⟨hx, hy⟩ := (hk c).1 hc
    simp only [List.mem_cons, List.mem_singleton, List.not_mem_nil, or_false] at ht
    rcases ht with rfl | rfl
    · unfold rowTargets at hj
      obtain ⟨k, hk2, rfl⟩ := List.mem_map.1 hj
      obtain ⟨m1, m2⟩ := List.mem_filter.1 hk2
      exact (h c.X c.Y k hx hy (List.mem_range.1 m1)).1 (by simpa using m2)
    · unfold colTargets at hj
      obtain ⟨k, hk2, rfl⟩ := List.mem_map.1 hj
      obtain ⟨m1, m2⟩ := List.mem_filter.1 hk2
      exact (h c.X c.Y k hx hy (List.mem_range.1 m1)).2 (by simpa using m2)

theorem filterMap_eq_map_of_some {β γ : Type} (g : β → Option γ) (h : β → γ) (l : List β)
    (hl : ∀ x ∈ l, g x = some (h x)) : l.filterMap g = l.map h := by
  induction l with
  | nil => rfl
  | cons x l ih =>
    rw [List.filterMap_cons, hl x (List.mem_cons_self _ _), List.map_cons,
      ih (fun y hy => hl y (List.mem_cons_of_mem _ hy))]

/-- A list of `N` different values of `1 .. N` is a permutation of
`1 .. N`. -/
theorem perm_valueEnum (N : Nat) (f : Nat → Nat) (hr : ∀ j < N, 1 ≤ f j ∧ f j ≤ N)
    (hinj : ∀ j k, j < N → k < N → k ≠ j → f j ≠ f k) :
    List.Perm ((List.range N).map f) (ValueEnum N) := by
  have hnd : ((List.range N).map f).Nodup := by
    apply List.Nodup.map_on _ (List.nodup_range N)
    intro x hx y hy e
    by_contra hne
    exact hinj x y (List.mem_range.1 hx) (List.mem_range.1 hy) (fun e2 => hne e2.symm) e
  have hsub : (List.range N).map f ⊆ ValueEnum N := by
    intro w hw
    obtain ⟨j, hj, rfl⟩ := List.mem_map.1 hw
    obtain ⟨h1, h2⟩ := hr j (List.mem_range.1 hj)
    unfold ValueEnum
    rw [List.mem_range'_1]
    omega
  apply (List.subperm_of_subset hnd hsub).perm_of_length_le
  unfold ValueEnum
  simp

theorem latinGrid_dom_ne_nil (N : Nat) (hN : 0 < N) (values : Nat → Nat → Nat) :
    ∀ k ∈ (latinGrid N values).keys, (latinGrid N values).dom k ≠ [] := by
  obtain ⟨_, hk, hd⟩ := latinGrid_spec N values
  intro c hc
  obtain ⟨hx, hy⟩ := (hk c).1 hc
  by_cases h0 : values c.X c.Y = 0
  · apply List.ne_nil_of_mem ((hd c hx hy 1).2 _)
    unfold cellDomain ValueEnum
    rw [if_pos h0, List.mem_range'_1]
    omega
  · apply List.ne_nil_of_mem ((hd c hx hy (values c.X c.Y)).2 _)
    unfold cellDomain
    rw [if_neg h0]
    exact List.mem_singleton_self _

theorem latinGrid_keys_ne_nil (N : Nat) (hN : 0 < N) (values : Nat → Nat → Nat) :
    (latinGrid N values).keys ≠ [] :=
  List.ne_nil_of_mem (((latinGrid_spec N values).2.1 (Coord.mk 0 0)).2 ⟨hN, hN⟩)

/-- Method `solve` on a grid of the drivers with the row and column
constraints returns within the budget `budget`. -/
theorem latin_solve_returns (N : Nat) (hN : 0 < N) (values : Nat → Nat → Nat)
    (P : Policies Nat Coord)
    (hP : P.Constraints = [differs (rowTargets N), differs (colTargets N)])
    (hsort : ∀ cmp l, List.Perm (P.StdSort cmp l) l) (hsel : SelectorInDomain P)
    (fuel : Nat) (hfuel : budget (latinGrid N values) ≤ fuel) :
    ∃ s1, solve P fuel (latinGrid N values) = Run.ret (!s1.SolutionList.isEmpty) s1 ∧
      ((∃ a, Valid (latinGrid N values).keys [rowTargets N, colTargets N] a ∧
        Fits (latinGrid N values).keys a (latinGrid N values).dom) → s1.SolutionList ≠ []) := by
  obtain ⟨s1, h1, _, _, _, h4, _⟩ := internSolve_differs P [rowTargets N, colTargets N] hP
    hsort hsel (latinGrid N values) (latinGrid_spec N values).1 (closed_latinGrid N values)
    (latinGrid_keys_ne_nil N hN values) (latinGrid_dom_ne_nil N hN values) false fuel hfuel
  exact ⟨s1, h1, h4⟩

/-- After `solve` returned `true` on a grid whose pre-filled values lie in
`1 .. N`, every row and every column is a permutation of `1 .. N`. -/
theorem latin_rows_cols (N : Nat) (values : Nat → Nat → Nat) (P : Policies Nat Coord)
    (hP : P.Constraints = [differs (rowTargets N), differs (colTargets N)])
    (hsort : ∀ cmp l, List.Perm (P.StdSort cmp l) l) (hsel : SelectorInDomain P)
    (hv : ∀ i j, i < N → j < N → values i j ≤ N) (fuel : Nat)
    (s1 : ConstraintSolver Nat Coord)
    (h : solve P fuel (latinGrid N values) = Run.ret true s1) :
    (∀ i, i < N → List.Perm (rowValues N s1 i) (ValueEnum N)) ∧
    (∀ j, j < N → List.Perm (colValues N s1 j) (ValueEnum N)) := by
  by_cases hN : N = 0
  · subst hN
    exact ⟨fun i hi => absurd hi (Nat.not_lt_zero i), fun j hj => absurd hj (Nat.not_lt_zero j)⟩
  have hNpos : 0 < N := Nat.pos_of_ne_zero hN
  obtain ⟨_, hk, hd⟩ := latinGrid_spec N values
  obtain ⟨a, va, fa, da⟩ := solve_true_differs P [rowTargets N, colTargets N] hP hsort hsel
    (latinGrid N values) (latinGrid_spec N values).1 (closed_latinGrid N values)
    (latinGrid_keys_ne_nil N hNpos values) fuel s1 h
  have hval : ∀ i j, i < N → j < N → (s1.get (Coord.mk i j)).value = some (a (Coord.mk i j)) := by
    intro i j hi hj
    have := da _ ((hk (Coord.mk i j)).2 ⟨hi, hj⟩)
    unfold dom at this
    unfold Variable.value
    rw [this]
    rfl
  have hrange : ∀ i j, i < N → j < N → 1 ≤ a (Coord.mk i j) ∧ a (Coord.mk i j) ≤ N := by
    intro i j hi hj
    have hm := fa _ ((hk (Coord.mk i j)).2 ⟨hi, hj⟩)
    rw [hd _ hi hj] at hm
    unfold cellDomain at hm
    by_cases h0 : values i j = 0
    · rw [if_pos h0] at hm
      unfold ValueEnum at hm
      rw [List.mem_range'_1] at hm
      omega
    · rw [if_neg h0, List.mem_singleton] at hm
      have := hv i j hi hj
      simp only at hm
      omega
  have hvalid := (valid_latinGrid N values a).1 va
  constructor
  · intro i hi
    unfold rowValues
    rw [filterMap_eq_map_of_some _ (fun j => a (Coord.mk i j)) _
      (fun j hj => hval i j hi (List.mem_range.1 hj))]
    exact perm_valueEnum N _ (fun j hj => hrange i j hi hj)
      (fun j k hj hk2 hne => (hvalid i j k hi hj hk2).1 hne)
  · intro j hj
    unfold colValues
    rw [filterMap_eq_map_of_some _ (fun i => a (Coord.mk i j)) _
      (fun i hi => hval i j (List.mem_range.1 hi) hj)]
    exact perm_valueEnum N _ (fun i hi => hrange i j hi hj)
      (fun i k hi hk2 hne => (hvalid i j k hi hj hk2).2 hne)

/-! ## Two pre-filled cells in the 4×4 grid -/

theorem isLatin_spec (N : Nat) (sq : List (List Nat)) (h : isLatin N sq = true) :
    ∀ i j, i < N → j < N → 1 ≤ entry sq i j ∧ entry sq i j ≤ N ∧
      ∀ k, k < N → (k ≠ j → entry sq i j ≠ entry sq i k) ∧
        (k ≠ i → entry sq i j ≠ entry sq k j) := by
  intro i j hi hj
  unfold isLatin at h
  rw [List.all_eq_true] at h
  have h1 := h i (List.mem_range.2 hi)
  rw [List.all_eq_true] at h1
  have h2 := h1 j (List.mem_range.2 hj)
  simp only [Bool.and_eq_true, decide_eq_true_eq, List.all_eq_true, List.mem_range,
    Bool.or_eq_true, beq_iff_eq, bne_iff_ne, ne_eq] at h2
  refine ⟨h2.1.1, h2.1.2, ?_⟩
  intro k hk
  obtain ⟨r1, r2⟩ := h2.2 k hk
  constructor
  · intro hne e
    rcases r1 with r | r
    · exact hne r
    · exact r e.symm
  · intro hne e
    rcases r2 with r | r
    · exact hne r
    · exact r e.symm

theorem squares4_latin : squares4.all (isLatin 4) = true := by decide!

theorem squares4_cover : squares4Cover = true := by decide!

/-- Two compatible pre-filled cells of the 4×4 grid are extended by a Latin
square. -/
theorem extends_two_cells (c1 c2 : Coord) (v1 v2 : Nat) (h1 : c1.X < 4 ∧ c1.Y < 4)
    (h2 : c2.X < 4 ∧ c2.Y < 4) (hv1 : 1 ≤ v1 ∧ v1 ≤ 4) (hv2 : 1 ≤ v2 ∧ v2 ≤ 4)
    (hc : compatible c1 v1 c2 v2 = true) :
    ∃ sq, isLatin 4 sq = true ∧ entry sq c1.X c1.Y = v1 ∧ entry sq c2.X c2.Y = v2 := by
  have hcov := squares4_cover
  unfold squares4Cover at hcov
  simp only [List.all_eq_true, List.mem_range, List.mem_range'_1] at hcov
  have := hcov c1.X h1.1 c1.Y h1.2 c2.X h2.1 c2.Y h2.2 v1 (by omega) v2 (by omega)
  have hc2 : compatible (Coord.mk c1.X c1.Y) v1 (Coord.mk c2.X c2.Y) v2 = true := hc
  rw [hc2] at this
  simp only [Bool.not_true, Bool.false_or, List.any_eq_true, Bool.and_eq_true, beq_iff_eq]
    at this
  obtain ⟨sq, hsq, e1, e2⟩ := this
  have hl := squares4_latin
  rw [List.all_eq_true] at hl
  exact ⟨sq, hl sq hsq, e1, e2⟩

/-- The 4×4 grid with two compatible pre-filled cells: `solve` returns `true`
within the budget `budget`. -/
theorem latin_two_cells (P : Policies Nat Coord)
    (hP : P.Constraints = [differs (rowTargets 4), differs (colTargets 4)])
    (hsort : ∀ cmp l, List.Perm (P.StdSort cmp l) l) (hsel : SelectorInDomain P)
    (c1 c2 : Coord) (v1 v2 : Nat) (h1 : c1.X < 4 ∧ c1.Y < 4) (h2 : c2.X < 4 ∧ c2.Y < 4)
    (hv1 : 1 ≤ v1 ∧ v1 ≤ 4) (hv2 : 1 ≤ v2 ∧ v2 ≤ 4)
    (hc : compatible c1 v1 c2 v2 = true) (fuel : Nat)
    (hfuel : budget (latinGrid 4 (twoCells c1 v1 c2 v2)) ≤ fuel) :
    ∃ s1, solve P fuel (latinGrid 4 (twoCells c1 v1 c2 v2)) = Run.ret true s1 := by
  obtain ⟨sq, hl, e1, e2⟩ := extends_two_cells c1 c2 v1 v2 h1 h2 hv1 hv2 hc
  have hspec := isLatin_spec 4 sq hl
  obtain ⟨_, hk, hd⟩ := latinGrid_spec 4 (twoCells c1 v1 c2 v2)
  obtain ⟨s1, r1, r2⟩ := latin_solve_returns 4 (by decide) (twoCells c1 v1 c2 v2) P hP hsort
    hsel fuel hfuel
  have hne : s1.SolutionList ≠ [] := by
    apply r2
    refine ⟨fun c => entry sq c.X c.Y, ?_, ?_⟩
    · rw [valid_latinGrid]
      intro i j k hi hj hkk
      exact (hspec i j hi hj).2.2 k hkk
    · intro c hcm
      obtain ⟨hx, hy⟩ := (hk c).1 hcm
      rw [hd c hx hy]
      unfold twoCells cellDomain
      have hcc : Coord.mk c.X c.Y = c := rfl
      rw [hcc]
      by_cases hc1 : c = c1
      · rw [if_pos hc1, if_neg (by omega), hc1]
        show entry sq c1.X c1.Y ∈ [v1]
        rw [e1]
        exact List.mem_singleton_self _
      · rw [if_neg hc1]
        by_cases hc2 : c = c2
        · rw [if_pos hc2, if_neg (by omega), hc2]
          show entry sq c2.X c2.Y ∈ [v2]
          rw [e2]
          exact List.mem_singleton_self _
        · rw [if_neg hc2, if_pos rfl]
          unfold ValueEnum
          rw [List.mem_range'_1]
          have := hspec c.X c.Y hx hy
          show 1 ≤ entry sq c.X c.Y ∧ entry sq c.X c.Y < 1 + 4
          omega
  refine ⟨s1, ?_⟩
  rw [r1]
  cases hl2 : s1.SolutionList with
  | nil => exact absurd hl2 hne
  | cons a l => rfl

end ConstraintSolver

end solver


namespace solver

section containers

variable {κ β : Type}

/-- Insertion of a key that the map holds leaves the map as it is. -/
theorem mapInsert_of_mem [LinearOrder κ] (k : κ) (v : β) (m : List (κ × β))
    (h : (m.map Prod.fst).Pairwise (fun a b => a < b)) (hk : k ∈ m.map Prod.fst) :
    mapInsert k v m = (m, false) := by
  induction m with
  | nil => cases hk
  | cons p m ih =>
    obtain ⟨k1, v1⟩ := p
    simp only [List.map_cons, List.pairwise_cons] at h
    simp only [List.map_cons, List.mem_cons] at hk
    unfold mapInsert
    by_cases h1 : k < k1
    · exfalso
      rcases hk with e | hm
      · exact absurd h1 (by rw [e]; exact lt_irrefl _)
      · exact lt_asymm h1 (h.1 k hm)
    · rw [if_neg h1]
      by_cases h2 : k = k1
      · rw [if_pos h2]
      · rw [if_neg h2]
        have hm : k ∈ m.map Prod.fst := by
          rcases hk with e | hm
          · exact absurd e h2
          · exact hm
        rw [ih h.2 hm]

end containers

end solver


namespace solver

namespace ConstraintSolver

variable {α ι : Type} [LinearOrder α] [LinearOrder ι]

/-! ## What `backtracking` rejects -/

theorem foldl_reject_spec (l : List ι) (s : ConstraintSolver α ι) (hn : s.keys.Nodup) :
    (∀ i, i ∈ (l.foldl reject s).RejectedIndices ↔ i ∈ l ∨ i ∈ s.RejectedIndices) ∧
    (∀ i, i ∈ (l.foldl reject s).keys ↔ i ∈ s.keys ∧ i ∉ l) ∧
    (l.foldl reject s).keys.Nodup := by
  induction l generalizing s with
  | nil => exact ⟨fun i => by simp, fun i => by simp, hn⟩
  | cons x l ih =>
    have hk : (reject s x).keys = s.keys.erase x := map_fst_mapErase x s.Variables
    have hn1 : (reject s x).keys.Nodup := by rw [hk]; exact hn.erase x
    obtain ⟨i1, i2, i3⟩ := ih (reject s x) hn1
    simp only [List.foldl_cons]
    refine ⟨?_, ?_, i3⟩
    · intro i
      rw [i1 i]
      show i ∈ l ∨ i ∈ setInsert x s.RejectedIndices ↔ _
      rw [mem_setInsert, List.mem_cons]
      tauto
    · intro i
      rw [i2 i, hk, hn.mem_erase_iff, List.mem_cons]
      tauto

theorem map_fst_restore (rem : List (Variable α ι)) :
    ∀ (vars : List (ι × Variable α ι)) (proc : List ι),
      (restore rem vars proc).1.map Prod.fst = vars.map Prod.fst := by
  induction rem with
  | nil => intro vars proc; rfl
  | cons var rem ih =>
    intro vars proc
    unfold restore
    cases mapFind var.indice vars with
    | none => exact ih vars proc
    | some w =>
      simp only
      rw [ih, map_fst_mapAssign]

/-- The rejected set, the active set and the queue of added indices after
`backtracking`. -/
theorem backtracking_rejected (st : search_t α ι) (save : record_t α ι)
    (backup : List (record_t α ι)) (hB : st.Parameters.Backup = save :: backup)
    (hn : st.Solver.keys.Nodup) :
    (∀ i, i ∈ (backtracking st).Solver.RejectedIndices ↔
      i ∈ st.Solver.RejectedIndices ∨ i ∈ st.Parameters.Register.drop save.Register.length ∨
        i ∈ st.Solver.AdditionalIndices) ∧
    (∀ i, i ∈ (backtracking st).Solver.keys ↔
      i ∈ st.Solver.keys ∧ i ∉ st.Parameters.Register.drop save.Register.length ∧
        i ∉ st.Solver.AdditionalIndices) ∧
    (backtracking st).Solver.AdditionalIndices = [] := by
  obtain ⟨a1, a2, a3⟩ :=
    foldl_reject_spec (st.Parameters.Register.drop save.Register.length) st.Solver hn
  have hadd := (foldl_reject_additional
    (st.Parameters.Register.drop save.Register.length) st.Solver).1
  obtain ⟨b1, b2, _⟩ := foldl_reject_spec
    ((st.Parameters.Register.drop save.Register.length).foldl reject st.Solver).AdditionalIndices
    ((st.Parameters.Register.drop save.Register.length).foldl reject st.Solver) a3
  rw [hadd] at b1 b2
  have hkeys : (backtracking st).Solver.keys =
      (st.Solver.AdditionalIndices.foldl reject
        ((st.Parameters.Register.drop save.Register.length).foldl reject st.Solver)).keys := by
    unfold backtracking keys
    simp only [hB, hadd]
    split
    · rw [map_fst_mapAssign, map_fst_restore]
    · rw [map_fst_restore]
  have hrej : (backtracking st).Solver.RejectedIndices =
      (st.Solver.AdditionalIndices.foldl reject
        ((st.Parameters.Register.drop save.Register.length).foldl reject
          st.Solver)).RejectedIndices := by
    unfold backtracking
    simp only [hB, hadd]
  refine ⟨?_, ?_, ?_⟩
  · intro i
    rw [hrej, b1 i, a1 i]
    tauto
  · intro i
    rw [hkeys, b2 i, a2 i]
    tauto
  · unfold backtracking
    simp only [hB]

end ConstraintSolver

end solver


namespace solver

namespace ConstraintSolver

variable {α ι : Type} [LinearOrder α] [LinearOrder ι]

/-! ## Termination of `internSolve` -/

/-- The loop of `internSolve` returns on domains that are not empty, with
budgets above the measure and above the number of variables. -/
theorem internSolveLoop_returns (P : Policies α ι) (hS : ShrinkOnly P.Constraints)
    (hsort : ∀ cmp l, List.Perm (P.StdSort cmp l) l) (hsel : SelectorInDomain P)
    (all : Bool) (total : Nat) (K : List ι) (ht : K.length < total) :
    ∀ (fuel : Nat) (st : search_t α ι), SInv st → st.Solver.keys = K → AllNonempty st →
      searchMeasure st < total → searchMeasure st < fuel →
      ∃ st1, internSolveLoop P all total fuel st = Run.ret () st1 := by
  intro fuel
  induction fuel with
  | zero => intro st _ _ _ _ hf; exact absurd hf (Nat.not_lt_zero _)
  | succ fuel ih =>
    intro st h hK hne hmt hmf
    obtain ⟨b, st1, e, hn1, hm1, hm2⟩ := SearchSolution_returns P hS hsort hsel total total st
      h hne (by rw [hK]; exact ht) hmt
    have s1 := SearchSolution_sinv P hS hsort total total st h
    rw [e] at s1
    obtain ⟨h1, hk1, hp1⟩ := s1
    rw [internSolveLoop, e]
    simp only
    cases b with
    | false =>
      simp only [Bool.false_eq_true, if_false, Bool.and_false]
      exact ⟨st1, rfl⟩
    | true =>
      obtain ⟨_, _, _, _, e5⟩ := recordSolution_spec h1 (hp1 rfl)
      simp only [if_true, Bool.and_true]
      by_cases hcont : (all && !(recordSolution st1).Parameters.Backup.isEmpty) = true
      · rw [if_pos hcont]
        exact ih (recordSolution st1) e5 (hk1.1.trans hK) hn1 (Nat.lt_of_le_of_lt hm1 hmt)
          (by
            have := hm2 rfl
            show searchMeasure st1 < fuel
            omega)
      · rw [if_neg hcont]
        exact ⟨_, rfl⟩

/-- Method `internSolve` returns on a fresh solver whose domains are not
empty, within the budget `budget s`. -/
theorem internSolve_returns (P : Policies α ι) (hS : ShrinkOnly P.Constraints)
    (hsort : ∀ cmp l, List.Perm (P.StdSort cmp l) l) (hsel : SelectorInDomain P)
    (s : ConstraintSolver α ι) (hf : Fresh s) (hdom : ∀ k ∈ s.keys, s.dom k ≠ [])
    (all : Bool) (fuel : Nat) (hfuel : budget s ≤ fuel) :
    ∃ b s1, internSolve P all fuel s = Run.ret b s1 := by
  obtain ⟨hw, hn, _, ha, _, _⟩ := hf.facts
  have hb : s.keys.length < fuel ∧ searchMeasure (startSearch s) < fuel := by
    unfold budget at hfuel
    omega
  obtain ⟨st1, r0⟩ := internSolveLoop_returns P hS hsort hsel all fuel s.keys hb.1 fuel
    (startSearch s) (SInv.start hw hn ha) rfl
    ⟨hdom, fun f hfm => absurd hfm (List.not_mem_nil f)⟩ hb.2 hb.2
  refine ⟨!st1.Solver.SolutionList.isEmpty, { st1.Solver with IsSolveInProgress := false }, ?_⟩
  unfold internSolve
  rw [r0]

/-! ## Domains stay within the declared ones -/

/-- One turn of the loop of `SearchSolution` keeps the domains and the frames
within the domains `D0`. -/
theorem IterCase.bounded {P : Policies α ι} (hS : ShrinkOnly P.Constraints)
    (hsel : SelectorInDomain P) {total : Nat} {st : search_t α ι} (h : SInv st)
    (D0 : ι → List α) (hb : Bounded D0 st) :
    ∀ r : Run (search_t α ι) (Option Bool), IterCase P total st r →
      match r with
      | Run.ret _ st2 => Bounded D0 st2
      | Run.raise st2 => ∀ k w, w ∈ st2.Solver.dom k → w ∈ D0 k
      | Run.stall st2 => ∀ k w, w ∈ st2.Solver.dom k → w ∈ D0 k := by
  have hpart : ∀ (st1 : search_t α ι) (b : Bool × Bool),
      partitionAndConstrain P total st = Run.ret b st1 → Bounded D0 st1 := by
    intro st1 b hpc
    have hsub := (h.of_partition hS hpc).1.2.1.sub
    refine ⟨fun k w hw => hb.1 k w ((hsub k).subset hw), ?_⟩
    rw [frameTail_of_partition hS h hpc]
    exact hb.2
  have hback : ∀ (st1 : search_t α ι) (r : record_t α ι) (rs : List (record_t α ι)),
      SInv st1 → Bounded D0 st1 → st1.Parameters.Backup = r :: rs →
      Bounded D0 (backtracking st1) := by
    intro st1 r rs h1 hb1 hB
    obtain ⟨e1, e2⟩ := frameTail_of_backtracking h1 r rs hB
    refine ⟨?_, ?_⟩
    · intro k w hw
      rw [e1] at hw
      exact hb1.2 _ (by rw [e2]; exact List.mem_cons_self _ _) k w hw
    · intro f hf
      exact hb1.2 f (by rw [e2]; exact List.mem_cons_of_mem _ hf)
  intro r hc
  cases hc with
  | emptyStop _ _ => exact hb
  | emptyBack r rs _ hB => exact hback st r rs h hb hB
  | failStop st1 _ hpc _ => exact hpart st1 _ hpc
  | failBack st1 r rs _ hpc hB =>
    exact hback st1 r rs (h.of_partition hS hpc).2 (hpart st1 _ hpc) hB
  | solved st1 _ hpc _ => exact hpart st1 _ hpc
  | branch st1 st2 _ hpc _ hnon hselp =>
    have hb1 := hpart st1 _ hpc
    obtain ⟨x, val, hx, hne1, hs0, hs1, _, hd2, hft⟩ :=
      frameTail_of_select (h.of_partition hS hpc).2 hselp
    have hval := chosen_mem hsel st1.Solver x val hne1 hs0 hs1
    refine ⟨?_, ?_⟩
    · intro k w hw
      rw [hd2] at hw
      exact hb1.1 k w (update_singleton_sub _ x val hval k w hw)
    · intro f hf k w hw
      rw [hft] at hf
      rcases List.mem_cons.1 hf with e | hm
      · rw [e] at hw
        exact hb1.1 k w (update_filter_sub _ x val k w hw)
      · exact hb1.2 f hm k w hw
  | throws st1 st2 _ hpc hs _ =>
    have hb1 := hpart st1 _ hpc
    intro k w hw
    rw [hs] at hw
    exact hb1.1 k w hw
  | stalls st1 _ hpc _ =>
    have hp := (partitionAndConstrain_spec P hS total st h.noAdd h.domNodup).1
    rw [hpc] at hp
    have hsh : Shrinks st.Solver st1.Solver := hp
    intro k w hw
    exact hb.1 k w ((hsh.sub k).subset hw)

/-- The loop of `SearchSolution` keeps the domains within the domains `D0`,
however it stops. -/
theorem SearchSolution_bounded (P : Policies α ι) (hS : ShrinkOnly P.Constraints)
    (hsort : ∀ cmp l, List.Perm (P.StdSort cmp l) l) (hsel : SelectorInDomain P)
    (D0 : ι → List α) (total fuel : Nat) (st : search_t α ι) (h : SInv st)
    (hb : Bounded D0 st) :
    match SearchSolution P total fuel st with
    | Run.ret _ st1 => Bounded D0 st1
    | Run.raise st1 => ∀ k w, w ∈ st1.Solver.dom k → w ∈ D0 k
    | Run.stall st1 => ∀ k w, w ∈ st1.Solver.dom k → w ∈ D0 k := by
  refine SearchSolution_safe P total (fun st1 => SInv st1 ∧ Bounded D0 st1)
    (fun _ st1 => Bounded D0 st1) (fun st1 => ∀ k w, w ∈ st1.Solver.dom k → w ∈ D0 k)
    (fun _ h1 => h1.2.1) ?_ fuel st ⟨h, hb⟩
  intro st1 ⟨h1, hb1⟩
  have hc := searchIteration_cases P hS hsort total st1 h1
  have hbd := IterCase.bounded hS hsel h1 D0 hb1 _ hc
  cases hi : searchIteration P total st1 with
  | raise st2 => rw [hi] at hbd; exact hbd
  | stall st2 => rw [hi] at hbd; exact hbd
  | ret o st2 =>
    rw [hi] at hbd hc
    cases o with
    | none => exact ⟨hc.sinv hS h1, hbd⟩
    | some b => exact hbd

/-- The loop of `internSolve` keeps the domains within the domains `D0`,
however it stops. -/
theorem internSolveLoop_bounded (P : Policies α ι) (hS : ShrinkOnly P.Constraints)
    (hsort : ∀ cmp l, List.Perm (P.StdSort cmp l) l) (hsel : SelectorInDomain P)
    (D0 : ι → List α) (all : Bool) (total : Nat) :
    ∀ (fuel : Nat) (st : search_t α ι), SInv st → Bounded D0 st →
      ∀ k w, w ∈ (internSolveLoop P all total fuel st).state.Solver.dom k → w ∈ D0 k := by
  intro fuel
  induction fuel with
  | zero => intro st _ hb; exact hb.1
  | succ fuel ih =>
    intro st h hb
    rw [internSolveLoop]
    have s1 := SearchSolution_sinv P hS hsort total total st h
    have b1 := SearchSolution_bounded P hS hsort hsel D0 total total st h hb
    cases hr : SearchSolution P total total st with
    | raise st1 => rw [hr] at b1; exact b1
    | stall st1 => rw [hr] at b1; exact b1
    | ret b st1 =>
      rw [hr] at s1 b1
      obtain ⟨h1, _, hp1⟩ := s1
      simp only
      cases b with
      | false =>
        simp only [Bool.false_eq_true, if_false, Bool.and_false]
        exact b1.1
      | true =>
        obtain ⟨_, _, _, _, e5⟩ := recordSolution_spec h1 (hp1 rfl)
        simp only [if_true, Bool.and_true]
        by_cases hcont : (all && !(recordSolution st1).Parameters.Backup.isEmpty) = true
        · rw [if_pos hcont]
          exact ih (recordSolution st1) e5 ⟨b1.1, b1.2⟩
        · rw [if_neg hcont]
          exact b1.1

end ConstraintSolver

end solver


namespace solver

namespace ConstraintSolver

variable {α ι : Type} [LinearOrder α] [LinearOrder ι]

/-! ## Only `internSolve` writes the registry -/

theorem KeepsRegistry.by_excludeOnly {c : constraint_t α ι} (h : ExcludeOnly c) :
    KeepsRegistry c := by
  intro s i v
  have : ∀ t, ExclReach s t → t.SolutionList = s.SolutionList := by
    intro t ht
    induction ht with
    | refl => rfl
    | step v i _ ih => rw [(exclude_fields v i _).2.2.2, ih]
  exact this _ (h s i v)

theorem applyConstraints_registry (cs : List (constraint_t α ι))
    (hC : ∀ c ∈ cs, KeepsRegistry c) (ref : ι) (s : ConstraintSolver α ι) :
    (applyConstraints ref cs s).state.SolutionList = s.SolutionList := by
  induction cs generalizing s with
  | nil => rfl
  | cons c cs ih =>
    unfold applyConstraints
    cases (s.get ref).value with
    | none => rfl
    | some v =>
      simp only
      have hc := hC c (List.mem_cons_self _ _) s (s.get ref).indice v
      by_cases hb : (c s (s.get ref).indice v).1 = true
      · rw [if_pos hb, ih (fun c1 h1 => hC c1 (List.mem_cons_of_mem _ h1)), hc]
      · rw [if_neg hb]
        exact hc

theorem applyInstantiated_registry (cs : List (constraint_t α ι))
    (hC : ∀ c ∈ cs, KeepsRegistry c) (refs : List ι) (s : ConstraintSolver α ι) :
    (applyInstantiated cs refs s).state.SolutionList = s.SolutionList := by
  induction refs generalizing s with
  | nil => rfl
  | cons ref refs ih =>
    unfold applyInstantiated
    have h1 := applyConstraints_registry cs hC ref s
    cases hr : applyConstraints ref cs s with
    | raise s1 => rw [hr] at h1; exact h1
    | stall s1 => rw [hr] at h1; exact h1
    | ret b s1 =>
      rw [hr] at h1
      cases b with
      | false => exact h1
      | true =>
        simp only
        rw [ih s1]
        exact h1

theorem partitionLoop_registry (P : Policies α ι)
    (hC : ∀ c ∈ P.Constraints, KeepsRegistry c) :
    ∀ (fuel : Nat) (sat hN hI hA : Bool) (st : search_t α ι),
      (partitionLoop P fuel sat hN hI hA st).state.Solver.SolutionList =
        st.Solver.SolutionList := by
  intro fuel
  induction fuel with
  | zero =>
    intro sat hN hI hA st
    rw [partitionLoop]
    split <;> rfl
  | succ fuel ih =>
    intro sat hN hI hA st
    rw [partitionLoop]
    split
    · simp only
      have h1 := applyInstantiated_registry P.Constraints hC
        ((st.Parameters.Processing ++ st.Solver.AdditionalIndices.filter
          (fun i => (mapFind i st.Solver.Variables).isSome)).filter
            (fun r => (st.Solver.get r).isInstantiated)) st.Solver
      cases hr : applyInstantiated P.Constraints
        ((st.Parameters.Processing ++ st.Solver.AdditionalIndices.filter
          (fun i => (mapFind i st.Solver.Variables).isSome)).filter
            (fun r => (st.Solver.get r).isInstantiated)) st.Solver with
      | raise s1 => rw [hr] at h1; exact h1
      | stall s1 => rw [hr] at h1; exact h1
      | ret b s1 =>
        rw [hr] at h1
        simp only
        rw [ih]
        exact h1
    · rfl

theorem selectVariableAndValue_registry (P : Policies α ι) (st : search_t α ι) :
    (selectVariableAndValue P st).state.Solver.SolutionList = st.Solver.SolutionList := by
  unfold selectVariableAndValue selectFront
  cases sortProcessing P st with
  | nil => rfl
  | cons x rest =>
    simp only
    cases (st.Solver.get x).value with
    | none => rfl
    | some v0 => rfl

theorem backtracking_registry (st : search_t α ι) :
    (backtracking st).Solver.SolutionList = st.Solver.SolutionList := by
  unfold backtracking
  cases hB : st.Parameters.Backup with
  | nil => rfl
  | cons save backup =>
    simp only
    rw [(foldl_reject_additional _ _).2.2, (foldl_reject_additional _ _).2.2]

theorem searchIteration_registry (P : Policies α ι)
    (hC : ∀ c ∈ P.Constraints, KeepsRegistry c) (total : Nat) (st : search_t α ι) :
    (searchIteration P total st).state.Solver.SolutionList = st.Solver.SolutionList := by
  have hbody : (searchBody P total st).state.Solver.SolutionList = st.Solver.SolutionList := by
    unfold searchBody
    split
    · have h1 := partitionLoop_registry P hC total true true true false st
      unfold partitionAndConstrain
      cases hr : partitionLoop P total true true true false st with
      | raise st1 => rw [hr] at h1; exact h1
      | stall st1 => rw [hr] at h1; exact h1
      | ret b st1 =>
        rw [hr] at h1
        obtain ⟨sat, part⟩ := b
        simp only
        cases part with
        | false => exact h1
        | true =>
          simp only [if_true]
          have h2 := selectVariableAndValue_registry P st1
          cases hs : selectVariableAndValue P st1 with
          | raise st2 => rw [hs] at h2; exact h2.trans h1
          | stall st2 => rw [hs] at h2; exact h2.trans h1
          | ret u st2 => rw [hs] at h2; exact h2.trans h1
    · rfl
  unfold searchIteration
  cases hr : searchBody P total st with
  | raise st1 => rw [hr] at hbody; exact hbody
  | stall st1 => rw [hr] at hbody; exact hbody
  | ret b st1 =>
    rw [hr] at hbody
    obtain ⟨sat, part⟩ := b
    simp only
    split
    · exact (backtracking_registry st1).trans hbody
    · split
      · exact hbody
      · exact hbody

/-- The loop of `SearchSolution` leaves the registry as it is, however it
stops. -/
theorem SearchSolution_registry (P : Policies α ι)
    (hC : ∀ c ∈ P.Constraints, KeepsRegistry c) (total : Nat) :
    ∀ (fuel : Nat) (st : search_t α ι),
      (SearchSolution P total fuel st).state.Solver.SolutionList = st.Solver.SolutionList := by
  intro fuel
  induction fuel with
  | zero => intro st; rfl
  | succ fuel ih =>
    intro st
    rw [SearchSolution_succ]
    have h1 := searchIteration_registry P hC total st
    cases hr : searchIteration P total st with
    | raise st1 => rw [hr] at h1; exact h1
    | stall st1 => rw [hr] at h1; exact h1
    | ret o st1 =>
      rw [hr] at h1
      cases o with
      | none => exact (ih st1).trans h1
      | some b => exact h1

end ConstraintSolver

end solver


namespace solver

namespace ConstraintSolver

variable {α ι : Type} [LinearOrder α] [LinearOrder ι]

/-! ## Variables added during a search -/

/-- A successful `addVariable` during a search queues the index. -/
theorem addVariable_queues (domain : List α) (indice : ι) (s : ConstraintSolver α ι)
    (hs : s.keys.Pairwise (fun a b => a < b)) (hp : s.IsSolveInProgress = true)
    (hn : indice ∉ s.keys) :
    (addVariable domain indice s).1 = true ∧
    (addVariable domain indice s).2.AdditionalIndices = s.AdditionalIndices ++ [indice] := by
  obtain ⟨h1, _⟩ :=
    mapInsert_spec indice (Variable.mk indice (setOfRange domain)) s.Variables hs
  have hb := h1.2 hn
  unfold addVariable
  simp only [hb, hp, Bool.and_self, if_true, and_self]

/-- Once `addsFive` has run, every further round of `partitionAndConstrain`
merges the index `5` again, and the loop does not end. -/
theorem growing_rounds (B : List (record_t Nat Nat)) :
    ∀ (n k : Nat) (hN hI : Bool),
      partitionLoop growingPolicies n true hN hI true
        ⟨grownSolver, ⟨List.replicate k 5, 0 :: List.replicate k 5, B⟩⟩ =
      Run.stall ⟨grownSolver, ⟨List.replicate (k + n) 5, 0 :: List.replicate (k + n) 5, B⟩⟩ := by
  intro n
  induction n with
  | zero =>
    intro k hN hI
    rw [partitionLoop]
    simp
  | succ n ih =>
    intro k hN hI
    have hadd : grownSolver.AdditionalIndices.filter
        (fun i => (mapFind i grownSolver.Variables).isSome) = [5] := by decide
    have happ : List.replicate k 5 ++ [5] = List.replicate (k + 1) 5 :=
      (List.replicate_succ' k 5).symm
    have hinst : (List.replicate (k + 1) 5).filter
        (fun r => (grownSolver.get r).isInstantiated) = [] := by
      apply List.filter_eq_nil_iff.2
      intro x hx
      rw [List.eq_of_mem_replicate hx]
      decide
    have hnon : (List.replicate (k + 1) 5).filter
        (fun r => !(grownSolver.get r).isInstantiated) = List.replicate (k + 1) 5 := by
      apply List.filter_eq_self.2
      intro x hx
      rw [List.eq_of_mem_replicate hx]
      decide
    have hreg : (0 :: List.replicate k 5) ++ grownSolver.AdditionalIndices =
        0 :: List.replicate (k + 1) 5 := by
      show 0 :: (List.replicate k 5 ++ [5]) = _
      rw [happ]
    rw [partitionLoop]
    simp only [Bool.true_and, Bool.or_true, if_true, hadd, happ, hinst, hnon, hreg,
      applyInstantiated]
    have hA : (!grownSolver.AdditionalIndices.isEmpty) = true := by decide
    rw [hA, ih (k + 1)]
    have : k + 1 + n = k + (n + 1) := by omega
    rw [this]

/-- The search on `oneVariable` with the constraint `addsFive`:
`partitionAndConstrain` stops in no number of rounds, and after `n + 1` rounds
the index `5` has been merged `n` times. -/
theorem growing_partition (n : Nat) :
    partitionAndConstrain growingPolicies (n + 1) (startSearch oneVariable) =
      Run.stall ⟨grownSolver, ⟨List.replicate n 5, 0 :: List.replicate n 5, []⟩⟩ := by
  have h := growing_rounds [] n 0 false true
  simp only [List.replicate_zero, Nat.zero_add] at h
  rw [← h]
  rfl

end ConstraintSolver

end solver


namespace solver

section containers

variable {κ β : Type}

/-- Insertion of a key that the map does not hold succeeds, whatever the
order of the map: the key is found afterwards with the value given, the other
lookups are unchanged and the keys are the old ones and the new one. -/
theorem mapInsert_of_not_mem [LinearOrder κ] (k : κ) (v : β) (m : List (κ × β))
    (hk : k ∉ m.map Prod.fst) :
    (mapInsert k v m).2 = true ∧ mapFind k (mapInsert k v m).1 = some v ∧
    (∀ j, j ≠ k → mapFind j (mapInsert k v m).1 = mapFind j m) ∧
    (∀ j, j ∈ (mapInsert k v m).1.map Prod.fst ↔ j = k ∨ j ∈ m.map Prod.fst) := by
  induction m with
  | nil =>
    refine ⟨rfl, by simp [mapInsert, mapFind], ?_, by simp [mapInsert]⟩
    intro j hj
    have : ¬ k = j := fun e => hj e.symm
    simp [mapInsert, mapFind, this]
  | cons p m ih =>
    obtain ⟨k1, v1⟩ := p
    simp only [List.map_cons, List.mem_cons, not_or] at hk
    obtain ⟨ih1, ih2, ih3, ih4⟩ := ih hk.2
    unfold mapInsert
    by_cases h1 : k < k1
    · rw [if_pos h1]
      refine ⟨rfl, by simp [mapFind], ?_, ?_⟩
      · intro j hj
        have : ¬ k = j := fun e => hj e.symm
        simp only [mapFind, this, if_false]
      · intro j
        simp
    · rw [if_neg h1, if_neg hk.1]
      refine ⟨ih1, ?_, ?_, ?_⟩
      · have : ¬ k1 = k := fun e => hk.1 e.symm
        simp only [mapFind, this, if_false]
        exact ih2
      · intro j hj
        simp only [mapFind]
        by_cases hj1 : k1 = j
        · rw [if_pos hj1, if_pos hj1]
        · rw [if_neg hj1, if_neg hj1]
          exact ih3 j hj
      · intro j
        simp only [List.map_cons, List.mem_cons, ih4 j]
        tauto

end containers

namespace ConstraintSolver

variable {α ι : Type} [LinearOrder α] [LinearOrder ι]

/-- The members that `addVariable` never writes, and the map it leaves. -/
theorem addVariable_fields (domain : List α) (indice : ι) (s : ConstraintSolver α ι) :
    (addVariable domain indice s).1 =
      (mapInsert indice (Variable.mk indice (setOfRange domain)) s.Variables).2 ∧
    (addVariable domain indice s).2.Variables =
      (mapInsert indice (Variable.mk indice (setOfRange domain)) s.Variables).1 ∧
    (addVariable domain indice s).2.IsSolveInProgress = s.IsSolveInProgress ∧
    (addVariable domain indice s).2.RejectedIndices = s.RejectedIndices ∧
    (addVariable domain indice s).2.SolutionList = s.SolutionList := by
  unfold addVariable
  simp only
  split <;> exact ⟨rfl, rfl, rfl, rfl, rfl⟩

end ConstraintSolver

end solver


namespace solver

namespace ConstraintSolver

variable {α ι : Type} [LinearOrder α] [LinearOrder ι]

/-- The comparator of the drivers, read through references into a solver, is
a strict weak ordering. -/
theorem strictWeak_domainSizeLess (s : ConstraintSolver α ι) :
    StrictWeak (fun a b => domainSizeLess (s.get a) (s.get b)) := by
  unfold StrictWeak domainSizeLess
  refine ⟨?_, ?_, ?_⟩
  · intro a
    simp
  · intro a b c h1 h2
    simp only [decide_eq_true_eq] at h1 h2 ⊢
    omega
  · intro a b c h
    simp only [decide_eq_true_eq] at h ⊢
    omega

/-- An insertion sort meets the contract of `std::sort`. -/
theorem insertionSort_contract {κ : Type} (lt : κ → κ → Bool) (h : StrictWeak lt) (l : List κ) :
    List.Perm (l.insertionSort (fun a b => lt b a = false)) l ∧
    (l.insertionSort (fun a b => lt b a = false)).Pairwise (fun a b => lt b a = false) := by
  obtain ⟨h1, h2, h3⟩ := h
  haveI : IsTotal κ (fun a b => lt b a = false) := ⟨by
    intro a b
    cases hba : lt b a with
    | false => exact Or.inl rfl
    | true =>
      right
      cases hab : lt a b with
      | false => rfl
      | true =>
        have := h2 a b a hab hba
        rw [h1 a] at this
        exact Bool.noConfusion this⟩
  haveI : IsTrans κ (fun a b => lt b a = false) := ⟨by
    intro a b c hab hbc
    cases hca : lt c a with
    | false => rfl
    | true =>
      rcases h3 c b a hca with h | h
      · rw [hbc] at h; exact Bool.noConfusion h
      · rw [hab] at h; exact Bool.noConfusion h⟩
  exact ⟨List.perm_insertionSort _ l, List.sorted_insertionSort _ l⟩

theorem sortContract_sizePolicies : SortContract sizePolicies :=
  fun lt h l => insertionSort_contract lt h l

end ConstraintSolver

end solver


namespace solver

namespace ConstraintSolver

variable {α ι : Type} [LinearOrder α] [LinearOrder ι]

/-! ## No domain is emptied by the search -/

/-- Safety rule for the loop of `SearchSolution` with a separate condition
for the runs that throw. -/
theorem SearchSolution_guard (P : Policies α ι) (total : Nat)
    (Inv : search_t α ι → Prop) (Fin : Bool → search_t α ι → Prop)
    (Weak : search_t α ι → Prop) (Bad : search_t α ι → Prop) (hw : ∀ st, Inv st → Weak st)
    (hstep : ∀ st, Inv st →
      match searchIteration P total st with
      | Run.ret none st1 => Inv st1
      | Run.ret (some b) st1 => Fin b st1
      | Run.raise st1 => Bad st1
      | Run.stall st1 => Weak st1) :
    ∀ (fuel : Nat) (st : search_t α ι), Inv st →
      match SearchSolution P total fuel st with
      | Run.ret b st1 => Fin b st1
      | Run.raise st1 => Bad st1
      | Run.stall st1 => Weak st1 := by
  intro fuel
  induction fuel with
  | zero => intro st h; exact hw st h
  | succ fuel ih =>
    intro st h
    rw [SearchSolution_succ]
    have hs := hstep st h
    cases hi : searchIteration P total st with
    | raise st1 => rw [hi] at hs; exact hs
    | stall st1 => rw [hi] at hs; exact hs
    | ret o st1 =>
      rw [hi] at hs
      cases o with
      | none => exact ih st1 hs
      | some b => exact hs

/-- One turn of the loop of `SearchSolution` on domains that are not empty:
it does not throw, and it leaves no domain empty. -/
theorem IterCase.alive {P : Policies α ι} (hS : ShrinkOnly P.Constraints)
    (hsel : SelectorInDomain P) {total : Nat} {st : search_t α ι} (h : SInv st)
    (hne : AllNonempty st) :
    ∀ r : Run (search_t α ι) (Option Bool), IterCase P total st r →
      match r with
      | Run.ret _ st2 => AllNonempty st2
      | Run.raise _ => False
      | Run.stall st2 => ∀ k ∈ st2.Solver.keys, st2.Solver.dom k ≠ [] := by
  intro r hc
  cases hc with
  | emptyStop _ _ => exact hne
  | emptyBack r rs hp hB => exact (potential_of_backtracking h hne r rs hB).1
  | failStop st1 hp hpc _ => exact (potential_of_partition hS h hne hpc).1
  | failBack st1 r rs hp hpc hB =>
    exact (potential_of_backtracking (h.of_partition hS hpc).2
      (potential_of_partition hS h hne hpc).1 r rs hB).1
  | solved st1 hp hpc hp1 => exact (potential_of_partition hS h hne hpc).1
  | branch st1 st2 hp hpc hp1 hnon hselp =>
    exact (potential_of_select hsel (h.of_partition hS hpc).2
      (potential_of_partition hS h hne hpc).1 hnon hselp).1
  | throws st1 st2 hp hpc _ hx =>
    obtain ⟨h1, _⟩ := potential_of_partition hS h hne hpc
    obtain ⟨x, hx1, hx2⟩ := hx
    exact h1.1 x ((h.of_partition hS hpc).2.procSub x hx1) hx2
  | stalls st1 hp hpc hlt =>
    have hp2 := (partitionAndConstrain_spec P hS total st h.noAdd h.domNodup).1
    rw [hpc] at hp2
    have hsh : Shrinks st.Solver st1.Solver := hp2
    intro k hk
    rw [hsh.keys] at hk
    exact hsh.nonempty k (hne.1 k hk)

/-- The loop of `SearchSolution` on domains that are not empty: it does not
throw, and however it stops no domain is empty. -/
theorem SearchSolution_alive (P : Policies α ι) (hS : ShrinkOnly P.Constraints)
    (hsort : ∀ cmp l, List.Perm (P.StdSort cmp l) l) (hsel : SelectorInDomain P)
    (total fuel : Nat) (st : search_t α ι) (h : SInv st) (hne : AllNonempty st) :
    match SearchSolution P total fuel st with
    | Run.ret _ st1 => AllNonempty st1
    | Run.raise _ => False
    | Run.stall st1 => ∀ k ∈ st1.Solver.keys, st1.Solver.dom k ≠ [] := by
  refine SearchSolution_guard P total (fun st1 => SInv st1 ∧ AllNonempty st1)
    (fun _ st1 => AllNonempty st1) (fun st1 => ∀ k ∈ st1.Solver.keys, st1.Solver.dom k ≠ [])
    (fun _ => False) (fun _ h1 => h1.2.1) ?_ fuel st ⟨h, hne⟩
  intro st1 ⟨h1, hn1⟩
  have hc := searchIteration_cases P hS hsort total st1 h1
  have ha := IterCase.alive hS hsel h1 hn1 _ hc
  cases hi : searchIteration P total st1 with
  | raise st2 => rw [hi] at ha; exact ha
  | stall st2 => rw [hi] at ha; exact ha
  | ret o st2 =>
    rw [hi] at ha hc
    cases o with
    | none => exact ⟨hc.sinv hS h1, ha⟩
    | some b => exact ha

/-- The loop of `internSolve` on domains that are not empty: it does not
throw, and however it stops no domain is empty. -/
theorem internSolveLoop_alive (P : Policies α ι) (hS : ShrinkOnly P.Constraints)
    (hsort : ∀ cmp l, List.Perm (P.StdSort cmp l) l) (hsel : SelectorInDomain P)
    (all : Bool) (total : Nat) :
    ∀ (fuel : Nat) (st : search_t α ι), SInv st → AllNonempty st →
      match internSolveLoop P all total fuel st with
      | Run.ret _ st1 => SInv st1 ∧ AllNonempty st1
      | Run.raise _ => False
      | Run.stall st1 => ∀ k ∈ st1.Solver.keys, st1.Solver.dom k ≠ [] := by
  intro fuel
  induction fuel with
  | zero => intro st _ hne; exact hne.1
  | succ fuel ih =>
    intro st h hne
    rw [internSolveLoop]
    have s1 := SearchSolution_sinv P hS hsort total total st h
    have a1 := SearchSolution_alive P hS hsort hsel total total st h hne
    cases hr : SearchSolution P total total st with
    | raise st1 => rw [hr] at a1; exact a1
    | stall st1 => rw [hr] at a1; exact a1
    | ret b st1 =>
      rw [hr] at s1 a1
      obtain ⟨h1, _, hp1⟩ := s1
      simp only
      cases b with
      | false =>
        simp only [Bool.false_eq_true, if_false, Bool.and_false]
        exact ⟨h1, a1⟩
      | true =>
        obtain ⟨_, _, _, _, e5⟩ := recordSolution_spec h1 (hp1 rfl)
        have a2 : AllNonempty (recordSolution st1) := a1
        simp only [if_true, Bool.and_true]
        by_cases hcont : (all && !(recordSolution st1).Parameters.Backup.isEmpty) = true
        · rw [if_pos hcont]
          exact ih (recordSolution st1) e5 a2
        · rw [if_neg hcont]
          exact ⟨e5, a2⟩

end ConstraintSolver

end solver


namespace solver

namespace ConstraintSolver

variable {α ι : Type} [LinearOrder α] [LinearOrder ι]

/-! ## The registry only grows at its end -/

theorem ExtendsRegistry.by_keeps {c : constraint_t α ι} (h : KeepsRegistry c) :
    ExtendsRegistry c := by
  intro s i v
  rw [h s i v]

theorem applyConstraints_extends (cs : List (constraint_t α ι))
    (hC : ∀ c ∈ cs, ExtendsRegistry c) (ref : ι) (s : ConstraintSolver α ι) :
    s.SolutionList <+: (applyConstraints ref cs s).state.SolutionList := by
  induction cs generalizing s with
  | nil => exact List.prefix_refl _
  | cons c cs ih =>
    unfold applyConstraints
    cases (s.get ref).value with
    | none => exact List.prefix_refl _
    | some v =>
      simp only
      have hc := hC c (List.mem_cons_self _ _) s (s.get ref).indice v
      by_cases hb : (c s (s.get ref).indice v).1 = true
      · rw [if_pos hb]
        exact hc.trans (ih (fun c1 h1 => hC c1 (List.mem_cons_of_mem _ h1)) _)
      · rw [if_neg hb]
        exact hc

theorem applyInstantiated_extends (cs : List (constraint_t α ι))
    (hC : ∀ c ∈ cs, ExtendsRegistry c) (refs : List ι) (s : ConstraintSolver α ι) :
    s.SolutionList <+: (applyInstantiated cs refs s).state.SolutionList := by
  induction refs generalizing s with
  | nil => exact List.prefix_refl _
  | cons ref refs ih =>
    unfold applyInstantiated
    have h1 := applyConstraints_extends cs hC ref s
    cases hr : applyConstraints ref cs s with
    | raise s1 => rw [hr] at h1; exact h1
    | stall s1 => rw [hr] at h1; exact h1
    | ret b s1 =>
      rw [hr] at h1
      cases b with
      | false => exact h1
      | true =>
        simp only
        exact List.IsPrefix.trans h1 (ih s1)

theorem partitionLoop_extends (P : Policies α ι)
    (hC : ∀ c ∈ P.Constraints, ExtendsRegistry c) :
    ∀ (fuel : Nat) (sat hN hI hA : Bool) (st : search_t α ι),
      st.Solver.SolutionList <+:
        (partitionLoop P fuel sat hN hI hA st).state.Solver.SolutionList := by
  intro fuel
  induction fuel with
  | zero =>
    intro sat hN hI hA st
    rw [partitionLoop]
    split <;> exact List.prefix_refl _
  | succ fuel ih =>
    intro sat hN hI hA st
    rw [partitionLoop]
    split
    · simp only
      have h1 := applyInstantiated_extends P.Constraints hC
        ((st.Parameters.Processing ++ st.Solver.AdditionalIndices.filter
          (fun i => (mapFind i st.Solver.Variables).isSome)).filter
            (fun r => (st.Solver.get r).isInstantiated)) st.Solver
      cases hr : applyInstantiated P.Constraints
        ((st.Parameters.Processing ++ st.Solver.AdditionalIndices.filter
          (fun i => (mapFind i st.Solver.Variables).isSome)).filter
            (fun r => (st.Solver.get r).isInstantiated)) st.Solver with
      | raise s1 => rw [hr] at h1; exact h1
      | stall s1 => rw [hr] at h1; exact h1
      | ret b s1 =>
        rw [hr] at h1
        have h1b : st.Solver.SolutionList <+: s1.SolutionList := h1
        simp only
        refine List.IsPrefix.trans h1b ?_
        exact ih _ _ _ _
          { Solver := s1,
            Parameters := { st.Parameters with
              Processing := (st.Parameters.Processing ++ st.Solver.AdditionalIndices.filter
                (fun i => (mapFind i st.Solver.Variables).isSome)).filter
                  (fun r => !(st.Solver.get r).isInstantiated),
              Register := st.Parameters.Register ++ st.Solver.AdditionalIndices } }
    · exact List.prefix_refl _

theorem searchIteration_extends (P : Policies α ι)
    (hC : ∀ c ∈ P.Constraints, ExtendsRegistry c) (total : Nat) (st : search_t α ι) :
    st.Solver.SolutionList <+: (searchIteration P total st).state.Solver.SolutionList := by
  have hbody : st.Solver.SolutionList <+:
      (searchBody P total st).state.Solver.SolutionList := by
    unfold searchBody
    split
    · have h1 := partitionLoop_extends P hC total true true true false st
      unfold partitionAndConstrain
      cases hr : partitionLoop P total true true true false st with
      | raise st1 => rw [hr] at h1; exact h1
      | stall st1 => rw [hr] at h1; exact h1
      | ret b st1 =>
        rw [hr] at h1
        obtain ⟨sat, part⟩ := b
        simp only
        cases part with
        | false => exact h1
        | true =>
          simp only [if_true]
          have h2 := selectVariableAndValue_registry P st1
          cases hs : selectVariableAndValue P st1 with
          | raise st2 => rw [hs] at h2; rw [show (Run.raise st2 : Run (search_t α ι)
              (Bool × Bool)).state = st2 from rfl]; rw [show (Run.raise st2 : Run (search_t α ι)
              Unit).state = st2 from rfl] at h2; rw [h2]; exact h1
          | stall st2 => rw [hs] at h2; rw [show (Run.stall st2 : Run (search_t α ι)
              (Bool × Bool)).state = st2 from rfl]; rw [show (Run.stall st2 : Run (search_t α ι)
              Unit).state = st2 from rfl] at h2; rw [h2]; exact h1
          | ret u st2 => rw [hs] at h2; rw [show (Run.ret (sat, true) st2 : Run (search_t α ι)
              (Bool × Bool)).state = st2 from rfl]; rw [show (Run.ret u st2 : Run (search_t α ι)
              Unit).state = st2 from rfl] at h2; rw [h2]; exact h1
    · exact List.prefix_refl _
  unfold searchIteration
  cases hr : searchBody P total st with
  | raise st1 => rw [hr] at hbody; exact hbody
  | stall st1 => rw [hr] at hbody; exact hbody
  | ret b st1 =>
    rw [hr] at hbody
    obtain ⟨sat, part⟩ := b
    simp only
    split
    · show st.Solver.SolutionList <+: (backtracking st1).Solver.SolutionList
      rw [backtracking_registry st1]
      exact hbody
    · split
      · exact hbody
      · exact hbody

/-- The loop of `SearchSolution` leaves a registry that starts with the one
it found, however it stops. -/
theorem SearchSolution_extends (P : Policies α ι)
    (hC : ∀ c ∈ P.Constraints, ExtendsRegistry c) (total : Nat) :
    ∀ (fuel : Nat) (st : search_t α ι),
      st.Solver.SolutionList <+: (SearchSolution P total fuel st).state.Solver.SolutionList := by
  intro fuel
  induction fuel with
  | zero => intro st; exact List.prefix_refl _
  | succ fuel ih =>
    intro st
    rw [SearchSolution_succ]
    have h1 := searchIteration_extends P hC total st
    cases hr : searchIteration P total st with
    | raise st1 => rw [hr] at h1; exact h1
    | stall st1 => rw [hr] at h1; exact h1
    | ret o st1 =>
      rw [hr] at h1
      cases o with
      | none => exact List.IsPrefix.trans h1 (ih st1)
      | some b => exact h1

/-- The loop of `internSolve` leaves a registry that starts with the one it
found, however it stops. -/
theorem internSolveLoop_extends (P : Policies α ι)
    (hC : ∀ c ∈ P.Constraints, ExtendsRegistry c) (all : Bool) (total : Nat) :
    ∀ (fuel : Nat) (st : search_t α ι),
      st.Solver.SolutionList <+:
        (internSolveLoop P all total fuel st).state.Solver.SolutionList := by
  intro fuel
  induction fuel with
  | zero => intro st; exact List.prefix_refl _
  | succ fuel ih =>
    intro st
    rw [internSolveLoop]
    have h1 := SearchSolution_extends P hC total total st
    cases hr : SearchSolution P total total st with
    | raise st1 => rw [hr] at h1; exact h1
    | stall st1 => rw [hr] at h1; exact h1
    | ret b st1 =>
      rw [hr] at h1
      have h1b : st.Solver.SolutionList <+: st1.Solver.SolutionList := h1
      simp only
      cases b with
      | false =>
        simp only [Bool.false_eq_true, if_false, Bool.and_false]
        exact h1b
      | true =>
        have h2 : st.Solver.SolutionList <+: (recordSolution st1).Solver.SolutionList :=
          List.IsPrefix.trans h1b (List.prefix_append _ _)
        simp only [if_true, Bool.and_true]
        by_cases hcont : (all && !(recordSolution st1).Parameters.Backup.isEmpty) = true
        · rw [if_pos hcont]
          exact List.IsPrefix.trans h2 (ih _)
        · rw [if_neg hcont]
          exact h2

/-- Method `internSolve` leaves a registry that starts with the one it
found, however it stops. -/
theorem internSolve_extends (P : Policies α ι)
    (hC : ∀ c ∈ P.Constraints, ExtendsRegistry c) (all : Bool) (fuel : Nat)
    (s : ConstraintSolver α ι) :
    s.SolutionList <+: (internSolve P all fuel s).state.SolutionList := by
  have h := internSolveLoop_extends P hC all fuel fuel (startSearch s)
  unfold internSolve
  cases hr : internSolveLoop P all fuel fuel (startSearch s) with
  | raise st1 => rw [hr] at h; exact h
  | stall st1 => rw [hr] at h; exact h
  | ret u st1 => rw [hr] at h; exact h

end ConstraintSolver

end solver


namespace solver

namespace ConstraintSolver

variable {α ι : Type} [LinearOrder α] [LinearOrder ι]

/-! ## Rejected indices stay out under guarded constraints -/

theorem Grows.idle {s : ConstraintSolver α ι} (hs : s.keys.Pairwise (fun a b => a < b))
    (hd : ∀ i ∈ s.RejectedIndices, i ∉ s.keys) : Grows s s :=
  ⟨hs, rfl, fun _ hi => hi, hd⟩

theorem Grows.chain {s t u : ConstraintSolver α ι} (h1 : Grows s t) (h2 : Grows t u) :
    Grows s u :=
  ⟨h2.1, h2.2.1.trans h1.2.1, fun i hi => h2.2.2.1 i (h1.2.2.1 i hi), h2.2.2.2⟩

theorem GuardedReach.grows {s t : ConstraintSolver α ι} (h : GuardedReach s t)
    (hs : s.keys.Pairwise (fun a b => a < b)) (hd : ∀ i ∈ s.RejectedIndices, i ∉ s.keys) :
    Grows s t := by
  induction h with
  | refl => exact Grows.idle hs hd
  | excl v i _ ih =>
    obtain ⟨a, b, c, d⟩ := ih
    unfold Grows
    rw [keys_exclude, (exclude_fields v i _).2.2.1]
    exact ⟨a, b, c, d⟩
  | @add t domain i _ hr ih =>
    obtain ⟨a, b, c, d⟩ := ih
    obtain ⟨_, f2, _, f4, _⟩ := addVariable_fields domain i t
    obtain ⟨_, m2, m3, _⟩ :=
      mapInsert_spec i (Variable.mk i (setOfRange domain)) t.Variables a
    have hk : (addVariable domain i t).2.keys =
        (mapInsert i (Variable.mk i (setOfRange domain)) t.Variables).1.map Prod.fst := by
      unfold keys
      rw [f2]
    refine ⟨by rw [hk]; exact m2, by rw [f4]; exact b, ?_, ?_⟩
    · intro j hj
      rw [hk]
      exact (m3 j).2 (Or.inr (c j hj))
    · intro j hj hjk
      rw [f4] at hj
      rw [hk] at hjk
      rcases (m3 j).1 hjk with e | hm
      · rw [e] at hj
        unfold hasBeenRejected at hr
        rw [decide_eq_true hj] at hr
        exact Bool.noConfusion hr
      · exact d j hj hm

theorem applyConstraints_grows (cs : List (constraint_t α ι))
    (hG : ∀ c ∈ cs, Guarded c) (ref : ι) (s : ConstraintSolver α ι)
    (hs : s.keys.Pairwise (fun a b => a < b)) (hd : ∀ i ∈ s.RejectedIndices, i ∉ s.keys) :
    Grows s (applyConstraints ref cs s).state := by
  induction cs generalizing s with
  | nil => exact Grows.idle hs hd
  | cons c cs ih =>
    unfold applyConstraints
    cases (s.get ref).value with
    | none => exact Grows.idle hs hd
    | some v =>
      simp only
      have hc := (hG c (List.mem_cons_self _ _) s (s.get ref).indice v).grows hs hd
      by_cases hb : (c s (s.get ref).indice v).1 = true
      · rw [if_pos hb]
        exact hc.chain (ih (fun c1 h1 => hG c1 (List.mem_cons_of_mem _ h1)) _ hc.1 hc.2.2.2)
      · rw [if_neg hb]
        exact hc

theorem applyInstantiated_grows (cs : List (constraint_t α ι))
    (hG : ∀ c ∈ cs, Guarded c) (refs : List ι) (s : ConstraintSolver α ι)
    (hs : s.keys.Pairwise (fun a b => a < b)) (hd : ∀ i ∈ s.RejectedIndices, i ∉ s.keys) :
    Grows s (applyInstantiated cs refs s).state := by
  induction refs generalizing s with
  | nil => exact Grows.idle hs hd
  | cons ref refs ih =>
    unfold applyInstantiated
    have h1 := applyConstraints_grows cs hG ref s hs hd
    cases hr : applyConstraints ref cs s with
    | raise s1 => rw [hr] at h1; exact h1
    | stall s1 => rw [hr] at h1; exact h1
    | ret b s1 =>
      rw [hr] at h1
      have h1b : Grows s s1 := h1
      cases b with
      | false => exact h1
      | true =>
        simp only
        exact h1b.chain (ih s1 h1b.1 h1b.2.2.2)

/-- One round of `partitionAndConstrain` under guarded constraints: the state
the loop goes on with, or stops in. -/
theorem round_noGhost {st : search_t α ι} (h : NoGhost st) {s1 : ConstraintSolver α ι}
    (hg : Grows st.Solver s1) (proc : List ι)
    (hp : ∀ i ∈ proc, i ∈ st.Parameters.Processing ++ st.Solver.AdditionalIndices.filter
      (fun i => (mapFind i st.Solver.Variables).isSome)) (reg : List ι) :
    NoGhost { Solver := s1,
              Parameters := { st.Parameters with Processing := proc, Register := reg } } := by
  refine ⟨hg.1, hg.2.2.2, ?_⟩
  intro i hi hip
  have hi0 : i ∈ st.Solver.RejectedIndices := by
    have : i ∈ s1.RejectedIndices := hi
    rw [hg.2.1] at this
    exact this
  rcases List.mem_append.1 (hp i hip) with hm | hm
  · exact h.2.2 i hi0 hm
  · have := (List.mem_filter.1 hm).2
    exact h.2.1 i hi0 ((mapFind_isSome_iff i st.Solver.Variables).1 this)

theorem partitionLoop_noGhost (P : Policies α ι) (hG : ∀ c ∈ P.Constraints, Guarded c) :
    ∀ (fuel : Nat) (sat hN hI hA : Bool) (st : search_t α ι), NoGhost st →
      NoGhost (partitionLoop P fuel sat hN hI hA st).state ∧
      (partitionLoop P fuel sat hN hI hA st).state.Solver.RejectedIndices =
        st.Solver.RejectedIndices := by
  intro fuel
  induction fuel with
  | zero =>
    intro sat hN hI hA st h
    rw [partitionLoop]
    split <;> exact ⟨h, rfl⟩
  | succ fuel ih =>
    intro sat hN hI hA st h
    rw [partitionLoop]
    split
    · simp only
      have h1 := applyInstantiated_grows P.Constraints hG
        ((st.Parameters.Processing ++ st.Solver.AdditionalIndices.filter
          (fun i => (mapFind i st.Solver.Variables).isSome)).filter
            (fun r => (st.Solver.get r).isInstantiated)) st.Solver h.1 h.2.1
      cases hr : applyInstantiated P.Constraints
        ((st.Parameters.Processing ++ st.Solver.AdditionalIndices.filter
          (fun i => (mapFind i st.Solver.Variables).isSome)).filter
            (fun r => (st.Solver.get r).isInstantiated)) st.Solver with
      | raise s1 =>
        rw [hr] at h1
        exact ⟨round_noGhost h h1 _ (fun i hi => hi) _, h1.2.1⟩
      | stall s1 =>
        rw [hr] at h1
        exact ⟨round_noGhost h h1 _ (fun i hi => hi) _, h1.2.1⟩
      | ret b s1 =>
        rw [hr] at h1
        have h1b : Grows st.Solver s1 := h1
        simp only
        have hn := round_noGhost h h1b
          ((st.Parameters.Processing ++ st.Solver.AdditionalIndices.filter
            (fun i => (mapFind i st.Solver.Variables).isSome)).filter
              (fun r => !(st.Solver.get r).isInstantiated))
          (fun i hi => (List.mem_filter.1 hi).1)
          (st.Parameters.Register ++ st.Solver.AdditionalIndices)
        obtain ⟨i1, i2⟩ := ih b _ _ _ _ hn
        exact ⟨i1, i2.trans h1b.2.1⟩
    · exact ⟨h, rfl⟩

theorem selectVariableAndValue_noGhost (P : Policies α ι)
    (hsort : ∀ cmp l, List.Perm (P.StdSort cmp l) l) (st : search_t α ι) (h : NoGhost st) :
    NoGhost (selectVariableAndValue P st).state ∧
    (selectVariableAndValue P st).state.Solver.RejectedIndices = st.Solver.RejectedIndices := by
  have hperm : List.Perm (sortProcessing P st) st.Parameters.Processing := by
    unfold sortProcessing
    cases P.Comparator with
    | none => exact List.Perm.refl _
    | some cmp => exact hsort _ _
  unfold selectVariableAndValue selectFront
  generalize sortProcessing P st = processing at hperm
  have hproc : ∀ i ∈ st.Solver.RejectedIndices, i ∉ processing :=
    fun i hi hip => h.2.2 i hi (hperm.subset hip)
  cases processing with
  | nil => exact ⟨⟨h.1, h.2.1, hproc⟩, rfl⟩
  | cons x rest =>
    simp only
    cases (st.Solver.get x).value with
    | none => exact ⟨⟨h.1, h.2.1, hproc⟩, rfl⟩
    | some v0 =>
      refine ⟨⟨?_, ?_, hproc⟩, rfl⟩
      · show (List.map Prod.fst (mapAssign x _ st.Solver.Variables)).Pairwise _
        rw [map_fst_mapAssign]
        exact h.1
      · intro i hi
        show i ∉ List.map Prod.fst (mapAssign x _ st.Solver.Variables)
        rw [map_fst_mapAssign]
        exact h.2.1 i hi

theorem foldl_reject_sublist (l : List ι) (s : ConstraintSolver α ι) :
    List.Sublist (l.foldl reject s).keys s.keys := by
  induction l generalizing s with
  | nil => exact List.Sublist.refl _
  | cons x l ih =>
    rw [List.foldl_cons]
    refine (ih (reject s x)).trans ?_
    have hk : (reject s x).keys = s.keys.erase x := map_fst_mapErase x s.Variables
    rw [hk]
    exact List.erase_sublist x s.keys

theorem restore_processing (rem : List (Variable α ι)) :
    ∀ (vars : List (ι × Variable α ι)) (proc : List ι),
      ∀ i ∈ (restore rem vars proc).2, i ∈ proc ∨ i ∈ vars.map Prod.fst := by
  induction rem with
  | nil => intro vars proc i hi; exact Or.inl hi
  | cons var rem ih =>
    intro vars proc i hi
    unfold restore at hi
    cases hf : mapFind var.indice vars with
    | none =>
      rw [hf] at hi
      exact ih vars proc i hi
    | some w =>
      rw [hf] at hi
      simp only at hi
      rcases ih _ _ i hi with h | h
      · rcases List.mem_append.1 h with h2 | h2
        · exact Or.inl h2
        · right
          rw [List.mem_singleton.1 h2]
          apply (mapFind_isSome_iff var.indice vars).1
          rw [hf]
          rfl
      · right
        rw [map_fst_mapAssign] at h
        exact h

/-- The active set after `backtracking` is part of the one before, and holds
the new processing set. -/
theorem backtracking_keys (st : search_t α ι) :
    List.Sublist (backtracking st).Solver.keys st.Solver.keys ∧
    (st.Parameters.Backup ≠ [] → ∀ i ∈ (backtracking st).Parameters.Processing,
      i ∈ (backtracking st).Solver.keys) := by
  cases hB : st.Parameters.Backup with
  | nil =>
    have : backtracking st = st := by
      unfold backtracking
      rw [hB]
    rw [this]
    exact ⟨List.Sublist.refl _, fun h => absurd rfl h⟩
  | cons save backup =>
    have hkeys : (backtracking st).Solver.keys =
        (((st.Parameters.Register.drop save.Register.length).foldl reject
          st.Solver).AdditionalIndices.foldl reject
          ((st.Parameters.Register.drop save.Register.length).foldl reject st.Solver)).keys := by
      unfold backtracking keys
      simp only [hB]
      split
      · rw [map_fst_mapAssign, map_fst_restore]
      · rw [map_fst_restore]
    have hproc : (backtracking st).Parameters.Processing =
        (restore save.RemainingVariables
          (((st.Parameters.Register.drop save.Register.length).foldl reject
            st.Solver).AdditionalIndices.foldl reject
            ((st.Parameters.Register.drop save.Register.length).foldl reject
              st.Solver)).Variables []).2 := by
      unfold backtracking
      simp only [hB]
    constructor
    · rw [hkeys]
      exact (foldl_reject_sublist _ _).trans (foldl_reject_sublist _ _)
    · intro _ i hi
      rw [hkeys]
      rw [hproc] at hi
      rcases restore_processing _ _ _ i hi with h | h
      · exact absurd h (List.not_mem_nil i)
      · exact h

theorem backtracking_noGhost (st : search_t α ι) (h : NoGhost st) :
    NoGhost (backtracking st) ∧
    ∀ i ∈ st.Solver.RejectedIndices, i ∈ (backtracking st).Solver.RejectedIndices := by
  cases hB : st.Parameters.Backup with
  | nil =>
    have : backtracking st = st := by
      unfold backtracking
      rw [hB]
    rw [this]
    exact ⟨h, fun i hi => hi⟩
  | cons save backup =>
    have hn : st.Solver.keys.Nodup := h.1.imp (fun hab => ne_of_lt hab)
    obtain ⟨r1, r2, _⟩ := backtracking_rejected st save backup hB hn
    obtain ⟨k1, k2⟩ := backtracking_keys st
    have hdis : ∀ i ∈ (backtracking st).Solver.RejectedIndices,
        i ∉ (backtracking st).Solver.keys := by
      intro i hi hik
      obtain ⟨a, b, c⟩ := (r2 i).1 hik
      rcases (r1 i).1 hi with e | e | e
      · exact h.2.1 i e a
      · exact b e
      · exact c e
    refine ⟨⟨List.Pairwise.sublist k1 h.1, hdis, ?_⟩, fun i hi => (r1 i).2 (Or.inl hi)⟩
    intro i hi hip
    exact hdis i hi (k2 (by rw [hB]; exact List.cons_ne_nil _ _) i hip)

theorem searchIteration_noGhost (P : Policies α ι) (hG : ∀ c ∈ P.Constraints, Guarded c)
    (hsort : ∀ cmp l, List.Perm (P.StdSort cmp l) l) (total : Nat) (st : search_t α ι)
    (h : NoGhost st) :
    NoGhost (searchIteration P total st).state ∧
    ∀ i ∈ st.Solver.RejectedIndices,
      i ∈ (searchIteration P total st).state.Solver.RejectedIndices := by
  have hbody : NoGhost (searchBody P total st).state ∧
      (searchBody P total st).state.Solver.RejectedIndices = st.Solver.RejectedIndices := by
    unfold searchBody
    split
    · have h1 := partitionLoop_noGhost P hG total true true true false st h
      unfold partitionAndConstrain
      cases hr : partitionLoop P total true true true false st with
      | raise st1 => rw [hr] at h1; exact h1
      | stall st1 => rw [hr] at h1; exact h1
      | ret b st1 =>
        rw [hr] at h1
        have h1b : NoGhost st1 ∧ st1.Solver.RejectedIndices = st.Solver.RejectedIndices := h1
        obtain ⟨sat, part⟩ := b
        simp only
        cases part with
        | false => exact h1
        | true =>
          simp only [if_true]
          have h2 := selectVariableAndValue_noGhost P hsort st1 h1b.1
          cases hs : selectVariableAndValue P st1 with
          | raise st2 =>
            rw [hs] at h2
            exact ⟨h2.1, Eq.trans h2.2 h1b.2⟩
          | stall st2 =>
            rw [hs] at h2
            exact ⟨h2.1, Eq.trans h2.2 h1b.2⟩
          | ret u st2 =>
            rw [hs] at h2
            exact ⟨h2.1, Eq.trans h2.2 h1b.2⟩
    · exact ⟨h, rfl⟩
  unfold searchIteration
  cases hr : searchBody P total st with
  | raise st1 =>
    rw [hr] at hbody
    have hb1 : NoGhost st1 ∧ st1.Solver.RejectedIndices = st.Solver.RejectedIndices := hbody
    exact ⟨hb1.1, fun i hi => by
      show i ∈ st1.Solver.RejectedIndices
      rw [hb1.2]; exact hi⟩
  | stall st1 =>
    rw [hr] at hbody
    have hb1 : NoGhost st1 ∧ st1.Solver.RejectedIndices = st.Solver.RejectedIndices := hbody
    exact ⟨hb1.1, fun i hi => by
      show i ∈ st1.Solver.RejectedIndices
      rw [hb1.2]; exact hi⟩
  | ret b st1 =>
    rw [hr] at hbody
    have hb1 : NoGhost st1 ∧ st1.Solver.RejectedIndices = st.Solver.RejectedIndices := hbody
    obtain ⟨sat, part⟩ := b
    simp only
    split
    · obtain ⟨b1, b2⟩ := backtracking_noGhost st1 hb1.1
      exact ⟨b1, fun i hi => b2 i (by rw [hb1.2]; exact hi)⟩
    · split
      · exact ⟨hb1.1, fun i hi => by
          show i ∈ st1.Solver.RejectedIndices
          rw [hb1.2]; exact hi⟩
      · exact ⟨hb1.1, fun i hi => by
          show i ∈ st1.Solver.RejectedIndices
          rw [hb1.2]; exact hi⟩

/-- The loop of `SearchSolution` under guarded constraints: however it stops,
no rejected index is in the active set or in the processing set, and the
rejected set has lost nothing. -/
theorem SearchSolution_noGhost (P : Policies α ι) (hG : ∀ c ∈ P.Constraints, Guarded c)
    (hsort : ∀ cmp l, List.Perm (P.StdSort cmp l) l) (total : Nat) :
    ∀ (fuel : Nat) (st : search_t α ι), NoGhost st →
      NoGhost (SearchSolution P total fuel st).state ∧
      ∀ i ∈ st.Solver.RejectedIndices,
        i ∈ (SearchSolution P total fuel st).state.Solver.RejectedIndices := by
  intro fuel
  induction fuel with
  | zero => intro st h; exact ⟨h, fun i hi => hi⟩
  | succ fuel ih =>
    intro st h
    rw [SearchSolution_succ]
    have h1 := searchIteration_noGhost P hG hsort total st h
    cases hr : searchIteration P total st with
    | raise st1 => rw [hr] at h1; exact h1
    | stall st1 => rw [hr] at h1; exact h1
    | ret o st1 =>
      rw [hr] at h1
      have h1b : NoGhost st1 ∧ ∀ i ∈ st.Solver.RejectedIndices,
          i ∈ st1.Solver.RejectedIndices := h1
      cases o with
      | none =>
        obtain ⟨i1, i2⟩ := ih st1 h1b.1
        exact ⟨i1, fun i hi => i2 i (h1b.2 i hi)⟩
      | some b => exact h1

/-- The loop of `internSolve` under guarded constraints: however it stops, no
rejected index is in the active set or in the processing set, and the rejected
set has lost nothing. -/
theorem internSolveLoop_noGhost (P : Policies α ι) (hG : ∀ c ∈ P.Constraints, Guarded c)
    (hsort : ∀ cmp l, List.Perm (P.StdSort cmp l) l) (all : Bool) (total : Nat) :
    ∀ (fuel : Nat) (st : search_t α ι), NoGhost st →
      NoGhost (internSolveLoop P all total fuel st).state ∧
      ∀ i ∈ st.Solver.RejectedIndices,
        i ∈ (internSolveLoop P all total fuel st).state.Solver.RejectedIndices := by
  intro fuel
  induction fuel with
  | zero => intro st h; exact ⟨h, fun i hi => hi⟩
  | succ fuel ih =>
    intro st h
    rw [internSolveLoop]
    have h1 := SearchSolution_noGhost P hG hsort total total st h
    cases hr : SearchSolution P total total st with
    | raise st1 => rw [hr] at h1; exact h1
    | stall st1 => rw [hr] at h1; exact h1
    | ret b st1 =>
      rw [hr] at h1
      have h1b : NoGhost st1 ∧ ∀ i ∈ st.Solver.RejectedIndices,
          i ∈ st1.Solver.RejectedIndices := h1
      simp only
      cases b with
      | false =>
        simp only [Bool.false_eq_true, if_false, Bool.and_false]
        exact h1b
      | true =>
        have h2 : NoGhost (recordSolution st1) := h1b.1
        simp only [if_true, Bool.and_true]
        by_cases hcont : (all && !(recordSolution st1).Parameters.Backup.isEmpty) = true
        · rw [if_pos hcont]
          obtain ⟨i1, i2⟩ := ih _ h2
          exact ⟨i1, fun i hi => i2 i (h1b.2 i hi)⟩
        · rw [if_neg hcont]
          exact ⟨h2, h1b.2⟩

/-- The search on a fresh solver starts with no rejected index at all. -/
theorem NoGhost.fresh {s : ConstraintSolver α ι} (h : Fresh s) : NoGhost (startSearch s) := by
  obtain ⟨hw, _, _, _, hr, _⟩ := h.facts
  refine ⟨hw.1, ?_, ?_⟩
  · intro i hi
    have : i ∈ s.RejectedIndices := hi
    rw [hr] at this
    exact absurd this (List.not_mem_nil i)
  · intro i hi
    have : i ∈ s.RejectedIndices := hi
    rw [hr] at this
    exact absurd this (List.not_mem_nil i)

/-- Reading a state without ghosts through the public methods. -/
theorem NoGhost.read {st : search_t α ι} (h : NoGhost st) {i : ι}
    (hi : i ∈ st.Solver.RejectedIndices) :
    st.Solver.hasBeenRejected i = true ∧ st.Solver.exists i = false ∧
    i ∉ st.Parameters.Processing := by
  refine ⟨decide_eq_true hi, ?_, h.2.2 i hi⟩
  cases he : st.Solver.exists i with
  | false => rfl
  | true => exact absurd ((exists_iff_mem_keys st.Solver i).1 he) (h.2.1 i hi)

end ConstraintSolver

end solver


namespace solver

namespace ConstraintSolver

variable {α ι : Type} [LinearOrder α] [LinearOrder ι]

/-! ## The functions with a log compute what the functions without compute -/

theorem applyConstraintsLog_fst (ref : ι) (cs : List (constraint_t α ι)) :
    ∀ (n : Nat) (s : ConstraintSolver α ι),
      (applyConstraintsLog ref n cs s).1 = applyConstraints ref cs s := by
  induction cs with
  | nil => intro n s; rfl
  | cons c cs ih =>
    intro n s
    unfold applyConstraintsLog applyConstraints
    cases (s.get ref).value with
    | none => rfl
    | some v =>
      simp only
      by_cases hb : (c s (s.get ref).indice v).1 = true
      · rw [if_pos hb, if_pos hb]
        exact ih _ _
      · rw [if_neg hb, if_neg hb]

theorem applyInstantiatedLog_fst (cs : List (constraint_t α ι)) (refs : List ι) :
    ∀ s : ConstraintSolver α ι,
      (applyInstantiatedLog cs refs s).1 = applyInstantiated cs refs s := by
  induction refs with
  | nil => intro s; rfl
  | cons ref refs ih =>
    intro s
    unfold applyInstantiatedLog applyInstantiated
    have h := applyConstraintsLog_fst ref cs 0 s
    rw [← h]
    cases hr : applyConstraintsLog ref 0 cs s with
    | mk run log =>
      cases run with
      | raise s1 => rfl
      | stall s1 => rfl
      | ret b s1 =>
        cases b with
        | false => rfl
        | true => exact ih s1

theorem partitionLoopLog_fst (P : Policies α ι) :
    ∀ (fuel : Nat) (sat hN hI hA : Bool) (st : search_t α ι),
      (partitionLoopLog P fuel sat hN hI hA st).1 = partitionLoop P fuel sat hN hI hA st := by
  intro fuel
  induction fuel with
  | zero =>
    intro sat hN hI hA st
    rw [partitionLoopLog, partitionLoop]
    split <;> rfl
  | succ fuel ih =>
    intro sat hN hI hA st
    rw [partitionLoopLog, partitionLoop]
    split
    · simp only
      rw [← applyInstantiatedLog_fst]
      cases (applyInstantiatedLog P.Constraints
        ((st.Parameters.Processing ++ st.Solver.AdditionalIndices.filter
          (fun i => (mapFind i st.Solver.Variables).isSome)).filter
            (fun r => (st.Solver.get r).isInstantiated)) st.Solver).1 with
      | raise s1 => rfl
      | stall s1 => rfl
      | ret b s1 => exact ih _ _ _ _ _
    · rfl

theorem partitionAndConstrainLog_fst (P : Policies α ι) (fuel : Nat) (st : search_t α ι) :
    (partitionAndConstrainLog P fuel st).1 = partitionAndConstrain P fuel st :=
  partitionLoopLog_fst P fuel true true true false st

/-! ## The results logged -/

theorem mem_dropLast_append {β : Type} {l1 l2 : List β} {c : β}
    (h : c ∈ (l1 ++ l2).dropLast) : c ∈ l1 ∨ c ∈ l2.dropLast := by
  cases l2 with
  | nil =>
    rw [List.append_nil] at h
    exact Or.inl (List.mem_of_mem_dropLast h)
  | cons a l =>
    rw [List.dropLast_append_of_ne_nil _ (List.cons_ne_nil a l)] at h
    exact List.mem_append.1 h

theorem mem_dropLast_cons {β : Type} {a : β} {l : List β} {c : β}
    (h : c ∈ (a :: l).dropLast) : c = a ∨ c ∈ l.dropLast := by
  have h2 : c ∈ (List.cons a List.nil ++ l).dropLast := h
  rcases mem_dropLast_append h2 with h3 | h3
  · exact Or.inl (List.mem_singleton.1 h3)
  · exact Or.inr h3

/-- The calls of the constraints for one variable: every call but the last
returned `true`, and a call returned `false` exactly when the run returns
`false`. -/
theorem applyConstraintsLog_results (ref : ι) (cs : List (constraint_t α ι)) :
    ∀ (n : Nat) (s : ConstraintSolver α ι),
      (∀ c ∈ (applyConstraintsLog ref n cs s).2.dropLast, c.Result = true) ∧
      ((∃ c ∈ (applyConstraintsLog ref n cs s).2, c.Result = false) ↔
        ∃ s1, (applyConstraintsLog ref n cs s).1 = Run.ret false s1) := by
  induction cs with
  | nil =>
    intro n s
    refine ⟨fun c hc => absurd hc (List.not_mem_nil c), ?_⟩
    constructor
    · rintro ⟨c, hc, _⟩
      exact absurd hc (List.not_mem_nil c)
    · rintro ⟨s1, h⟩
      cases h
  | cons c cs ih =>
    intro n s
    unfold applyConstraintsLog
    cases (s.get ref).value with
    | none =>
      refine ⟨fun c hc => absurd hc (List.not_mem_nil c), ?_⟩
      constructor
      · rintro ⟨c, hc, _⟩
        exact absurd hc (List.not_mem_nil c)
      · rintro ⟨s1, h⟩
        cases h
    | some v =>
      simp only
      by_cases hb : (c s (s.get ref).indice v).1 = true
      · rw [if_pos hb]
        obtain ⟨i1, i2⟩ := ih (n + 1) (c s (s.get ref).indice v).2
        refine ⟨?_, ?_⟩
        · intro x hx
          rcases mem_dropLast_cons hx with h | h
          · rw [h]
            exact hb
          · exact i1 x h
        · rw [← i2]
          constructor
          · rintro ⟨x, hx, hxr⟩
            rcases List.mem_cons.1 hx with e | hm
            · rw [e] at hxr
              rw [hb] at hxr
              exact Bool.noConfusion hxr
            · exact ⟨x, hm, hxr⟩
          · rintro ⟨x, hx, hxr⟩
            exact ⟨x, List.mem_cons_of_mem _ hx, hxr⟩
      · rw [if_neg hb]
        refine ⟨fun x hx => absurd hx (List.not_mem_nil x), ?_⟩
        constructor
        · intro _
          exact ⟨_, rfl⟩
        · intro _
          refine ⟨_, List.mem_singleton_self _, ?_⟩
          simpa using hb

/-- The calls of a round: every call but the last returned `true`, and a
call returned `false` exactly when the round ends with `sastified` false. -/
theorem applyInstantiatedLog_results (cs : List (constraint_t α ι)) (refs : List ι) :
    ∀ s : ConstraintSolver α ι,
      (∀ c ∈ (applyInstantiatedLog cs refs s).2.dropLast, c.Result = true) ∧
      ((∃ c ∈ (applyInstantiatedLog cs refs s).2, c.Result = false) ↔
        ∃ s1, (applyInstantiatedLog cs refs s).1 = Run.ret false s1) := by
  induction refs with
  | nil =>
    intro s
    refine ⟨fun c hc => absurd hc (List.not_mem_nil c), ?_⟩
    constructor
    · rintro ⟨c, hc, _⟩
      exact absurd hc (List.not_mem_nil c)
    · rintro ⟨s1, h⟩
      cases h
  | cons ref refs ih =>
    intro s
    obtain ⟨a1, a2⟩ := applyConstraintsLog_results ref cs 0 s
    unfold applyInstantiatedLog
    cases hr : applyConstraintsLog ref 0 cs s with
    | mk run log =>
      rw [hr] at a1 a2
      simp only at a1 a2
      cases run with
      | raise s1 => exact ⟨a1, a2⟩
      | stall s1 => exact ⟨a1, a2⟩
      | ret b s1 =>
        cases b with
        | false => exact ⟨a1, a2⟩
        | true =>
          simp only
          obtain ⟨i1, i2⟩ := ih s1
          have hall : ∀ c ∈ log, c.Result = true := by
            intro c hc
            cases hcr : c.Result with
            | true => rfl
            | false =>
              obtain ⟨s2, e⟩ := a2.1 ⟨c, hc, hcr⟩
              cases e
          refine ⟨?_, ?_⟩
          · intro x hx
            rcases mem_dropLast_append hx with h | h
            · exact hall x h
            · exact i1 x h
          · rw [← i2]
            constructor
            · rintro ⟨x, hx, hxr⟩
              rcases List.mem_append.1 hx with h | h
              · rw [hall x h] at hxr
                exact Bool.noConfusion hxr
              · exact ⟨x, h, hxr⟩
            · rintro ⟨x, hx, hxr⟩
              exact ⟨x, List.mem_append_right _ hx, hxr⟩

theorem partitionLoopLog_false (P : Policies α ι) (n : Nat) (b c d : Bool) (st : search_t α ι) :
    partitionLoopLog P n false b c d st = (Run.ret (false, false) st, []) := by
  cases n <;> rw [partitionLoopLog] <;> simp

/-- The calls of `partitionAndConstrain`, over all its rounds: every call but
the last returned `true`; and when the loop, entered with `sastified` true,
returns, `sastified` is false exactly when a call returned `false`. -/
theorem partitionLoopLog_results (P : Policies α ι) :
    ∀ (fuel : Nat) (hN hI hA : Bool) (st : search_t α ι),
      (∀ c ∈ (allCalls (partitionLoopLog P fuel true hN hI hA st).2).dropLast,
        c.Result = true) ∧
      (∀ b st1, (partitionLoopLog P fuel true hN hI hA st).1 = Run.ret b st1 →
        (b.1 = false ↔
          ∃ c ∈ allCalls (partitionLoopLog P fuel true hN hI hA st).2, c.Result = false)) := by
  intro fuel
  induction fuel with
  | zero =>
    intro hN hI hA st
    rw [partitionLoopLog]
    split
    · refine ⟨fun c hc => absurd hc (List.not_mem_nil c), ?_⟩
      intro b st1 h
      cases h
    · refine ⟨fun c hc => absurd hc (List.not_mem_nil c), ?_⟩
      intro b st1 h
      cases h
      simp [allCalls]
  | succ fuel ih =>
    intro hN hI hA st
    rw [partitionLoopLog]
    split
    · simp only
      obtain ⟨a1, a2⟩ := applyInstantiatedLog_results P.Constraints
        ((st.Parameters.Processing ++ st.Solver.AdditionalIndices.filter
          (fun i => (mapFind i st.Solver.Variables).isSome)).filter
            (fun r => (st.Solver.get r).isInstantiated)) st.Solver
      cases hr : (applyInstantiatedLog P.Constraints
        ((st.Parameters.Processing ++ st.Solver.AdditionalIndices.filter
          (fun i => (mapFind i st.Solver.Variables).isSome)).filter
            (fun r => (st.Solver.get r).isInstantiated)) st.Solver).1 with
      | raise s1 =>
        simp only [allCalls, List.flatMap_cons, List.flatMap_nil, List.append_nil]
        exact ⟨a1, fun b st1 h => by cases h⟩
      | stall s1 =>
        simp only [allCalls, List.flatMap_cons, List.flatMap_nil, List.append_nil]
        exact ⟨a1, fun b st1 h => by cases h⟩
      | ret sat s1 =>
        rw [hr] at a2
        simp only
        cases sat with
        | false =>
          rw [partitionLoopLog_false]
          simp only [allCalls, List.flatMap_cons, List.flatMap_nil, List.append_nil]
          refine ⟨a1, ?_⟩
          intro b st1 h
          cases h
          simp only [true_iff]
          exact a2.2 ⟨s1, rfl⟩
        | true =>
          have hall : ∀ c ∈ (applyInstantiatedLog P.Constraints
              ((st.Parameters.Processing ++ st.Solver.AdditionalIndices.filter
                (fun i => (mapFind i st.Solver.Variables).isSome)).filter
                  (fun r => (st.Solver.get r).isInstantiated)) st.Solver).2,
              c.Result = true := by
            intro c hc
            cases hcr : c.Result with
            | true => rfl
            | false =>
              obtain ⟨s2, e⟩ := a2.1 ⟨c, hc, hcr⟩
              cases e
          obtain ⟨i1, i2⟩ := ih
            (!((st.Parameters.Processing ++ st.Solver.AdditionalIndices.filter
              (fun i => (mapFind i st.Solver.Variables).isSome)).filter
                (fun r => !(st.Solver.get r).isInstantiated)).isEmpty)
            (!((st.Parameters.Processing ++ st.Solver.AdditionalIndices.filter
              (fun i => (mapFind i st.Solver.Variables).isSome)).filter
                (fun r => (st.Solver.get r).isInstantiated)).isEmpty)
            (!s1.AdditionalIndices.isEmpty)
            { Solver := s1,
              Parameters := { st.Parameters with
                Processing := (st.Parameters.Processing ++ st.Solver.AdditionalIndices.filter
                  (fun i => (mapFind i st.Solver.Variables).isSome)).filter
                    (fun r => !(st.Solver.get r).isInstantiated),
                Register := st.Parameters.Register ++ st.Solver.AdditionalIndices } }
          refine ⟨?_, ?_⟩
          · intro x hx
            simp only [allCalls, List.flatMap_cons] at hx
            rcases mem_dropLast_append hx with h | h
            · exact hall x h
            · exact i1 x h
          · intro b st1 h
            rw [i2 b st1 h]
            simp only [allCalls, List.flatMap_cons]
            constructor
            · rintro ⟨x, hx, hxr⟩
              exact ⟨x, List.mem_append_right _ hx, hxr⟩
            · rintro ⟨x, hx, hxr⟩
              rcases List.mem_append.1 hx with h2 | h2
              · rw [hall x h2] at hxr
                exact Bool.noConfusion hxr
              · exact ⟨x, h2, hxr⟩
    · refine ⟨fun c hc => absurd hc (List.not_mem_nil c), ?_⟩
      intro b st1 h
      cases h
      simp [allCalls]

end ConstraintSolver

end solver


namespace solver

namespace ConstraintSolver

variable {α ι : Type} [LinearOrder α] [LinearOrder ι]

/-! ## The calls of one round, under constraints that only shrink domains -/

/-- The calls of the constraints for one instantiated variable: it does not
throw, the constraints are called in order of registration with the index and
the single value of the variable, up to the first that fails. -/
theorem applyConstraintsLog_due (ref : ι) (v : α) (cs : List (constraint_t α ι))
    (hS : ShrinkOnly cs) :
    ∀ (n : Nat) (s : ConstraintSolver α ι), DomNodup s → s.dom ref = [v] →
      (s.get ref).indice = ref →
      ∃ b s1 log, applyConstraintsLog ref n cs s = (Run.ret b s1, log) ∧ Shrinks s s1 ∧
        log.map key <+: (List.range' n cs.length).map (fun m => (ref, m)) ∧
        (b = true → log.map key = (List.range' n cs.length).map (fun m => (ref, m))) ∧
        ∀ c ∈ log, c.Value = v := by
  induction cs with
  | nil =>
    intro n s _ _ _
    exact ⟨true, s, [], rfl, Shrinks.refl s, List.prefix_refl _, fun _ => rfl,
      fun c hc => absurd hc (List.not_mem_nil c)⟩
  | cons c cs ih =>
    intro n s hn hd hi
    have hv : (s.get ref).value = some v := by
      unfold Variable.value
      have : (s.get ref).Domain = [v] := hd
      rw [this]
      rfl
    have hc := hS c (List.mem_cons_self _ _) s ref v hn
    unfold applyConstraintsLog
    rw [hv]
    simp only [hi]
    by_cases hb : (c s ref v).1 = true
    · rw [if_pos hb]
      have hd2 : (c s ref v).2.dom ref = [v] := by
        rw [hc.fixed ref (by rw [hd]; exact Nat.le_refl 1)]
        exact hd
      have hi2 : ((c s ref v).2.get ref).indice = ref := (hc.indice ref).trans hi
      obtain ⟨b, s1, log, e, h1, h2, h3, h4⟩ :=
        ih (fun c1 hc1 => hS c1 (List.mem_cons_of_mem _ hc1)) (n + 1) (c s ref v).2
          (DomNodup.of_shrinks hc hn) hd2 hi2
      rw [e]
      refine ⟨b, s1, _, rfl, hc.trans h1, ?_, ?_, ?_⟩
      · simp only [List.length_cons, List.range'_succ, List.map_cons, key, hb]
        exact (List.prefix_cons_inj _).2 h2
      · intro hbt
        simp only [List.length_cons, List.range'_succ, List.map_cons, key, hb]
        rw [← h3 hbt]
      · intro x hx
        rcases List.mem_cons.1 hx with e2 | hm
        · rw [e2]
        · exact h4 x hm
    · rw [if_neg hb]
      refine ⟨false, _, _, rfl, hc, ?_, fun h => Bool.noConfusion h, ?_⟩
      · simp only [List.length_cons, List.range'_succ, List.map_cons, key, List.map_nil]
        exact (List.prefix_cons_inj _).2 List.nil_prefix
      · intro x hx
        rw [List.mem_singleton.1 hx]

theorem due_cons (m : Nat) (r : ι) (refs : List ι) :
    due m (r :: refs) = (List.range' 0 m).map (fun n => (r, n)) ++ due m refs := by
  unfold due
  rw [List.flatMap_cons, List.range_eq_range']

/-- The calls of a round on instantiated variables: the round does not throw,
and its calls are the calls due, in order, up to the first that fails; each is
made with an index of the list and with the single value that the variable of
that index had when the round began. -/
theorem applyInstantiatedLog_due (cs : List (constraint_t α ι)) (hS : ShrinkOnly cs)
    (refs : List ι) :
    ∀ s : ConstraintSolver α ι, DomNodup s →
      (∀ r ∈ refs, (s.dom r).length = 1 ∧ (s.get r).indice = r) →
      ∃ b s1 log, applyInstantiatedLog cs refs s = (Run.ret b s1, log) ∧ Shrinks s s1 ∧
        log.map key <+: due cs.length refs ∧
        (b = true → log.map key = due cs.length refs) ∧
        ∀ c ∈ log, c.Indice ∈ refs ∧ s.dom c.Indice = [c.Value] := by
  induction refs with
  | nil =>
    intro s _ _
    exact ⟨true, s, [], rfl, Shrinks.refl s, List.prefix_refl _, fun _ => rfl,
      fun c hc => absurd hc (List.not_mem_nil c)⟩
  | cons ref refs ih =>
    intro s hn hr
    obtain ⟨hlen, hi⟩ := hr ref (List.mem_cons_self _ _)
    obtain ⟨v, hd, _⟩ := value_of_length_one hlen
    obtain ⟨b, s1, log, e, h1, h2, h3, h4⟩ := applyConstraintsLog_due ref v cs hS 0 s hn hd hi
    have hkey : ∀ c ∈ log, c.Indice = ref := by
      intro c hc
      have hm : key c ∈ log.map key := List.mem_map_of_mem _ hc
      have hm2 := h2.subset hm
      obtain ⟨m, _, em⟩ := List.mem_map.1 hm2
      have : (key c).1 = ref := by rw [← em]
      exact this
    have hmine : ∀ c ∈ log, c.Indice ∈ ref :: refs ∧ s.dom c.Indice = [c.Value] := by
      intro c hc
      rw [hkey c hc, h4 c hc]
      exact ⟨List.mem_cons_self _ _, hd⟩
    unfold applyInstantiatedLog
    rw [e]
    cases b with
    | false =>
      refine ⟨false, s1, log, rfl, h1, ?_, fun h => Bool.noConfusion h, hmine⟩
      rw [due_cons]
      exact h2.trans (List.prefix_append _ _)
    | true =>
      simp only
      have hr2 : ∀ r ∈ refs, (s1.dom r).length = 1 ∧ (s1.get r).indice = r := by
        intro r hrm
        obtain ⟨a1, a2⟩ := hr r (List.mem_cons_of_mem _ hrm)
        refine ⟨?_, (h1.indice r).trans a2⟩
        rw [h1.fixed r (by omega)]
        exact a1
      obtain ⟨b2, s2, log2, e2, g1, g2, g3, g4⟩ := ih s1 (DomNodup.of_shrinks h1 hn) hr2
      rw [e2]
      refine ⟨b2, s2, _, rfl, h1.trans g1, ?_, ?_, ?_⟩
      · rw [due_cons, List.map_append, h3 rfl]
        exact (List.prefix_append_right_inj _).2 g2
      · intro hb
        rw [due_cons, List.map_append, h3 rfl, g3 hb]
      · intro c hc
        rcases List.mem_append.1 hc with hm | hm
        · exact hmine c hm
        · obtain ⟨a1, a2⟩ := g4 c hm
          refine ⟨List.mem_cons_of_mem _ a1, ?_⟩
          rw [← a2]
          symm
          apply h1.fixed
          have := (hr c.Indice (List.mem_cons_of_mem _ a1)).1
          omega

end ConstraintSolver

end solver


namespace solver

namespace ConstraintSolver

variable {α ι : Type} [LinearOrder α] [LinearOrder ι]

/-! ## The rounds of `partitionAndConstrain` without added variables -/

theorem nodup_due (m : Nat) (refs : List ι) (h : refs.Nodup) : (due m refs).Nodup := by
  unfold due
  rw [List.nodup_flatMap]
  constructor
  · intro r _
    apply List.Nodup.map
    · intro a b e
      exact (Prod.mk.inj e).2
    · exact List.nodup_range m
  · refine List.Pairwise.imp ?_ h
    intro a b hab x hxa hxb
    obtain ⟨n1, _, e1⟩ := List.mem_map.1 hxa
    obtain ⟨n2, _, e2⟩ := List.mem_map.1 hxb
    have : a = b := by
      have h1 : x.1 = a := by rw [← e1]
      have h2 : x.1 = b := by rw [← e2]
      rw [← h1, ← h2]
    exact hab this

theorem mem_due {m : Nat} {refs : List ι} {x : ι × Nat} (h : x ∈ due m refs) : x.1 ∈ refs := by
  unfold due at h
  obtain ⟨r, hr, hx⟩ := List.mem_flatMap.1 h
  obtain ⟨n, _, e⟩ := List.mem_map.1 hx
  rw [← e]
  exact hr

/-- The rounds of the loop of `partitionAndConstrain` in a search without
added variables, under constraints that only shrink domains. -/
theorem partitionLoopLog_rounds (P : Policies α ι) (hS : ShrinkOnly P.Constraints) :
    ∀ (fuel : Nat) (sat hN hI : Bool) (st : search_t α ι),
      st.Solver.AdditionalIndices = [] → WF st.Solver → DomNodup st.Solver →
      st.Parameters.Processing.Nodup →
      (∀ i ∈ st.Parameters.Processing, i ∈ st.Solver.keys) →
      (∀ R ∈ (partitionLoopLog P fuel sat hN hI false st).2,
        R.Calls.map key <+: due P.Constraints.length (instantiatedVars R) ∧
        ((∀ c ∈ R.Calls, c.Result = true) →
          R.Calls.map key = due P.Constraints.length (instantiatedVars R)) ∧
        (∀ c ∈ R.Calls, c.Indice ∈ instantiatedVars R ∧ R.Solver.dom c.Indice = [c.Value]) ∧
        List.Sublist R.Processing st.Parameters.Processing) ∧
      ((allCalls (partitionLoopLog P fuel sat hN hI false st).2).map key).Nodup ∧
      (∀ b st1, (partitionLoopLog P fuel sat hN hI false st).1 = Run.ret b st1 →
        List.Sublist st1.Parameters.Processing st.Parameters.Processing ∧
        Shrinks st.Solver st1.Solver ∧
        ∀ R ∈ (partitionLoopLog P fuel sat hN hI false st).2, ∀ r ∈ instantiatedVars R,
          r ∉ st1.Parameters.Processing ∧ st1.Solver.dom r = R.Solver.dom r) ∧
      (∀ R0, (partitionLoopLog P fuel sat hN hI false st).2.head? = some R0 →
        R0.Solver = st.Solver ∧ R0.Processing = st.Parameters.Processing) ∧
      (∀ st1, (partitionLoopLog P fuel sat hN hI false st).1 ≠ Run.raise st1) := by
  intro fuel
  induction fuel with
  | zero =>
    intro sat hN hI st _ _ _ _ _
    rw [partitionLoopLog]
    split
    · refine ⟨fun R hR => absurd hR (List.not_mem_nil R), List.nodup_nil, ?_, ?_, ?_⟩
      · intro b st1 h
        exact Run.noConfusion h
      · intro R0 h
        exact Option.noConfusion h
      · intro st1 h
        exact Run.noConfusion h
    · refine ⟨fun R hR => absurd hR (List.not_mem_nil R), List.nodup_nil, ?_, ?_, ?_⟩
      · intro b st1 h
        cases h
        exact ⟨List.Sublist.refl _, Shrinks.refl _,
          fun R hR => absurd hR (List.not_mem_nil R)⟩
      · intro R0 h
        exact Option.noConfusion h
      · intro st1 h
        exact Run.noConfusion h
  | succ fuel ih =>
    intro sat hN hI st hadd hw hn hnd hsub
    rw [partitionLoopLog]
    split
    · simp only [hadd, List.filter_nil, List.append_nil]
      have hrefs : ∀ r ∈ st.Parameters.Processing.filter
          (fun r => (st.Solver.get r).isInstantiated),
          (st.Solver.dom r).length = 1 ∧ (st.Solver.get r).indice = r := by
        intro r hr
        obtain ⟨hr1, hr2⟩ := List.mem_filter.1 hr
        refine ⟨?_, hw.2 r (hsub r hr1)⟩
        simpa [Variable.isInstantiated, dom] using hr2
      obtain ⟨b, s1, log, e, h1, h2, h3, h4⟩ :=
        applyInstantiatedLog_due P.Constraints hS _ st.Solver hn hrefs
      have hres := (applyInstantiatedLog_results P.Constraints
        (st.Parameters.Processing.filter (fun r => (st.Solver.get r).isInstantiated))
        st.Solver).2
      rw [e] at hres
      simp only at hres
      rw [e]
      simp only
      have hadd1 : s1.AdditionalIndices = [] := by rw [h1.additional]; exact hadd
      simp only [hadd1, List.isEmpty_nil, Bool.not_true]
      obtain ⟨i1, i2, i3, i4, i5⟩ := ih b
        (!(st.Parameters.Processing.filter
          (fun r => !(st.Solver.get r).isInstantiated)).isEmpty)
        (!(st.Parameters.Processing.filter
          (fun r => (st.Solver.get r).isInstantiated)).isEmpty)
        { Solver := s1,
          Parameters := { st.Parameters with
            Processing := st.Parameters.Processing.filter
              (fun r => !(st.Solver.get r).isInstantiated),
            Register := st.Parameters.Register } }
        hadd1 (WF.after_shrinks h1 hw) (DomNodup.of_shrinks h1 hn) (hnd.filter _)
        (fun i hi => by
          show i ∈ s1.keys
          rw [h1.keys]
          exact hsub i (List.mem_filter.1 hi).1)
      have hR : ∀ c ∈ log, c.Indice ∈ st.Parameters.Processing.filter
          (fun r => (st.Solver.get r).isInstantiated) ∧ st.Solver.dom c.Indice = [c.Value] := h4
      have hsplit : ∀ r, r ∈ st.Parameters.Processing.filter
          (fun r => (st.Solver.get r).isInstantiated) →
          r ∉ st.Parameters.Processing.filter
            (fun r => !(st.Solver.get r).isInstantiated) := by
        intro r hr hr2
        have a := (List.mem_filter.1 hr).2
        have b := (List.mem_filter.1 hr2).2
        rw [a] at b
        exact Bool.noConfusion b
      refine ⟨?_, ?_, ?_, ?_, i5⟩
      · intro R hR0
        rcases List.mem_cons.1 hR0 with eR | hm
        · rw [eR]
          refine ⟨h2, ?_, hR, List.Sublist.refl _⟩
          intro hall
          apply h3
          cases b with
          | true => rfl
          | false =>
            obtain ⟨c, hc, hcr⟩ := hres.2 ⟨s1, rfl⟩
            rw [hall c hc] at hcr
            exact Bool.noConfusion hcr
        · obtain ⟨a1, a2, a3, a4⟩ := i1 R hm
          exact ⟨a1, a2, a3, a4.trans (List.filter_sublist _)⟩
      · simp only [allCalls, List.flatMap_cons, List.map_append]
        rw [List.nodup_append]
        refine ⟨List.Nodup.sublist h2.sublist (nodup_due _ _ (hnd.filter _)), i2, ?_⟩
        intro x hx1 hx2
        have hx1b : x.1 ∈ st.Parameters.Processing.filter
            (fun r => (st.Solver.get r).isInstantiated) := mem_due (h2.subset hx1)
        obtain ⟨c, hc, ec⟩ := List.mem_map.1 hx2
        obtain ⟨R, hRm, hcR⟩ := List.mem_flatMap.1 hc
        obtain ⟨_, _, a3, a4⟩ := i1 R hRm
        have hci : c.Indice ∈ R.Processing := (List.mem_filter.1 (a3 c hcR).1).1
        have hx2b : x.1 ∈ st.Parameters.Processing.filter
            (fun r => !(st.Solver.get r).isInstantiated) := by
          rw [← ec]
          exact a4.subset hci
        exact hsplit x.1 hx1b hx2b
      · intro b2 st1 hrun
        obtain ⟨j1, j2, j3⟩ := i3 b2 st1 hrun
        refine ⟨j1.trans (List.filter_sublist _), h1.trans j2, ?_⟩
        intro R hR0 r hr
        rcases List.mem_cons.1 hR0 with eR | hm
        · rw [eR] at hr ⊢
          have hr2 : r ∈ st.Parameters.Processing.filter
              (fun r => (st.Solver.get r).isInstantiated) := hr
          refine ⟨fun hp => hsplit r hr2 (j1.subset hp), ?_⟩
          have hlen := (hrefs r hr2).1
          show st1.Solver.dom r = st.Solver.dom r
          rw [(h1.trans j2).fixed r (by omega)]
        · exact j3 R hm r hr
      · intro R0 hR0
        simp only [List.head?_cons, Option.some.injEq] at hR0
        rw [← hR0]
        exact ⟨rfl, rfl⟩
    · refine ⟨fun R hR => absurd hR (List.not_mem_nil R), List.nodup_nil, ?_, ?_, ?_⟩
      · intro b st1 h
        cases h
        exact ⟨List.Sublist.refl _, Shrinks.refl _,
          fun R hR => absurd hR (List.not_mem_nil R)⟩
      · intro R0 h
        exact Option.noConfusion h
      · intro st1 h
        exact Run.noConfusion h

end ConstraintSolver

end solver


namespace solver

namespace ConstraintSolver

variable {α ι : Type} [LinearOrder α] [LinearOrder ι]

/-! ## The result of `partitionAndConstrain` when no variable is added -/

theorem KeepsQueue.of_exclude {c : constraint_t α ι} (h : ExcludeOnly c) : KeepsQueue c := by
  intro s i v
  have : ∀ t, ExclReach s t → t.AdditionalIndices = s.AdditionalIndices := by
    intro t ht
    induction ht with
    | refl => rfl
    | step v i _ ih => rw [(exclude_fields v i _).2.1, ih]
  exact this _ (h s i v)

theorem applyConstraints_queue (cs : List (constraint_t α ι))
    (hC : ∀ c ∈ cs, KeepsQueue c) (ref : ι) (s : ConstraintSolver α ι) :
    (applyConstraints ref cs s).state.AdditionalIndices = s.AdditionalIndices := by
  induction cs generalizing s with
  | nil => rfl
  | cons c cs ih =>
    unfold applyConstraints
    cases (s.get ref).value with
    | none => rfl
    | some v =>
      simp only
      have hc := hC c (List.mem_cons_self _ _) s (s.get ref).indice v
      by_cases hb : (c s (s.get ref).indice v).1 = true
      · rw [if_pos hb, ih (fun c1 h1 => hC c1 (List.mem_cons_of_mem _ h1)), hc]
      · rw [if_neg hb]
        exact hc

theorem applyInstantiated_queue (cs : List (constraint_t α ι))
    (hC : ∀ c ∈ cs, KeepsQueue c) (refs : List ι) (s : ConstraintSolver α ι) :
    (applyInstantiated cs refs s).state.AdditionalIndices = s.AdditionalIndices := by
  induction refs generalizing s with
  | nil => rfl
  | cons ref refs ih =>
    unfold applyInstantiated
    have h1 := applyConstraints_queue cs hC ref s
    cases hr : applyConstraints ref cs s with
    | raise s1 => rw [hr] at h1; exact h1
    | stall s1 => rw [hr] at h1; exact h1
    | ret b s1 =>
      rw [hr] at h1
      cases b with
      | false => exact h1
      | true =>
        simp only
        rw [ih s1]
        exact h1

/-- The loop of `partitionAndConstrain` when no variable is added, whatever
else the constraints do: when it returns, the second flag is
`sastified && !Processing.empty()`, and on success no variable left in
`Processing` is instantiated.  The flags with which the loop is entered need
to describe the state only if they end the loop at once. -/
theorem partitionLoop_fixpoint (P : Policies α ι) (hK : ∀ c ∈ P.Constraints, KeepsQueue c) :
    ∀ (fuel : Nat) (sat hN hI : Bool) (st : search_t α ι),
      st.Solver.AdditionalIndices = [] →
      (¬ (sat && ((hI && hN) || false)) = true →
        hN = (!st.Parameters.Processing.isEmpty) ∧
        (sat = true → hI = false → ∀ r ∈ st.Parameters.Processing,
          (st.Solver.get r).isInstantiated = false)) →
      ∀ b st1, partitionLoop P fuel sat hN hI false st = Run.ret b st1 →
        b.2 = (b.1 && !st1.Parameters.Processing.isEmpty) ∧
        (b.1 = true → ∀ r ∈ st1.Parameters.Processing,
          (st1.Solver.get r).isInstantiated = false) ∧
        st1.Solver.AdditionalIndices = [] := by
  have hexit : ∀ (sat hN hI : Bool) (st : search_t α ι),
      st.Solver.AdditionalIndices = [] →
      ¬ (sat && ((hI && hN) || false)) = true →
      (hN = (!st.Parameters.Processing.isEmpty) ∧
        (sat = true → hI = false → ∀ r ∈ st.Parameters.Processing,
          (st.Solver.get r).isInstantiated = false)) →
      (sat, sat && hN).2 = ((sat, sat && hN).1 && !st.Parameters.Processing.isEmpty) ∧
      ((sat, sat && hN).1 = true → ∀ r ∈ st.Parameters.Processing,
        (st.Solver.get r).isInstantiated = false) ∧
      st.Solver.AdditionalIndices = [] := by
    intro sat hN hI st hadd hcond hinv
    obtain ⟨e1, e2⟩ := hinv
    refine ⟨by rw [e1], ?_, hadd⟩
    intro hs
    have hs2 : sat = true := hs
    cases hIv : hI with
    | false => exact e2 hs2 hIv
    | true =>
      have hNf : hN = false := by
        cases hNv : hN with
        | false => rfl
        | true =>
          exfalso
          apply hcond
          rw [hs2, hIv, hNv]
          rfl
      rw [hNf] at e1
      have hp : st.Parameters.Processing = [] := by
        cases hp : st.Parameters.Processing with
        | nil => rfl
        | cons a l => rw [hp] at e1; exact Bool.noConfusion e1
      intro r hr
      rw [hp] at hr
      exact absurd hr (List.not_mem_nil r)
  intro fuel
  induction fuel with
  | zero =>
    intro sat hN hI st hadd hinv b st1 hrun
    rw [partitionLoop] at hrun
    split at hrun
    · exact Run.noConfusion hrun
    · rename_i hcond
      cases hrun
      exact hexit sat hN hI st hadd hcond (hinv hcond)
  | succ fuel ih =>
    intro sat hN hI st hadd hinv b st1 hrun
    rw [partitionLoop] at hrun
    split at hrun
    · simp only [hadd, List.filter_nil, List.append_nil] at hrun
      have hq := applyInstantiated_queue P.Constraints hK
        (st.Parameters.Processing.filter (fun r => (st.Solver.get r).isInstantiated)) st.Solver
      cases hr : applyInstantiated P.Constraints
        (st.Parameters.Processing.filter (fun r => (st.Solver.get r).isInstantiated))
        st.Solver with
      | raise s1 => rw [hr] at hrun; exact Run.noConfusion hrun
      | stall s1 => rw [hr] at hrun; exact Run.noConfusion hrun
      | ret sat1 s1 =>
        rw [hr] at hrun hq
        have hadd1 : s1.AdditionalIndices = [] := hq.trans hadd
        simp only [hadd1, List.isEmpty_nil, Bool.not_true] at hrun
        refine ih sat1 _ _ _ hadd1 ?_ b st1 hrun
        intro _
        refine ⟨rfl, ?_⟩
        intro _ hIf r hr2
        have hnil : st.Parameters.Processing.filter
            (fun r => (st.Solver.get r).isInstantiated) = [] := by
          cases hl : st.Parameters.Processing.filter
              (fun r => (st.Solver.get r).isInstantiated) with
          | nil => rfl
          | cons a l => rw [hl] at hIf; exact Bool.noConfusion hIf
        rw [hnil] at hr
        simp only [applyInstantiated] at hr
        cases hr
        have := (List.mem_filter.1 hr2).2
        simpa using this
    · rename_i hcond
      cases hrun
      exact hexit sat hN hI st hadd hcond (hinv hcond)

/-- Method `partitionAndConstrain` when no variable is added: when it
returns, the second flag is `sastified && !Processing.empty()`, and on
success no variable left in `Processing` is instantiated. -/
theorem partitionAndConstrain_fixpoint (P : Policies α ι)
    (hK : ∀ c ∈ P.Constraints, KeepsQueue c) (fuel : Nat) (st : search_t α ι)
    (hadd : st.Solver.AdditionalIndices = []) (b : Bool × Bool) (st1 : search_t α ι)
    (hrun : partitionAndConstrain P fuel st = Run.ret b st1) :
    b.2 = (b.1 && !st1.Parameters.Processing.isEmpty) ∧
    (b.1 = true → ∀ r ∈ st1.Parameters.Processing,
      (st1.Solver.get r).isInstantiated = false) ∧
    st1.Solver.AdditionalIndices = [] :=
  partitionLoop_fixpoint P hK fuel true true true st hadd
    (fun h => absurd rfl h) b st1 hrun

/-- In every round, every call but the last returned `true`. -/
theorem partitionLoopLog_round_results (P : Policies α ι) :
    ∀ (fuel : Nat) (sat hN hI hA : Bool) (st : search_t α ι),
      ∀ R ∈ (partitionLoopLog P fuel sat hN hI hA st).2, ∀ c ∈ R.Calls.dropLast,
        c.Result = true := by
  intro fuel
  induction fuel with
  | zero =>
    intro sat hN hI hA st R hR
    rw [partitionLoopLog] at hR
    split at hR <;> exact absurd hR (List.not_mem_nil R)
  | succ fuel ih =>
    intro sat hN hI hA st R hR
    rw [partitionLoopLog] at hR
    split at hR
    · simp only at hR
      have a1 := (applyInstantiatedLog_results P.Constraints
        ((st.Parameters.Processing ++ st.Solver.AdditionalIndices.filter
          (fun i => (mapFind i st.Solver.Variables).isSome)).filter
            (fun r => (st.Solver.get r).isInstantiated)) st.Solver).1
      cases hr : (applyInstantiatedLog P.Constraints
        ((st.Parameters.Processing ++ st.Solver.AdditionalIndices.filter
          (fun i => (mapFind i st.Solver.Variables).isSome)).filter
            (fun r => (st.Solver.get r).isInstantiated)) st.Solver).1 with
      | raise s1 =>
        rw [hr] at hR
        rw [List.mem_singleton.1 hR]
        exact a1
      | stall s1 =>
        rw [hr] at hR
        rw [List.mem_singleton.1 hR]
        exact a1
      | ret b s1 =>
        rw [hr] at hR
        rcases List.mem_cons.1 hR with e | hm
        · rw [e]
          exact a1
        · exact ih _ _ _ _ _ R hm
    · exact absurd hR (List.not_mem_nil R)

/-! ## The calls logged are calls of the registered constraints -/

theorem applyConstraintsLog_calls (ref : ι) (cs : List (constraint_t α ι)) :
    ∀ (n : Nat) (s : ConstraintSolver α ι), ∀ c ∈ (applyConstraintsLog ref n cs s).2,
      ∃ k cf s1, c.Constraint = n + k ∧ cs[k]? = some cf ∧
        c.Result = (cf s1 c.Indice c.Value).1 := by
  induction cs with
  | nil => intro n s c hc; exact absurd hc (List.not_mem_nil c)
  | cons c0 cs ih =>
    intro n s c hc
    unfold applyConstraintsLog at hc
    cases hv : (s.get ref).value with
    | none =>
      rw [hv] at hc
      exact absurd hc (List.not_mem_nil c)
    | some v =>
      rw [hv] at hc
      simp only at hc
      have hhead : ∀ x : call_t α ι,
          x = { Constraint := n, Indice := (s.get ref).indice, Value := v,
                Result := (c0 s (s.get ref).indice v).1 } →
          ∃ k cf s1, x.Constraint = n + k ∧ (c0 :: cs)[k]? = some cf ∧
            x.Result = (cf s1 x.Indice x.Value).1 := by
        intro x hx
        rw [hx]
        exact ⟨0, c0, s, rfl, List.getElem?_cons_zero, rfl⟩
      by_cases hb : (c0 s (s.get ref).indice v).1 = true
      · rw [if_pos hb] at hc
        rcases List.mem_cons.1 hc with e | hm
        · exact hhead c e
        · obtain ⟨k, cf, s1, e1, e2, e3⟩ := ih (n + 1) _ c hm
          refine ⟨k + 1, cf, s1, ?_, ?_, e3⟩
          · omega
          · rw [List.getElem?_cons_succ]
            exact e2
      · rw [if_neg hb] at hc
        exact hhead c (List.mem_singleton.1 hc)

theorem applyInstantiatedLog_calls (cs : List (constraint_t α ι)) (refs : List ι) :
    ∀ s : ConstraintSolver α ι, ∀ c ∈ (applyInstantiatedLog cs refs s).2,
      ∃ cf s1, cs[c.Constraint]? = some cf ∧ c.Result = (cf s1 c.Indice c.Value).1 := by
  induction refs with
  | nil => intro s c hc; exact absurd hc (List.not_mem_nil c)
  | cons ref refs ih =>
    intro s c hc
    have h0 : ∀ x ∈ (applyConstraintsLog ref 0 cs s).2,
        ∃ cf s1, cs[x.Constraint]? = some cf ∧ x.Result = (cf s1 x.Indice x.Value).1 := by
      intro x hx
      obtain ⟨k, cf, s1, e1, e2, e3⟩ := applyConstraintsLog_calls ref cs 0 s x hx
      refine ⟨cf, s1, ?_, e3⟩
      rw [e1, Nat.zero_add]
      exact e2
    unfold applyInstantiatedLog at hc
    cases hr : applyConstraintsLog ref 0 cs s with
    | mk run log =>
      rw [hr] at hc h0
      simp only at h0
      cases run with
      | raise s1 => exact h0 c hc
      | stall s1 => exact h0 c hc
      | ret b s1 =>
        cases b with
        | false => exact h0 c hc
        | true =>
          simp only at hc
          rcases List.mem_append.1 hc with hm | hm
          · exact h0 c hm
          · exact ih s1 c hm

/-- Every call logged by `partitionAndConstrain` is a call of the constraint
registered at the position logged, with the arguments logged, and its result
is the result logged. -/
theorem partitionLoopLog_calls (P : Policies α ι) :
    ∀ (fuel : Nat) (sat hN hI hA : Bool) (st : search_t α ι),
      ∀ R ∈ (partitionLoopLog P fuel sat hN hI hA st).2, ∀ c ∈ R.Calls,
        ∃ cf s1, P.Constraints[c.Constraint]? = some cf ∧
          c.Result = (cf s1 c.Indice c.Value).1 := by
  intro fuel
  induction fuel with
  | zero =>
    intro sat hN hI hA st R hR
    rw [partitionLoopLog] at hR
    split at hR <;> exact absurd hR (List.not_mem_nil R)
  | succ fuel ih =>
    intro sat hN hI hA st R hR
    rw [partitionLoopLog] at hR
    split at hR
    · simp only at hR
      have a1 := applyInstantiatedLog_calls P.Constraints
        ((st.Parameters.Processing ++ st.Solver.AdditionalIndices.filter
          (fun i => (mapFind i st.Solver.Variables).isSome)).filter
            (fun r => (st.Solver.get r).isInstantiated)) st.Solver
      cases hr : (applyInstantiatedLog P.Constraints
        ((st.Parameters.Processing ++ st.Solver.AdditionalIndices.filter
          (fun i => (mapFind i st.Solver.Variables).isSome)).filter
            (fun r => (st.Solver.get r).isInstantiated)) st.Solver).1 with
      | raise s1 =>
        rw [hr] at hR
        rw [List.mem_singleton.1 hR]
        exact a1
      | stall s1 =>
        rw [hr] at hR
        rw [List.mem_singleton.1 hR]
        exact a1
      | ret b s1 =>
        rw [hr] at hR
        rcases List.mem_cons.1 hR with e | hm
        · rw [e]
          exact a1
        · exact ih _ _ _ _ _ R hm
    · exact absurd hR (List.not_mem_nil R)

end ConstraintSolver

end solver


namespace DependencyGraph

open solver

variable {T : Type} [LinearOrder T]

/-! ## The map of `DependencyGraph` -/

theorem touch_spec (k : T) (m : List (T × List T))
    (h : (m.map Prod.fst).Pairwise (fun a b => a < b)) :
    ((touch k m).map Prod.fst).Pairwise (fun a b => a < b) ∧
    (∀ x, edges x (touch k m) = edges x m) ∧
    (mapFind k (touch k m)).isSome = true := by
  obtain ⟨_, h2, h3, h4⟩ := mapInsert_spec k ([] : List T) m h
  refine ⟨h2, ?_, ?_⟩
  · intro x
    unfold edges touch
    rw [h4 x]
    by_cases hc : x = k ∧ k ∉ m.map Prod.fst
    · rw [if_pos hc]
      have : mapFind x m = none := by
        rw [hc.1]
        exact (mapFind_eq_none_iff k m).2 hc.2
      rw [this]
    · rw [if_neg hc]
  · rw [mapFind_isSome_iff]
    exact (h3 k).2 (Or.inl rfl)

/-- Method `addDependency`: the map stays in ascending key order, `v` is
appended to the vector of `u`, and both are vertices afterwards. -/
theorem addDependency_spec (u v : T) (g : DependencyGraph T)
    (h : (g.graph.map Prod.fst).Pairwise (fun a b => a < b)) :
    (((addDependency u v g).graph).map Prod.fst).Pairwise (fun a b => a < b) ∧
    (∀ x, edges x (addDependency u v g).graph =
      if x = u then edges u g.graph ++ [v] else edges x g.graph) ∧
    (∀ x, x ∈ (addDependency u v g).vertices ↔ x = u ∨ x = v ∨ x ∈ g.vertices) := by
  obtain ⟨t1, t2, t3⟩ := touch_spec u g.graph h
  refine ⟨?_, ?_, ?_⟩
  · show ((mapAssign u _ (touch u g.graph)).map Prod.fst).Pairwise _
    rw [map_fst_mapAssign]
    exact t1
  · intro x
    show edges x (mapAssign u _ (touch u g.graph)) = _
    by_cases hx : x = u
    · rw [if_pos hx, hx]
      unfold edges
      rw [mapFind_mapAssign_self]
      cases hf : mapFind u (touch u g.graph) with
      | none => rw [hf] at t3; exact Bool.noConfusion t3
      | some l =>
        simp only [Option.map_some']
        have := t2 u
        unfold edges at this
        rw [hf] at this
        simp only at this
        rw [← this]
    · rw [if_neg hx]
      have : edges x (mapAssign u (edges u (touch u g.graph) ++ [v]) (touch u g.graph)) =
          edges x (touch u g.graph) := by
        unfold edges
        rw [mapFind_mapAssign_ne hx]
      rw [this]
      exact t2 x
  · intro x
    show x ∈ setInsert v (setInsert u g.vertices) ↔ _
    rw [mem_setInsert, mem_setInsert]
    tauto

theorem foldl_addDependency_spec (deps : List (T × T)) :
    ∀ g : DependencyGraph T, (g.graph.map Prod.fst).Pairwise (fun a b => a < b) →
      (((deps.foldl (fun g d => addDependency d.1 d.2 g) g).graph).map Prod.fst).Pairwise
        (fun a b => a < b) ∧
      (∀ x, edges x (deps.foldl (fun g d => addDependency d.1 d.2 g) g).graph =
        edges x g.graph ++ (deps.filter (fun d => decide (d.1 = x))).map Prod.snd) ∧
      (∀ x, x ∈ (deps.foldl (fun g d => addDependency d.1 d.2 g) g).vertices ↔
        x ∈ g.vertices ∨ ∃ d ∈ deps, x = d.1 ∨ x = d.2) := by
  induction deps with
  | nil =>
    intro g h
    refine ⟨h, fun x => by simp, fun x => by simp⟩
  | cons d deps ih =>
    intro g h
    obtain ⟨a1, a2, a3⟩ := addDependency_spec d.1 d.2 g h
    obtain ⟨i1, i2, i3⟩ := ih (addDependency d.1 d.2 g) a1
    rw [List.foldl_cons]
    refine ⟨i1, ?_, ?_⟩
    · intro x
      rw [i2 x, a2 x]
      by_cases hx : x = d.1
      · rw [if_pos hx]
        simp [List.filter_cons, hx]
      · rw [if_neg hx]
        have : ¬ d.1 = x := fun e => hx e.symm
        simp [List.filter_cons, this]
    · intro x
      rw [i3 x, a3 x]
      constructor
      · rintro ((h | h | h) | ⟨e, he, h⟩)
        · exact Or.inr ⟨d, List.mem_cons_self _ _, Or.inl h⟩
        · exact Or.inr ⟨d, List.mem_cons_self _ _, Or.inr h⟩
        · exact Or.inl h
        · exact Or.inr ⟨e, List.mem_cons_of_mem _ he, h⟩
      · rintro (h | ⟨e, he, h⟩)
        · exact Or.inl (Or.inr (Or.inr h))
        · rcases List.mem_cons.1 he with e1 | hm
          · rw [e1] at h
            rcases h with h | h
            · exact Or.inl (Or.inl h)
            · exact Or.inl (Or.inr (Or.inl h))
          · exact Or.inr ⟨e, hm, h⟩

/-- The object built from a list of dependencies: the map is in ascending key
order, the vector of `u` holds the `v` of the pairs `(u, v)`, and the vertices
are the ends of the pairs. -/
theorem build_spec (deps : List (T × T)) :
    (((build deps).graph).map Prod.fst).Pairwise (fun a b => a < b) ∧
    (∀ u v, v ∈ edges u (build deps).graph ↔ (u, v) ∈ deps) ∧
    (∀ x, x ∈ (build deps).vertices ↔ ∃ d ∈ deps, x = d.1 ∨ x = d.2) := by
  obtain ⟨h1, h2, h3⟩ := foldl_addDependency_spec deps (new : DependencyGraph T)
    List.Pairwise.nil
  refine ⟨h1, ?_, ?_⟩
  · intro u v
    unfold build
    rw [h2 u]
    have : edges u (new : DependencyGraph T).graph = [] := rfl
    rw [this, List.nil_append, List.mem_map]
    constructor
    · rintro ⟨d, hd, e⟩
      obtain ⟨hd1, hd2⟩ := List.mem_filter.1 hd
      have e1 : d.1 = u := of_decide_eq_true hd2
      have : d = (u, v) := Prod.ext e1 e
      rw [← this]
      exact hd1
    · intro h
      exact ⟨(u, v), List.mem_filter.2 ⟨h, decide_eq_true rfl⟩, rfl⟩
  · intro x
    unfold build
    rw [h3 x]
    constructor
    · rintro (h | h)
      · exact absurd h (List.not_mem_nil x)
      · exact h
    · intro h
      exact Or.inr h

/-- Dependencies along which a rank decreases contain no cycle. -/
theorem acyclic_of_rank (deps : List (T × T)) (rank : T → Nat)
    (h : ∀ d ∈ deps, rank d.2 < rank d.1) : Acyclic deps := by
  have key : ∀ a b, Relation.TransGen (fun a b => (a, b) ∈ deps) a b → rank b < rank a := by
    intro a b hab
    induction hab with
    | single hab => exact h _ hab
    | tail _ hbc ih => exact Nat.lt_trans (h _ hbc) ih
  intro x hx
  exact Nat.lt_irrefl _ (key x x hx)

end DependencyGraph


namespace DependencyGraph

open solver

variable {T : Type} [LinearOrder T]

/-! ## The depth-first walk of `topologicalSort` -/

theorem unvisited_le (V : List T) {w w1 : walk_t T}
    (h : ∀ x ∈ w.visited, x ∈ w1.visited) :
    (unvisited V w1).length ≤ (unvisited V w).length := by
  apply List.Sublist.length_le
  unfold unvisited
  apply List.monotone_filter_right
  intro a ha
  simp only [decide_eq_true_eq] at ha ⊢
  exact fun hm => ha (h a hm)

theorem unvisited_lt (V : List T) (w : walk_t T) (v : T) (hv : v ∈ V) (hn : v ∉ w.visited)
    (g : List (T × List T)) (stack : List T) :
    (unvisited V { graph := g, visited := setInsert v w.visited, stack := stack }).length <
      (unvisited V w).length := by
  have e : unvisited V { graph := g, visited := setInsert v w.visited, stack := stack } =
      (unvisited V w).filter (fun x => decide (x ≠ v)) := by
    unfold unvisited
    rw [List.filter_filter]
    apply List.filter_congr
    intro x _
    simp only [mem_setInsert, not_or, Bool.decide_and, ne_eq]
  rw [e]
  rw [List.length_filter_lt_length_iff_exists]
  refine ⟨v, ?_, by simp⟩
  unfold unvisited
  exact List.mem_filter.2 ⟨hv, by simpa using hn⟩

/-- The loops over vertices: when every call of `f` for a vertex that has not
been visited returns and keeps the invariant, so does the loop, and every
vertex of the list is on the stack afterwards. -/
theorem visitAll_spec (A : T → List T) (V : List T)
    (hac : ∀ x, ¬ Relation.TransGen (fun a b => b ∈ A a) x x) (anc : List T) (n : Nat)
    (f : T → walk_t T → Option (walk_t T))
    (hf : ∀ d w, WInv A V anc w → d ∈ V → d ∉ w.visited →
      (∀ a ∈ anc, Relation.TransGen (fun a b => b ∈ A a) a d) →
      (unvisited V w).length ≤ n →
      ∃ w1, f d w = some w1 ∧ WInv A V anc w1 ∧ d ∈ w1.stack ∧
        (∀ x ∈ w.visited, x ∈ w1.visited) ∧ (∀ x ∈ w.stack, x ∈ w1.stack)) :
    ∀ (ds : List T) (w : walk_t T), WInv A V anc w →
      (∀ d ∈ ds, d ∈ V ∧ ∀ a ∈ anc, Relation.TransGen (fun a b => b ∈ A a) a d) →
      (unvisited V w).length ≤ n →
      ∃ w1, visitAll f ds w = some w1 ∧ WInv A V anc w1 ∧ (∀ d ∈ ds, d ∈ w1.stack) ∧
        (∀ x ∈ w.visited, x ∈ w1.visited) ∧ (∀ x ∈ w.stack, x ∈ w1.stack) := by
  intro ds
  induction ds with
  | nil =>
    intro w hw _ _
    exact ⟨w, rfl, hw, fun d hd => absurd hd (List.not_mem_nil d), fun x hx => hx,
      fun x hx => hx⟩
  | cons d rest ih =>
    intro w hw hds hn
    obtain ⟨hdV, hda⟩ := hds d (List.mem_cons_self _ _)
    have hrest : ∀ d ∈ rest, d ∈ V ∧
        ∀ a ∈ anc, Relation.TransGen (fun a b => b ∈ A a) a d :=
      fun x hx => hds x (List.mem_cons_of_mem _ hx)
    unfold visitAll
    by_cases hvis : d ∈ w.visited
    · rw [if_pos hvis]
      have hstack : d ∈ w.stack := by
        rcases (hw.vis d).1 hvis with h | h
        · exact h
        · exact absurd (hda d h) (hac d)
      obtain ⟨w1, e, h1, h2, h3, h4⟩ := ih w hw hrest hn
      refine ⟨w1, e, h1, ?_, h3, h4⟩
      intro x hx
      rcases List.mem_cons.1 hx with e1 | hm
      · rw [e1]
        exact h4 d hstack
      · exact h2 x hm
    · rw [if_neg hvis]
      obtain ⟨w1, e1, g1, g2, g3, g4⟩ := hf d w hw hdV hvis hda hn
      rw [e1]
      simp only
      obtain ⟨w2, e2, h1, h2, h3, h4⟩ := ih w1 g1 hrest
        (Nat.le_trans (unvisited_le V g3) hn)
      refine ⟨w2, e2, h1, ?_, fun x hx => h3 x (g3 x hx), fun x hx => h4 x (g4 x hx)⟩
      intro x hx
      rcases List.mem_cons.1 hx with e3 | hm
      · rw [e3]
        exact h4 d g2
      · exact h2 x hm

/-- Method `parseDependencies` on dependencies without a cycle: called for a
vertex that has not been visited, with a budget that covers the vertices not
visited yet, it returns, keeps the invariant and leaves the vertex on the
stack. -/
theorem parseDependencies_spec (A : T → List T) (V : List T)
    (hV : ∀ x ∈ V, ∀ d ∈ A x, d ∈ V)
    (hac : ∀ x, ¬ Relation.TransGen (fun a b => b ∈ A a) x x) :
    ∀ (fuel : Nat) (anc : List T) (v : T) (w : walk_t T), WInv A V anc w → v ∈ V →
      v ∉ w.visited → (∀ a ∈ anc, Relation.TransGen (fun a b => b ∈ A a) a v) →
      (unvisited V w).length ≤ fuel →
      ∃ w1, parseDependencies fuel v w = some w1 ∧ WInv A V anc w1 ∧ v ∈ w1.stack ∧
        (∀ x ∈ w.visited, x ∈ w1.visited) ∧ (∀ x ∈ w.stack, x ∈ w1.stack) := by
  intro fuel
  induction fuel with
  | zero =>
    intro anc v w _ hv hn _ hlen
    exfalso
    have hm : v ∈ unvisited V w := List.mem_filter.2 ⟨hv, by simpa using hn⟩
    have := List.length_pos_of_mem hm
    omega
  | succ fuel ih =>
    intro anc v w hw hv hn hanc hlen
    obtain ⟨t1, t2, _⟩ := touch_spec v w.graph hw.sorted
    have hw0 : WInv A V (v :: anc)
        { graph := touch v w.graph, visited := setInsert v w.visited, stack := w.stack } := by
      refine { sorted := t1, adj := (fun x => (t2 x).trans (hw.adj x)), vis := ?_, inV := ?_,
               apart := ?_, nodup := hw.nodup, ordered := hw.ordered }
      · intro x
        show x ∈ setInsert v w.visited ↔ x ∈ w.stack ∨ x ∈ v :: anc
        rw [mem_setInsert, hw.vis x, List.mem_cons]
        tauto
      · intro x hx
        have hx2 : x ∈ setInsert v w.visited := hx
        rw [mem_setInsert] at hx2
        rcases hx2 with e | hm
        · rw [e]; exact hv
        · exact hw.inV x hm
      · intro a ha
        show a ∉ w.stack
        rcases List.mem_cons.1 ha with e | hm
        · rw [e]
          exact fun hs => hn ((hw.vis v).2 (Or.inl hs))
        · exact hw.apart a hm
    have hedges : edges v (touch v w.graph) = A v := hw0.adj v
    have hlen0 : (unvisited V
        { graph := touch v w.graph, visited := setInsert v w.visited,
          stack := w.stack }).length ≤ fuel := by
      have := unvisited_lt V w v hv hn (touch v w.graph) w.stack
      omega
    obtain ⟨w1, e1, h1, h2, h3, h4⟩ := visitAll_spec A V hac (v :: anc) fuel
      (parseDependencies fuel) (fun d w2 a b c e g => ih (v :: anc) d w2 a b c e g)
      (A v) _ hw0
      (fun d hd => ⟨hV v hv d hd, fun a ha => by
        rcases List.mem_cons.1 ha with e | hm
        · rw [e]
          exact Relation.TransGen.single hd
        · exact Relation.TransGen.tail (hanc a hm) hd⟩)
      hlen0
    rw [parseDependencies, hedges, e1]
    refine ⟨_, rfl, ?_, ?_, ?_, ?_⟩
    · refine { sorted := h1.sorted, adj := h1.adj, vis := ?_, inV := h1.inV, apart := ?_,
               nodup := ?_, ordered := ?_ }
      · intro x
        show x ∈ w1.visited ↔ x ∈ w1.stack ++ [v] ∨ x ∈ anc
        rw [h1.vis x, List.mem_append, List.mem_cons, List.mem_singleton]
        tauto
      · intro a ha
        show a ∉ w1.stack ++ [v]
        rw [List.mem_append, List.mem_singleton]
        rintro (h | h)
        · exact h1.apart a (List.mem_cons_of_mem _ ha) h
        · rw [h] at ha
          exact hn ((hw.vis v).2 (Or.inr ha))
      · show (w1.stack ++ [v]).Nodup
        rw [List.nodup_append]
        refine ⟨h1.nodup, List.nodup_singleton v, ?_⟩
        intro x hx hx2
        rw [List.mem_singleton.1 hx2] at hx
        exact h1.apart v (List.mem_cons_self _ _) hx
      · show OrderedRev A (w1.stack ++ [v]).reverse
        rw [List.reverse_append]
        exact ⟨fun d hd => List.mem_reverse.2 (h2 d hd), h1.ordered⟩
    · show v ∈ w1.stack ++ [v]
      exact List.mem_append_right _ (List.mem_singleton_self v)
    · intro x hx
      show x ∈ w1.visited
      apply h3
      show x ∈ setInsert v w.visited
      rw [mem_setInsert]
      exact Or.inr hx
    · intro x hx
      show x ∈ w1.stack ++ [v]
      exact List.mem_append_left _ (h4 x hx)

/-- In a stack where each vertex was pushed after everything it depends on,
what a vertex depends on stands before it. -/
theorem OrderedRev.before (A : T → List T) :
    ∀ (rev : List T), OrderedRev A rev → ∀ u ∈ rev, ∀ v ∈ A u,
      ∃ l1 l2 l3, rev = l1 ++ u :: l2 ++ v :: l3 := by
  intro rev
  induction rev with
  | nil => intro _ u hu; exact absurd hu (List.not_mem_nil u)
  | cons x older ih =>
    intro h u hu v hv
    rcases List.mem_cons.1 hu with e | hm
    · rw [e] at hv
      obtain ⟨s, t, est⟩ := List.append_of_mem (h.1 v hv)
      refine ⟨[], s, t, ?_⟩
      rw [e, est]
      rfl
    · obtain ⟨l1, l2, l3, e⟩ := ih h.2 u hm v hv
      refine ⟨x :: l1, l2, l3, ?_⟩
      rw [e]
      rfl

/-- Method `topologicalSort` on an object whose dependencies `A` have no
cycle and stay within its vertices: with a budget that covers the vertices it
returns a vector that holds each vertex once, each after everything it depends
on. -/
theorem topologicalSort_spec (g : DependencyGraph T)
    (hs : (g.graph.map Prod.fst).Pairwise (fun a b => a < b))
    (hV : ∀ x ∈ g.vertices, ∀ d ∈ edges x g.graph, d ∈ g.vertices)
    (hac : ∀ x, ¬ Relation.TransGen (fun a b => b ∈ edges a g.graph) x x)
    (fuel : Nat) (hfuel : g.vertices.length ≤ fuel) :
    ∃ sorted g1, topologicalSort fuel g = some (sorted, g1) ∧ sorted.Nodup ∧
      (∀ x, x ∈ sorted ↔ x ∈ g.vertices) ∧
      (∀ u ∈ g.vertices, ∀ v ∈ edges u g.graph,
        ∃ l1 l2 l3, sorted = l1 ++ v :: l2 ++ u :: l3) ∧
      g1.vertices = g.vertices ∧ ∀ x, edges x g1.graph = edges x g.graph := by
  have hw0 : WInv (fun x => edges x g.graph) g.vertices []
      { graph := g.graph, visited := [], stack := [] } :=
    { sorted := hs, adj := (fun _ => rfl), vis := (fun x => by simp),
      inV := (fun x hx => absurd hx (List.not_mem_nil x)),
      apart := (fun a ha => absurd ha (List.not_mem_nil a)),
      nodup := List.nodup_nil, ordered := trivial }
  have hlen : (unvisited g.vertices
      { graph := g.graph, visited := [], stack := [] }).length ≤ fuel := by
    refine Nat.le_trans ?_ hfuel
    unfold unvisited
    exact List.length_filter_le _ _
  obtain ⟨w1, e1, h1, h2, _, _⟩ := visitAll_spec (fun x => edges x g.graph) g.vertices hac []
    fuel (parseDependencies fuel)
    (fun d w a b c e k => parseDependencies_spec (fun x => edges x g.graph) g.vertices hV hac
      fuel [] d w a b c e k)
    g.vertices _ hw0 (fun d hd => ⟨hd, fun a ha => absurd ha (List.not_mem_nil a)⟩) hlen
  refine ⟨w1.stack, { g with graph := w1.graph }, ?_, h1.nodup, ?_, ?_, rfl, h1.adj⟩
  · unfold topologicalSort
    rw [e1]
  · intro x
    constructor
    · intro hx
      exact h1.inV x ((h1.vis x).2 (Or.inl hx))
    · exact h2 x
  · intro u hu v hv
    obtain ⟨l1, l2, l3, e⟩ := OrderedRev.before (fun x => edges x g.graph) _ h1.ordered
      u (List.mem_reverse.2 (h2 u hu)) v hv
    refine ⟨l3.reverse, l2.reverse, l1.reverse, ?_⟩
    have := congrArg List.reverse e
    rw [List.reverse_reverse] at this
    rw [this]
    simp

end DependencyGraph


namespace solver

namespace ConstraintSolver

variable {α ι : Type} [LinearOrder α] [LinearOrder ι]

/-! ## The solver after a successful `solve` -/

/-- After `solve` returned `true` on a fresh solver, in a search without
added variables: the solver is the one in which the search ended, all its
variables out of `Processing`, with the solution read from it as the only
entry of the registry. -/
theorem solve_true_state (P : Policies α ι) (hS : ShrinkOnly P.Constraints)
    (hsort : ∀ cmp l, List.Perm (P.StdSort cmp l) l)
    (s : ConstraintSolver α ι) (hf : Fresh s) (fuel : Nat) (s1 : ConstraintSolver α ι)
    (h : solve P fuel s = Run.ret true s1) :
    ∃ st1, SInv st1 ∧ st1.Parameters.Processing = [] ∧ st1.Solver.keys = s.keys ∧
      st1.Solver.RejectedIndices = s.RejectedIndices ∧
      s1 = { st1.Solver with
        IsSolveInProgress := false,
        SolutionList := [st1.Solver.keys.map (fun i => st1.Solver.get i)] } := by
  obtain ⟨hw, hn, _, ha, _, hl⟩ := hf.facts
  have hemp : (startSearch s).Solver.SolutionList = [] := hl
  have hstart := SInv.start hw hn ha
  unfold solve internSolve at h
  cases fuel with
  | zero => simp [internSolveLoop] at h
  | succ fuel =>
    rw [internSolveLoop] at h
    have s1f := SearchSolution_sinv P hS hsort (fuel + 1) (fuel + 1) (startSearch s) hstart
    cases hr : SearchSolution P (fuel + 1) (fuel + 1) (startSearch s) with
    | raise st1 => rw [hr] at h; simp at h
    | stall st1 => rw [hr] at h; simp at h
    | ret b st1 =>
      rw [hr] at h s1f
      obtain ⟨h1, hk1, hp1⟩ := s1f
      have hreg : st1.Solver.SolutionList = [] := by rw [hk1.2.1]; exact hemp
      cases b with
      | false =>
        simp only [Bool.false_eq_true, if_false, Bool.and_false, Run.ret.injEq] at h
        rw [hreg] at h
        simp at h
      | true =>
        simp only [if_true, Bool.and_true, Bool.false_and, Bool.false_eq_true, if_false,
          Run.ret.injEq] at h
        obtain ⟨e1, _, _, e4, _⟩ := recordSolution_spec h1 (hp1 rfl)
        refine ⟨st1, h1, hp1 rfl, hk1.1, hk1.2.2.1, ?_⟩
        rw [← h.2]
        have hv : (recordSolution st1).Solver =
            { st1.Solver with SolutionList := (recordSolution st1).Solver.SolutionList } := rfl
        rw [hv, e1, hreg]
        rfl

end ConstraintSolver

end solver



namespace solver

namespace ConstraintSolver

variable {α ι : Type} [LinearOrder α] [LinearOrder ι]

/-- The constraints of the list each return `true` without changing the solver
`t`, for the index `k` and the value `v`: so does the loop over them. -/
theorem applyConstraints_idle (cs : List (constraint_t α ι)) (t : ConstraintSolver α ι) (k : ι)
    (v : α) (hv : (t.get k).value = some v) (hi : (t.get k).indice = k)
    (hfix : ∀ c ∈ cs, c t k v = (true, t)) :
    applyConstraints k cs t = Run.ret true t := by
  induction cs with
  | nil => rfl
  | cons c cs ih =>
    have hc := hfix c (List.mem_cons_self _ _)
    rw [applyConstraints]
    simp only [hv, hi, hc, if_true]
    exact ih (fun c2 h2 => hfix c2 (List.mem_cons_of_mem _ h2))

/-- The loop over the instantiated variables when no call changes anything. -/
theorem applyInstantiated_idle (cs : List (constraint_t α ι)) (t : ConstraintSolver α ι)
    (l : List ι)
    (h : ∀ k ∈ l, ∃ v, (t.get k).value = some v ∧ (t.get k).indice = k ∧
      ∀ c ∈ cs, c t k v = (true, t)) :
    applyInstantiated cs l t = Run.ret true t := by
  induction l with
  | nil => rfl
  | cons k l ih =>
    obtain ⟨v, hv, hi, hfix⟩ := h k (List.mem_cons_self _ _)
    rw [applyInstantiated, applyConstraints_idle cs t k v hv hi hfix]
    exact ih (fun k2 h2 => h k2 (List.mem_cons_of_mem _ h2))

/-- A call of `solve` on a solver whose variables are all instantiated and on
which every constraint call succeeds without effect: one round of
`partitionAndConstrain`, no choice, and the variables appended to the registry
as they are. -/
theorem solve_again (P : Policies α ι) (s : ConstraintSolver α ι) (hw : WF s)
    (hk : s.keys ≠ []) (ha : s.AdditionalIndices = []) (hp : s.IsSolveInProgress = false)
    (hi : ∀ k ∈ s.keys, (s.dom k).length = 1)
    (hfix : ∀ c ∈ P.Constraints, ∀ k ∈ s.keys, ∀ v ∈ s.dom k,
      c { s with IsSolveInProgress := true } k v = (true, { s with IsSolveInProgress := true }))
    (fuel : Nat) :
    solve P (fuel + 1) s =
      Run.ret true { s with SolutionList := s.SolutionList ++ [s.keys.map (fun i => s.get i)] } := by
  obtain ⟨ip, vars, add, rej, sols⟩ := s
  simp only at ha hp
  subst ha hp
  generalize hs : (ConstraintSolver.mk false vars [] rej sols : ConstraintSolver α ι) = s at *
  have hinst : ∀ k ∈ s.keys, (s.get k).isInstantiated = true := by
    intro k hk2
    have := hi k hk2
    simpa [Variable.isInstantiated, dom] using this
  have hidle : applyInstantiated P.Constraints s.keys { s with IsSolveInProgress := true } =
      Run.ret true { s with IsSolveInProgress := true } := by
    apply applyInstantiated_idle
    intro k hk2
    have hl := hi k hk2
    have hd : ∃ v, s.dom k = [v] := List.length_eq_one.1 hl
    obtain ⟨v, hv⟩ := hd
    refine ⟨v, ?_, hw.2 k hk2, ?_⟩
    · show (s.get k).Domain.head? = some v
      have : (s.get k).Domain = [v] := hv
      rw [this]
      rfl
    · intro c hc
      exact hfix c hc k hk2 v (by rw [hv]; exact List.mem_singleton_self v)
  have hf1 : s.keys.filter (fun r => (s.get r).isInstantiated) = s.keys :=
    List.filter_eq_self.2 hinst
  have hf2 : s.keys.filter (fun r => !(s.get r).isInstantiated) = [] := by
    rw [List.filter_eq_nil_iff]
    intro k hk2
    simp [hinst k hk2]
  have hne : s.keys.isEmpty = false := by
    cases h : s.keys with
    | nil => exact absurd h hk
    | cons a l => rfl
  have hpart : partitionAndConstrain P (fuel + 1) (startSearch s) =
      Run.ret (true, false)
        { Solver := { s with IsSolveInProgress := true },
          Parameters := { Processing := [], Register := s.keys, Backup := [] } } := by
    unfold partitionAndConstrain
    rw [partitionLoop]
    simp only [Bool.and_self, Bool.or_false, if_true]
    have e1 : (startSearch s).Solver = { s with IsSolveInProgress := true } := rfl
    have e2 : (startSearch s).Parameters =
        { Processing := s.keys, Register := s.keys, Backup := [] } := rfl
    have ha : s.AdditionalIndices = [] := by rw [← hs]
    have g : ∀ r, ({ s with IsSolveInProgress := true } : ConstraintSolver α ι).get r = s.get r :=
      fun _ => rfl
    have g2 : ({ s with IsSolveInProgress := true } : ConstraintSolver α ι).Variables =
      s.Variables := rfl
    have g3 : ({ s with IsSolveInProgress := true } : ConstraintSolver α ι).AdditionalIndices =
      [] := ha
    have g4 : s.Variables.map Prod.fst = s.keys := rfl
    simp only [e1, e2, g3, List.filter_nil, List.append_nil, g, hf1, hf2, hidle]
    cases fuel <;> rw [partitionLoop] <;> simp [ha]
  have hsearch : SearchSolution P (fuel + 1) (fuel + 1) (startSearch s) =
      Run.ret true
        { Solver := { s with IsSolveInProgress := true },
          Parameters := { Processing := [], Register := s.keys, Backup := [] } } := by
    rw [SearchSolution, searchBody]
    have e2 : (startSearch s).Parameters.Processing = s.keys := rfl
    simp only [e2, hne, hpart]
    simp
  unfold solve internSolve
  rw [internSolveLoop, hsearch]
  simp only [if_true, Bool.false_and, Bool.and_true, Bool.false_eq_true, if_false]
  have hrec : (recordSolution
      ({ Solver := { s with IsSolveInProgress := true },
         Parameters := { Processing := [], Register := s.keys, Backup := [] } } :
        search_t α ι)).Solver =
      { s with IsSolveInProgress := true,
               SolutionList := s.SolutionList ++ [s.keys.map (fun i => s.get i)] } := by
    unfold recordSolution
    simp only
    have := filterMap_find_keys s s.keys (fun k h => h)
    rw [this]
  simp only [hrec]
  subst hs
  simp

/-- With no variable and an empty registry, `solve` does not return `true`. -/
theorem solve_no_keys (P : Policies α ι) (s : ConstraintSolver α ι) (hk : s.keys = [])
    (hl : s.SolutionList = []) (fuel : Nat) (s1 : ConstraintSolver α ι) :
    solve P fuel s ≠ Run.ret true s1 := by
  have hv : s.Variables = [] := List.map_eq_nil_iff.1 hk
  unfold solve internSolve
  cases fuel with
  | zero =>
    rw [internSolveLoop]
    intro h
    cases h
  | succ n =>
    rw [internSolveLoop, SearchSolution, searchBody]
    simp [startSearch, hv, hl]

end ConstraintSolver

end solver



namespace solver

namespace ConstraintSolver

variable {α ι : Type} [LinearOrder α] [LinearOrder ι]

/-! ## A declared domain that is empty -/

theorem applyInstantiated_nil (l : List ι) (s : ConstraintSolver α ι) :
    applyInstantiated ([] : List (constraint_t α ι)) l s = Run.ret true s := by
  induction l with
  | nil => rfl
  | cons k l ih =>
    rw [applyInstantiated]
    simp only [applyConstraints]
    exact ih

/-- Without constraints `partitionAndConstrain` does not report a contradiction. -/
theorem partitionAndConstrain_no_constraint (P : Policies α ι) (hP : P.Constraints = [])
    (total : Nat) (st : search_t α ι) (ha : st.Solver.AdditionalIndices = [])
    (hn : DomNodup st.Solver) (b : Bool × Bool) (st1 : search_t α ι)
    (h : partitionAndConstrain P total st = Run.ret b st1) : b.1 = true := by
  have hS : ShrinkOnly P.Constraints := by
    rw [hP]
    intro c hc
    exact absurd hc (List.not_mem_nil c)
  have := partitionLoop_induct P hS (fun _ b _ => b = true) (fun _ => rfl)
    (fun st b s1 b2 st2 _ _ happ _ h1 _ => by
      rw [hP, applyInstantiated_nil] at happ
      cases happ
      exact h1 rfl)
    total true true true st ha hn b st1 h
  exact this.1 rfl

theorem pending_pos {st : search_t α ι} {e : ι} (he : e ∈ st.Parameters.Processing)
    (hd : st.Solver.dom e = []) : 0 < pending st := by
  unfold pending
  apply List.length_pos_of_mem (a := e)
  rw [List.mem_filter]
  refine ⟨he, ?_⟩
  rw [hd]
  simp

/-- One turn of the loop of `SearchSolution` without constraints, on a
processing set that holds a variable `e` of empty domain: the turn throws, or
stalls for want of budget, or goes on with `e` still pending and fewer
variables to instantiate. -/
theorem searchIteration_empty_domain (P : Policies α ι) (hP : P.Constraints = [])
    (hsort : ∀ cmp l, List.Perm (P.StdSort cmp l) l) (total : Nat) (e : ι)
    (st : search_t α ι) (h : SInv st) (he : e ∈ st.Parameters.Processing)
    (hd : st.Solver.dom e = []) :
    match searchIteration P total st with
    | Run.ret none st1 => SInv st1 ∧ e ∈ st1.Parameters.Processing ∧ st1.Solver.dom e = [] ∧
        st1.Solver.keys = st.Solver.keys ∧ pending st1 < pending st
    | Run.ret (some _) _ => False
    | Run.raise _ => True
    | Run.stall _ => ¬ st.Solver.keys.length < total := by
  have hS : ShrinkOnly P.Constraints := by
    rw [hP]
    intro c hc
    exact absurd hc (List.not_mem_nil c)
  have hne : st.Parameters.Processing ≠ [] := List.ne_nil_of_mem he
  have hc := searchIteration_cases P hS hsort total st h
  have htrue : ∀ b st1, partitionAndConstrain P total st = Run.ret b st1 → b.1 = true :=
    partitionAndConstrain_no_constraint P hP total st h.noAdd h.domNodup
  -- the variable `e` after a round of propagation
  have hkeep : ∀ b st1, partitionAndConstrain P total st = Run.ret b st1 →
      e ∈ st1.Parameters.Processing ∧ st1.Solver.dom e = [] := by
    intro b st1 hpc
    obtain ⟨⟨_, hsh, _, _, _, hleft, _⟩, _⟩ := h.of_partition hS hpc
    have hde : st1.Solver.dom e = [] := by
      rw [hsh.fixed e (by rw [hd]; exact Nat.zero_le 1)]
      exact hd
    refine ⟨?_, hde⟩
    by_contra hno
    have := hleft e he hno
    rw [hde] at this
    cases this
  generalize searchIteration P total st = r at hc
  cases hc with
  | emptyStop hp _ => exact absurd hp hne
  | emptyBack r rs hp _ => exact absurd hp hne
  | failStop st1 _ hpc _ => exact absurd (htrue _ _ hpc) (by decide)
  | failBack st1 r rs _ hpc _ => exact absurd (htrue _ _ hpc) (by decide)
  | solved st1 _ hpc hp1 =>
    have := (hkeep _ _ hpc).1
    rw [hp1] at this
    exact absurd this (List.not_mem_nil e)
  | throws st1 st2 _ _ _ _ => trivial
  | stalls st1 _ _ hlt =>
    exact fun ht => hlt (Nat.lt_of_le_of_lt (processing_length_le h) ht)
  | branch st1 st2 _ hpc hp1 hnon hsel =>
    obtain ⟨hpost, h1⟩ := h.of_partition hS hpc
    obtain ⟨_, hsh, _, _, hsub, _, _⟩ := hpost
    obtain ⟨he1, hd1⟩ := hkeep _ _ hpc
    have h2 : SInv st2 := h1.of_select hnon hsel
    obtain ⟨x, val, hx, _, hget, hkeys, _, _, _, hxne⟩ := hsel.get h1.procSub
    obtain ⟨x1, rest, v0, tl, hperm, hdx, hproc, _, _, hs⟩ := hsel
    have hxe : e ≠ x := by
      intro hex
      rw [← hex] at hxne
      exact hxne hd1
    have hdom2 : ∀ k, k ≠ x → st2.Solver.dom k = st1.Solver.dom k := by
      intro k hk
      unfold dom
      rw [hget k, if_neg hk]
    refine ⟨h2, ?_, ?_, ?_, ?_⟩
    · rw [hproc]
      exact hperm.symm.subset he1
    · rw [hdom2 e hxe]
      exact hd1
    · rw [hkeys]
      exact hsh.keys
    · -- the chosen variable is instantiated; the others are as they were
      have hx2 : (st2.Solver.dom x).length = 1 := by
        unfold dom
        rw [hget x, if_pos rfl]
        rfl
      have hxin : x ∈ st2.Parameters.Processing := by
        rw [hproc]
        have : x ∈ st1.Parameters.Processing := hx
        exact hperm.symm.subset this
      have hlt : pending st2 < st2.Parameters.Processing.length := by
        unfold pending
        apply List.length_filter_lt_length_iff_exists.2
        exact ⟨x, hxin, by simp [hx2]⟩
      have hlen2 : st2.Parameters.Processing.length = st1.Parameters.Processing.length := by
        rw [hproc]
        exact hperm.length_eq
      have hle : st1.Parameters.Processing.length ≤ pending st := by
        unfold pending
        have hall : ∀ i ∈ st1.Parameters.Processing,
            decide ((st.Solver.dom i).length ≠ 1) = true := by
          intro i hi
          have hn1 := hnon i hi
          apply decide_eq_true
          intro h1len
          apply hn1
          rw [hsh.fixed i (Nat.le_of_eq h1len)]
          exact h1len
        have hf := List.Sublist.filter (fun i => decide ((st.Solver.dom i).length ≠ 1)) hsub
        rw [List.filter_eq_self.2 hall] at hf
        exact hf.length_le
      omega

/-- The loop of `SearchSolution` from such a state: it never returns, and it
throws when the budgets are above the number of variables. -/
theorem SearchSolution_empty_domain (P : Policies α ι) (hP : P.Constraints = [])
    (hsort : ∀ cmp l, List.Perm (P.StdSort cmp l) l) (total : Nat) (e : ι) :
    ∀ (fuel : Nat) (st : search_t α ι), SInv st → e ∈ st.Parameters.Processing →
      st.Solver.dom e = [] →
      (∀ b st1, SearchSolution P total fuel st ≠ Run.ret b st1) ∧
      (st.Solver.keys.length < total → pending st ≤ fuel →
        ∃ st1, SearchSolution P total fuel st = Run.raise st1) := by
  intro fuel
  induction fuel with
  | zero =>
    intro st h he hd
    refine ⟨fun b st1 hr => ?_, fun _ hp => ?_⟩
    · rw [SearchSolution] at hr
      cases hr
    · have := pending_pos he hd
      omega
  | succ fuel ih =>
    intro st h he hd
    have hs := searchIteration_empty_domain P hP hsort total e st h he hd
    rw [SearchSolution_succ]
    cases hi : searchIteration P total st with
    | raise st1 => exact ⟨fun b st2 hr => (by cases hr), fun _ _ => ⟨st1, rfl⟩⟩
    | stall st1 =>
      rw [hi] at hs
      exact ⟨fun b st2 hr => (by cases hr), fun ht _ => absurd ht hs⟩
    | ret o st1 =>
      rw [hi] at hs
      cases o with
      | some b => exact hs.elim
      | none =>
        obtain ⟨h1, he1, hd1, hk1, hlt⟩ := hs
        obtain ⟨i1, i2⟩ := ih st1 h1 he1 hd1
        refine ⟨i1, fun ht hp => ?_⟩
        exact i2 (by rw [hk1]; exact ht) (by omega)

/-- Method `solve` on a fresh solver without constraints in which a variable
has an empty domain. -/
theorem solve_empty_domain (P : Policies α ι) (hP : P.Constraints = [])
    (hsort : ∀ cmp l, List.Perm (P.StdSort cmp l) l) (s : ConstraintSolver α ι) (hf : Fresh s)
    (e : ι) (he : e ∈ s.keys) (hd : s.dom e = []) (all : Bool) :
    (∀ fuel b s1, internSolve P all fuel s ≠ Run.ret b s1) ∧
    ∀ fuel, s.keys.length < fuel → ∃ s1, internSolve P all fuel s = Run.raise s1 := by
  obtain ⟨hw, hn, _, ha, _, _⟩ := hf.facts
  have hstart := SInv.start hw hn ha
  have he0 : e ∈ (startSearch s).Parameters.Processing := he
  have hd0 : (startSearch s).Solver.dom e = [] := hd
  have hpl : pending (startSearch s) ≤ s.keys.length := by
    unfold pending
    exact (List.length_filter_le _ _)
  constructor
  · intro fuel b s1
    unfold internSolve
    cases fuel with
    | zero =>
      rw [internSolveLoop]
      intro hr
      cases hr
    | succ n =>
      rw [internSolveLoop]
      have := (SearchSolution_empty_domain P hP hsort (n + 1) e (n + 1) _ hstart he0 hd0).1
      cases hr : SearchSolution P (n + 1) (n + 1) (startSearch s) with
      | ret b2 st1 => exact absurd hr (this b2 st1)
      | raise st1 => intro h2; cases h2
      | stall st1 => intro h2; cases h2
  · intro fuel hlt
    unfold internSolve
    cases fuel with
    | zero => exact absurd hlt (Nat.not_lt_zero _)
    | succ n =>
      rw [internSolveLoop]
      obtain ⟨st1, hr⟩ := (SearchSolution_empty_domain P hP hsort (n + 1) e (n + 1) _
        hstart he0 hd0).2 hlt (by omega)
      rw [hr]
      exact ⟨st1.Solver, rfl⟩

end ConstraintSolver

end solver



namespace DependencyGraph

open solver

variable {T : Type} [LinearOrder T]

/-! ## The walk of `topologicalSort` on any dependencies, cycles included -/

/-- The loops over vertices: when every call of `f` for a vertex that has not
been visited returns and keeps the invariant, so does the loop, and every
vertex of the list has been visited afterwards. -/
theorem visitAll_reach (A : T → List T) (V : List T) (anc : List T) (n : Nat)
    (f : T → walk_t T → Option (walk_t T))
    (hf : ∀ d w, WReach A V anc w → d ∈ V → d ∉ w.visited →
      (unvisited V w).length ≤ n →
      ∃ w1, f d w = some w1 ∧ WReach A V anc w1 ∧ d ∈ w1.visited ∧
        (∀ x ∈ w.visited, x ∈ w1.visited) ∧ (∀ x ∈ w.stack, x ∈ w1.stack)) :
    ∀ (ds : List T) (w : walk_t T), WReach A V anc w → (∀ d ∈ ds, d ∈ V) →
      (unvisited V w).length ≤ n →
      ∃ w1, visitAll f ds w = some w1 ∧ WReach A V anc w1 ∧ (∀ d ∈ ds, d ∈ w1.visited) ∧
        (∀ x ∈ w.visited, x ∈ w1.visited) ∧ (∀ x ∈ w.stack, x ∈ w1.stack) := by
  intro ds
  induction ds with
  | nil =>
    intro w hw _ _
    exact ⟨w, rfl, hw, fun d hd => absurd hd (List.not_mem_nil d), fun x hx => hx,
      fun x hx => hx⟩
  | cons d rest ih =>
    intro w hw hds hn
    have hdV := hds d (List.mem_cons_self _ _)
    have hrest : ∀ d ∈ rest, d ∈ V := fun x hx => hds x (List.mem_cons_of_mem _ hx)
    unfold visitAll
    by_cases hvis : d ∈ w.visited
    · rw [if_pos hvis]
      obtain ⟨w1, e, h1, h2, h3, h4⟩ := ih w hw hrest hn
      refine ⟨w1, e, h1, ?_, h3, h4⟩
      intro x hx
      rcases List.mem_cons.1 hx with e1 | hm
      · rw [e1]
        exact h3 d hvis
      · exact h2 x hm
    · rw [if_neg hvis]
      obtain ⟨w1, e1, g1, g2, g3, g4⟩ := hf d w hw hdV hvis hn
      rw [e1]
      simp only
      obtain ⟨w2, e2, h1, h2, h3, h4⟩ := ih w1 g1 hrest
        (Nat.le_trans (unvisited_le V g3) hn)
      refine ⟨w2, e2, h1, ?_, fun x hx => h3 x (g3 x hx), fun x hx => h4 x (g4 x hx)⟩
      intro x hx
      rcases List.mem_cons.1 hx with e3 | hm
      · rw [e3]
        exact h3 d g2
      · exact h2 x hm

/-- Method `parseDependencies` on any dependencies: called for a vertex that
has not been visited, with a budget that covers the vertices not visited yet,
it returns, keeps the invariant and leaves the vertex on the stack. -/
theorem parseDependencies_reach (A : T → List T) (V : List T)
    (hV : ∀ x ∈ V, ∀ d ∈ A x, d ∈ V) :
    ∀ (fuel : Nat) (anc : List T) (v : T) (w : walk_t T), WReach A V anc w → v ∈ V →
      v ∉ w.visited → (unvisited V w).length ≤ fuel →
      ∃ w1, parseDependencies fuel v w = some w1 ∧ WReach A V anc w1 ∧ v ∈ w1.stack ∧
        (∀ x ∈ w.visited, x ∈ w1.visited) ∧ (∀ x ∈ w.stack, x ∈ w1.stack) := by
  intro fuel
  induction fuel with
  | zero =>
    intro anc v w _ hv hn hlen
    exfalso
    have hm : v ∈ unvisited V w := List.mem_filter.2 ⟨hv, by simpa using hn⟩
    have := List.length_pos_of_mem hm
    omega
  | succ fuel ih =>
    intro anc v w hw hv hn hlen
    obtain ⟨t1, t2, _⟩ := touch_spec v w.graph hw.sorted
    have hw0 : WReach A V (v :: anc)
        { graph := touch v w.graph, visited := setInsert v w.visited, stack := w.stack } := by
      refine { sorted := t1, adj := (fun x => (t2 x).trans (hw.adj x)), vis := ?_, inV := ?_,
               apart := ?_, nodup := hw.nodup }
      · intro x
        show x ∈ setInsert v w.visited ↔ x ∈ w.stack ∨ x ∈ v :: anc
        rw [mem_setInsert, hw.vis x, List.mem_cons]
        tauto
      · intro x hx
        have hx2 : x ∈ setInsert v w.visited := hx
        rw [mem_setInsert] at hx2
        rcases hx2 with e | hm
        · rw [e]; exact hv
        · exact hw.inV x hm
      · intro a ha
        show a ∉ w.stack
        rcases List.mem_cons.1 ha with e | hm
        · rw [e]
          exact fun hs => hn ((hw.vis v).2 (Or.inl hs))
        · exact hw.apart a hm
    have hedges : edges v (touch v w.graph) = A v := hw0.adj v
    have hlen0 : (unvisited V
        { graph := touch v w.graph, visited := setInsert v w.visited,
          stack := w.stack }).length ≤ fuel := by
      have := unvisited_lt V w v hv hn (touch v w.graph) w.stack
      omega
    obtain ⟨w1, e1, h1, _, h3, h4⟩ := visitAll_reach A V (v :: anc) fuel
      (parseDependencies fuel)
      (fun d w2 a b c e => by
        obtain ⟨w3, k1, k2, k3, k4, k5⟩ := ih (v :: anc) d w2 a b c e
        exact ⟨w3, k1, k2, (k2.vis d).2 (Or.inl k3), k4, k5⟩)
      (A v) _ hw0 (fun d hd => hV v hv d hd) hlen0
    rw [parseDependencies, hedges, e1]
    refine ⟨_, rfl, ?_, ?_, ?_, ?_⟩
    · refine { sorted := h1.sorted, adj := h1.adj, vis := ?_, inV := h1.inV, apart := ?_,
               nodup := ?_ }
      · intro x
        show x ∈ w1.visited ↔ x ∈ w1.stack ++ [v] ∨ x ∈ anc
        rw [h1.vis x, List.mem_append, List.mem_cons, List.mem_singleton]
        tauto
      · intro a ha
        show a ∉ w1.stack ++ [v]
        rw [List.mem_append, List.mem_singleton]
        rintro (h | h)
        · exact h1.apart a (List.mem_cons_of_mem _ ha) h
        · rw [h] at ha
          exact hn ((hw.vis v).2 (Or.inr ha))
      · show (w1.stack ++ [v]).Nodup
        rw [List.nodup_append]
        refine ⟨h1.nodup, List.nodup_singleton v, ?_⟩
        intro x hx hx2
        rw [List.mem_singleton.1 hx2] at hx
        exact h1.apart v (List.mem_cons_self _ _) hx
    · show v ∈ w1.stack ++ [v]
      exact List.mem_append_right _ (List.mem_singleton_self v)
    · intro x hx
      show x ∈ w1.visited
      apply h3
      show x ∈ setInsert v w.visited
      rw [mem_setInsert]
      exact Or.inr hx
    · intro x hx
      show x ∈ w1.stack ++ [v]
      exact List.mem_append_left _ (h4 x hx)

/-- Method `topologicalSort` on an object whose dependencies stay within its
vertices, with or without cycles: with a budget that covers the vertices it
returns a vector that holds each vertex once. -/
theorem topologicalSort_reach (g : DependencyGraph T)
    (hs : (g.graph.map Prod.fst).Pairwise (fun a b => a < b))
    (hV : ∀ x ∈ g.vertices, ∀ d ∈ edges x g.graph, d ∈ g.vertices)
    (fuel : Nat) (hfuel : g.vertices.length ≤ fuel) :
    ∃ sorted g1, topologicalSort fuel g = some (sorted, g1) ∧ sorted.Nodup ∧
      (∀ x, x ∈ sorted ↔ x ∈ g.vertices) ∧
      g1.vertices = g.vertices ∧ ∀ x, edges x g1.graph = edges x g.graph := by
  have hw0 : WReach (fun x => edges x g.graph) g.vertices []
      { graph := g.graph, visited := [], stack := [] } :=
    { sorted := hs, adj := (fun _ => rfl), vis := (fun x => by simp),
      inV := (fun x hx => absurd hx (List.not_mem_nil x)),
      apart := (fun a ha => absurd ha (List.not_mem_nil a)),
      nodup := List.nodup_nil }
  have hlen : (unvisited g.vertices
      { graph := g.graph, visited := [], stack := [] }).length ≤ fuel := by
    refine Nat.le_trans ?_ hfuel
    unfold unvisited
    exact List.length_filter_le _ _
  obtain ⟨w1, e1, h1, h2, _, _⟩ := visitAll_reach (fun x => edges x g.graph) g.vertices []
    fuel (parseDependencies fuel)
    (fun d w a b c e => by
      obtain ⟨w3, k1, k2, k3, k4, k5⟩ := parseDependencies_reach (fun x => edges x g.graph)
        g.vertices hV fuel [] d w a b c e
      exact ⟨w3, k1, k2, (k2.vis d).2 (Or.inl k3), k4, k5⟩)
    g.vertices _ hw0 (fun d hd => hd) hlen
  refine ⟨w1.stack, { g with graph := w1.graph }, ?_, h1.nodup, ?_, rfl, h1.adj⟩
  · unfold topologicalSort
    rw [e1]
  · intro x
    constructor
    · intro hx
      exact h1.inV x ((h1.vis x).2 (Or.inl hx))
    · intro hx
      rcases (h1.vis x).1 (h2 x hx) with h | h
      · exact h
      · exact absurd h (List.not_mem_nil x)

/-- The set `vertices` of a built object is in ascending order. -/
theorem build_vertices_sorted (deps : List (T × T)) :
    (build deps).vertices.Pairwise (fun a b => a < b) := by
  have key : ∀ (deps : List (T × T)) (g : DependencyGraph T),
      g.vertices.Pairwise (fun a b => a < b) →
      (deps.foldl (fun g d => addDependency d.1 d.2 g) g).vertices.Pairwise
        (fun a b => a < b) := by
    intro deps
    induction deps with
    | nil => intro g h; exact h
    | cons d deps ih =>
      intro g h
      rw [List.foldl_cons]
      apply ih
      show (setInsert d.2 (setInsert d.1 g.vertices)).Pairwise _
      exact setInsert_sorted _ _ (setInsert_sorted _ _ h)
  exact key deps new List.Pairwise.nil

end DependencyGraph



namespace tda

open solver.ConstraintSolver

/-! ## Loops with a body that may be undefined -/

theorem forEach_append {β σ : Type} (body : β → σ → Option σ) (l1 l2 : List β) (s : σ) :
    forEach body (l1 ++ l2) s =
      match forEach body l1 s with
      | some t => forEach body l2 t
      | none => none := by
  induction l1 generalizing s with
  | nil => rfl
  | cons x l1 ih =>
    simp only [List.cons_append, forEach]
    cases body x s with
    | none => rfl
    | some s1 => exact ih s1

theorem forEach_map {β γ σ : Type} (body : β → σ → Option σ) (h : γ → β) (l : List γ) (s : σ) :
    forEach body (l.map h) s = forEach (fun a t => body (h a) t) l s := by
  induction l generalizing s with
  | nil => rfl
  | cons x l ih =>
    simp only [List.map_cons, forEach]
    cases body (h x) s with
    | none => rfl
    | some s1 => exact ih s1

theorem forEach_flatMap {β γ σ : Type} (body : β → σ → Option σ) (g : γ → List β)
    (l : List γ) (s : σ) :
    forEach body (l.flatMap g) s = forEach (fun a t => forEach body (g a) t) l s := by
  induction l generalizing s with
  | nil => rfl
  | cons x l ih =>
    rw [List.flatMap_cons, forEach_append]
    simp only [forEach]
    cases forEach body (g x) s with
    | none => rfl
    | some s1 => exact ih s1

/-- The two nested loops of `getViolationsCount` as one loop over the cells in
row-major order. -/
theorem forEach_cells {σ : Type} (N : Nat) (body : Nat → Nat → σ → Option σ) (s : σ) :
    forEach (fun i t => forEach (fun j t1 => body i j t1) (List.range N) t) (List.range N) s =
      forEach (fun c t => body c.X c.Y t) (cells N) s := by
  unfold cells
  rw [forEach_flatMap]
  congr 1
  funext i t
  rw [forEach_map]

/-- Invariant rule for a loop: `Inv done s` holds of the elements handled so
far; when each turn is defined and carries it over, the loop is defined and
ends with the invariant of the whole list. -/
theorem forEach_inv {β σ : Type} (body : β → σ → Option σ) (l : List β)
    (Inv : List β → σ → Prop)
    (hstep : ∀ done x rest s, l = done ++ x :: rest → Inv done s →
      ∃ s1, body x s = some s1 ∧ Inv (done ++ [x]) s1) :
    ∀ (todo done : List β) (s : σ), l = done ++ todo → Inv done s →
      ∃ s1, forEach body todo s = some s1 ∧ Inv l s1 := by
  intro todo
  induction todo with
  | nil =>
    intro done s hl h
    rw [List.append_nil] at hl
    exact ⟨s, rfl, by rw [hl]; exact h⟩
  | cons x rest ih =>
    intro done s hl h
    obtain ⟨s1, e1, h1⟩ := hstep done x rest s hl h
    simp only [forEach, e1]
    exact ih (done ++ [x]) s1 (by rw [hl]; simp) h1

/-! ## Repeated occurrences -/

theorem repeats_le (l : List Nat) : repeats l ≤ l.length := Nat.sub_le _ _

theorem repeats_snoc (l : List Nat) (v : Nat) :
    repeats (l ++ [v]) = repeats l + if v ∈ l then 1 else 0 := by
  unfold repeats
  have hle : l.dedup.length ≤ l.length := (List.dedup_sublist l).length_le
  rw [← List.card_toFinset, ← List.card_toFinset, List.toFinset_append, List.length_append]
  have hle2 : l.toFinset.card ≤ l.length := by rw [List.card_toFinset]; exact hle
  by_cases hv : v ∈ l
  · rw [if_pos hv]
    have : l.toFinset ∪ [v].toFinset = l.toFinset := by
      apply Finset.union_eq_left.2
      intro x hx
      simp only [List.toFinset_cons, List.toFinset_nil, insert_emptyc_eq,
        Finset.mem_singleton] at hx
      rw [hx]
      exact List.mem_toFinset.2 hv
    rw [this]
    simp only [List.length_singleton]
    omega
  · rw [if_neg hv]
    have hd : Disjoint l.toFinset [v].toFinset := by
      rw [Finset.disjoint_left]
      intro x hx hx2
      simp only [List.toFinset_cons, List.toFinset_nil, insert_emptyc_eq,
        Finset.mem_singleton] at hx2
      rw [hx2] at hx
      exact hv (List.mem_toFinset.1 hx)
    rw [Finset.card_union_of_disjoint hd]
    simp only [List.toFinset_cons, List.toFinset_nil, insert_emptyc_eq,
      Finset.card_singleton, List.length_singleton]
    omega

theorem repeats_eq_zero (l : List Nat) : repeats l = 0 ↔ l.Nodup := by
  unfold repeats
  constructor
  · intro h
    have hle : l.length ≤ l.dedup.length := Nat.sub_eq_zero_iff_le.1 h
    have := (List.dedup_sublist l).eq_of_length_le hle
    exact List.dedup_eq_self.1 this
  · intro h
    rw [List.dedup_eq_self.2 h]
    exact Nat.sub_self _

theorem sum_range_bump (g : Nat → Nat) (i d : Nat) (N : Nat) :
    ((List.range N).map (fun a => if a = i then g a + d else g a)).sum =
      ((List.range N).map g).sum + if i < N then d else 0 := by
  induction N with
  | zero => simp
  | succ n ih =>
    rw [List.range_succ, List.map_append, List.sum_append, List.map_append, List.sum_append, ih]
    simp only [List.map_cons, List.map_nil, List.sum_cons, List.sum_nil, Nat.add_zero]
    by_cases h1 : n = i
    · subst h1
      simp
      omega
    · rw [if_neg h1]
      by_cases h2 : i < n
      · have : i < n + 1 := by omega
        simp [h2, this]
        omega
      · have : ¬ i < n + 1 := by omega
        simp [h2, this]

theorem sum_range_eq_zero (g : Nat → Nat) (N : Nat) :
    ((List.range N).map g).sum = 0 ↔ ∀ i < N, g i = 0 := by
  rw [List.sum_eq_zero_iff]
  constructor
  · intro h i hi
    exact h (g i) (List.mem_map.2 ⟨i, List.mem_range.2 hi, rfl⟩)
  · intro h x hx
    obtain ⟨i, hi, e⟩ := List.mem_map.1 hx
    rw [← e]
    exact h i (List.mem_range.1 hi)

/-! ## The part of a row or column that has been handled -/

theorem valuesAt_snoc (val : Nat → Nat → Nat) (key : Coord → Nat) (done : List Coord)
    (c : Coord) (a : Nat) :
    valuesAt val key (done ++ [c]) a =
      if key c = a then valuesAt val key done a ++ [val c.X c.Y] else valuesAt val key done a := by
  unfold valuesAt
  rw [List.filter_append, List.map_append]
  by_cases h : key c = a
  · simp [h]
  · simp [h]

theorem valuesAt_cells_X (val : Nat → Nat → Nat) (N : Nat) (a : Nat) (ha : a < N) :
    valuesAt val Coord.X (cells N) a = rowOf N val a := by
  unfold valuesAt cells rowOf
  have key : ∀ (l : List Nat), l.Nodup → a ∈ l →
      ((l.flatMap (fun i => (List.range N).map (fun j => Coord.mk i j))).filter
        (fun c => decide (c.X = a))).map (fun c => val c.X c.Y) =
      (List.range N).map (fun j => val a j) := by
    intro l
    induction l with
    | nil => intro _ h; exact absurd h (List.not_mem_nil a)
    | cons x l ih =>
      intro hn hm
      rw [List.flatMap_cons, List.filter_append, List.map_append]
      have hrest : ∀ (l2 : List Nat), a ∉ l2 →
          (l2.flatMap (fun i => (List.range N).map (fun j => Coord.mk i j))).filter
            (fun c => decide (c.X = a)) = [] := by
        intro l2 h2
        rw [List.filter_eq_nil_iff]
        intro c hc
        obtain ⟨i, hi, hc2⟩ := List.mem_flatMap.1 hc
        obtain ⟨j, _, e⟩ := List.mem_map.1 hc2
        rw [← e]
        simp only [decide_eq_true_eq]
        intro hia
        exact h2 (hia ▸ hi)
      by_cases hx : x = a
      · subst hx
        have hnot : x ∉ l := (List.nodup_cons.1 hn).1
        rw [hrest l hnot, List.map_nil, List.append_nil]
        rw [List.filter_eq_self.2 (by
          intro c hc
          obtain ⟨j, _, e⟩ := List.mem_map.1 hc
          rw [← e]
          simp)]
        rw [List.map_map]
        rfl
      · have hml : a ∈ l := by
          rcases List.mem_cons.1 hm with e | h
          · exact absurd e.symm hx
          · exact h
        rw [ih (List.nodup_cons.1 hn).2 hml]
        rw [List.filter_eq_nil_iff.2 (by
          intro c hc
          obtain ⟨j, _, e⟩ := List.mem_map.1 hc
          rw [← e]
          simpa using hx)]
        rfl
  exact key (List.range N) (List.nodup_range N) (List.mem_range.2 ha)

theorem valuesAt_cells_Y (val : Nat → Nat → Nat) (N : Nat) (b : Nat) (hb : b < N) :
    valuesAt val Coord.Y (cells N) b = columnOf N val b := by
  unfold valuesAt cells columnOf
  have key : ∀ (l : List Nat),
      ((l.flatMap (fun i => (List.range N).map (fun j => Coord.mk i j))).filter
        (fun c => decide (c.Y = b))).map (fun c => val c.X c.Y) =
      l.map (fun i => val i b) := by
    intro l
    induction l with
    | nil => rfl
    | cons x l ih =>
      rw [List.flatMap_cons, List.filter_append, List.map_append, ih, List.map_cons]
      have : (((List.range N).map (fun j => Coord.mk x j)).filter
          (fun c => decide (c.Y = b))).map (fun c => val c.X c.Y) = [val x b] := by
        rw [List.filter_map, List.map_map]
        have hf : (List.range N).filter ((fun c : Coord => decide (c.Y = b)) ∘
            (fun j => Coord.mk x j)) = [b] := by
          have h1 : (List.range N).filter ((fun c : Coord => decide (c.Y = b)) ∘
              (fun j => Coord.mk x j)) = (List.range N).filter (fun j => j == b) := by
            apply List.filter_congr
            intro j _
            show decide (j = b) = (j == b)
            rw [Bool.eq_iff_iff]
            simp
          rw [h1, List.filter_beq,
            List.count_eq_one_of_mem (List.nodup_range N) (List.mem_range.2 hb)]
          rfl
        rw [hf]
        rfl
      rw [this]
      rfl
  exact key (List.range N)

end tda



namespace tda

open solver.ConstraintSolver

/-! ## The count of `getViolationsCount` -/

theorem length_cells (N : Nat) : (cells N).length = N * N := by
  unfold cells
  rw [List.length_flatMap]
  simp only [Function.comp_def, List.length_map, List.length_range, List.map_const',
    List.sum_replicate, smul_eq_mul]

namespace Futoshiki

variable {N : Nat}

/-- The body of the inner loop on a cell whose selected value `v` is in
`1 .. N`. -/
theorem visitCell_eq (f : Futoshiki N) (i j v : Nat) (t : tally_t)
    (hs : (f.Grid i j).Selected = some v) (h1 : 1 ≤ v) (hN : v ≤ N) (hlt : N < sizeMod)
    (hb : t.violations + 2 < sizeMod) :
    f.visitCell i j t = some
      { violations := t.violations + (if t.lines i (v - 1) then 1 else 0) +
          (if t.columns j (v - 1) then 1 else 0),
        lines := if t.lines i (v - 1) then t.lines else mark t.lines i (v - 1),
        columns := if t.columns j (v - 1) then t.columns else mark t.columns j (v - 1) } := by
  have hval : (v + sizeMod - 1) % sizeMod = v - 1 := by
    have e : v + sizeMod - 1 = (v - 1) + sizeMod := by omega
    rw [e, Nat.add_mod_right, Nat.mod_eq_of_lt (by omega)]
  unfold visitCell
  rw [hs]
  simp only [hval]
  rw [if_pos (by omega)]
  have m1 : (t.violations + 1) % sizeMod = t.violations + 1 := Nat.mod_eq_of_lt (by omega)
  have m2 : (t.violations + 1 + 1) % sizeMod = t.violations + 1 + 1 :=
    Nat.mod_eq_of_lt (by omega)
  cases hl : t.lines i (v - 1) <;> cases hc : t.columns j (v - 1) <;> simp [hc, m1, m2]

/-- One turn of the loop over the cells keeps the invariant of the tally. -/
theorem visitCell_inv (f : Futoshiki N) (val : Nat → Nat → Nat)
    (hsel : ∀ i < N, ∀ j < N, (f.Grid i j).Selected = some (val i j) ∧ 1 ≤ val i j ∧ val i j ≤ N)
    (hsize : 2 * N * N < sizeMod) (done : List Coord) (c : Coord) (rest : List Coord)
    (hl : cells N = done ++ c :: rest) (t : tally_t) (h : TallyInv N val done t) :
    ∃ t1, f.visitCell c.X c.Y t = some t1 ∧ TallyInv N val (done ++ [c]) t1 := by
  have hc : c ∈ cells N := by rw [hl]; simp
  obtain ⟨hx, hy⟩ := (mem_cells N c).1 hc
  obtain ⟨hs, h1, hN⟩ := hsel c.X hx c.Y hy
  have hlen : done.length + 1 ≤ N * N := by
    have := congrArg List.length hl
    rw [length_cells, List.length_append, List.length_cons] at this
    omega
  have hNN : N ≤ N * N := Nat.le_mul_of_pos_right N (by omega)
  have hN2 : 2 * N * N = 2 * (N * N) := Nat.mul_assoc 2 N N
  have hbound := h.bound
  rw [visitCell_eq f c.X c.Y (val c.X c.Y) t hs h1 hN (by omega) (by omega)]
  refine ⟨_, rfl, ?_⟩
  have hv1 : val c.X c.Y - 1 + 1 = val c.X c.Y := by omega
  have hline : t.lines c.X (val c.X c.Y - 1) = true ↔
      val c.X c.Y ∈ valuesAt val Coord.X done c.X := by
    rw [h.lines, hv1]
  have hcol : t.columns c.Y (val c.X c.Y - 1) = true ↔
      val c.X c.Y ∈ valuesAt val Coord.Y done c.Y := by
    rw [h.columns, hv1]
  have hsumX : ((List.range N).map
      (fun a => repeats (valuesAt val Coord.X (done ++ [c]) a))).sum =
      ((List.range N).map (fun a => repeats (valuesAt val Coord.X done a))).sum +
        if t.lines c.X (val c.X c.Y - 1) then 1 else 0 := by
    have e : (fun a => repeats (valuesAt val Coord.X (done ++ [c]) a)) =
        fun a => if a = c.X then repeats (valuesAt val Coord.X done a) +
          (if t.lines c.X (val c.X c.Y - 1) then 1 else 0)
          else repeats (valuesAt val Coord.X done a) := by
      funext a
      rw [valuesAt_snoc]
      by_cases ha : a = c.X
      · subst ha
        rw [if_pos rfl, if_pos rfl, repeats_snoc]
        congr 1
        by_cases hm : val c.X c.Y ∈ valuesAt val Coord.X done c.X
        · rw [if_pos hm, if_pos (hline.2 hm)]
        · rw [if_neg hm, if_neg (fun hh => hm (hline.1 hh))]
      · rw [if_neg (fun hh => ha hh.symm), if_neg ha]
    rw [e, sum_range_bump, if_pos hx]
  have hsumY : ((List.range N).map
      (fun a => repeats (valuesAt val Coord.Y (done ++ [c]) a))).sum =
      ((List.range N).map (fun a => repeats (valuesAt val Coord.Y done a))).sum +
        if t.columns c.Y (val c.X c.Y - 1) then 1 else 0 := by
    have e : (fun a => repeats (valuesAt val Coord.Y (done ++ [c]) a)) =
        fun a => if a = c.Y then repeats (valuesAt val Coord.Y done a) +
          (if t.columns c.Y (val c.X c.Y - 1) then 1 else 0)
          else repeats (valuesAt val Coord.Y done a) := by
      funext a
      rw [valuesAt_snoc]
      by_cases ha : a = c.Y
      · subst ha
        rw [if_pos rfl, if_pos rfl, repeats_snoc]
        congr 1
        by_cases hm : val c.X c.Y ∈ valuesAt val Coord.Y done c.Y
        · rw [if_pos hm, if_pos (hcol.2 hm)]
        · rw [if_neg hm, if_neg (fun hh => hm (hcol.1 hh))]
      · rw [if_neg (fun hh => ha hh.symm), if_neg ha]
    rw [e, sum_range_bump, if_pos hy]
  refine { lines := ?_, columns := ?_, count := ?_, bound := ?_ }
  · intro a b
    show (if t.lines c.X (val c.X c.Y - 1) then t.lines
      else mark t.lines c.X (val c.X c.Y - 1)) a b = true ↔ _
    rw [valuesAt_snoc]
    by_cases hhit : t.lines c.X (val c.X c.Y - 1) = true
    · rw [if_pos hhit, h.lines]
      by_cases ha : c.X = a
      · rw [if_pos ha, List.mem_append, List.mem_singleton]
        constructor
        · exact Or.inl
        · rintro (hm | hm)
          · exact hm
          · rw [hm, ← ha]
            exact hline.1 hhit
      · rw [if_neg ha]
    · rw [if_neg hhit]
      unfold mark
      by_cases ha : c.X = a
      · rw [if_pos ha, List.mem_append, List.mem_singleton]
        by_cases hb : b = val c.X c.Y - 1
        · rw [if_pos ⟨ha.symm, hb⟩]
          simp only [true_iff]
          right
          omega
        · rw [if_neg (fun hh => hb hh.2), h.lines]
          constructor
          · exact Or.inl
          · rintro (hm | hm)
            · exact hm
            · exact absurd (by omega) hb
      · rw [if_neg ha, if_neg (fun hh => ha hh.1.symm), h.lines]
  · intro a b
    show (if t.columns c.Y (val c.X c.Y - 1) then t.columns
      else mark t.columns c.Y (val c.X c.Y - 1)) a b = true ↔ _
    rw [valuesAt_snoc]
    by_cases hhit : t.columns c.Y (val c.X c.Y - 1) = true
    · rw [if_pos hhit, h.columns]
      by_cases ha : c.Y = a
      · rw [if_pos ha, List.mem_append, List.mem_singleton]
        constructor
        · exact Or.inl
        · rintro (hm | hm)
          · exact hm
          · rw [hm, ← ha]
            exact hcol.1 hhit
      · rw [if_neg ha]
    · rw [if_neg hhit]
      unfold mark
      by_cases ha : c.Y = a
      · rw [if_pos ha, List.mem_append, List.mem_singleton]
        by_cases hb : b = val c.X c.Y - 1
        · rw [if_pos ⟨ha.symm, hb⟩]
          simp only [true_iff]
          right
          omega
        · rw [if_neg (fun hh => hb hh.2), h.columns]
          constructor
          · exact Or.inl
          · rintro (hm | hm)
            · exact hm
            · exact absurd (by omega) hb
      · rw [if_neg ha, if_neg (fun hh => ha hh.1.symm), h.columns]
  · show t.violations + _ + _ = _
    rw [hsumX, hsumY, h.count]
    omega
  · show t.violations + (if t.lines c.X (val c.X c.Y - 1) then 1 else 0) +
      (if t.columns c.Y (val c.X c.Y - 1) then 1 else 0) ≤ 2 * (done ++ [c]).length
    rw [List.length_append, List.length_singleton]
    have a1 : (if t.lines c.X (val c.X c.Y - 1) then 1 else 0) ≤ 1 := by split <;> omega
    have a2 : (if t.columns c.Y (val c.X c.Y - 1) then 1 else 0) ≤ 1 := by split <;> omega
    omega

/-- The two nested loops of `getViolationsCount` on a grid whose selected
values are in `1 .. N`: they end with the repeated occurrences in the rows and
in the columns. -/
theorem cell_loops (f : Futoshiki N) (val : Nat → Nat → Nat)
    (hsel : ∀ i < N, ∀ j < N, (f.Grid i j).Selected = some (val i j) ∧ 1 ≤ val i j ∧ val i j ≤ N)
    (hsize : 2 * N * N < sizeMod) :
    ∃ t, forEach
        (fun i t => forEach (fun j t1 => f.visitCell i j t1) (List.range N) t)
        (List.range N)
        { violations := 0, lines := fun _ _ => false, columns := fun _ _ => false } = some t ∧
      t.violations = rowRepeats N val + colRepeats N val ∧ t.violations ≤ 2 * (N * N) := by
  rw [forEach_cells N (fun i j t => f.visitCell i j t)]
  have h0 : TallyInv N val []
      { violations := 0, lines := fun _ _ => false, columns := fun _ _ => false } := by
    refine { lines := ?_, columns := ?_, count := ?_, bound := Nat.le_refl _ }
    · intro a b
      simp [valuesAt]
    · intro a b
      simp [valuesAt]
    · show 0 = _
      simp [valuesAt, repeats]
  obtain ⟨t, e, ht⟩ := forEach_inv (fun c t => f.visitCell c.X c.Y t) (cells N)
    (TallyInv N val) (fun done x rest s hl h => visitCell_inv f val hsel hsize done x rest hl s h)
    (cells N) [] _ rfl h0
  refine ⟨t, e, ?_, ?_⟩
  · rw [ht.count]
    unfold rowRepeats colRepeats
    congr 1
    · apply congrArg
      apply List.map_congr_left
      intro a ha
      rw [valuesAt_cells_X val N a (List.mem_range.1 ha)]
    · apply congrArg
      apply List.map_congr_left
      intro a ha
      rw [valuesAt_cells_Y val N a (List.mem_range.1 ha)]
  · have := ht.bound
    rw [length_cells] at this
    exact this

/-- The loop over `Constraints`, started with `base` violations. -/
theorem constraint_loop (f : Futoshiki N) (val : Nat → Nat → Nat)
    (hsel : ∀ i < N, ∀ j < N, (f.Grid i j).Selected = some (val i j) ∧ 1 ≤ val i j ∧ val i j ≤ N)
    (hin : ∀ c ∈ f.Constraints, c.Inf.X < N ∧ c.Inf.Y < N ∧ c.Sup.X < N ∧ c.Sup.Y < N)
    (base : Nat) (hsize : base + f.Constraints.length < sizeMod) :
    forEach (fun c v => f.checkConstraint c v) f.Constraints base =
      some (base + violatedCount val f.Constraints) := by
  obtain ⟨v, e, hv, _⟩ := forEach_inv (fun c v => f.checkConstraint c v) f.Constraints
    (fun done v => v = base + violatedCount val done ∧ v ≤ base + done.length)
    (fun done c rest v hl h => by
      have hc : c ∈ f.Constraints := by rw [hl]; simp
      obtain ⟨i1, i2, i3, i4⟩ := hin c hc
      have hlen : done.length + 1 ≤ f.Constraints.length := by
        have := congrArg List.length hl
        rw [List.length_append, List.length_cons] at this
        omega
      have e1 : f.cellAt c.Inf = some (f.Grid c.Inf.X c.Inf.Y) := by
        unfold cellAt
        rw [if_pos ⟨i1, i2⟩]
      have e2 : f.cellAt c.Sup = some (f.Grid c.Sup.X c.Sup.Y) := by
        unfold cellAt
        rw [if_pos ⟨i3, i4⟩]
      have e3 : optionGe (f.Grid c.Inf.X c.Inf.Y).Selected (f.Grid c.Sup.X c.Sup.Y).Selected =
          violated val c := by
        rw [(hsel _ i1 _ i2).1, (hsel _ i3 _ i4).1]
        unfold optionGe violated
        rw [Bool.eq_iff_iff]
        simp
      have h : v = base + violatedCount val done ∧ v ≤ base + done.length := h
      show ∃ s1, f.checkConstraint c v = some s1 ∧
        (s1 = base + violatedCount val (done ++ [c]) ∧ s1 ≤ base + (done ++ [c]).length)
      unfold checkConstraint
      rw [e1, e2]
      simp only [e3]
      refine ⟨_, rfl, ?_⟩
      unfold violatedCount
      rw [List.filter_append, List.length_append, List.length_append, List.length_singleton]
      cases hvc : violated val c
      · simp only [Bool.false_eq_true, if_false, List.filter_cons, List.filter_nil, hvc,
          List.length_nil]
        exact ⟨by have := h.1; unfold violatedCount at this; omega, by omega⟩
      · simp only [if_true, List.filter_cons, List.filter_nil, hvc, List.length_singleton]
        have h1 := h.1
        unfold violatedCount at h1
        have hm : (v + 1) % sizeMod = v + 1 := Nat.mod_eq_of_lt (by omega)
        rw [hm]
        exact ⟨by omega, by omega⟩)
    f.Constraints [] base rfl ⟨by simp [violatedCount], by simp⟩
  rw [e, hv]

/-- Method `getViolationsCount` on a grid whose selected values are in
`1 .. N` and whose inequalities lie within the grid. -/
theorem getViolationsCount_eq (f : Futoshiki N) (val : Nat → Nat → Nat)
    (hsel : ∀ i < N, ∀ j < N, (f.Grid i j).Selected = some (val i j) ∧ 1 ≤ val i j ∧ val i j ≤ N)
    (hin : ∀ c ∈ f.Constraints, c.Inf.X < N ∧ c.Inf.Y < N ∧ c.Sup.X < N ∧ c.Sup.Y < N)
    (hsize : 2 * N * N + f.Constraints.length < sizeMod) :
    f.getViolationsCount =
      some (rowRepeats N val + colRepeats N val + violatedCount val f.Constraints) := by
  obtain ⟨t, e, h1, h2⟩ := cell_loops f val hsel (by omega)
  unfold getViolationsCount
  rw [e]
  simp only
  have hN2 : 2 * N * N = 2 * (N * N) := Nat.mul_assoc 2 N N
  rw [constraint_loop f val hsel hin t.violations (by omega), h1]

end Futoshiki

end tda



namespace solver

namespace ConstraintSolver

variable {α ι : Type} [LinearOrder α] [LinearOrder ι]

/-! ## Not-equal propagators on a solver whose variables are all instantiated -/

/-- The not-equal propagators called for the index `k` of value `v` on a
solver in which no domain has more than one value: the solver is unchanged,
and the calls succeed exactly when every target is a variable of another
value. -/
theorem applyConstraints_fixed (Ts : List (ι → List ι)) (t : ConstraintSolver α ι) (k : ι)
    (v : α) (hv : (t.get k).value = some v) (hi : (t.get k).indice = k)
    (hd : ∀ j, (t.dom j).length ≤ 1) :
    ∃ b, applyConstraints k (Ts.map differs) t = Run.ret b t ∧
      (b = true ↔ ∀ T ∈ Ts, ∀ j ∈ T k, j ∈ t.keys ∧ v ∉ t.dom j) := by
  induction Ts with
  | nil => exact ⟨true, rfl, by simp⟩
  | cons T Ts ih =>
    obtain ⟨f1, f2⟩ := excludeAll_fixed v (T k) t (fun j _ => hd j)
    obtain ⟨b, e, hb⟩ := ih
    rw [List.map_cons, applyConstraints]
    simp only [hv, hi]
    have hd2 : differs T t k v = excludeAll v (T k) t := rfl
    rw [hd2]
    by_cases h1 : (excludeAll v (T k) t).1 = true
    · rw [if_pos h1, f1]
      refine ⟨b, e, ?_⟩
      rw [hb]
      constructor
      · intro hall T2 hT2
        rcases List.mem_cons.1 hT2 with e2 | hm
        · rw [e2]
          exact f2.1 h1
        · exact hall T2 hm
      · intro hall T2 hT2
        exact hall T2 (List.mem_cons_of_mem _ hT2)
    · rw [if_neg h1, f1]
      refine ⟨false, rfl, ?_⟩
      constructor
      · intro hf
        exact Bool.noConfusion hf
      · intro hall
        exact absurd (f2.2 (hall T (List.mem_cons_self _ _))) h1

/-- The loop over the instantiated variables under not-equal propagators, on
a solver in which no domain has more than one value. -/
theorem applyInstantiated_fixed (Ts : List (ι → List ι)) (t : ConstraintSolver α ι)
    (hd : ∀ j, (t.dom j).length ≤ 1) (refs : List ι)
    (h : ∀ k ∈ refs, (∃ v, (t.get k).value = some v) ∧ (t.get k).indice = k) :
    ∃ b, applyInstantiated (Ts.map differs) refs t = Run.ret b t ∧
      (b = true ↔ ∀ k ∈ refs, ∀ v, (t.get k).value = some v →
        ∀ T ∈ Ts, ∀ j ∈ T k, j ∈ t.keys ∧ v ∉ t.dom j) := by
  induction refs with
  | nil => exact ⟨true, rfl, by simp⟩
  | cons k refs ih =>
    obtain ⟨⟨v, hv⟩, hi⟩ := h k (List.mem_cons_self _ _)
    obtain ⟨b1, e1, hb1⟩ := applyConstraints_fixed Ts t k v hv hi hd
    obtain ⟨b2, e2, hb2⟩ := ih (fun x hx => h x (List.mem_cons_of_mem _ hx))
    rw [applyInstantiated, e1]
    cases b1 with
    | true =>
      simp only
      refine ⟨b2, e2, ?_⟩
      rw [hb2]
      constructor
      · intro hall x hx w hw
        rcases List.mem_cons.1 hx with e | hm
        · rw [e] at hw ⊢
          rw [hv] at hw
          rw [← Option.some.inj hw]
          exact hb1.1 rfl
        · exact hall x hm w hw
      · intro hall x hx
        exact hall x (List.mem_cons_of_mem _ hx)
    | false =>
      simp only
      refine ⟨false, rfl, ?_⟩
      constructor
      · intro hf
        exact Bool.noConfusion hf
      · intro hall
        exact Bool.noConfusion (hb1.2 (hall k (List.mem_cons_self _ _) v hv))

/-- A call of `solve` on a solver whose variables are all instantiated and on
which the loop over the instantiated variables succeeds without changing the
solver: one round of `partitionAndConstrain`, no choice, and the variables
appended to the registry as they are. -/
theorem solve_again_accepts (P : Policies α ι) (s : ConstraintSolver α ι)
    (hk : s.keys ≠ []) (ha : s.AdditionalIndices = []) (hp : s.IsSolveInProgress = false)
    (hi : ∀ k ∈ s.keys, (s.dom k).length = 1)
    (happ : applyInstantiated P.Constraints s.keys { s with IsSolveInProgress := true } =
      Run.ret true { s with IsSolveInProgress := true })
    (fuel : Nat) :
    solve P (fuel + 1) s =
      Run.ret true { s with SolutionList := s.SolutionList ++ [s.keys.map (fun i => s.get i)] } := by
  obtain ⟨ip, vars, add, rej, sols⟩ := s
  simp only at ha hp
  subst ha hp
  generalize hs : (ConstraintSolver.mk false vars [] rej sols : ConstraintSolver α ι) = s at *
  have hinst : ∀ k ∈ s.keys, (s.get k).isInstantiated = true := by
    intro k hk2
    have := hi k hk2
    simpa [Variable.isInstantiated, dom] using this
  have hf1 : s.keys.filter (fun r => (s.get r).isInstantiated) = s.keys :=
    List.filter_eq_self.2 hinst
  have hf2 : s.keys.filter (fun r => !(s.get r).isInstantiated) = [] := by
    rw [List.filter_eq_nil_iff]
    intro k hk2
    simp [hinst k hk2]
  have hne : s.keys.isEmpty = false := by
    cases h : s.keys with
    | nil => exact absurd h hk
    | cons a l => rfl
  have hpart : partitionAndConstrain P (fuel + 1) (startSearch s) =
      Run.ret (true, false)
        { Solver := { s with IsSolveInProgress := true },
          Parameters := { Processing := [], Register := s.keys, Backup := [] } } := by
    unfold partitionAndConstrain
    rw [partitionLoop]
    simp only [Bool.and_self, Bool.or_false, if_true]
    have e1 : (startSearch s).Solver = { s with IsSolveInProgress := true } := rfl
    have e2 : (startSearch s).Parameters =
        { Processing := s.keys, Register := s.keys, Backup := [] } := rfl
    have ha : s.AdditionalIndices = [] := by rw [← hs]
    have g : ∀ r, ({ s with IsSolveInProgress := true } : ConstraintSolver α ι).get r = s.get r :=
      fun _ => rfl
    have g3 : ({ s with IsSolveInProgress := true } : ConstraintSolver α ι).AdditionalIndices =
      [] := ha
    simp only [e1, e2, g3, List.filter_nil, List.append_nil, g, hf1, hf2, happ]
    cases fuel <;> rw [partitionLoop] <;> simp [ha]
  have hsearch : SearchSolution P (fuel + 1) (fuel + 1) (startSearch s) =
      Run.ret true
        { Solver := { s with IsSolveInProgress := true },
          Parameters := { Processing := [], Register := s.keys, Backup := [] } } := by
    rw [SearchSolution, searchBody]
    have e2 : (startSearch s).Parameters.Processing = s.keys := rfl
    simp only [e2, hne, hpart]
    simp
  unfold solve internSolve
  rw [internSolveLoop, hsearch]
  simp only [if_true, Bool.false_and, Bool.and_true, Bool.false_eq_true, if_false]
  have hrec : (recordSolution
      ({ Solver := { s with IsSolveInProgress := true },
         Parameters := { Processing := [], Register := s.keys, Backup := [] } } :
        search_t α ι)).Solver =
      { s with IsSolveInProgress := true,
               SolutionList := s.SolutionList ++ [s.keys.map (fun i => s.get i)] } := by
    unfold recordSolution
    simp only
    have := filterMap_find_keys s s.keys (fun k h => h)
    rw [this]
  simp only [hrec]
  subst hs
  simp

/-- A call of `solve` on a solver whose variables are all instantiated, whose
registry is not empty, and on which the loop over the instantiated variables
reports a contradiction without changing the solver: the search ends without a
solution, nothing is recorded, and `solve` still returns `true`, the registry
not being empty (line 287). -/
theorem solve_again_rejects (P : Policies α ι) (s : ConstraintSolver α ι)
    (hk : s.keys ≠ []) (ha : s.AdditionalIndices = []) (hp : s.IsSolveInProgress = false)
    (hi : ∀ k ∈ s.keys, (s.dom k).length = 1) (hl : s.SolutionList ≠ [])
    (happ : applyInstantiated P.Constraints s.keys { s with IsSolveInProgress := true } =
      Run.ret false { s with IsSolveInProgress := true })
    (fuel : Nat) :
    solve P (fuel + 1) s = Run.ret true s := by
  obtain ⟨ip, vars, add, rej, sols⟩ := s
  simp only at ha hp
  subst ha hp
  generalize hs : (ConstraintSolver.mk false vars [] rej sols : ConstraintSolver α ι) = s at *
  have hinst : ∀ k ∈ s.keys, (s.get k).isInstantiated = true := by
    intro k hk2
    have := hi k hk2
    simpa [Variable.isInstantiated, dom] using this
  have hf1 : s.keys.filter (fun r => (s.get r).isInstantiated) = s.keys :=
    List.filter_eq_self.2 hinst
  have hf2 : s.keys.filter (fun r => !(s.get r).isInstantiated) = [] := by
    rw [List.filter_eq_nil_iff]
    intro k hk2
    simp [hinst k hk2]
  have hne : s.keys.isEmpty = false := by
    cases h : s.keys with
    | nil => exact absurd h hk
    | cons a l => rfl
  have hpart : partitionAndConstrain P (fuel + 1) (startSearch s) =
      Run.ret (false, false)
        { Solver := { s with IsSolveInProgress := true },
          Parameters := { Processing := [], Register := s.keys, Backup := [] } } := by
    unfold partitionAndConstrain
    rw [partitionLoop]
    simp only [Bool.and_self, Bool.or_false, if_true]
    have e1 : (startSearch s).Solver = { s with IsSolveInProgress := true } := rfl
    have e2 : (startSearch s).Parameters =
        { Processing := s.keys, Register := s.keys, Backup := [] } := rfl
    have ha : s.AdditionalIndices = [] := by rw [← hs]
    have g : ∀ r, ({ s with IsSolveInProgress := true } : ConstraintSolver α ι).get r = s.get r :=
      fun _ => rfl
    have g3 : ({ s with IsSolveInProgress := true } : ConstraintSolver α ι).AdditionalIndices =
      [] := ha
    simp only [e1, e2, g3, List.filter_nil, List.append_nil, g, hf1, hf2, happ]
    cases fuel <;> rw [partitionLoop] <;> simp
  have hsearch : SearchSolution P (fuel + 1) (fuel + 1) (startSearch s) =
      Run.ret false
        { Solver := { s with IsSolveInProgress := true },
          Parameters := { Processing := [], Register := s.keys, Backup := [] } } := by
    rw [SearchSolution, searchBody]
    have e2 : (startSearch s).Parameters.Processing = s.keys := rfl
    simp only [e2, hne, hpart]
    simp
  unfold solve internSolve
  rw [internSolveLoop, hsearch]
  simp only [Bool.false_and, Bool.and_false, Bool.false_eq_true, if_false]
  subst hs
  cases sols with
  | nil => exact absurd rfl hl
  | cons x xs => rfl

end ConstraintSolver

end solver


namespace solver

namespace ConstraintSolver

variable {α ι : Type} [LinearOrder α] [LinearOrder ι]

/-! ## Engine-level `exclude` -/

/-- C1. Engine-level `exclude`, multi-valued branch: when the index is in the
active set and its domain has more than one value, the call returns `true` and
the domain afterwards is the previous domain with the value removed (the same
list when the value was not a member). -/
theorem exclude_multi_valued (s : ConstraintSolver α ι) (i : ι) (v : α)
    (hex : s.exists i = true) (hsize : 1 < (s.get i).domainSize) :
    (exclude v i s).1 = true ∧
    ((exclude v i s).2.get i).Domain = (s.get i).Domain.filter (fun w => decide (w ≠ v)) ∧
    (∀ w, w ∈ ((exclude v i s).2.get i).Domain ↔ w ∈ (s.get i).Domain ∧ w ≠ v) ∧
    (v ∉ (s.get i).Domain → ((exclude v i s).2.get i).Domain = (s.get i).Domain) := by
  have hd : ((exclude v i s).2.get i).Domain =
      (s.get i).Domain.filter (fun w => decide (w ≠ v)) := by
    rw [get_exclude]
    rw [if_pos ⟨rfl, hex, hsize⟩]
    rfl
  refine ⟨?_, hd, ?_, ?_⟩
  · have h := exclude_fst_snd v i s
    cases hf : mapFind i s.Variables with
    | none => simp [«exists», hf] at hex
    | some var =>
      rw [hf] at h
      have hg : s.get i = var := get_of_find hf
      rw [hg] at hsize
      have : ¬ var.Domain.length ≤ 1 := by
        simp only [Variable.domainSize] at hsize; omega
      simp only [this, if_false] at h
      exact h.1
  · intro w
    rw [hd]
    simp
  · intro hv
    rw [hd]
    apply List.filter_eq_self.2
    intro w hw
    have : w ≠ v := fun e => hv (e ▸ hw)
    simpa using this

/-- A solver over natural numbers with the single variable `0 ↦ {1, 2, 3}`. -/
theorem exclude_multi_valued_witness :
    (exclude 2 0 (addVariable [1, 2, 3] (0 : Nat) (new : ConstraintSolver Nat Nat)).2).1 = true ∧
    (((exclude 2 0 (addVariable [1, 2, 3] (0 : Nat) (new : ConstraintSolver Nat Nat)).2).2.get
      0).Domain = [1, 3]) := by
  have h := exclude_multi_valued (addVariable [1, 2, 3] (0 : Nat) (new : ConstraintSolver Nat Nat)).2
    0 2 (by decide) (by decide)
  exact ⟨h.1, by rw [h.2.1]; decide⟩

/-- C2. Engine-level `exclude`, single-valued or empty branch: when the index
is in the active set and its domain has at most one value, the solver is left
unchanged and the call returns `true` exactly when the value is not in the
domain; for a variable instantiated to `5`, `exclude(5, i)` returns `false`
and `exclude(6, i)` returns `true` with the domain still `{5}`. -/
theorem exclude_single_valued :
    (∀ (s : ConstraintSolver α ι) (i : ι) (v : α), s.exists i = true →
      (s.get i).domainSize ≤ 1 →
      (exclude v i s).2 = s ∧ ((exclude v i s).1 = true ↔ v ∉ (s.get i).Domain)) ∧
    (∀ (s : ConstraintSolver Nat ι) (i : ι), s.exists i = true → (s.get i).Domain = [5] →
      (exclude 5 i s).1 = false ∧ (exclude 6 i s).1 = true ∧
      (exclude 5 i s).2 = s ∧ (exclude 6 i s).2 = s ∧
      ((exclude 6 i s).2.get i).Domain = [5]) := by
  have gen : ∀ {γ : Type} [LinearOrder γ] (s : ConstraintSolver γ ι) (i : ι) (v : γ),
      s.exists i = true → (s.get i).domainSize ≤ 1 →
      (exclude v i s).2 = s ∧ ((exclude v i s).1 = true ↔ v ∉ (s.get i).Domain) := by
    intro γ _ s i v hex hsize
    have h := exclude_fst_snd v i s
    cases hf : mapFind i s.Variables with
    | none => simp [«exists», hf] at hex
    | some var =>
      rw [hf] at h
      have hg : s.get i = var := get_of_find hf
      rw [hg] at hsize ⊢
      have : var.Domain.length ≤ 1 := hsize
      simp only [this, if_true] at h
      refine ⟨h.2, ?_⟩
      rw [h.1]
      simp [Variable.canBe]
  refine ⟨fun s i v => gen s i v, ?_⟩
  intro s i hex hd
  have hsz : (s.get i).domainSize ≤ 1 := by simp [Variable.domainSize, hd]
  have h5 := gen s i 5 hex hsz
  have h6 := gen s i 6 hex hsz
  rw [hd] at h5 h6
  refine ⟨?_, ?_, h5.1, h6.1, ?_⟩
  · have : ¬ ((exclude 5 i s).1 = true) := by rw [h5.2]; simp
    simpa using this
  · rw [h6.2]; simp
  · rw [h6.1, hd]

/-- A solver over natural numbers whose variable `0` is instantiated to `5`. -/
theorem exclude_single_valued_witness :
    (exclude 5 0 (addVariable [5] (0 : Nat) (new : ConstraintSolver Nat Nat)).2).1 = false ∧
    (exclude 6 0 (addVariable [5] (0 : Nat) (new : ConstraintSolver Nat Nat)).2).1 = true ∧
    ((exclude 6 0 (addVariable [5] (0 : Nat) (new : ConstraintSolver Nat Nat)).2).2.get
      0).Domain = [5] := by
  have h := (@exclude_single_valued Nat Nat _ _).2
    (addVariable [5] (0 : Nat) (new : ConstraintSolver Nat Nat)).2 0 (by decide) (by decide)
  exact ⟨h.1, h.2.1, h.2.2.2.2⟩

/-- C10. Domain monotonicity: after any finite sequence of engine-level
`exclude` calls the domain of every variable is a sublist (hence a subset) of
its domain before, and its size has not increased. -/
theorem exclude_sequence_monotone (calls : List (α × ι)) (s : ConstraintSolver α ι) (j : ι) :
    List.Sublist ((excludeSeq calls s).get j).Domain (s.get j).Domain ∧
    (∀ w, w ∈ ((excludeSeq calls s).get j).Domain → w ∈ (s.get j).Domain) ∧
    ((excludeSeq calls s).get j).domainSize ≤ (s.get j).domainSize := by
  have key : List.Sublist ((excludeSeq calls s).get j).Domain (s.get j).Domain := by
    induction calls generalizing s with
    | nil => exact List.Sublist.refl _
    | cons c calls ih =>
      have h1 := ih (exclude c.1 c.2 s).2
      have h2 : List.Sublist ((exclude c.1 c.2 s).2.get j).Domain (s.get j).Domain := by
        rw [get_exclude]
        split
        · rename_i h
          rw [h.1]
          exact List.filter_sublist _
        · exact List.Sublist.refl _
      exact h1.trans h2
  exact ⟨key, fun w hw => key.subset hw, key.length_le⟩

/-! ## Backtracking -/

/-- C9. Round trip of backtracking: when the record on top of the stack holds
one copy per index, each still in the active set and none introduced after the
choice, then after `backtracking` every variable of `RemainingVariables` is in
the active set as it was saved, except the chosen index, whose domain is the
saved domain without the chosen value; the canonical order is the saved one,
the processing set is the list of restored variables and the record is
popped. -/
theorem backtracking_round_trip (st : search_t α ι) (save : record_t α ι)
    (backup : List (record_t α ι)) (hB : st.Parameters.Backup = save :: backup)
    (hn : (save.RemainingVariables.map Variable.indice).Nodup)
    (hp : ∀ var ∈ save.RemainingVariables, st.Solver.exists var.indice = true)
    (hl : ∀ var ∈ save.RemainingVariables,
      var.indice ∉ st.Parameters.Register.drop save.Register.length ∧
      var.indice ∉ st.Solver.AdditionalIndices) :
    (∀ var ∈ save.RemainingVariables, var.indice ≠ save.ChoiceIndice →
      (backtracking st).Solver.exists var.indice = true ∧
      (backtracking st).Solver.get var.indice = var) ∧
    (∀ var ∈ save.RemainingVariables, var.indice = save.ChoiceIndice →
      (backtracking st).Solver.exists var.indice = true ∧
      ((backtracking st).Solver.get var.indice).Indice = var.Indice ∧
      ((backtracking st).Solver.get var.indice).Domain =
        var.Domain.filter (fun w => decide (w ≠ save.ChoiceValue)) ∧
      ∀ w, w ∈ ((backtracking st).Solver.get var.indice).Domain ↔
        w ∈ var.Domain ∧ w ≠ save.ChoiceValue) ∧
    (backtracking st).Parameters.Register = save.Register ∧
    (backtracking st).Parameters.Processing = save.RemainingVariables.map Variable.indice ∧
    (backtracking st).Parameters.Backup = backup := by
  obtain ⟨vars2, hv2, hP, hV⟩ := backtracking_variables st save backup hB hp hl
  have hpres : ∀ var ∈ save.RemainingVariables,
      (mapFind var.indice vars2).isSome = true := by
    intro var hv
    rw [hv2 _ (hl var hv).1 (hl var hv).2]
    exact hp var hv
  have hfind : ∀ var ∈ save.RemainingVariables,
      mapFind var.indice
        (save.RemainingVariables.foldl (fun m x => mapAssign x.indice x m) vars2) = some var :=
    fun var hv => mapFind_foldl_assign_mem _ _ hn var hv (hpres var hv)
  refine ⟨?_, ?_, ?_, ?_, ?_⟩
  · intro var hv hne
    have : mapFind var.indice (backtracking st).Solver.Variables = some var := by
      rw [hV]
      split
      · rw [mapFind_mapAssign_ne hne]; exact hfind var hv
      · exact hfind var hv
    exact ⟨by simp [«exists», this], get_of_find this⟩
  · intro var hv he
    have : mapFind var.indice (backtracking st).Solver.Variables =
        some (var.exclude save.ChoiceValue) := by
      rw [hV, ← he, hfind var hv]
      simp only
      rw [mapFind_mapAssign_self, hfind var hv]
      rfl
    refine ⟨by simp [«exists», this], ?_, ?_, ?_⟩
    · rw [get_of_find this]; rfl
    · rw [get_of_find this]; rfl
    · intro w
      rw [get_of_find this]
      simp [Variable.exclude]
  · rw [hP]
  · rw [hP]
  · rw [hP]

/-- Backtracking from the state reached by one branching step on the
variables `0 ↦ {1, 2}` and `1 ↦ {1, 2, 3}`. -/
theorem backtracking_round_trip_witness :
    ((backtracking (Run.state branchedOnce)).Solver.get 1).Domain = [1, 2, 3] ∧
    ((backtracking (Run.state branchedOnce)).Solver.get 0).Domain = [2] ∧
    (backtracking (Run.state branchedOnce)).Parameters.Processing = [0, 1] := by
  have h := backtracking_round_trip (Run.state branchedOnce)
    { Register := [0, 1], RemainingVariables := [⟨0, [1, 2]⟩, ⟨1, [1, 2, 3]⟩],
      ChoiceIndice := 0, ChoiceValue := 1 } [] rfl (by decide) (by decide) (by decide)
  refine ⟨?_, ?_, h.2.2.2.1⟩
  · have h1 := (h.1 ⟨1, [1, 2, 3]⟩ (by decide) (by decide)).2
    exact congrArg Variable.Domain h1
  · exact (h.2.1 ⟨0, [1, 2]⟩ (by decide) (by decide)).2.2.1

/-! ## Solutions of a search -/

/-- C3. On a fresh solver, with constraints that only call `exclude` (so that
no variable is added during the search), every solution in the registry when
`solve` or `solveAll` stops, however it stops, has exactly one entry per
variable of the active set, in the canonical order (the order of the map), and
every entry is instantiated. -/
theorem recorded_solutions_complete (P : Policies α ι)
    (hC : ∀ c ∈ P.Constraints, ExcludeOnly c)
    (hsort : ∀ cmp l, List.Perm (P.StdSort cmp l) l)
    (s : ConstraintSolver α ι) (hf : Fresh s) (fuel : Nat) :
    (∀ sol ∈ (solve P fuel s).state.SolutionList,
      sol.map Variable.indice = s.keys ∧
      ∀ var ∈ sol, var.isInstantiated = true ∧ var.domainSize = 1) ∧
    (∀ sol ∈ (solveAll P fuel s).state.SolutionList,
      sol.map Variable.indice = s.keys ∧
      ∀ var ∈ sol, var.isInstantiated = true ∧ var.domainSize = 1) := by
  obtain ⟨hw, hn, _, ha, _, hl⟩ := hf.facts
  have key : ∀ all, ∀ sol ∈ (internSolve P all fuel s).state.SolutionList,
      sol.map Variable.indice = s.keys ∧
      ∀ var ∈ sol, var.isInstantiated = true ∧ var.domainSize = 1 := by
    intro all sol hsol
    have hg := internSolveLoop_good P (ShrinkOnly.of_excludeOnly hC) hsort all fuel s.keys
      fuel (startSearch s) (SInv.start hw hn ha) rfl
      (by intro sol hs; rw [show (startSearch s).Solver.SolutionList = s.SolutionList from rfl,
            hl] at hs; cases hs)
    have hmem : sol ∈ (internSolveLoop P all fuel fuel (startSearch s)).state.Solver.SolutionList := by
      unfold internSolve at hsol
      cases hr : internSolveLoop P all fuel fuel (startSearch s) with
      | ret u st => rw [hr] at hsol; exact hsol
      | raise st => rw [hr] at hsol; exact hsol
      | stall st => rw [hr] at hsol; exact hsol
    obtain ⟨h1, h2⟩ := hg sol hmem
    refine ⟨h1, fun var hv => ⟨h2 var hv, ?_⟩⟩
    have := h2 var hv
    simpa [Variable.isInstantiated, Variable.domainSize] using this
  exact ⟨key false, key true⟩

/-- The first solution found on three variables of domain `{1, 2, 3}`. -/
theorem recorded_solutions_complete_witness :
    ∃ sol, sol ∈ (solve plainPolicies 10 threeByThree).state.SolutionList ∧
      sol.map Variable.indice = [0, 1, 2] ∧
      ∀ var ∈ sol, var.isInstantiated = true ∧ var.domainSize = 1 := by
  have hmem : [⟨0, [1]⟩, ⟨1, [1]⟩, ⟨2, [1]⟩] ∈
      (solve plainPolicies 10 threeByThree).state.SolutionList := by decide!
  exact ⟨_, hmem,
    (recorded_solutions_complete plainPolicies (fun c hc => by cases hc)
      (fun _ l => List.Perm.refl l) threeByThree
      (Fresh.add _ _ (Fresh.add _ _ (Fresh.add _ _ Fresh.new))) 10).1 _ hmem⟩

/-- C6. Unsatisfiable input is rejected: for two variables declared with the
same one-value domain and a not-equal propagator linking them, `solve` returns
`false` and the registry stays empty; and whenever `partitionAndConstrain`
reports a contradiction while `Backup` is empty, `SearchSolution` returns
`false` and `internSolve` leaves its loop in the state the propagation left,
without recording a solution. -/
theorem unsatisfiable_rejected :
    (∀ (P : Policies α ι) (targets : ι → List ι) (i j : ι) (a : α) (fuel : Nat),
      P.Constraints = [differs targets] → i ≠ j → j ∈ targets i → i ∈ targets j →
      0 < fuel →
      ∃ s1, solve P fuel (addVariable [a] j (addVariable [a] i new).2).2 = Run.ret false s1 ∧
        s1.SolutionList = [] ∧ s1.solutionsSize = 0) ∧
    (∀ (P : Policies α ι) (all : Bool) (total fuel : Nat) (st st1 : search_t α ι)
      (flag : Bool), st.Parameters.Processing ≠ [] →
      partitionAndConstrain P total st = Run.ret (false, flag) st1 →
      st1.Parameters.Backup = [] →
      SearchSolution P total (fuel + 1) st = Run.ret false st1 ∧
      internSolveLoop P all total (fuel + 1) st = Run.ret () st1) := by
  constructor
  · intro P targets i j a fuel hP hij hj hi hfuel
    obtain ⟨s1, h1, h2⟩ := solve_unsat_pair P targets i j a fuel hP hij hj hi hfuel
    exact ⟨s1, h1, h2, by simp [solutionsSize, h2]⟩
  · intro P all total fuel st st1 flag hne hp hB
    exact contradiction_ends_search P all total fuel st st1 flag hne hp hB

/-- The variables `0` and `1`, both of domain `{1}`, linked by a not-equal
propagator. -/
theorem unsatisfiable_rejected_witness :
    ∃ s1, solve pairPolicies 1 (addVariable [1] 1 (addVariable [1] 0 new).2).2 =
      Run.ret false s1 ∧ s1.SolutionList = [] ∧ s1.solutionsSize = 0 :=
  (@unsatisfiable_rejected Nat Nat _ _).1 pairPolicies pairTargets 0 1 1 1 rfl (by decide)
    (by decide) (by decide) (by decide)

/-- C4 (counterexample). On the freshly constructed solver, which has no
variable, `solve` returns `false` for every positive budget, although the
assignment that has nothing to assign takes one value from each declared
domain and gives different values to the two ends of every pair. -/
theorem solve_without_variables :
    (∀ fuel, 0 < fuel →
      solve (Policies.mk none none [differs (fun _ => [])] (fun _ l => l)) fuel
        (new : ConstraintSolver Nat Nat) = Run.ret false new) ∧
    ∃ a : Nat → Nat, Fits (new : ConstraintSolver Nat Nat).keys a
        (new : ConstraintSolver Nat Nat).dom ∧
      Valid (new : ConstraintSolver Nat Nat).keys [fun _ => []] a := by
  refine ⟨?_, fun _ => 0, fun k hk => absurd hk (List.not_mem_nil k),
    fun i hi => absurd hi (List.not_mem_nil i)⟩
  intro fuel hfuel
  cases fuel with
  | zero => exact absurd hfuel (Nat.lt_irrefl 0)
  | succ n =>
    cases n with
    | zero => rfl
    | succ n => rfl

/-- C4 (amended). For a fresh solver with at least one variable, whose
variables all have non-empty domains, with the default selector and
constraints that are not-equal propagators (`differs`) whose targets are
variables, `solve` returns, within the budget `budget s`, whether there is an
assignment taking one value from each declared domain that gives different
values to the two ends of every pair `(i, j)` with `j` a target of `i`. -/
theorem solve_iff_valid_assignment (P : Policies α ι) (Ts : List (ι → List ι))
    (hP : P.Constraints = Ts.map differs)
    (hsort : ∀ cmp l, List.Perm (P.StdSort cmp l) l) (hsel : P.Selector = none)
    (s : ConstraintSolver α ι) (hf : Fresh s)
    (hcl : ∀ i ∈ s.keys, ∀ t ∈ Ts, ∀ j ∈ t i, j ∈ s.keys) (hne : s.keys ≠ [])
    (hdom : ∀ k ∈ s.keys, s.dom k ≠ []) (fuel : Nat) (hfuel : budget s ≤ fuel) :
    ∃ b s1, solve P fuel s = Run.ret b s1 ∧
      (b = true ↔ ∃ a : ι → α, (∀ k ∈ s.keys, a k ∈ s.dom k) ∧
        ∀ i ∈ s.keys, ∀ t ∈ Ts, ∀ j ∈ t i, a i ≠ a j) := by
  have hsd : SelectorInDomain P := by
    intro sel hs
    rw [hsel] at hs
    cases hs
  obtain ⟨s1, h1, h2, _, _, h4, _⟩ :=
    internSolve_differs P Ts hP hsort hsd s hf hcl hne hdom false fuel hfuel
  refine ⟨_, s1, h1, ?_⟩
  constructor
  · intro hb
    cases hl : s1.SolutionList with
    | nil => rw [hl] at hb; simp at hb
    | cons sol rest =>
      obtain ⟨a, hv, hfit, _⟩ := h2 sol (by rw [hl]; exact List.mem_cons_self _ _)
      exact ⟨a, hfit, hv⟩
  · rintro ⟨a, hfit, hv⟩
    have := h4 ⟨a, hv, hfit⟩
    cases hl : s1.SolutionList with
    | nil => exact absurd hl this
    | cons sol rest => rfl

/-- The variables `0` and `1`, both of domain `{1, 2}`, linked by a not-equal
propagator. -/
theorem solve_iff_valid_assignment_witness :
    ∃ b s1, solve pairPolicies 16 (addVariable [1, 2] 1 (addVariable [1, 2] 0 new).2).2 =
        Run.ret b s1 ∧
      (b = true ↔ ∃ a : Nat → Nat,
        (∀ k ∈ (addVariable [1, 2] 1 (addVariable [1, 2] 0 new).2).2.keys,
          a k ∈ (addVariable [1, 2] 1 (addVariable [1, 2] 0 new).2).2.dom k) ∧
        ∀ i ∈ (addVariable [1, 2] 1 (addVariable [1, 2] 0 new).2).2.keys,
          ∀ t ∈ [pairTargets], ∀ j ∈ t i, a i ≠ a j) :=
  solve_iff_valid_assignment pairPolicies [pairTargets] rfl (fun _ l => List.Perm.refl l) rfl
    (addVariable [1, 2] 1 (addVariable [1, 2] 0 new).2).2
    (Fresh.add _ _ (Fresh.add _ _ Fresh.new)) (by decide) (by decide) (by decide) 16
    (by decide)

/-! ## Completeness without constraints -/

/-- C7. Completeness without constraints: for a fresh solver with at least
one variable, non-empty declared domains, no constraints and the default
selector, `solveAll` returns within the budget `budget s`; the registry then
holds as many solutions as the product of the sizes of the declared domains,
its value tuples are, up to order, the elements of the Cartesian product of the
declared domains; and for three variables of three values each it holds
exactly 27 solutions. -/
theorem solveAll_records_product (P : Policies α ι) (hC : P.Constraints = [])
    (hsort : ∀ cmp l, List.Perm (P.StdSort cmp l) l) (hsel : P.Selector = none)
    (s : ConstraintSolver α ι) (hf : Fresh s) (hne : s.keys ≠ [])
    (hdom : ∀ k ∈ s.keys, s.dom k ≠ []) (fuel : Nat) (hfuel : budget s ≤ fuel) :
    ∃ b s1, solveAll P fuel s = Run.ret b s1 ∧
      s1.solutionsSize = (s.keys.map (fun k => (s.dom k).length)).prod ∧
      List.Perm (s1.solutions.map (fun sol => sol.filterMap Variable.value))
        (List.sections (s.keys.map s.dom)) ∧
      (s.keys.length = 3 → (∀ k ∈ s.keys, (s.dom k).length = 3) → s1.solutionsSize = 27) := by
  have hsd : SelectorInDomain P := by
    intro sel hs
    rw [hsel] at hs
    cases hs
  obtain ⟨hw, hn, _⟩ := hf.facts
  obtain ⟨s1, h1, h2, h3, h4, _⟩ :=
    internSolve_differs P [] (by rw [hC]; rfl) hsort hsd s hf
      (fun i _ t ht => absurd ht (List.not_mem_nil t)) hne hdom true fuel hfuel
  obtain ⟨hperm, hlen⟩ := registry_is_product s.keys hw.nodup hne s.dom hdom hn s1.SolutionList
    (fun sol hs => by
      obtain ⟨a, _, hfit, e⟩ := h2 sol hs
      exact ⟨a, hfit, e⟩)
    h3 (fun a hfit => h4 rfl a (fun i _ t ht => absurd ht (List.not_mem_nil t)) hfit)
  refine ⟨_, s1, h1, hlen, hperm, ?_⟩
  intro h3k h3d
  show s1.SolutionList.length = 27
  rw [hlen]
  have : s.keys.map (fun k => (s.dom k).length) = s.keys.map (fun _ => 3) :=
    List.map_congr_left h3d
  rw [this, List.map_const', h3k]
  rfl

/-- Three variables of domain `{1, 2, 3}`: 27 solutions. -/
theorem solveAll_records_product_witness :
    ∃ b s1, solveAll plainPolicies 256 threeByThree = Run.ret b s1 ∧ s1.solutionsSize = 27 := by
  obtain ⟨b, s1, h1, _, _, h4⟩ := solveAll_records_product plainPolicies rfl
    (fun _ l => List.Perm.refl l) rfl threeByThree
    (Fresh.add _ _ (Fresh.add _ _ (Fresh.add _ _ Fresh.new))) (by decide) (by decide) 256
    (by decide)
  exact ⟨b, s1, h1, h4 (by decide) (by decide)⟩

/-! ## Latin squares end to end -/

open tda

/-- C5 (counterexample). The 2×2 grid set up as in the drivers, with the cell
`{0, 0}` pre-filled with `7` and the other cells empty: `solve` returns `true`
and row `0` of the result holds the values `7, 1`, which is not a permutation
of `1 .. 2`. -/
theorem latin_value_out_of_range :
    ∃ s1, solve (latinPolicies 2) 50
        (latinGrid 2 (fun i j => if i = 0 ∧ j = 0 then 7 else 0)) = Run.ret true s1 ∧
      rowValues 2 s1 0 = [7, 1] ∧ ¬ List.Perm (rowValues 2 s1 0) (ValueEnum 2) :=
  ⟨(solve (latinPolicies 2) 50
      (latinGrid 2 (fun i j => if i = 0 ∧ j = 0 then 7 else 0))).state,
    by decide!, by decide!, by decide!⟩

/-- C5 (amended). Latin-square end-to-end: for an N×N grid set up as in the
drivers (domain `1 .. N` for an empty cell, `{v}` for a pre-filled cell, the
row and column constraints registered, a selector that picks a value of the
domain), with pre-filled values in `1 .. N`: whenever `solve` returns `true`,
every row and every column of the values `get({i, j})` is a permutation of
`1 .. N`, and `solve` returns within the budget `budget`; and for the 4×4 grid
with two compatible pre-filled cells `solve` returns `true` within the budget,
with rows and columns that are permutations of `1 .. 4`. -/
theorem latin_square_end_to_end :
    (∀ (N : Nat) (values : Nat → Nat → Nat) (P : Policies Nat Coord),
      P.Constraints = [differs (rowTargets N), differs (colTargets N)] →
      (∀ cmp l, List.Perm (P.StdSort cmp l) l) → SelectorInDomain P →
      (∀ i j, i < N → j < N → values i j ≤ N) →
      (∀ fuel s1, solve P fuel (latinGrid N values) = Run.ret true s1 →
        (∀ i, i < N → List.Perm (rowValues N s1 i) (ValueEnum N)) ∧
        (∀ j, j < N → List.Perm (colValues N s1 j) (ValueEnum N))) ∧
      (0 < N → ∀ fuel, budget (latinGrid N values) ≤ fuel →
        ∃ b s1, solve P fuel (latinGrid N values) = Run.ret b s1)) ∧
    (∀ (P : Policies Nat Coord),
      P.Constraints = [differs (rowTargets 4), differs (colTargets 4)] →
      (∀ cmp l, List.Perm (P.StdSort cmp l) l) → SelectorInDomain P →
      ∀ (c1 c2 : Coord) (v1 v2 : Nat), c1.X < 4 ∧ c1.Y < 4 → c2.X < 4 ∧ c2.Y < 4 →
      1 ≤ v1 ∧ v1 ≤ 4 → 1 ≤ v2 ∧ v2 ≤ 4 → compatible c1 v1 c2 v2 = true →
      ∀ fuel, budget (latinGrid 4 (twoCells c1 v1 c2 v2)) ≤ fuel →
        ∃ s1, solve P fuel (latinGrid 4 (twoCells c1 v1 c2 v2)) = Run.ret true s1 ∧
          (∀ i, i < 4 → List.Perm (rowValues 4 s1 i) (ValueEnum 4)) ∧
          (∀ j, j < 4 → List.Perm (colValues 4 s1 j) (ValueEnum 4))) := by
  constructor
  · intro N values P hP hsort hsel hv
    constructor
    · intro fuel s1 h
      exact latin_rows_cols N values P hP hsort hsel hv fuel s1 h
    · intro hN fuel hfuel
      obtain ⟨s1, h1, _⟩ := latin_solve_returns N hN values P hP hsort hsel fuel hfuel
      exact ⟨_, s1, h1⟩
  · intro P hP hsort hsel c1 c2 v1 v2 h1 h2 hv1 hv2 hc fuel hfuel
    obtain ⟨s1, hs⟩ := latin_two_cells P hP hsort hsel c1 c2 v1 v2 h1 h2 hv1 hv2 hc fuel hfuel
    have hv : ∀ i j, i < 4 → j < 4 → twoCells c1 v1 c2 v2 i j ≤ 4 := by
      intro i j _ _
      unfold twoCells
      split
      · exact hv1.2
      · split
        · exact hv2.2
        · exact Nat.zero_le 4
    exact ⟨s1, hs, latin_rows_cols 4 _ P hP hsort hsel hv fuel s1 hs⟩

/-- The 4×4 grid with the pre-filled cells `{0, 0} ↦ 3` and `{1, 2} ↦ 1`. -/
theorem latin_square_end_to_end_witness :
    ∃ s1, solve (latinPolicies 4) 17592186044416
        (latinGrid 4 (twoCells (Coord.mk 0 0) 3 (Coord.mk 1 2) 1)) = Run.ret true s1 ∧
      (∀ i, i < 4 → List.Perm (rowValues 4 s1 i) (ValueEnum 4)) ∧
      (∀ j, j < 4 → List.Perm (colValues 4 s1 j) (ValueEnum 4)) :=
  latin_square_end_to_end.2 (latinPolicies 4) rfl (fun _ l => List.Perm.refl l)
    (fun sel hs => by cases hs) (Coord.mk 0 0) (Coord.mk 1 2) 3 1 (by decide) (by decide)
    (by decide) (by decide) (by decide) 17592186044416 (by decide!)

end ConstraintSolver

end solver


namespace solver

namespace ConstraintSolver

variable {α ι : Type} [LinearOrder α] [LinearOrder ι]

/-! ## Contracts of the public methods -/

/-- C12. Method `addVariable` on a solver whose map is in ascending key order
(as a `std::map` is): it returns `false` exactly when the index is already in
the active set; when it returns `false` the solver is unchanged; when it
returns `true` the index exists afterwards, `get` gives the variable of that
index whose domain holds exactly the given values, and the other variables are
as before. -/
theorem addVariable_contract (domain : List α) (indice : ι) (s : ConstraintSolver α ι)
    (hs : s.keys.Pairwise (fun a b => a < b)) :
    ((addVariable domain indice s).1 = false ↔ indice ∈ s.keys) ∧
    ((addVariable domain indice s).1 = false → (addVariable domain indice s).2 = s) ∧
    ((addVariable domain indice s).1 = true →
      (addVariable domain indice s).2.exists indice = true ∧
      ((addVariable domain indice s).2.get indice).indice = indice ∧
      (∀ w, w ∈ ((addVariable domain indice s).2.get indice).domain ↔ w ∈ domain) ∧
      ((addVariable domain indice s).2.get indice).domain.Pairwise (fun a b => a < b) ∧
      (∀ j, j ≠ indice → (addVariable domain indice s).2.get j = s.get j) ∧
      (∀ j, (addVariable domain indice s).2.exists j = true ↔ j = indice ∨ s.exists j = true)) := by
  obtain ⟨h1, _, h3, h4⟩ :=
    mapInsert_spec indice (Variable.mk indice (setOfRange domain)) s.Variables hs
  have hfst : (addVariable domain indice s).1 =
      (mapInsert indice (Variable.mk indice (setOfRange domain)) s.Variables).2 := by
    unfold addVariable
    simp only
    split <;> rfl
  have hvars : (addVariable domain indice s).2.Variables =
      (mapInsert indice (Variable.mk indice (setOfRange domain)) s.Variables).1 := by
    unfold addVariable
    simp only
    split <;> rfl
  have hiff : (addVariable domain indice s).1 = false ↔ indice ∈ s.keys := by
    rw [hfst]
    constructor
    · intro hf
      by_contra hn
      rw [h1.2 hn] at hf
      cases hf
    · intro hm
      cases hb : (mapInsert indice (Variable.mk indice (setOfRange domain)) s.Variables).2 with
      | false => rfl
      | true => exact absurd hm (h1.1 hb)
  refine ⟨hiff, ?_, ?_⟩
  · intro hf
    have hm := hiff.1 hf
    have e := mapInsert_of_mem indice (Variable.mk indice (setOfRange domain)) s.Variables hs hm
    unfold addVariable
    simp only [e, Bool.false_and, Bool.false_eq_true, if_false]
  · intro ht
    have hn : indice ∉ s.keys := by
      intro hm
      rw [hiff.2 hm] at ht
      cases ht
    have hget : ∀ j, (addVariable domain indice s).2.get j =
        if j = indice then Variable.mk indice (setOfRange domain) else s.get j := by
      intro j
      unfold get
      rw [hvars, h4 j]
      by_cases hj : j = indice
      · rw [if_pos ⟨hj, hn⟩, if_pos hj]
      · rw [if_neg (fun hh => hj hh.1), if_neg hj]
    refine ⟨?_, ?_, ?_, ?_, ?_, ?_⟩
    · rw [exists_iff_mem_keys]
      unfold keys
      rw [hvars, h3]
      exact Or.inl rfl
    · rw [hget, if_pos rfl]
      rfl
    · intro w
      rw [hget, if_pos rfl]
      exact mem_setOfRange domain w
    · rw [hget, if_pos rfl]
      exact setOfRange_sorted domain
    · intro j hj
      rw [hget, if_neg hj]
    · intro j
      rw [exists_iff_mem_keys, exists_iff_mem_keys]
      unfold keys
      rw [hvars, h3]

/-- Adding the index `1` to a solver that holds the index `0`. -/
theorem addVariable_contract_witness :
    (addVariable [3, 1, 3] 1 (addVariable [1, 2] 0 (new : ConstraintSolver Nat Nat)).2).1 = true ∧
    ((addVariable [3, 1, 3] 1 (addVariable [1, 2] 0 (new : ConstraintSolver Nat Nat)).2).2.get
      1).domain = [1, 3] ∧
    ((addVariable [3, 1, 3] 1 (addVariable [1, 2] 0 (new : ConstraintSolver Nat Nat)).2).1 =
        false ↔ 1 ∈ (addVariable [1, 2] 0 (new : ConstraintSolver Nat Nat)).2.keys) :=
  ⟨by decide, by decide,
    (addVariable_contract [3, 1, 3] 1 (addVariable [1, 2] 0 (new : ConstraintSolver Nat Nat)).2
      (by decide)).1⟩

/-- C14. Methods `exists` and `get` (both `const`, so that the solver is not
an output of their model): `exists` is true exactly for the indices of the
active set; `get` gives the stored variable when there is one, and otherwise
the variable of that index with an empty domain, which is compromised and not
instantiated. -/
theorem exists_get_contract (s : ConstraintSolver α ι) (indice : ι) :
    (s.exists indice = true ↔ indice ∈ s.keys) ∧
    (∀ var, mapFind indice s.Variables = some var → s.exists indice = true ∧ s.get indice = var) ∧
    (s.exists indice = true → (indice, s.get indice) ∈ s.Variables) ∧
    (s.exists indice = false →
      s.get indice = Variable.mk indice [] ∧ (s.get indice).indice = indice ∧
      (s.get indice).domain = [] ∧ (s.get indice).isCompromised = true ∧
      (s.get indice).isInstantiated = false) := by
  have hmem : ∀ (m : List (ι × Variable α ι)) (var : Variable α ι),
      mapFind indice m = some var → (indice, var) ∈ m := by
    intro m
    induction m with
    | nil => intro var h; cases h
    | cons p m ih =>
      obtain ⟨k1, v1⟩ := p
      intro var h
      unfold mapFind at h
      by_cases hk : k1 = indice
      · rw [if_pos hk] at h
        cases h
        rw [hk]
        exact List.mem_cons_self _ _
      · rw [if_neg hk] at h
        exact List.mem_cons_of_mem _ (ih var h)
  refine ⟨exists_iff_mem_keys s indice, ?_, ?_, ?_⟩
  · intro var h
    exact ⟨by unfold «exists»; rw [h]; rfl, get_of_find h⟩
  · intro h
    unfold «exists» at h
    cases hf : mapFind indice s.Variables with
    | none => rw [hf] at h; cases h
    | some var =>
      rw [get_of_find hf]
      exact hmem _ var hf
  · intro h
    unfold «exists» at h
    cases hf : mapFind indice s.Variables with
    | some var => rw [hf] at h; cases h
    | none =>
      have : s.get indice = Variable.mk indice [] := by
        unfold get
        rw [hf]
      rw [this]
      exact ⟨rfl, rfl, rfl, rfl, rfl⟩

/-- The indices `0` (present) and `7` (absent) of a solver with one variable. -/
theorem exists_get_contract_witness :
    (addVariable [1, 2] 0 (new : ConstraintSolver Nat Nat)).2.exists 7 = false ∧
    (addVariable [1, 2] 0 (new : ConstraintSolver Nat Nat)).2.get 7 = Variable.mk 7 [] ∧
    (addVariable [1, 2] 0 (new : ConstraintSolver Nat Nat)).2.get 0 = Variable.mk 0 [1, 2] :=
  ⟨by decide,
    ((exists_get_contract (addVariable [1, 2] 0 (new : ConstraintSolver Nat Nat)).2 7).2.2.2
      (by decide)).1,
    ((exists_get_contract (addVariable [1, 2] 0 (new : ConstraintSolver Nat Nat)).2 0).2.1
      (Variable.mk 0 [1, 2]) (by decide)).2⟩

/-! ## Branching and backtracking -/

/-- C18. Default policies at a branching step. Without a comparator,
`selectVariableAndValue` leaves `Processing` in the order it was given and
branches on its first variable; without a selector (whatever the comparator),
the value chosen for the front variable is the first of its domain, the
least one when the domain is in ascending order (as a `std::set` is). -/
theorem default_branching (P : Policies α ι) (st : search_t α ι) :
    (P.Comparator = none → sortProcessing P st = st.Parameters.Processing) ∧
    (∀ (x : ι) (rest : List ι) (v0 : α) (tl : List α), sortProcessing P st = x :: rest →
      (st.Solver.get x).domain = v0 :: tl →
      ∃ st2, selectVariableAndValue P st = Run.ret () st2 ∧
        st2.Parameters.Processing = x :: rest ∧
        ∃ save, st2.Parameters.Backup = save :: st.Parameters.Backup ∧
          save.ChoiceIndice = (st.Solver.get x).indice ∧
          save.RemainingVariables = (x :: rest).map (fun r => st.Solver.get r) ∧
          st2.Solver.Variables =
            mapAssign x ((st.Solver.get x).set save.ChoiceValue) st.Solver.Variables ∧
          (P.Selector = none → save.ChoiceValue = v0 ∧
            ((st.Solver.get x).domain.Pairwise (fun a b => a < b) →
              ∀ w ∈ (st.Solver.get x).domain, v0 ≤ w))) := by
  constructor
  · intro hc
    unfold sortProcessing
    rw [hc]
  · intro x rest v0 tl hp hd
    have hd2 : (st.Solver.get x).Domain = v0 :: tl := hd
    unfold selectVariableAndValue
    rw [hp]
    unfold selectFront
    simp only [Variable.value, hd2, List.head?_cons]
    refine ⟨_, rfl, rfl, _, rfl, rfl, rfl, rfl, ?_⟩
    intro hsel
    simp only [hsel]
    refine ⟨trivial, ?_⟩
    intro hs w hw
    have hs2 : (v0 :: tl).Pairwise (fun a b => a < b) := by
      have : (st.Solver.get x).Domain.Pairwise (fun a b => a < b) := hs
      rw [hd2] at this
      exact this
    have hw2 : w ∈ v0 :: tl := by
      have : w ∈ (st.Solver.get x).Domain := hw
      rw [hd2] at this
      exact this
    rcases List.mem_cons.1 hw2 with e | hm
    · rw [e]
    · exact le_of_lt ((List.pairwise_cons.1 hs2).1 w hm)

/-- The first branching step on the variables `0 ↦ {1, 2}` and
`1 ↦ {1, 2, 3}`, without comparator or selector. -/
theorem default_branching_witness :
    ∃ st2, branchedOnce = Run.ret () st2 ∧ st2.Parameters.Processing = [0, 1] ∧
      ∃ save, st2.Parameters.Backup = [save] ∧ save.ChoiceIndice = 0 ∧ save.ChoiceValue = 1 := by
  obtain ⟨st2, h1, h2, save, h3, h4, _, _, h7⟩ :=
    (default_branching plainPolicies
      (startSearch (addVariable [1, 2, 3] 1 (addVariable [1, 2] 0 new).2).2)).2
      0 [1] 1 [2] (by decide) (by decide)
  exact ⟨st2, h1, h2, save, h3, h4, (h7 rfl).1⟩

/-- C17. Backtracking rejects later variables: when `backtracking` pops a
record (the map being in ascending key order), every index of the canonical
order at a position at or beyond the length of the saved order, and every
index queued in `AdditionalIndices`, is afterwards rejected and absent from
the active set; `AdditionalIndices` is empty; and every other index is
rejected, or present, exactly when it was before, so that the indices within
the saved order (which occur once in a canonical order without repetition) are
not added to the rejected set. -/
theorem backtracking_rejects_later (st : search_t α ι) (save : record_t α ι)
    (backup : List (record_t α ι)) (hB : st.Parameters.Backup = save :: backup)
    (hs : st.Solver.keys.Pairwise (fun a b => a < b)) :
    (∀ i, i ∈ st.Parameters.Register.drop save.Register.length ∨
        i ∈ st.Solver.AdditionalIndices →
      hasBeenRejected i (backtracking st).Solver = true ∧
      (backtracking st).Solver.exists i = false) ∧
    (backtracking st).Solver.AdditionalIndices = [] ∧
    (∀ i, i ∉ st.Parameters.Register.drop save.Register.length →
      i ∉ st.Solver.AdditionalIndices →
      hasBeenRejected i (backtracking st).Solver = hasBeenRejected i st.Solver ∧
      (backtracking st).Solver.exists i = st.Solver.exists i) ∧
    ((st.Parameters.Register ++ st.Solver.AdditionalIndices).Nodup →
      ∀ i ∈ st.Parameters.Register.take save.Register.length,
        hasBeenRejected i (backtracking st).Solver = hasBeenRejected i st.Solver) := by
  have hn : st.Solver.keys.Nodup := hs.imp (fun h => ne_of_lt h)
  obtain ⟨h1, h2, h3⟩ := backtracking_rejected st save backup hB hn
  have hex : ∀ (s : ConstraintSolver α ι) (i : ι) (b : Bool),
      (s.exists i = true ↔ (b = true)) → s.exists i = b := by
    intro s i b h
    cases b with
    | true => exact h.2 rfl
    | false =>
      cases he : s.exists i with
      | false => rfl
      | true => exact absurd (h.1 he) (by simp)
  have hkeep : ∀ i, i ∉ st.Parameters.Register.drop save.Register.length →
      i ∉ st.Solver.AdditionalIndices →
      hasBeenRejected i (backtracking st).Solver = hasBeenRejected i st.Solver ∧
      (backtracking st).Solver.exists i = st.Solver.exists i := by
    intro i hl ha
    constructor
    · unfold hasBeenRejected
      apply decide_eq_decide.2
      rw [h1 i]
      tauto
    · apply hex
      rw [exists_iff_mem_keys, h2 i, exists_iff_mem_keys]
      tauto
  refine ⟨?_, h3, hkeep, ?_⟩
  · intro i hi
    constructor
    · unfold hasBeenRejected
      rw [decide_eq_true_eq, h1 i]
      exact Or.inr hi
    · apply hex
      rw [exists_iff_mem_keys, h2 i]
      constructor
      · intro hh
        rcases hi with hi | hi
        · exact absurd hi hh.2.1
        · exact absurd hi hh.2.2
      · intro hh
        cases hh
  · intro hnd i hi
    rw [List.nodup_append] at hnd
    obtain ⟨hreg, _, hdis⟩ := hnd
    have hreg2 : (st.Parameters.Register.take save.Register.length ++
        st.Parameters.Register.drop save.Register.length).Nodup := by
      rw [List.take_append_drop]; exact hreg
    rw [List.nodup_append] at hreg2
    apply (hkeep i ?_ ?_).1
    · exact fun hd => hreg2.2.2 hi hd
    · exact fun ha => hdis (List.mem_of_mem_take hi) ha

/-- Backtracking from `lateState`: the late index `5` and the queued index
`6` are rejected and gone, the index `1` of the saved order is not. -/
theorem backtracking_rejects_later_witness :
    hasBeenRejected 5 (backtracking lateState).Solver = true ∧
    (backtracking lateState).Solver.exists 5 = false ∧
    hasBeenRejected 6 (backtracking lateState).Solver = true ∧
    (backtracking lateState).Solver.exists 6 = false ∧
    hasBeenRejected 1 (backtracking lateState).Solver = false :=
  have h := backtracking_rejects_later lateState _ [] rfl (by decide)
  ⟨(h.1 5 (Or.inl (by decide))).1, (h.1 5 (Or.inl (by decide))).2,
    (h.1 6 (Or.inr (by decide))).1, (h.1 6 (Or.inr (by decide))).2,
    (h.2.2.2 (by decide) 1 (by decide)).trans (by decide)⟩

/-! ## Invariants and termination of the search -/

/-- C11. Engine-wide domain invariant: in a search started on a fresh solver,
with constraints that only call `exclude` and a selector that picks a value of
the domain it is given (as the default selector does), the domain of every
variable holds values of its declared domain only, in whatever state the
search is stopped: for every pair of budgets of the loops of `internSolve`
and `SearchSolution`, and so when `solve` or `solveAll` ends. -/
theorem domains_within_declared (P : Policies α ι)
    (hC : ∀ c ∈ P.Constraints, ExcludeOnly c)
    (hsort : ∀ cmp l, List.Perm (P.StdSort cmp l) l) (hsel : SelectorInDomain P)
    (s : ConstraintSolver α ι) (hf : Fresh s) (all : Bool) (total fuel : Nat) (k : ι) :
    (∀ w, w ∈ (internSolveLoop P all total fuel (startSearch s)).state.Solver.dom k →
      w ∈ s.dom k) ∧
    (∀ w, w ∈ (solve P fuel s).state.dom k → w ∈ s.dom k) ∧
    (∀ w, w ∈ (solveAll P fuel s).state.dom k → w ∈ s.dom k) := by
  obtain ⟨hw, hn, _, ha, _, _⟩ := hf.facts
  have key : ∀ (all : Bool) (total fuel : Nat) (w : α),
      w ∈ (internSolveLoop P all total fuel (startSearch s)).state.Solver.dom k → w ∈ s.dom k :=
    fun all total fuel w =>
      internSolveLoop_bounded P (ShrinkOnly.of_excludeOnly hC) hsort hsel s.dom all total fuel
        (startSearch s) (SInv.start hw hn ha)
        ⟨fun _ _ h => h, fun f hfm => absurd hfm (List.not_mem_nil f)⟩ k w
  have hint : ∀ (all : Bool) (w : α), w ∈ (internSolve P all fuel s).state.dom k →
      w ∈ s.dom k := by
    intro all w hw2
    apply key all fuel fuel w
    unfold internSolve at hw2
    cases hr : internSolveLoop P all fuel fuel (startSearch s) with
    | ret u st => rw [hr] at hw2; exact hw2
    | raise st => rw [hr] at hw2; exact hw2
    | stall st => rw [hr] at hw2; exact hw2
  exact ⟨key all total fuel, hint false, hint true⟩

/-- The variable `0` of two variables of domain `{1, 2}` linked by a
not-equal propagator, in a search stopped after three turns. -/
theorem domains_within_declared_witness :
    (∀ w, w ∈ (internSolveLoop pairPolicies true 3 3
        (startSearch (addVariable [1, 2] 1 (addVariable [1, 2] 0 new).2).2)).state.Solver.dom 0 →
      w ∈ (addVariable [1, 2] 1 (addVariable [1, 2] 0 new).2).2.dom 0) ∧
    (∀ w, w ∈ (solve pairPolicies 3 (addVariable [1, 2] 1 (addVariable [1, 2] 0 new).2).2
        ).state.dom 0 → w ∈ (addVariable [1, 2] 1 (addVariable [1, 2] 0 new).2).2.dom 0) ∧
    (∀ w, w ∈ (solveAll pairPolicies 3 (addVariable [1, 2] 1 (addVariable [1, 2] 0 new).2).2
        ).state.dom 0 → w ∈ (addVariable [1, 2] 1 (addVariable [1, 2] 0 new).2).2.dom 0) :=
  domains_within_declared pairPolicies
    (fun c hc => by
      rw [List.mem_singleton.1 hc]
      exact differs_excludeOnly pairTargets)
    (fun _ l => List.Perm.refl l) (fun sel hs => by cases hs)
    (addVariable [1, 2] 1 (addVariable [1, 2] 0 new).2).2
    (Fresh.add _ _ (Fresh.add _ _ Fresh.new)) true 3 3 0

/-- C13. Termination: on a fresh solver whose declared domains are not
empty, with a selector that picks a value of the domain it is given (as the
default selector does) and constraints that only call `exclude`, both `solve`
and `solveAll` return within the budget `budget s`. -/
theorem solve_terminates (P : Policies α ι)
    (hC : ∀ c ∈ P.Constraints, ExcludeOnly c)
    (hsort : ∀ cmp l, List.Perm (P.StdSort cmp l) l) (hsel : SelectorInDomain P)
    (s : ConstraintSolver α ι) (hf : Fresh s) (hdom : ∀ k ∈ s.keys, s.dom k ≠ [])
    (fuel : Nat) (hfuel : budget s ≤ fuel) :
    (∃ b s1, solve P fuel s = Run.ret b s1) ∧ (∃ b s1, solveAll P fuel s = Run.ret b s1) :=
  ⟨internSolve_returns P (ShrinkOnly.of_excludeOnly hC) hsort hsel s hf hdom false fuel hfuel,
    internSolve_returns P (ShrinkOnly.of_excludeOnly hC) hsort hsel s hf hdom true fuel hfuel⟩

/-- Two variables of domain `{1, 2}` linked by a not-equal propagator. -/
theorem solve_terminates_witness :
    (∃ b s1, solve pairPolicies 16 (addVariable [1, 2] 1 (addVariable [1, 2] 0 new).2).2 =
      Run.ret b s1) ∧
    (∃ b s1, solveAll pairPolicies 16 (addVariable [1, 2] 1 (addVariable [1, 2] 0 new).2).2 =
      Run.ret b s1) :=
  solve_terminates pairPolicies
    (fun c hc => by
      rw [List.mem_singleton.1 hc]
      exact differs_excludeOnly pairTargets)
    (fun _ l => List.Perm.refl l) (fun sel hs => by cases hs)
    (addVariable [1, 2] 1 (addVariable [1, 2] 0 new).2).2
    (Fresh.add _ _ (Fresh.add _ _ Fresh.new)) (by decide) 16 (by decide)

/-- C19. Method `solve` stops at the first solution and reports it: on a
fresh solver, with constraints that leave the registry alone (it is a private
member), the registry holds at most one solution however `solve` stops, and
when `solve` returns, it returns `true` exactly when the registry holds one
solution, that is, when it is not empty; and `solve` does return, within the
budget `budget s`, when the declared domains are not empty, the constraints
only call `exclude` and the selector picks a value of the domain. -/
theorem solve_records_at_most_one (P : Policies α ι)
    (hC : ∀ c ∈ P.Constraints, KeepsRegistry c) (s : ConstraintSolver α ι) (hf : Fresh s)
    (fuel : Nat) :
    (solve P fuel s).state.SolutionList.length ≤ 1 ∧
    (∀ b s1, solve P fuel s = Run.ret b s1 →
      (b = true ↔ s1.SolutionList.length = 1) ∧ (b = true ↔ s1.SolutionList ≠ []) ∧
      (b = false ↔ s1.SolutionList = [])) ∧
    ((∀ c ∈ P.Constraints, ExcludeOnly c) → (∀ cmp l, List.Perm (P.StdSort cmp l) l) →
      SelectorInDomain P → (∀ k ∈ s.keys, s.dom k ≠ []) → budget s ≤ fuel →
      ∃ b s1, solve P fuel s = Run.ret b s1) := by
  have hemp : (startSearch s).Solver.SolutionList = [] := hf.facts.2.2.2.2.2
  have key : ∃ l : List (List (Variable α ι)), l.length ≤ 1 ∧
      (solve P fuel s).state.SolutionList = l ∧
      ∀ b s1, solve P fuel s = Run.ret b s1 → s1.SolutionList = l ∧ b = !l.isEmpty := by
    unfold solve internSolve
    cases fuel with
    | zero =>
      refine ⟨[], Nat.zero_le 1, hemp, ?_⟩
      intro b s1 h
      simp [internSolveLoop] at h
    | succ fuel =>
      rw [internSolveLoop]
      have h1 := SearchSolution_registry P hC (fuel + 1) (fuel + 1) (startSearch s)
      rw [hemp] at h1
      cases hr : SearchSolution P (fuel + 1) (fuel + 1) (startSearch s) with
      | raise st1 =>
        rw [hr] at h1
        refine ⟨[], Nat.zero_le 1, h1, ?_⟩
        intro b s1 h
        cases h
      | stall st1 =>
        rw [hr] at h1
        refine ⟨[], Nat.zero_le 1, h1, ?_⟩
        intro b s1 h
        cases h
      | ret b st1 =>
        rw [hr] at h1
        simp only [Bool.false_and, Bool.false_eq_true, if_false]
        cases b with
        | false =>
          simp only [Bool.false_eq_true, if_false]
          refine ⟨[], Nat.zero_le 1, h1, ?_⟩
          intro b s1 h
          simp only [Run.ret.injEq] at h
          have h1' : st1.Solver.SolutionList = [] := h1
          rw [← h.2, ← h.1, h1']
          exact ⟨rfl, rfl⟩
        | true =>
          simp only [if_true]
          have hl : (recordSolution st1).Solver.SolutionList =
              [st1.Parameters.Register.filterMap (fun i => mapFind i st1.Solver.Variables)] := by
            have h1' : st1.Solver.SolutionList = [] := h1
            unfold recordSolution
            simp only [h1', List.nil_append]
          refine ⟨[st1.Parameters.Register.filterMap
            (fun i => mapFind i st1.Solver.Variables)], Nat.le_refl 1, hl, ?_⟩
          intro b s1 h
          simp only [Run.ret.injEq] at h
          rw [← h.2, ← h.1, hl]
          exact ⟨rfl, rfl⟩
  obtain ⟨l, hlen, hstate, hret⟩ := key
  refine ⟨by rw [hstate]; exact hlen, ?_, ?_⟩
  · intro b s1 h
    obtain ⟨e1, e2⟩ := hret b s1 h
    rw [e1, e2]
    cases l with
    | nil => simp
    | cons a l =>
      cases l with
      | nil => simp
      | cons a2 l => simp at hlen
  · intro hE hsort hsel hdom hfuel
    exact internSolve_returns P (ShrinkOnly.of_excludeOnly hE) hsort hsel s hf hdom false fuel
      hfuel

/-- Two variables of domain `{1, 2}` linked by a not-equal propagator: `solve`
returns `true` with one solution recorded. -/
theorem solve_records_at_most_one_witness :
    (solve pairPolicies 16 (addVariable [1, 2] 1 (addVariable [1, 2] 0 new).2).2
      ).state.SolutionList.length ≤ 1 ∧
    ∃ b s1, solve pairPolicies 16 (addVariable [1, 2] 1 (addVariable [1, 2] 0 new).2).2 =
      Run.ret b s1 ∧ (b = true ↔ s1.SolutionList.length = 1) := by
  have h := solve_records_at_most_one pairPolicies
    (fun c hc => by
      rw [List.mem_singleton.1 hc]
      exact KeepsRegistry.by_excludeOnly (differs_excludeOnly pairTargets))
    (addVariable [1, 2] 1 (addVariable [1, 2] 0 new).2).2
    (Fresh.add _ _ (Fresh.add _ _ Fresh.new)) 16
  obtain ⟨b, s1, hs⟩ := h.2.2
    (fun c hc => by
      rw [List.mem_singleton.1 hc]
      exact differs_excludeOnly pairTargets)
    (fun _ l => List.Perm.refl l) (fun sel hs => by cases hs) (by decide) (by decide)
  exact ⟨h.1, b, s1, hs, (h.2.1 b s1 hs).1⟩

/-! ## Variables added during a search -/

/-- C20 (counterexample). The solver with the single variable `0 ↦ {1}` and
the constraint `addsFive`, which adds the variable `5` when it is called for
the index `0`. The first round of `partitionAndConstrain` leaves `grownSolver`,
in which the index `5` is queued; the queue is never emptied, so that every
later round merges the index again: after three rounds `Processing` holds the
variable twice and `Register` is `0, 5, 5`, after `n + 1` rounds the index
has been merged `n` times, and neither `partitionAndConstrain` nor `solve`
returns for any budget. With the queue emptied at the merge (as the sibling
engine does), the same input is merged once and the propagation returns. -/
theorem additional_merged_again :
    (addsFive (startSearch oneVariable).Solver 0 1).2 = grownSolver ∧
    partitionAndConstrain growingPolicies 3 (startSearch oneVariable) =
      Run.stall ⟨grownSolver, ⟨[5, 5], [0, 5, 5], []⟩⟩ ∧
    (∀ n, partitionAndConstrain growingPolicies (n + 1) (startSearch oneVariable) =
      Run.stall ⟨grownSolver, ⟨List.replicate n 5, 0 :: List.replicate n 5, []⟩⟩) ∧
    (∀ fuel, ∃ s1, solve growingPolicies fuel oneVariable = Run.stall s1) ∧
    partitionLoopSpliced growingPolicies 3 true true true false (startSearch oneVariable) =
      Run.ret (true, true) ⟨{ grownSolver with AdditionalIndices := [] }, ⟨[5], [0, 5], []⟩⟩ := by
  refine ⟨by decide, growing_partition 2, growing_partition, ?_, by decide!⟩
  intro fuel
  cases fuel with
  | zero => exact ⟨_, rfl⟩
  | succ n =>
    refine ⟨grownSolver, ?_⟩
    have hp := growing_partition n
    have hb : searchBody growingPolicies (n + 1) (startSearch oneVariable) =
        Run.stall ⟨grownSolver, ⟨List.replicate n 5, 0 :: List.replicate n 5, []⟩⟩ := by
      unfold searchBody
      rw [hp]
      rfl
    unfold solve internSolve
    rw [internSolveLoop, SearchSolution, hb]

end ConstraintSolver

/-! ## Contracts of `solver::Variable` -/

namespace Variable

variable {α ι : Type} [LinearOrder α]

/-- C15. Method `value`: it throws (`none`) exactly when the variable is
compromised; otherwise it returns a value of the domain, the least one when
the domain is in ascending order (as a `std::set` is), which for an
instantiated variable is its single value. -/
theorem value_contract (v : Variable α ι) :
    (v.value = none ↔ v.isCompromised = true) ∧
    (v.isCompromised = false → ∃ x, v.value = some x) ∧
    (∀ x, v.value = some x → x ∈ v.Domain ∧
      (v.Domain.Pairwise (fun a b => a < b) → ∀ y ∈ v.Domain, x ≤ y)) ∧
    (∀ x, v.Domain = [x] → v.isInstantiated = true ∧ v.value = some x) ∧
    (v.isInstantiated = true → ∃ x, v.Domain = [x] ∧ v.value = some x) := by
  obtain ⟨i, d⟩ := v
  cases d with
  | nil =>
    refine ⟨⟨fun _ => rfl, fun _ => rfl⟩, ?_, ?_, ?_, ?_⟩
    · intro h
      exact Bool.noConfusion h
    · intro x h
      exact Option.noConfusion h
    · intro x h
      exact List.noConfusion h
    · intro h
      exact Bool.noConfusion h
  | cons a d =>
    refine ⟨⟨fun h => Option.noConfusion h, fun h => Bool.noConfusion h⟩,
      fun _ => ⟨a, rfl⟩, ?_, ?_, ?_⟩
    · intro x hx
      have hxa : a = x := Option.some.inj hx
      subst hxa
      refine ⟨List.mem_cons_self _ _, ?_⟩
      intro hs y hy
      rcases List.mem_cons.1 hy with e | hm
      · rw [e]
      · exact le_of_lt ((List.pairwise_cons.1 hs).1 y hm)
    · intro x hx
      have h1 : a = x := (List.cons.inj hx).1
      have h2 : d = [] := (List.cons.inj hx).2
      subst h1
      subst h2
      exact ⟨rfl, rfl⟩
    · intro h
      cases d with
      | nil => exact ⟨a, rfl, rfl⟩
      | cons b d => simp [isInstantiated] at h

/-- C16. Domain invariant of `Variable`: the domain built from any sequence
of values holds each of them once, in strictly ascending order; `exclude` and
`set` keep a domain in strictly ascending order, `exclude` removing the value
and nothing else, `set` leaving exactly the value; `isInstantiated` holds
exactly when the domain has one value and `isCompromised` exactly when it has
none. -/
theorem domain_invariant (indice : ι) (xs : List α) :
    ((Variable.mk indice (setOfRange xs)).domain.Pairwise (fun a b => a < b) ∧
      (Variable.mk indice (setOfRange xs)).domain.Nodup ∧
      ∀ w, w ∈ (Variable.mk indice (setOfRange xs)).domain ↔ w ∈ xs) ∧
    (∀ (v : Variable α ι) (w : α), v.domain.Pairwise (fun a b => a < b) →
      (v.exclude w).domain.Pairwise (fun a b => a < b) ∧
      (∀ x, x ∈ (v.exclude w).domain ↔ x ∈ v.domain ∧ x ≠ w)) ∧
    (∀ (v : Variable α ι) (w : α), (v.set w).domain = [w] ∧
      (v.set w).domain.Pairwise (fun a b => a < b) ∧ (v.set w).isInstantiated = true) ∧
    (∀ v : Variable α ι, (v.isInstantiated = true ↔ v.domain.length = 1) ∧
      (v.isCompromised = true ↔ v.domain.length = 0) ∧ v.domainSize = v.domain.length) := by
  refine ⟨⟨setOfRange_sorted xs, setOfRange_nodup xs, mem_setOfRange xs⟩, ?_, ?_, ?_⟩
  · intro v w hs
    refine ⟨List.Pairwise.filter _ hs, ?_⟩
    intro x
    unfold Variable.exclude domain
    simp [List.mem_filter]
  · intro v w
    exact ⟨rfl, List.pairwise_singleton _ _, rfl⟩
  · intro v
    refine ⟨?_, ?_, rfl⟩
    · unfold isInstantiated domain
      simp
    · unfold isCompromised domain
      simp

/-- The variable built from the values `3, 1, 3, 2`, then `exclude(1)`. -/
theorem domain_invariant_witness :
    (Variable.mk 0 (setOfRange [3, 1, 3, 2]) : Variable Nat Nat).domain = [1, 2, 3] ∧
    ((Variable.mk 0 (setOfRange [3, 1, 3, 2]) : Variable Nat Nat).exclude 1).domain.Pairwise
      (fun a b => a < b) :=
  ⟨by decide,
    (((@domain_invariant Nat Nat _ 0 [3, 1, 3, 2]).2.1
      (Variable.mk 0 (setOfRange [3, 1, 3, 2])) 1)
      (@domain_invariant Nat Nat _ 0 [3, 1, 3, 2]).1.1).1⟩

end Variable

end solver


namespace solver

namespace ConstraintSolver

variable {α ι : Type} [LinearOrder α] [LinearOrder ι]

/-! ## Rejected indices -/

/-- C21 (counterexample). A constraint may call `addVariable` for an index
that backtracking has rejected, and the call succeeds.  On the variable
`0 ↦ {1, 2}` with the constraint `readds`: after two turns of the search the
index `5`, added under the choice `0 ↦ 1`, has been rejected by backtracking
and is out of the active set; the third turn adds it again, so that the search
ends with `5` rejected, in the active set and in the processing set, and
`solve()` returns in a state where `hasBeenRejected(5)` and `exists(5)` both
hold. -/
theorem rejected_index_returns :
    SearchSolution readdPolicies 3 2 (startSearch twoValued) =
      Run.stall
        { Solver := { IsSolveInProgress := true, Variables := [(0, Variable.mk 0 [2])],
                      AdditionalIndices := [], RejectedIndices := [5], SolutionList := [] },
          Parameters := { Processing := [0], Register := [0], Backup := [] } } ∧
    SearchSolution readdPolicies 3 3 (startSearch twoValued) =
      Run.ret false
        { Solver := { IsSolveInProgress := true,
                      Variables := [(0, Variable.mk 0 [2]), (5, Variable.mk 5 [7, 8]),
                        (6, Variable.mk 6 [9])],
                      AdditionalIndices := [5, 6], RejectedIndices := [5], SolutionList := [] },
          Parameters := { Processing := [5], Register := [0, 5, 6], Backup := [] } } ∧
    (∃ s1, solve readdPolicies 3 twoValued = Run.ret false s1 ∧
      s1.hasBeenRejected 5 = true ∧ s1.exists 5 = true) := by
  refine ⟨by decide!, by decide!, _, rfl, by decide!, by decide!⟩

/-- C21 (amended). A rejected index is never resurrected as long as no
constraint adds an index that has been rejected (the constraints acting by
`exclude`, and by `addVariable` for indices that `hasBeenRejected` does not
report). The search on a fresh solver starts in a state where no rejected
index is in the active set or in the processing set; and from any such state,
however long the loop of `SearchSolution` or of `internSolve` runs and however
it stops, the state reached is again of this kind and every index that was
rejected is still rejected, absent from the active set and absent from the
processing set. -/
theorem rejected_stays_out (P : Policies α ι) (hG : ∀ c ∈ P.Constraints, Guarded c)
    (hsort : ∀ cmp l, List.Perm (P.StdSort cmp l) l) (st : search_t α ι) (h : NoGhost st)
    (all : Bool) (total fuel : Nat) :
    (NoGhost (SearchSolution P total fuel st).state ∧
      ∀ i ∈ st.Solver.RejectedIndices,
        (SearchSolution P total fuel st).state.Solver.hasBeenRejected i = true ∧
        (SearchSolution P total fuel st).state.Solver.exists i = false ∧
        i ∉ (SearchSolution P total fuel st).state.Parameters.Processing) ∧
    (NoGhost (internSolveLoop P all total fuel st).state ∧
      ∀ i ∈ st.Solver.RejectedIndices,
        (internSolveLoop P all total fuel st).state.Solver.hasBeenRejected i = true ∧
        (internSolveLoop P all total fuel st).state.Solver.exists i = false ∧
        i ∉ (internSolveLoop P all total fuel st).state.Parameters.Processing) ∧
    (∀ s : ConstraintSolver α ι, Fresh s → NoGhost (startSearch s)) := by
  obtain ⟨a1, a2⟩ := SearchSolution_noGhost P hG hsort total fuel st h
  obtain ⟨b1, b2⟩ := internSolveLoop_noGhost P hG hsort all total fuel st h
  exact ⟨⟨a1, fun i hi => a1.read (a2 i hi)⟩, ⟨b1, fun i hi => b1.read (b2 i hi)⟩,
    fun s hs => NoGhost.fresh hs⟩

/-- The variable `0 ↦ {1, 2}` with the constraint `addsUnlessRejected`: two
turns of the search reject the index `5`, and it is absent when the search,
taken up from there, has ended. -/
theorem rejected_stays_out_witness :
    (SearchSolution guardedPolicies 3 2 (startSearch twoValued)).state.Solver.RejectedIndices
      = [5] ∧
    (SearchSolution guardedPolicies 3 5
      (SearchSolution guardedPolicies 3 2 (startSearch twoValued)).state).state.Solver.exists 5
      = false := by
  have hG : ∀ c ∈ guardedPolicies.Constraints, Guarded c := by
    intro c hc
    rw [List.mem_singleton.1 hc]
    intro s i v
    unfold addsUnlessRejected
    by_cases hr : s.hasBeenRejected 5 = false
    · rw [if_pos hr]
      exact GuardedReach.add _ _ (GuardedReach.refl s) hr
    · rw [if_neg hr]
      exact GuardedReach.refl s
  have h0 : NoGhost (startSearch twoValued) := NoGhost.fresh (Fresh.add _ _ Fresh.new)
  have h1 := (rejected_stays_out guardedPolicies hG (fun _ l => List.Perm.refl l)
    (startSearch twoValued) h0 false 3 2).1.1
  have h5 : (SearchSolution guardedPolicies 3 2 (startSearch twoValued)
      ).state.Solver.RejectedIndices = [5] := by decide!
  exact ⟨h5, ((rejected_stays_out guardedPolicies hG (fun _ l => List.Perm.refl l)
    (SearchSolution guardedPolicies 3 2 (startSearch twoValued)).state h1 false 3 5).1.2 5
      (by rw [h5]; exact List.mem_singleton_self 5)).2.1⟩

/-- C22. Re-insertion of a rejected index: for an index that is in the
rejected set and not in the active set, `addVariable(domain, index)` returns
`true`; afterwards `exists(index)` and `hasBeenRejected(index)` are both true,
and `get(index)` is the variable of that index whose domain holds exactly the
values given, in ascending order. -/
theorem addVariable_after_rejection (domain : List α) (indice : ι) (s : ConstraintSolver α ι)
    (hr : s.hasBeenRejected indice = true) (he : s.exists indice = false) :
    (addVariable domain indice s).1 = true ∧
    (addVariable domain indice s).2.exists indice = true ∧
    (addVariable domain indice s).2.hasBeenRejected indice = true ∧
    (addVariable domain indice s).2.get indice = Variable.mk indice (setOfRange domain) ∧
    (∀ w, w ∈ ((addVariable domain indice s).2.get indice).domain ↔ w ∈ domain) ∧
    ((addVariable domain indice s).2.get indice).domain.Pairwise (fun a b => a < b) := by
  have hk : indice ∉ s.Variables.map Prod.fst := by
    intro hm
    have : s.exists indice = true := (exists_iff_mem_keys s indice).2 hm
    rw [he] at this
    exact Bool.noConfusion this
  obtain ⟨h1, h2, _, _⟩ :=
    mapInsert_of_not_mem indice (Variable.mk indice (setOfRange domain)) s.Variables hk
  obtain ⟨f1, f2, _, f4, _⟩ := addVariable_fields domain indice s
  have hget : (addVariable domain indice s).2.get indice =
      Variable.mk indice (setOfRange domain) := by
    apply get_of_find
    rw [f2]
    exact h2
  refine ⟨by rw [f1]; exact h1, ?_, ?_, hget, ?_, ?_⟩
  · unfold «exists»
    rw [f2, h2]
    rfl
  · unfold hasBeenRejected
    rw [f4]
    exact hr
  · intro w
    rw [hget]
    exact mem_setOfRange domain w
  · rw [hget]
    exact setOfRange_sorted domain

/-- The index `5`, rejected by the backtracking step from `lateState`, is
added again with the domain `{3, 1}`. -/
theorem addVariable_after_rejection_witness :
    (backtracking lateState).Solver.hasBeenRejected 5 = true ∧
    (backtracking lateState).Solver.exists 5 = false ∧
    (addVariable [3, 1] 5 (backtracking lateState).Solver).1 = true ∧
    (addVariable [3, 1] 5 (backtracking lateState).Solver).2.get 5 = Variable.mk 5 [1, 3] :=
  ⟨by decide, by decide,
    (addVariable_after_rejection [3, 1] 5 (backtracking lateState).Solver
      (by decide) (by decide)).1,
    (addVariable_after_rejection [3, 1] 5 (backtracking lateState).Solver
      (by decide) (by decide)).2.2.2.1⟩

/-! ## Branching -/

/-- C27. Choice-point capture precedes commit. On a well-formed solver whose
pending variables (the entries of `Processing`, not empty) belong to the
active set and have non-empty domains, with a sort that permutes,
`selectVariableAndValue` returns and: the stack has grown by exactly one
record; the record holds the canonical order as it was, one copy of every
pending variable as it was before the choice (the chosen one included, with
its full domain), the chosen index `x` and the chosen value (the result of the
selector, or the first value of the domain when there is none); in the active
set the domain of `x` is exactly the chosen value, and every other variable,
like every other member of the solver, is unchanged. -/
theorem choice_point_capture (P : Policies α ι)
    (hsort : ∀ cmp l, List.Perm (P.StdSort cmp l) l) (st : search_t α ι) (hw : WF st.Solver)
    (hsub : ∀ i ∈ st.Parameters.Processing, i ∈ st.Solver.keys)
    (hne : st.Parameters.Processing ≠ [])
    (hdom : ∀ i ∈ st.Parameters.Processing, st.Solver.dom i ≠ []) :
    ∃ (st2 : search_t α ι) (save : record_t α ι) (x : ι),
      selectVariableAndValue P st = Run.ret () st2 ∧
      st2.Parameters.Backup = save :: st.Parameters.Backup ∧
      st2.Parameters.Backup.length = st.Parameters.Backup.length + 1 ∧
      save.Register = st.Parameters.Register ∧
      st2.Parameters.Register = st.Parameters.Register ∧
      List.Perm (save.RemainingVariables.map Variable.indice) st.Parameters.Processing ∧
      (∀ var ∈ save.RemainingVariables, var = st.Solver.get var.indice) ∧
      save.RemainingVariables = st2.Parameters.Processing.map (fun r => st.Solver.get r) ∧
      x ∈ st.Parameters.Processing ∧ st2.Parameters.Processing.head? = some x ∧
      save.ChoiceIndice = x ∧ st.Solver.get x ∈ save.RemainingVariables ∧
      (∀ sel, P.Selector = some sel → save.ChoiceValue = sel (st.Solver.get x)) ∧
      (P.Selector = none → (st.Solver.get x).value = some save.ChoiceValue) ∧
      st2.Solver.dom x = [save.ChoiceValue] ∧
      (∀ k, k ≠ x → st2.Solver.get k = st.Solver.get k) ∧
      st2.Solver.keys = st.Solver.keys ∧
      st2.Solver.IsSolveInProgress = st.Solver.IsSolveInProgress ∧
      st2.Solver.AdditionalIndices = st.Solver.AdditionalIndices ∧
      st2.Solver.RejectedIndices = st.Solver.RejectedIndices ∧
      st2.Solver.SolutionList = st.Solver.SolutionList := by
  rcases selectVariableAndValue_spec P hsort st hw hsub with ⟨st2, hrun, hpost⟩ | ⟨st2, _, _, _, hbad⟩
  · obtain ⟨x, val, hx, hhead, hget, hkeys, ⟨r, hb, hci, hcv, hreg, hrem⟩, hnone, hsome, _⟩ :=
      hpost.get hsub
    obtain ⟨x1, rest, v0, tl, hperm, hd, hp, hr2, hb2, hs⟩ := hpost
    have hx1 : x1 = x := by
      rw [hp] at hhead
      exact Option.some.inj hhead
    have hidx : r.RemainingVariables.map Variable.indice = st2.Parameters.Processing := by
      rw [hrem]
      apply map_get_indice hw
      intro i hi
      rw [hp] at hi
      exact hsub i (hperm.subset hi)
    refine ⟨st2, r, x, hrun, hb, by rw [hb]; rfl, hreg, hr2, ?_, ?_, hrem, hx, hhead, hci, ?_,
      ?_, ?_, ?_, ?_, hkeys, ?_, ?_, ?_, ?_⟩
    · rw [hidx, hp]
      exact hperm
    · intro var hv
      rw [hrem] at hv
      obtain ⟨i, hi, e⟩ := List.mem_map.1 hv
      have hik : i ∈ st.Solver.keys := by
        rw [hp] at hi
        exact hsub i (hperm.subset hi)
      have hI : (st.Solver.get i).indice = i := hw.2 i hik
      rw [← e, hI]
    · rw [hrem]
      apply List.mem_map.2
      refine ⟨x, ?_, rfl⟩
      rw [hp, hx1]
      exact List.mem_cons_self _ _
    · intro sel hsel
      rw [hcv]
      exact hsome sel hsel
    · intro hsel
      obtain ⟨tl2, hd2⟩ := hnone hsel
      have hd3 : (st.Solver.get x).Domain = val :: tl2 := hd2
      rw [hcv]
      unfold Variable.value
      rw [hd3]
      rfl
    · unfold dom
      rw [hget x, if_pos rfl, hcv]
      rfl
    · intro k hk
      rw [hget k, if_neg hk]
    · rw [hs]
    · rw [hs]
    · rw [hs]
    · rw [hs]
  · exfalso
    rcases hbad with h | ⟨x, hx, hd⟩
    · exact hne h
    · exact hdom x hx hd

/-- The first branching step on the variables `0 ↦ {1, 2}` and
`1 ↦ {1, 2, 3}`, without comparator or selector: the record saves both
variables, the index `0` and the value `1`, and the domain of `0` becomes
`{1}`. -/
theorem choice_point_capture_witness :
    ∃ (st2 : search_t Nat Nat) (save : record_t Nat Nat),
      branchedOnce = Run.ret () st2 ∧ st2.Parameters.Backup = [save] ∧
      save.Register = [0, 1] ∧
      save.RemainingVariables = [Variable.mk 0 [1, 2], Variable.mk 1 [1, 2, 3]] ∧
      save.ChoiceIndice = 0 ∧ save.ChoiceValue = 1 ∧ st2.Solver.dom 0 = [1] ∧
      st2.Solver.get 1 = Variable.mk 1 [1, 2, 3] := by
  obtain ⟨st2, save, x, h1, h2, _, h4, _, _, _, _, _, _, h11, _, _, h14, h15, h16, _⟩ :=
    choice_point_capture plainPolicies (fun _ l => List.Perm.refl l)
      (startSearch (addVariable [1, 2, 3] 1 (addVariable [1, 2] 0 new).2).2)
      (Fresh.facts (Fresh.add _ _ (Fresh.add _ _ Fresh.new))).1
      (by decide) (by decide) (by decide)
  have hrun : selectVariableAndValue plainPolicies
      (startSearch (addVariable [1, 2, 3] 1 (addVariable [1, 2] 0 new).2).2) =
      Run.ret ()
        { Solver := { IsSolveInProgress := true,
                      Variables := [(0, Variable.mk 0 [1]), (1, Variable.mk 1 [1, 2, 3])],
                      AdditionalIndices := [], RejectedIndices := [], SolutionList := [] },
          Parameters := { Processing := [0, 1], Register := [0, 1],
                          Backup := [{ Register := [0, 1],
                                       RemainingVariables :=
                                         [Variable.mk 0 [1, 2], Variable.mk 1 [1, 2, 3]],
                                       ChoiceIndice := 0, ChoiceValue := 1 }] } } := by
    decide
  rw [hrun] at h1
  cases h1
  have hs : save = { Register := [0, 1],
                     RemainingVariables := [Variable.mk 0 [1, 2], Variable.mk 1 [1, 2, 3]],
                     ChoiceIndice := 0, ChoiceValue := 1 } := by
    exact (List.cons.inj h2).1.symm
  refine ⟨_, save, hrun, h2, ?_, ?_, ?_, ?_, ?_, ?_⟩
  · rw [hs]
  · rw [hs]
  · rw [hs]
  · rw [hs]
  · decide
  · decide

/-- C29. Most-constrained-first. With the comparator of the drivers
(ascending domain size) and a sort that meets the contract of `std::sort`,
the pending set after the sort is a permutation of the pending set before, in
ascending order of domain size; and when the pending set is not empty and its
domains are not empty, `selectVariableAndValue` returns after branching on
the variable behind the front reference `x`, whose domain size is minimal
among all the variables of the pending set. -/
theorem most_constrained_first (P : Policies α ι) (hcmp : P.Comparator = some domainSizeLess)
    (hsort : SortContract P) (st : search_t α ι) :
    List.Perm (sortProcessing P st) st.Parameters.Processing ∧
    (sortProcessing P st).Pairwise
      (fun a b => (st.Solver.get a).domainSize ≤ (st.Solver.get b).domainSize) ∧
    (st.Parameters.Processing ≠ [] → (∀ i ∈ st.Parameters.Processing, st.Solver.dom i ≠ []) →
      ∃ (st2 : search_t α ι) (save : record_t α ι) (x : ι),
        selectVariableAndValue P st = Run.ret () st2 ∧
        List.Perm st2.Parameters.Processing st.Parameters.Processing ∧
        st2.Parameters.Processing.head? = some x ∧ x ∈ st.Parameters.Processing ∧
        st2.Parameters.Backup = save :: st.Parameters.Backup ∧
        save.ChoiceIndice = (st.Solver.get x).indice ∧
        (st2.Solver.get x).domainSize = 1 ∧
        ∀ y ∈ st.Parameters.Processing,
          (st.Solver.get x).domainSize ≤ (st.Solver.get y).domainSize) := by
  have hs := hsort (fun a b => domainSizeLess (st.Solver.get a) (st.Solver.get b))
    (strictWeak_domainSizeLess st.Solver) st.Parameters.Processing
  have he : sortProcessing P st =
      P.StdSort (fun a b => domainSizeLess (st.Solver.get a) (st.Solver.get b))
        st.Parameters.Processing := by
    unfold sortProcessing
    rw [hcmp]
  have hpw : (sortProcessing P st).Pairwise
      (fun a b => (st.Solver.get a).domainSize ≤ (st.Solver.get b).domainSize) := by
    rw [he]
    refine hs.2.imp ?_
    intro a b hab
    unfold domainSizeLess at hab
    simp only [decide_eq_false_iff_not, not_lt] at hab
    exact hab
  refine ⟨by rw [he]; exact hs.1, hpw, ?_⟩
  intro hne hdom
  have hperm : List.Perm (sortProcessing P st) st.Parameters.Processing := by
    rw [he]; exact hs.1
  unfold selectVariableAndValue
  generalize sortProcessing P st = processing at hperm hpw ⊢
  cases processing with
  | nil => exact absurd (List.Perm.eq_nil hperm.symm) hne
  | cons x rest =>
    have hx : x ∈ st.Parameters.Processing := hperm.subset (List.mem_cons_self _ _)
    cases hd : (st.Solver.get x).Domain with
    | nil => exact absurd hd (hdom x hx)
    | cons v0 tl =>
      unfold selectFront
      simp only [Variable.value, hd, List.head?_cons]
      refine ⟨_, _, x, rfl, hperm, rfl, hx, rfl, rfl, ?_, ?_⟩
      · have hfind : mapFind x st.Solver.Variables ≠ none := by
          intro hn
          have : (st.Solver.get x).Domain = [] := by
            unfold get
            rw [hn]
          rw [hd] at this
          exact List.noConfusion this
        have hk : x ∈ st.Solver.keys := by
          by_contra hk
          exact hfind ((mapFind_eq_none_iff x st.Solver.Variables).2 hk)
        rw [get_assign _ x x _ _ rfl, if_pos ⟨rfl, hk⟩]
        rfl
      · intro y hy
        rcases List.mem_cons.1 (hperm.symm.subset hy) with e | hm
        · rw [e]
        · exact (List.pairwise_cons.1 hpw).1 y hm

/-- The variables `0 ↦ {1, 2, 3}` and `1 ↦ {1, 2}` under the comparator of
the drivers and an insertion sort: the search branches on the index `1`. -/
theorem most_constrained_first_witness :
    sortProcessing sizePolicies
      (startSearch (addVariable [1, 2] 1 (addVariable [1, 2, 3] 0 new).2).2) = [1, 0] ∧
    ∃ (st2 : search_t Nat Nat) (save : record_t Nat Nat),
      selectVariableAndValue sizePolicies
        (startSearch (addVariable [1, 2] 1 (addVariable [1, 2, 3] 0 new).2).2) =
        Run.ret () st2 ∧
      st2.Parameters.Backup = [save] ∧ save.ChoiceIndice = 1 := by
  refine ⟨by decide, ?_⟩
  obtain ⟨st2, save, x, h1, _, h3, _, h5, h6, _, _⟩ :=
    (most_constrained_first sizePolicies rfl sortContract_sizePolicies
      (startSearch (addVariable [1, 2] 1 (addVariable [1, 2, 3] 0 new).2).2)).2.2
      (by decide) (by decide)
  have hrun : (selectVariableAndValue sizePolicies
      (startSearch (addVariable [1, 2] 1 (addVariable [1, 2, 3] 0 new).2).2)
      ).state.Parameters.Processing.head? = some 1 := by decide
  rw [h1] at hrun
  have hx : x = 1 := by
    have h := h3.symm.trans hrun
    exact Option.some.inj h
  rw [hx] at h6
  exact ⟨st2, save, h1, h5, h6⟩

/-! ## Domains during a search -/

/-- C28. No variable is compromised during a search. On a fresh solver whose
declared domains are not empty, with constraints that act only through
`exclude`, a sort that permutes and a selector that picks a value of the
domain it is given (the default one does), for every pair of budgets, that
is, at every point where the loops of the search can be stopped: no run of
`solve`, of `solveAll` or of the loop of `internSolve` ends by the exception
of `value()`; every variable of the active set has a non-empty domain in the
state reached; and when the loop has returned with a record on the stack,
backtracking to it leaves the chosen variable, the tried value removed, with
at least one value. -/
theorem never_compromised (P : Policies α ι) (hC : ∀ c ∈ P.Constraints, ExcludeOnly c)
    (hsort : ∀ cmp l, List.Perm (P.StdSort cmp l) l) (hsel : SelectorInDomain P)
    (s : ConstraintSolver α ι) (hf : Fresh s) (hdom : ∀ k ∈ s.keys, s.dom k ≠ [])
    (all : Bool) (total fuel : Nat) :
    (∀ st1, internSolveLoop P all total fuel (startSearch s) ≠ Run.raise st1) ∧
    (∀ k ∈ (internSolveLoop P all total fuel (startSearch s)).state.Solver.keys,
      (internSolveLoop P all total fuel (startSearch s)).state.Solver.dom k ≠ []) ∧
    (∀ st1, internSolveLoop P all total fuel (startSearch s) = Run.ret () st1 →
      ∀ r rs, st1.Parameters.Backup = r :: rs →
        r.ChoiceIndice ∈ (backtracking st1).Solver.keys ∧
        (backtracking st1).Solver.dom r.ChoiceIndice ≠ [] ∧
        r.ChoiceValue ∉ (backtracking st1).Solver.dom r.ChoiceIndice) ∧
    (∀ s1, solve P fuel s ≠ Run.raise s1) ∧
    (∀ k ∈ (solve P fuel s).state.keys, (solve P fuel s).state.dom k ≠ []) ∧
    (∀ s1, solveAll P fuel s ≠ Run.raise s1) ∧
    (∀ k ∈ (solveAll P fuel s).state.keys, (solveAll P fuel s).state.dom k ≠ []) := by
  have hS : ShrinkOnly P.Constraints := ShrinkOnly.of_excludeOnly hC
  obtain ⟨hw, hn, _, ha, _, _⟩ := hf.facts
  have h0 : SInv (startSearch s) := SInv.start hw hn ha
  have hne0 : AllNonempty (startSearch s) :=
    ⟨hdom, fun f hfm => absurd hfm (List.not_mem_nil f)⟩
  have key : ∀ (all : Bool) (total fuel : Nat),
      (∀ st1, internSolveLoop P all total fuel (startSearch s) ≠ Run.raise st1) ∧
      (∀ k ∈ (internSolveLoop P all total fuel (startSearch s)).state.Solver.keys,
        (internSolveLoop P all total fuel (startSearch s)).state.Solver.dom k ≠ []) ∧
      (∀ st1, internSolveLoop P all total fuel (startSearch s) = Run.ret () st1 →
        SInv st1 ∧ AllNonempty st1) := by
    intro all total fuel
    have hl := internSolveLoop_alive P hS hsort hsel all total fuel (startSearch s) h0 hne0
    cases hr : internSolveLoop P all total fuel (startSearch s) with
    | ret u st1 =>
      rw [hr] at hl
      exact ⟨fun st2 e => Run.noConfusion e, hl.2.1, fun st2 e => by cases e; exact hl⟩
    | raise st1 => rw [hr] at hl; exact hl.elim
    | stall st1 =>
      rw [hr] at hl
      exact ⟨fun st2 e => Run.noConfusion e, hl, fun st2 e => Run.noConfusion e⟩
  have hint : ∀ all : Bool,
      (∀ s1, internSolve P all fuel s ≠ Run.raise s1) ∧
      (∀ k ∈ (internSolve P all fuel s).state.keys, (internSolve P all fuel s).state.dom k ≠ []) := by
    intro all
    obtain ⟨k1, k2, _⟩ := key all fuel fuel
    unfold internSolve
    cases hr : internSolveLoop P all fuel fuel (startSearch s) with
    | ret u st1 =>
      rw [hr] at k2
      exact ⟨fun s1 e => Run.noConfusion e, k2⟩
    | raise st1 => exact absurd hr (k1 st1)
    | stall st1 =>
      rw [hr] at k2
      exact ⟨fun s1 e => Run.noConfusion e, k2⟩
  obtain ⟨k1, k2, k3⟩ := key all total fuel
  refine ⟨k1, k2, ?_, (hint false).1, (hint false).2, (hint true).1, (hint true).2⟩
  intro st1 hr r rs hB
  obtain ⟨h1, hn1⟩ := k3 st1 hr
  have hst := h1.stack
  rw [hB] at hst
  obtain ⟨_, hnd, _, hsubk, hci, _, _⟩ := hst
  have hkept := (Kept.by_backtracking h1 r rs hB).1
  have hck : r.ChoiceIndice ∈ st1.Solver.keys := hsubk _ hci
  have hall := (potential_of_backtracking h1 hn1 r rs hB).1
  refine ⟨by rw [hkept]; exact hck, hall.1 _ (by rw [hkept]; exact hck), ?_⟩
  rw [backtracking_dom st1 h1 r rs hB]
  obtain ⟨var, hv, hvi⟩ := List.mem_map.1 hci
  unfold frameDom
  rw [← hvi, find?_indice_of_mem hnd hv]
  simp

/-- Two variables of domain `{1, 2}` linked by a not-equal propagator: the
search for all the solutions does not throw, and the index `0` has a value
when the search is stopped after three turns. -/
theorem never_compromised_witness :
    (∀ st1, internSolveLoop pairPolicies true 3 3
        (startSearch (addVariable [1, 2] 1 (addVariable [1, 2] 0 new).2).2) ≠ Run.raise st1) ∧
    (internSolveLoop pairPolicies true 3 3
        (startSearch (addVariable [1, 2] 1 (addVariable [1, 2] 0 new).2).2)).state.Solver.dom 0
      ≠ [] ∧
    (∀ s1, solveAll pairPolicies 16 (addVariable [1, 2] 1 (addVariable [1, 2] 0 new).2).2 ≠
      Run.raise s1) :=
  ⟨(never_compromised pairPolicies
      (fun c hc => by
        rw [List.mem_singleton.1 hc]
        exact differs_excludeOnly pairTargets)
      (fun _ l => List.Perm.refl l) (fun sel hs => by cases hs)
      (addVariable [1, 2] 1 (addVariable [1, 2] 0 new).2).2
      (Fresh.add _ _ (Fresh.add _ _ Fresh.new)) (by decide) true 3 3).1,
    (never_compromised pairPolicies
      (fun c hc => by
        rw [List.mem_singleton.1 hc]
        exact differs_excludeOnly pairTargets)
      (fun _ l => List.Perm.refl l) (fun sel hs => by cases hs)
      (addVariable [1, 2] 1 (addVariable [1, 2] 0 new).2).2
      (Fresh.add _ _ (Fresh.add _ _ Fresh.new)) (by decide) true 3 3).2.1 0 (by decide!),
    (never_compromised pairPolicies
      (fun c hc => by
        rw [List.mem_singleton.1 hc]
        exact differs_excludeOnly pairTargets)
      (fun _ l => List.Perm.refl l) (fun sel hs => by cases hs)
      (addVariable [1, 2] 1 (addVariable [1, 2] 0 new).2).2
      (Fresh.add _ _ (Fresh.add _ _ Fresh.new)) (by decide) true 16 16).2.2.2.2.2.1⟩

/-! ## The solution registry -/

/-- C23. The solution registry is append-only. With constraints that leave
a registry that starts with the one they found (those that never touch it,
the registry being a private member, are of this kind), the registry after a
call of `solve()` or of `solveAll()`, however the call ends, and the registry
at every point where the loop of `internSolve` can be stopped, start with the
registry before; `exclude` and `addVariable` leave the registry as it is.
The entries are copies: nothing that happens to the variables afterwards
changes them. -/
theorem registry_append_only (P : Policies α ι)
    (hC : ∀ c ∈ P.Constraints, ExtendsRegistry c) (s : ConstraintSolver α ι) (fuel : Nat) :
    s.SolutionList <+: (solve P fuel s).state.SolutionList ∧
    s.SolutionList <+: (solveAll P fuel s).state.SolutionList ∧
    (∀ (all : Bool) (total n : Nat) (st : search_t α ι),
      st.Solver.SolutionList <+:
        (internSolveLoop P all total n st).state.Solver.SolutionList) ∧
    (∀ (value : α) (indice : ι), (exclude value indice s).2.SolutionList = s.SolutionList) ∧
    (∀ (domain : List α) (indice : ι),
      (addVariable domain indice s).2.SolutionList = s.SolutionList) :=
  ⟨internSolve_extends P hC false fuel s, internSolve_extends P hC true fuel s,
    fun all total n st => internSolveLoop_extends P hC all total n st,
    fun value indice => (exclude_fields value indice s).2.2.2,
    fun domain indice => (addVariable_fields domain indice s).2.2.2.2⟩

/-- Two variables of domain `{1, 2}` linked by a not-equal propagator:
`solve()` records one solution, and a later `solveAll()` keeps it at the head
of the registry. -/
theorem registry_append_only_witness :
    (solve pairPolicies 16 (addVariable [1, 2] 1 (addVariable [1, 2] 0 new).2).2
      ).state.SolutionList = [[Variable.mk 0 [1], Variable.mk 1 [2]]] ∧
    [[Variable.mk 0 [1], Variable.mk 1 [2]]] <+:
      (solveAll pairPolicies 16
        (solve pairPolicies 16 (addVariable [1, 2] 1 (addVariable [1, 2] 0 new).2).2).state
      ).state.SolutionList := by
  have h0 : (solve pairPolicies 16 (addVariable [1, 2] 1 (addVariable [1, 2] 0 new).2).2
      ).state.SolutionList = [[Variable.mk 0 [1], Variable.mk 1 [2]]] := by decide!
  have h := (registry_append_only pairPolicies
    (fun c hc => by
      rw [List.mem_singleton.1 hc]
      exact ExtendsRegistry.by_keeps (KeepsRegistry.by_excludeOnly (differs_excludeOnly pairTargets)))
    (solve pairPolicies 16 (addVariable [1, 2] 1 (addVariable [1, 2] 0 new).2).2).state 16).2.1
  rw [h0] at h
  exact ⟨h0, h⟩

/-! ## Propagation -/

/-- C24. Result of a propagation call in which no variable is added, the
constraints leaving the queue of added indices as it is.  The function with
its log of calls computes what `partitionAndConstrain` computes.  When the
call returns `(sastified, hasUnresolved)`: `sastified` is false exactly when
some call of a constraint returned false, and then `hasUnresolved` is false;
when `sastified` is true, `hasUnresolved` is true exactly when the processing
set left behind is not empty, and no variable left in it is instantiated.
Under constraints that only shrink domains the call does return, within a
budget above the size of the processing set. -/
theorem partition_result (P : Policies α ι) (hK : ∀ c ∈ P.Constraints, KeepsQueue c)
    (fuel : Nat) (st : search_t α ι) (hadd : st.Solver.AdditionalIndices = []) :
    (partitionAndConstrainLog P fuel st).1 = partitionAndConstrain P fuel st ∧
    (∀ b st1, partitionAndConstrain P fuel st = Run.ret b st1 →
      (b.1 = false ↔
        ∃ c ∈ allCalls (partitionAndConstrainLog P fuel st).2, c.Result = false) ∧
      (b.1 = false → b.2 = false) ∧
      (b.1 = true → (b.2 = true ↔ st1.Parameters.Processing ≠ []) ∧
        ∀ r ∈ st1.Parameters.Processing, (st1.Solver.get r).isInstantiated = false)) ∧
    (ShrinkOnly P.Constraints → DomNodup st.Solver → st.Parameters.Processing.length < fuel →
      ∃ b st1, partitionAndConstrain P fuel st = Run.ret b st1) := by
  refine ⟨partitionAndConstrainLog_fst P fuel st, ?_, ?_⟩
  · intro b st1 hrun
    obtain ⟨f1, f2, _⟩ := partitionAndConstrain_fixpoint P hK fuel st hadd b st1 hrun
    have hlog := (partitionLoopLog_results P fuel true true false st).2 b st1
      ((partitionAndConstrainLog_fst P fuel st).trans hrun)
    refine ⟨hlog, ?_, ?_⟩
    · intro hb
      rw [f1, hb]
      rfl
    · intro hb
      refine ⟨?_, f2 hb⟩
      rw [f1, hb, Bool.true_and]
      exact isEmpty_not_eq_true _
  · intro hS hn hlt
    exact (partitionAndConstrain_spec P hS fuel st hadd hn).2 hlt

/-- The variables `0 ↦ {1}` and `1 ↦ {1}` under a not-equal propagator: the
propagation returns `(false, false)`, and its only call returned false. -/
theorem partition_result_witness :
    partitionAndConstrain pairPolicies 3
        (startSearch (addVariable [1] 1 (addVariable [1] 0 new).2).2) =
      Run.ret (false, false)
        { Solver := { IsSolveInProgress := true,
                      Variables := [(0, Variable.mk 0 [1]), (1, Variable.mk 1 [1])],
                      AdditionalIndices := [], RejectedIndices := [], SolutionList := [] },
          Parameters := { Processing := [], Register := [0, 1], Backup := [] } } ∧
    allCalls (partitionAndConstrainLog pairPolicies 3
        (startSearch (addVariable [1] 1 (addVariable [1] 0 new).2).2)).2 =
      [{ Constraint := 0, Indice := 0, Value := 1, Result := false }] ∧
    ∃ c ∈ allCalls (partitionAndConstrainLog pairPolicies 3
        (startSearch (addVariable [1] 1 (addVariable [1] 0 new).2).2)).2, c.Result = false := by
  have hrun : partitionAndConstrain pairPolicies 3
        (startSearch (addVariable [1] 1 (addVariable [1] 0 new).2).2) =
      Run.ret (false, false)
        { Solver := { IsSolveInProgress := true,
                      Variables := [(0, Variable.mk 0 [1]), (1, Variable.mk 1 [1])],
                      AdditionalIndices := [], RejectedIndices := [], SolutionList := [] },
          Parameters := { Processing := [], Register := [0, 1], Backup := [] } } := by
    decide!
  exact ⟨hrun, by decide!,
    (((partition_result pairPolicies
      (fun c hc => by
        rw [List.mem_singleton.1 hc]
        exact KeepsQueue.of_exclude (differs_excludeOnly pairTargets))
      3 (startSearch (addVariable [1] 1 (addVariable [1] 0 new).2).2)
      (by decide)).2.1 _ _ hrun).1).1
      rfl⟩

/-- C25. Order of the calls within a propagation round, in a search without
added variables, the constraints acting only through `exclude`.  The first
round partitions the processing set as the call found it.  In each round the
calls are, in this order, the calls due: for each variable that the round
found instantiated, in the order of the processing set, each constraint in
the order of registration; each call receives the index of the variable and
the single value of its domain, and is a call of the constraint registered at
the position logged; the sequence stops with the first call that
returns false: every call but the last returned true, in the round and over the
rounds, and when all the calls of a round returned true none of the calls due
is missing. -/
theorem constraint_invocation_order (P : Policies α ι)
    (hC : ∀ c ∈ P.Constraints, ExcludeOnly c) (fuel : Nat) (st : search_t α ι)
    (hadd : st.Solver.AdditionalIndices = []) (hw : WF st.Solver) (hn : DomNodup st.Solver)
    (hnd : st.Parameters.Processing.Nodup)
    (hsub : ∀ i ∈ st.Parameters.Processing, i ∈ st.Solver.keys) :
    (partitionAndConstrainLog P fuel st).1 = partitionAndConstrain P fuel st ∧
    (∀ R0, (partitionAndConstrainLog P fuel st).2.head? = some R0 →
      R0.Solver = st.Solver ∧ R0.Processing = st.Parameters.Processing) ∧
    (∀ R ∈ (partitionAndConstrainLog P fuel st).2,
      R.Calls.map key <+: due P.Constraints.length (instantiatedVars R) ∧
      ((∀ c ∈ R.Calls, c.Result = true) →
        R.Calls.map key = due P.Constraints.length (instantiatedVars R)) ∧
      (∀ c ∈ R.Calls, c.Indice ∈ instantiatedVars R ∧
        (R.Solver.get c.Indice).domain = [c.Value] ∧
        ∃ cf s1, P.Constraints[c.Constraint]? = some cf ∧
          c.Result = (cf s1 c.Indice c.Value).1) ∧
      (∀ c ∈ R.Calls.dropLast, c.Result = true)) ∧
    (∀ c ∈ (allCalls (partitionAndConstrainLog P fuel st).2).dropLast, c.Result = true) := by
  obtain ⟨r1, _, _, r4, _⟩ := partitionLoopLog_rounds P (ShrinkOnly.of_excludeOnly hC) fuel
    true true true st hadd hw hn hnd hsub
  refine ⟨partitionAndConstrainLog_fst P fuel st, r4, ?_,
    (partitionLoopLog_results P fuel true true false st).1⟩
  intro R hR
  obtain ⟨a1, a2, a3, _⟩ := r1 R hR
  exact ⟨a1, a2,
    fun c hc => ⟨(a3 c hc).1, (a3 c hc).2,
      partitionLoopLog_calls P fuel true true true false st R hR c hc⟩,
    partitionLoopLog_round_results P fuel true true true false st R hR⟩

/-- The variables `0 ↦ {1}`, `1 ↦ {1, 2}` and `2 ↦ {3}` under two not-equal
propagators between `0` and `1`: the first round calls both on `0`, then both
on `2`; the second round calls both on `1`. -/
theorem constraint_invocation_order_witness :
    (partitionAndConstrainLog twicePolicies 3
        (startSearch (addVariable [3] 2 (addVariable [1, 2] 1
          (addVariable [1] 0 new).2).2).2)).2.map (fun R => R.Calls.map key) =
      [[(0, 0), (0, 1), (2, 0), (2, 1)], [(1, 0), (1, 1)]] ∧
    ∀ R ∈ (partitionAndConstrainLog twicePolicies 3
        (startSearch (addVariable [3] 2 (addVariable [1, 2] 1
          (addVariable [1] 0 new).2).2).2)).2,
      R.Calls.map key <+: due 2 (instantiatedVars R) :=
  ⟨by decide!, fun R hR =>
    ((constraint_invocation_order twicePolicies
      (fun c hc => by
        have : c = differs pairTargets := by
          rcases List.mem_cons.1 hc with e | hm
          · exact e
          · exact List.mem_singleton.1 hm
        rw [this]
        exact differs_excludeOnly pairTargets)
      3 (startSearch (addVariable [3] 2 (addVariable [1, 2] 1 (addVariable [1] 0 new).2).2).2)
      (by decide) (Fresh.facts (Fresh.add _ _ (Fresh.add _ _ (Fresh.add _ _ Fresh.new)))).1
      (Fresh.facts (Fresh.add _ _ (Fresh.add _ _ (Fresh.add _ _ Fresh.new)))).2.1
      (by decide) (by decide)).2.2.1 R hR).1⟩

/-- C26. Calls within one call of `partitionAndConstrain`, in a search
without added variables, the constraints acting only through `exclude` and
the processing set holding each reference once.  The function with its log of
calls computes what `partitionAndConstrain` computes.  Over all the rounds no
constraint is called twice for the same index; every call is made for a
variable of the processing set of its round that is instantiated at the moment
of the partition; and when the call returns, every variable that a round found
instantiated (those whose constraints were called among them) is out of the
processing set left behind, with the domain it had. -/
theorem constraint_invoked_once (P : Policies α ι)
    (hC : ∀ c ∈ P.Constraints, ExcludeOnly c) (fuel : Nat) (st : search_t α ι)
    (hadd : st.Solver.AdditionalIndices = []) (hw : WF st.Solver) (hn : DomNodup st.Solver)
    (hnd : st.Parameters.Processing.Nodup)
    (hsub : ∀ i ∈ st.Parameters.Processing, i ∈ st.Solver.keys) :
    (partitionAndConstrainLog P fuel st).1 = partitionAndConstrain P fuel st ∧
    ((allCalls (partitionAndConstrainLog P fuel st).2).map key).Nodup ∧
    (∀ R ∈ (partitionAndConstrainLog P fuel st).2,
      List.Sublist R.Processing st.Parameters.Processing ∧
      ∀ c ∈ R.Calls, c.Indice ∈ R.Processing ∧
        (R.Solver.get c.Indice).isInstantiated = true) ∧
    (∀ b st1, partitionAndConstrain P fuel st = Run.ret b st1 →
      ∀ R ∈ (partitionAndConstrainLog P fuel st).2, ∀ r ∈ R.Processing,
        (R.Solver.get r).isInstantiated = true →
        r ∉ st1.Parameters.Processing ∧ (st1.Solver.get r).domain = (R.Solver.get r).domain) := by
  obtain ⟨r1, r2, r3, _, _⟩ := partitionLoopLog_rounds P (ShrinkOnly.of_excludeOnly hC) fuel
    true true true st hadd hw hn hnd hsub
  refine ⟨partitionAndConstrainLog_fst P fuel st, r2, ?_, ?_⟩
  · intro R hR
    obtain ⟨_, _, a3, a4⟩ := r1 R hR
    refine ⟨a4, ?_⟩
    intro c hc
    exact List.mem_filter.1 (a3 c hc).1
  · intro b st1 hrun R hR r hr hinst
    obtain ⟨j1, j2, j3⟩ := r3 b st1 ((partitionAndConstrainLog_fst P fuel st).trans hrun)
    exact j3 R hR r (List.mem_filter.2 ⟨hr, hinst⟩)

/-- The variables `0 ↦ {1}`, `1 ↦ {1, 2}` and `2 ↦ {3}` under two not-equal
propagators between `0` and `1`: six calls, no two for the same constraint and
index, and nothing left to process. -/
theorem constraint_invoked_once_witness :
    (allCalls (partitionAndConstrainLog twicePolicies 3
        (startSearch (addVariable [3] 2 (addVariable [1, 2] 1
          (addVariable [1] 0 new).2).2).2)).2).length = 6 ∧
    ((allCalls (partitionAndConstrainLog twicePolicies 3
        (startSearch (addVariable [3] 2 (addVariable [1, 2] 1
          (addVariable [1] 0 new).2).2).2)).2).map key).Nodup :=
  ⟨by decide!,
    (constraint_invoked_once twicePolicies
      (fun c hc => by
        have : c = differs pairTargets := by
          rcases List.mem_cons.1 hc with e | hm
          · exact e
          · exact List.mem_singleton.1 hm
        rw [this]
        exact differs_excludeOnly pairTargets)
      3 (startSearch (addVariable [3] 2 (addVariable [1, 2] 1 (addVariable [1] 0 new).2).2).2)
      (by decide) (Fresh.facts (Fresh.add _ _ (Fresh.add _ _ (Fresh.add _ _ Fresh.new)))).1
      (Fresh.facts (Fresh.add _ _ (Fresh.add _ _ (Fresh.add _ _ Fresh.new)))).2.1
      (by decide) (by decide)).2.1⟩

end ConstraintSolver

end solver

namespace DependencyGraph

variable {T : Type} [LinearOrder T]

/-! ## Topological sort -/

/-- C30. Topological order. For the object built by `addDependency(u, v)`
over a list of dependencies that contains no cycle, `topologicalSort()`, given
a budget that covers the vertices, returns a vector that holds every vertex
(every end of a dependency) once, in which, for every dependency `(u, v)`
added, `v` stands before `u`: every vertex comes after everything it depends
on. -/
theorem topological_order (deps : List (T × T)) (hac : Acyclic deps) (fuel : Nat)
    (hfuel : (build deps).vertices.length ≤ fuel) :
    ∃ sorted g1, topologicalSort fuel (build deps) = some (sorted, g1) ∧ sorted.Nodup ∧
      (∀ x, x ∈ sorted ↔ ∃ d ∈ deps, x = d.1 ∨ x = d.2) ∧
      ∀ u v, (u, v) ∈ deps → ∃ l1 l2 l3, sorted = l1 ++ v :: l2 ++ u :: l3 := by
  obtain ⟨b1, b2, b3⟩ := build_spec deps
  have hV : ∀ x ∈ (build deps).vertices, ∀ d ∈ edges x (build deps).graph,
      d ∈ (build deps).vertices := by
    intro x _ d hd
    exact (b3 d).2 ⟨(x, d), (b2 x d).1 hd, Or.inr rfl⟩
  have hac2 : ∀ x, ¬ Relation.TransGen (fun a b => b ∈ edges a (build deps).graph) x x := by
    intro x hx
    exact hac x (Relation.TransGen.mono (fun a b hab => (b2 a b).1 hab) hx)
  obtain ⟨sorted, g1, h1, h2, h3, h4, _, _⟩ :=
    topologicalSort_spec (build deps) b1 hV hac2 fuel hfuel
  refine ⟨sorted, g1, h1, h2, fun x => (h3 x).trans (b3 x), ?_⟩
  intro u v huv
  exact h4 u ((b3 u).2 ⟨(u, v), huv, Or.inl rfl⟩) v ((b2 u v).2 huv)

/-- The dependencies `1` on `2`, `2` on `3` and `1` on `3`: the order
returned is `3, 2, 1`, and `3` stands before `2`. -/
theorem topological_order_witness :
    (topologicalSort 3 (build [(1, 2), (2, 3), (1, 3)])).map Prod.fst = some [3, 2, 1] ∧
    ∃ sorted g1, topologicalSort 3 (build [(1, 2), (2, 3), (1, 3)]) = some (sorted, g1) ∧
      ∃ l1 l2 l3, sorted = l1 ++ 3 :: l2 ++ 2 :: l3 := by
  refine ⟨by decide, ?_⟩
  obtain ⟨sorted, g1, h1, _, _, h4⟩ := topological_order [(1, 2), (2, 3), (1, 3)]
    (acyclic_of_rank _ (fun x => 10 - x) (by decide)) 3 (by decide)
  exact ⟨sorted, g1, h1, h4 2 3 (by decide)⟩

end DependencyGraph


namespace solver

namespace ConstraintSolver

variable {α ι : Type} [LinearOrder α] [LinearOrder ι]

/-! ## Corner cases of `exclude` -/

/-- C32. Method `exclude` on an unknown index: for an index that is not in
the active set, `exclude(v, i)` returns `false` and leaves the solver as it
is; so the loop of a not-equal propagator that meets such an index as its next
target reports a contradiction, the solver unchanged. -/
theorem exclude_unknown_index (value : α) (indice : ι) (s : ConstraintSolver α ι)
    (h : s.exists indice = false) :
    (exclude value indice s).1 = false ∧ (exclude value indice s).2 = s ∧
    ∀ js, excludeAll value (indice :: js) s = (false, s) := by
  have hf : mapFind indice s.Variables = none := by
    unfold «exists» at h
    cases hm : mapFind indice s.Variables with
    | none => rfl
    | some var => rw [hm] at h; exact Bool.noConfusion h
  have he := exclude_fst_snd value indice s
  rw [hf] at he
  refine ⟨he.1, he.2, ?_⟩
  intro js
  unfold excludeAll
  rw [he.1, he.2]
  rfl

/-- The index `7` of the solver with the variables `0`, `1`, `2`. -/
theorem exclude_unknown_index_witness :
    exclude 1 7 threeByThree = (false, threeByThree) := by
  obtain ⟨h1, h2, _⟩ := exclude_unknown_index 1 7 threeByThree (by decide)
  exact Prod.ext h1 h2

/-- C33. Engine-level `exclude` never empties a domain. On a variable whose
domain holds no value twice (as a `std::set` does): a non-empty domain is
non-empty afterwards; a domain of two values that loses one of them becomes
instantiated; an instantiated domain is left as it is, with the whole solver;
and in every case the other variables, the indices of the active set, the
rejected set, the registry, the list of added indices and the flag of the
search are unchanged. -/
theorem exclude_keeps_nonempty (v : α) (i : ι) (s : ConstraintSolver α ι)
    (hn : (s.dom i).Nodup) :
    (s.dom i ≠ [] → (exclude v i s).2.dom i ≠ []) ∧
    ((s.dom i).length = 2 → v ∈ s.dom i →
      ((exclude v i s).2.get i).isInstantiated = true) ∧
    ((s.get i).isInstantiated = true → (exclude v i s).2 = s) ∧
    (∀ j, j ≠ i → (exclude v i s).2.get j = s.get j) ∧
    (exclude v i s).2.keys = s.keys ∧
    (exclude v i s).2.RejectedIndices = s.RejectedIndices ∧
    (exclude v i s).2.SolutionList = s.SolutionList ∧
    (exclude v i s).2.AdditionalIndices = s.AdditionalIndices ∧
    (exclude v i s).2.IsSolveInProgress = s.IsSolveInProgress := by
  obtain ⟨_, e2, e3⟩ := exclude_dom v i s
  obtain ⟨f1, f2, f3, f4⟩ := exclude_fields v i s
  refine ⟨?_, ?_, ?_, ?_, keys_exclude v i s, f3, f4, f2, f1⟩
  · intro hne
    rw [e2 i]
    by_cases h1 : 1 < (s.dom i).length
    · rw [if_pos ⟨rfl, h1⟩]
      exact List.ne_nil_of_length_pos (filter_ne_length_pos v h1 hn)
    · rw [if_neg (fun hh => h1 hh.2)]
      exact hne
  · intro h2 hv
    have hd : (exclude v i s).2.dom i = (s.dom i).filter (fun w => decide (w ≠ v)) := by
      rw [e2 i, if_pos ⟨rfl, by omega⟩]
    have hlen : ((s.dom i).filter (fun w => decide (w ≠ v))).length = 1 := by
      match hl : s.dom i, h2, hv, hn with
      | [a, b], _, hv, hn =>
        have hab : a ≠ b := by
          intro e
          rw [List.nodup_cons] at hn
          exact hn.1 (e ▸ List.mem_cons_self _ _)
        rcases List.mem_cons.1 hv with e | hm
        · rw [e]
          simp [List.filter_cons, hab.symm]
        · have e : v = b := List.mem_singleton.1 hm
          rw [e]
          simp [List.filter_cons, hab]
    unfold Variable.isInstantiated
    have : ((exclude v i s).2.get i).Domain.length = 1 := by
      have hd2 : ((exclude v i s).2.get i).Domain =
          (s.dom i).filter (fun w => decide (w ≠ v)) := hd
      rw [hd2]
      exact hlen
    rw [this]
    rfl
  · intro hi
    apply e3
    unfold Variable.isInstantiated at hi
    unfold dom
    have : (s.get i).Domain.length = 1 := by simpa using hi
    omega
  · intro j hj
    rw [get_exclude v i j s, if_neg (fun hh => hj hh.1)]

/-- The value `2` excluded from the variable `0 ↦ {1, 2}`, which becomes
instantiated to `1`. -/
theorem exclude_keeps_nonempty_witness :
    (exclude 2 0 twoValued).2.dom 0 = [1] ∧ (exclude 2 0 twoValued).2.dom 0 ≠ [] :=
  ⟨by decide, (exclude_keeps_nonempty 2 0 twoValued (by decide)).1 (by decide)⟩

/-! ## Corner cases of `solve` -/

/-- C34. A solver without variables has no solution: on the solver as
constructed, whatever the comparator, the selector and the constraints, `solve`
and `solveAll` return with any budget of at least one turn, `solve` returns
`false`, and the solver is left as it was, with an empty registry. -/
theorem solve_of_new (P : Policies α ι) (fuel : Nat) :
    solve P (fuel + 1) (new : ConstraintSolver α ι) = Run.ret false new ∧
    solveAll P (fuel + 1) (new : ConstraintSolver α ι) = Run.ret false new ∧
    (new : ConstraintSolver α ι).SolutionList = [] ∧
    (new : ConstraintSolver α ι).solutionsSize = 0 := by
  have key : ∀ all : Bool,
      internSolve P all (fuel + 1) (new : ConstraintSolver α ι) = Run.ret false new := by
    intro all
    unfold internSolve
    rw [internSolveLoop, SearchSolution]
    simp [searchBody, startSearch, new]
  exact ⟨key false, key true, rfl, rfl⟩

/-- C36. The value returned by an installed selector is not checked against
the domain. Whatever the selector returns for the front variable (of the
active set, with a domain that is not empty), `selectVariableAndValue` records
it as the chosen value and makes it the only value of the domain. On the
variable `0 ↦ {1, 2}` without constraints and a selector that returns `5`,
`solve` returns `true` and records the solution `0 ↦ 5`, whose value is not in
the declared domain. -/
theorem selector_unchecked :
    (∀ (P : Policies α ι) (sel : Variable α ι → α) (st : search_t α ι) (x : ι)
        (rest : List ι) (v0 : α) (tl : List α),
      P.Selector = some sel → sortProcessing P st = x :: rest →
      (st.Solver.get x).Domain = v0 :: tl →
      ∃ st2 save, selectVariableAndValue P st = Run.ret () st2 ∧
        st2.Parameters.Backup = save :: st.Parameters.Backup ∧
        save.ChoiceValue = sel (st.Solver.get x) ∧
        st2.Solver.dom x = [sel (st.Solver.get x)]) ∧
    solve fivePolicies 3 twoValued =
      Run.ret true
        { IsSolveInProgress := false, Variables := [(0, Variable.mk 0 [5])],
          AdditionalIndices := [], RejectedIndices := [],
          SolutionList := [[Variable.mk 0 [5]]] } ∧
    twoValued.dom 0 = [1, 2] ∧ 5 ∉ twoValued.dom 0 := by
  refine ⟨?_, by decide!, by decide, by decide⟩
  intro P sel st x rest v0 tl hsel hp hd
  unfold selectVariableAndValue
  rw [hp]
  unfold selectFront
  simp only [Variable.value, hd, List.head?_cons, hsel]
  refine ⟨_, _, rfl, rfl, rfl, ?_⟩
  have hk : x ∈ st.Solver.keys := by
    apply mem_keys_of_dom_ne_nil
    unfold dom
    rw [hd]
    exact List.cons_ne_nil _ _
  unfold dom
  rw [get_assign _ x x _ _ rfl, if_pos ⟨rfl, hk⟩]
  rfl

/-- C37. Method `solve` leaves the solution in the active set. After `solve`
returned `true` on a fresh solver, the constraints acting only through
`exclude` (so that no variable is added) and the sort permuting: the active set
has the indices it had; the registry holds one entry, which lists the
variables of the active set in the order of their indices as `get` returns them;
every variable of the active set is instantiated; and for every entry of that
last solution, `get` of its index is the entry itself, with the same value. -/
theorem solution_left_in_place (P : Policies α ι) (hC : ∀ c ∈ P.Constraints, ExcludeOnly c)
    (hsort : ∀ cmp l, List.Perm (P.StdSort cmp l) l)
    (s : ConstraintSolver α ι) (hf : Fresh s) (fuel : Nat) (s1 : ConstraintSolver α ι)
    (h : solve P fuel s = Run.ret true s1) :
    s1.keys = s.keys ∧
    s1.SolutionList = [s1.keys.map (fun i => s1.get i)] ∧
    (∀ i ∈ s1.keys, (s1.get i).isInstantiated = true ∧ (s1.get i).indice = i) ∧
    ∃ sol, s1.SolutionList.getLast? = some sol ∧ sol.map Variable.indice = s1.keys ∧
      ∀ var ∈ sol, s1.get var.indice = var ∧ (s1.get var.indice).value = var.value := by
  obtain ⟨st1, h1, hp, hk, _, e⟩ :=
    solve_true_state P (ShrinkOnly.of_excludeOnly hC) hsort s hf fuel s1 h
  have hkeys : s1.keys = st1.Solver.keys := by rw [e]; rfl
  have hget : ∀ i, s1.get i = st1.Solver.get i := by intro i; rw [e]; rfl
  have hlist : s1.SolutionList = [s1.keys.map (fun i => s1.get i)] := by
    rw [hkeys]
    have : (fun i => s1.get i) = fun i => st1.Solver.get i := funext hget
    rw [this, e]
  have hidx : (s1.keys.map (fun i => s1.get i)).map Variable.indice = s1.keys := by
    have : (fun i => s1.get i) = fun i => st1.Solver.get i := funext hget
    rw [this, hkeys]
    exact map_get_indice h1.wf _ (fun i hi => hi)
  refine ⟨hkeys.trans hk, hlist, ?_, s1.keys.map (fun i => s1.get i), ?_, hidx, ?_⟩
  · intro i hi
    rw [hkeys] at hi
    rw [hget i]
    refine ⟨?_, h1.wf.2 i hi⟩
    have := h1.inst i hi (by rw [hp]; exact List.not_mem_nil i)
    simpa [Variable.isInstantiated, dom] using this
  · rw [hlist]
    rfl
  · intro var hv
    obtain ⟨i, hi, ei⟩ := List.mem_map.1 hv
    have hI : (s1.get i).indice = i := by
      rw [hget i]
      rw [hkeys] at hi
      exact h1.wf.2 i hi
    have : s1.get var.indice = var := by
      rw [← ei, hI]
    exact ⟨this, by rw [this]⟩

/-- Two variables of domain `{1, 2}` linked by a not-equal propagator: after
`solve`, `get(0)` and `get(1)` are the entries `0 ↦ 1` and `1 ↦ 2` of the
solution recorded. -/
theorem solution_left_in_place_witness :
    solve pairPolicies 16 (addVariable [1, 2] 1 (addVariable [1, 2] 0 new).2).2 =
      Run.ret true
        { IsSolveInProgress := false,
          Variables := [(0, Variable.mk 0 [1]), (1, Variable.mk 1 [2])],
          AdditionalIndices := [], RejectedIndices := [],
          SolutionList := [[Variable.mk 0 [1], Variable.mk 1 [2]]] } ∧
    (solve pairPolicies 16 (addVariable [1, 2] 1 (addVariable [1, 2] 0 new).2).2
      ).state.SolutionList =
      [(solve pairPolicies 16 (addVariable [1, 2] 1 (addVariable [1, 2] 0 new).2).2
        ).state.keys.map
        (fun i => (solve pairPolicies 16 (addVariable [1, 2] 1 (addVariable [1, 2] 0 new).2).2
          ).state.get i)] := by
  have hrun : solve pairPolicies 16 (addVariable [1, 2] 1 (addVariable [1, 2] 0 new).2).2 =
      Run.ret true
        { IsSolveInProgress := false,
          Variables := [(0, Variable.mk 0 [1]), (1, Variable.mk 1 [2])],
          AdditionalIndices := [], RejectedIndices := [],
          SolutionList := [[Variable.mk 0 [1], Variable.mk 1 [2]]] } := by decide!
  refine ⟨hrun, ?_⟩
  have h := (solution_left_in_place pairPolicies
    (fun c hc => by
      rw [List.mem_singleton.1 hc]
      exact differs_excludeOnly pairTargets)
    (fun _ l => List.Perm.refl l)
    (addVariable [1, 2] 1 (addVariable [1, 2] 0 new).2).2
    (Fresh.add _ _ (Fresh.add _ _ Fresh.new)) 16 _ hrun).2.1
  rw [hrun]
  exact h

/-- C38. Repeating `solve`. On a fresh solver with not-equal propagators only
(none at all when `Ts` is empty), whatever the selector, after `solve` returned
`true` the registry holds one solution `sol`, with the indices of the active
set, all instantiated, and a second call of `solve` returns `true` with the
variables as they are. When every target of every variable is a variable of
another value, the second call appends `sol` once more, so that the registry
holds `sol` twice; otherwise it appends nothing and the registry keeps its
single entry. The condition holds without propagators, and with propagators
whose targets are variables when the selector, if any, returns a value of the
domain it is given. -/
theorem second_solve_repeats (P : Policies α ι) (Ts : List (ι → List ι))
    (hP : P.Constraints = Ts.map differs)
    (hsort : ∀ cmp l, List.Perm (P.StdSort cmp l) l)
    (s : ConstraintSolver α ι) (hf : Fresh s)
    (fuel : Nat) (s1 : ConstraintSolver α ι) (h : solve P fuel s = Run.ret true s1) :
    ∃ sol, s1.SolutionList = [sol] ∧ sol.map Variable.indice = s.keys ∧
      (∀ var ∈ sol, var.isInstantiated = true) ∧
      ((∀ i ∈ s.keys, ∀ T ∈ Ts, ∀ j ∈ T i,
          j ∈ s.keys ∧ (s1.get i).value ≠ (s1.get j).value) →
        ∀ fuel2, solve P (fuel2 + 1) s1 =
          Run.ret true { s1 with SolutionList := [sol, sol] }) ∧
      (¬ (∀ i ∈ s.keys, ∀ T ∈ Ts, ∀ j ∈ T i,
          j ∈ s.keys ∧ (s1.get i).value ≠ (s1.get j).value) →
        ∀ fuel2, solve P (fuel2 + 1) s1 = Run.ret true s1) ∧
      ((Ts = [] ∨ (SelectorInDomain P ∧ Closed s.keys Ts)) →
        ∀ i ∈ s.keys, ∀ T ∈ Ts, ∀ j ∈ T i,
          j ∈ s.keys ∧ (s1.get i).value ≠ (s1.get j).value) := by
  have hS : ShrinkOnly P.Constraints := by rw [hP]; exact shrinkOnly_differs Ts
  have hKne : s.keys ≠ [] := fun hk =>
    solve_no_keys P s hk hf.facts.2.2.2.2.2 fuel s1 h
  obtain ⟨st1, h1, hp, hk, _, e⟩ := solve_true_state P hS hsort s hf fuel s1 h
  have hkeys : s1.keys = st1.Solver.keys := by rw [e]; rfl
  have hks : s1.keys = s.keys := hkeys.trans hk
  have hget : ∀ i, s1.get i = st1.Solver.get i := by intro i; rw [e]; rfl
  have hdom : ∀ i, s1.dom i = st1.Solver.dom i := by intro i; rw [e]; rfl
  have hw : WF s1 := by
    have := h1.wf
    rw [e]
    exact this
  have hi : ∀ k ∈ s1.keys, (s1.dom k).length = 1 := by
    intro k hk2
    rw [hkeys] at hk2
    rw [hdom]
    exact h1.inst k hk2 (by rw [hp]; exact List.not_mem_nil k)
  have hlist : s1.SolutionList = [s1.keys.map (fun i => s1.get i)] := by
    have : (fun i => s1.get i) = fun i => st1.Solver.get i := funext hget
    rw [hkeys, this, e]
  have ha : s1.AdditionalIndices = [] := by
    have := h1.noAdd
    rw [e]
    exact this
  have hprog : s1.IsSolveInProgress = false := by rw [e]
  have hkne1 : s1.keys ≠ [] := by rw [hks]; exact hKne
  -- the single value of each variable
  have hone : ∀ k ∈ s1.keys, ∃ v, (s1.get k).Domain = [v] ∧ (s1.get k).value = some v := by
    intro k hk2
    obtain ⟨v, hv⟩ := List.length_eq_one.1 (hi k hk2)
    have hv2 : (s1.get k).Domain = [v] := hv
    exact ⟨v, hv2, by unfold Variable.value; rw [hv2]; rfl⟩
  have hd : ∀ j, (({ s1 with IsSolveInProgress := true } : ConstraintSolver α ι).dom j).length
      ≤ 1 := by
    intro j
    show (s1.dom j).length ≤ 1
    by_cases hj : j ∈ s1.keys
    · exact Nat.le_of_eq (hi j hj)
    · rw [dom_nil_of_not_mem hj]
      exact Nat.zero_le 1
  obtain ⟨b, happ, hb⟩ := applyInstantiated_fixed Ts ({ s1 with IsSolveInProgress := true }) hd
    s1.keys (fun k hk2 => by
      obtain ⟨v, _, hv⟩ := hone k hk2
      exact ⟨⟨v, hv⟩, hw.2 k hk2⟩)
  -- the result of the loop, in terms of the values
  have hcond : b = true ↔ ∀ i ∈ s.keys, ∀ T ∈ Ts, ∀ j ∈ T i,
      j ∈ s.keys ∧ (s1.get i).value ≠ (s1.get j).value := by
    rw [hb]
    constructor
    · intro hall i hi2 T hT j hj
      have hi3 : i ∈ s1.keys := by rw [hks]; exact hi2
      obtain ⟨v, _, hv⟩ := hone i hi3
      obtain ⟨g1, g2⟩ := hall i hi3 v hv T hT j hj
      have g1b : j ∈ s1.keys := g1
      obtain ⟨w, hwd, hwv⟩ := hone j g1b
      refine ⟨by rw [← hks]; exact g1b, ?_⟩
      rw [hv, hwv]
      intro heq
      apply g2
      show v ∈ (s1.get j).Domain
      rw [hwd, Option.some.inj heq]
      exact List.mem_singleton_self w
    · intro hall i hi3 v hv T hT j hj
      have hi2 : i ∈ s.keys := by rw [← hks]; exact hi3
      obtain ⟨g1, g2⟩ := hall i hi2 T hT j hj
      have g1b : j ∈ s1.keys := by rw [hks]; exact g1
      obtain ⟨w, hwd, hwv⟩ := hone j g1b
      refine ⟨g1b, ?_⟩
      show v ∉ (s1.get j).Domain
      rw [hwd]
      intro hm
      apply g2
      have hv2 : (s1.get i).value = some v := hv
      rw [hv2, hwv, List.mem_singleton.1 hm]
  rw [← hP] at happ
  refine ⟨s1.keys.map (fun i => s1.get i), hlist, ?_, ?_, ?_, ?_, ?_⟩
  · rw [map_get_indice hw _ (fun i hi2 => hi2), hks]
  · intro var hv
    obtain ⟨i, hi2, rfl⟩ := List.mem_map.1 hv
    have := hi i hi2
    simpa [Variable.isInstantiated, dom] using this
  · intro hall fuel2
    have hbt : b = true := hcond.2 hall
    rw [hbt] at happ
    rw [solve_again_accepts P s1 hkne1 ha hprog hi happ fuel2, hlist]
    rfl
  · intro hnot fuel2
    have hbf : b = false := by
      cases b with
      | true => exact absurd (hcond.1 rfl) hnot
      | false => rfl
    rw [hbf] at happ
    exact solve_again_rejects P s1 hkne1 ha hprog hi
      (by rw [hlist]; exact List.cons_ne_nil _ _) happ fuel2
  · rintro (hnil | ⟨hsel, hcl⟩)
    · intro i _ T hT
      rw [hnil] at hT
      exact absurd hT (List.not_mem_nil T)
    · obtain ⟨a, hval, _, hsing⟩ :=
        solve_true_differs P Ts hP hsort hsel s hf hcl hKne fuel s1 h
      intro i hi2 T hT j hj
      have hj2 : j ∈ s.keys := hcl i hi2 T hT j hj
      refine ⟨hj2, ?_⟩
      have e1 : (s1.get i).Domain = [a i] := hsing i hi2
      have e2 : (s1.get j).Domain = [a j] := hsing j hj2
      unfold Variable.value
      rw [e1, e2]
      intro heq
      exact hval i hi2 T hT j hj (Option.some.inj heq)

/-- Two variables of domain `{1, 2}` linked by a not-equal propagator: the
first `solve` records `0 ↦ 1, 1 ↦ 2`, the second records it again. -/
theorem second_solve_repeats_witness :
    solve pairPolicies 16 (addVariable [1, 2] 1 (addVariable [1, 2] 0 new).2).2 =
      Run.ret true
        { IsSolveInProgress := false,
          Variables := [(0, Variable.mk 0 [1]), (1, Variable.mk 1 [2])],
          AdditionalIndices := [], RejectedIndices := [],
          SolutionList := [[Variable.mk 0 [1], Variable.mk 1 [2]]] } ∧
    solve pairPolicies 1
        { IsSolveInProgress := false,
          Variables := [(0, Variable.mk 0 [1]), (1, Variable.mk 1 [2])],
          AdditionalIndices := [], RejectedIndices := [],
          SolutionList := [[Variable.mk 0 [1], Variable.mk 1 [2]]] } =
      Run.ret true
        { IsSolveInProgress := false,
          Variables := [(0, Variable.mk 0 [1]), (1, Variable.mk 1 [2])],
          AdditionalIndices := [], RejectedIndices := [],
          SolutionList := [[Variable.mk 0 [1], Variable.mk 1 [2]],
            [Variable.mk 0 [1], Variable.mk 1 [2]]] } := by
  have hrun : solve pairPolicies 16 (addVariable [1, 2] 1 (addVariable [1, 2] 0 new).2).2 =
      Run.ret true
        { IsSolveInProgress := false,
          Variables := [(0, Variable.mk 0 [1]), (1, Variable.mk 1 [2])],
          AdditionalIndices := [], RejectedIndices := [],
          SolutionList := [[Variable.mk 0 [1], Variable.mk 1 [2]]] } := by decide!
  refine ⟨hrun, ?_⟩
  obtain ⟨sol, h1, _, _, h2, _, h4⟩ := second_solve_repeats pairPolicies [pairTargets] rfl
    (fun _ l => List.Perm.refl l)
    (addVariable [1, 2] 1 (addVariable [1, 2] 0 new).2).2
    (Fresh.add _ _ (Fresh.add _ _ Fresh.new)) 16 _ hrun
  have e : sol = [Variable.mk 0 [1], Variable.mk 1 [2]] := (List.cons.inj h1).1.symm
  rw [h2 (h4 (Or.inr ⟨fun sel hs => (by cases hs), (by unfold Closed; decide)⟩)) 0, e]

/-- The variables `0` and `1` of domain `{1, 2}`, the one-way propagator that
excludes the value of `0` from `1`, and a selector that returns `3`: the first
`solve` returns `true` and records `0 ↦ 3, 1 ↦ 3`; in the second, `exclude(3, 1)`
meets the variable `1` instantiated to `3` and fails, nothing is recorded, and
`solve` returns `true` with the registry still holding one entry. -/
theorem second_solve_appends_nothing :
    solve oneWayPolicies 16 (addVariable [1, 2] 1 (addVariable [1, 2] 0 new).2).2 =
      Run.ret true
        { IsSolveInProgress := false,
          Variables := [(0, Variable.mk 0 [3]), (1, Variable.mk 1 [3])],
          AdditionalIndices := [], RejectedIndices := [],
          SolutionList := [[Variable.mk 0 [3], Variable.mk 1 [3]]] } ∧
    solve oneWayPolicies 16
        { IsSolveInProgress := false,
          Variables := [(0, Variable.mk 0 [3]), (1, Variable.mk 1 [3])],
          AdditionalIndices := [], RejectedIndices := [],
          SolutionList := [[Variable.mk 0 [3], Variable.mk 1 [3]]] } =
      Run.ret true
        { IsSolveInProgress := false,
          Variables := [(0, Variable.mk 0 [3]), (1, Variable.mk 1 [3])],
          AdditionalIndices := [], RejectedIndices := [],
          SolutionList := [[Variable.mk 0 [3], Variable.mk 1 [3]]] } ∧
    oneWayPolicies.Constraints = [differs oneWayTargets] := by
  refine ⟨by decide!, by decide!, rfl⟩

/-- C35. An empty declared domain makes `solve` fail with an error. On a
fresh solver without constraints (any comparator, the sort permuting, and any
selector, so the default policies in particular) in which some variable `e` has
an empty domain, `solve` never returns a boolean, whatever the budget, and with
a budget above the number of variables it ends by the exception
`std::out_of_range` (which, without constraints, only `value()` in
`selectVariableAndValue` throws); the same holds of `solveAll`. -/
theorem empty_domain_raises (P : Policies α ι) (hP : P.Constraints = [])
    (hsort : ∀ cmp l, List.Perm (P.StdSort cmp l) l) (s : ConstraintSolver α ι) (hf : Fresh s)
    (e : ι) (he : e ∈ s.keys) (hd : s.dom e = []) :
    (∀ fuel b s1, solve P fuel s ≠ Run.ret b s1) ∧
    (∀ fuel, s.keys.length < fuel → ∃ s1, solve P fuel s = Run.raise s1) ∧
    (∀ fuel b s1, solveAll P fuel s ≠ Run.ret b s1) ∧
    (∀ fuel, s.keys.length < fuel → ∃ s1, solveAll P fuel s = Run.raise s1) :=
  ⟨(solve_empty_domain P hP hsort s hf e he hd false).1,
   (solve_empty_domain P hP hsort s hf e he hd false).2,
   (solve_empty_domain P hP hsort s hf e he hd true).1,
   (solve_empty_domain P hP hsort s hf e he hd true).2⟩

/-- The variable `0` of domain `{1, 2}` and the variable `1` added with an
empty domain, default policies: `solve` throws after the choice for `0`. -/
theorem empty_domain_raises_witness :
    (addVariable ([] : List Nat) 1 (addVariable [1, 2] 0 new).2).2.dom 1 = [] ∧
    (∃ s1, solve plainPolicies 3 (addVariable [] 1 (addVariable [1, 2] 0 new).2).2 =
      Run.raise s1) ∧
    solve plainPolicies 3 (addVariable [] 1 (addVariable [1, 2] 0 new).2).2 =
      Run.raise
        { IsSolveInProgress := true,
          Variables := [(0, Variable.mk 0 [1]), (1, Variable.mk 1 [])],
          AdditionalIndices := [], RejectedIndices := [], SolutionList := [] } :=
  ⟨by decide,
   (empty_domain_raises plainPolicies rfl (fun _ l => List.Perm.refl l)
      (addVariable [] 1 (addVariable [1, 2] 0 new).2).2
      (Fresh.add _ _ (Fresh.add _ _ Fresh.new)) 1 (by decide) (by decide)).2.1 3 (by decide),
   by decide!⟩

end ConstraintSolver

end solver

namespace DependencyGraph

variable {T : Type} [LinearOrder T]

/-! ## Topological sort on any dependencies -/

/-- C39. Method `topologicalSort` returns every vertex exactly once. For the
object built by any sequence of `addDependency(u, v)` calls, cycles and
self-dependencies included, `topologicalSort()` returns when its recursion
budget covers the vertices, and the vector returned holds no vertex twice and
holds exactly the vertices that occurred as an argument of `addDependency`: it
is a permutation of the set `vertices`. -/
theorem topological_all_vertices (deps : List (T × T)) (fuel : Nat)
    (hfuel : (build deps).vertices.length ≤ fuel) :
    ∃ sorted g1, topologicalSort fuel (build deps) = some (sorted, g1) ∧ sorted.Nodup ∧
      (∀ x, x ∈ sorted ↔ ∃ d ∈ deps, x = d.1 ∨ x = d.2) ∧
      List.Perm sorted (build deps).vertices := by
  obtain ⟨b1, b2, b3⟩ := build_spec deps
  have hV : ∀ x ∈ (build deps).vertices, ∀ d ∈ edges x (build deps).graph,
      d ∈ (build deps).vertices := by
    intro x _ d hd
    exact (b3 d).2 ⟨(x, d), (b2 x d).1 hd, Or.inr rfl⟩
  obtain ⟨sorted, g1, h1, h2, h3, _, _⟩ := topologicalSort_reach (build deps) b1 hV fuel hfuel
  refine ⟨sorted, g1, h1, h2, fun x => (h3 x).trans (b3 x), ?_⟩
  have hnd : (build deps).vertices.Nodup :=
    (build_vertices_sorted deps).imp (fun h => ne_of_lt h)
  exact (List.perm_ext_iff_of_nodup h2 hnd).2 h3

/-- The dependencies `1` on `2`, `2` on `1` (a cycle), `3` on itself and `2`
on `4`: the vector returned is `4, 2, 1, 3`. -/
theorem topological_all_vertices_witness :
    (topologicalSort 4 (build [(1, 2), (2, 1), (3, 3), (2, 4)])).map Prod.fst =
      some [4, 2, 1, 3] ∧
    ∃ sorted g1, topologicalSort 4 (build [(1, 2), (2, 1), (3, 3), (2, 4)]) =
        some (sorted, g1) ∧ sorted.Nodup ∧
      List.Perm sorted (build [(1, 2), (2, 1), (3, 3), (2, 4)]).vertices := by
  refine ⟨by decide, ?_⟩
  obtain ⟨sorted, g1, h1, h2, _, h4⟩ :=
    topological_all_vertices [(1, 2), (2, 1), (3, 3), (2, 4)] 4 (by decide)
  exact ⟨sorted, g1, h1, h2, h4⟩

end DependencyGraph

namespace tda

namespace Futoshiki

variable {N : Nat}

/-! ## The violation count of the annealing driver -/

/-- C31. Violation count. For a grid of `Futoshiki<N>` whose selected values
`val i j` all lie in `1 .. N` and whose inequalities have both ends within the
grid (the count staying below the range of `size_t`), `getViolationsCount()`
returns the number of repeated occurrences in the rows plus those in the
columns plus the number of violated inequalities; and it returns `0` exactly
when no row holds a value twice, no column holds a value twice and, for every
inequality, the value at `Inf()` is strictly less than the value at `Sup()`. -/
theorem violations_count (f : Futoshiki N) (val : Nat → Nat → Nat)
    (hsel : ∀ i < N, ∀ j < N, (f.Grid i j).Selected = some (val i j) ∧ 1 ≤ val i j ∧ val i j ≤ N)
    (hin : ∀ c ∈ f.Constraints, c.Inf.X < N ∧ c.Inf.Y < N ∧ c.Sup.X < N ∧ c.Sup.Y < N)
    (hsize : 2 * N * N + f.Constraints.length < sizeMod) :
    f.getViolationsCount =
      some (rowRepeats N val + colRepeats N val + violatedCount val f.Constraints) ∧
    (f.getViolationsCount = some 0 ↔
      (∀ i < N, (rowOf N val i).Nodup) ∧ (∀ j < N, (columnOf N val j).Nodup) ∧
      ∀ c ∈ f.Constraints, val c.Inf.X c.Inf.Y < val c.Sup.X c.Sup.Y) := by
  have e := getViolationsCount_eq f val hsel hin hsize
  refine ⟨e, ?_⟩
  rw [e]
  have hr : rowRepeats N val = 0 ↔ ∀ i < N, (rowOf N val i).Nodup := by
    unfold rowRepeats
    rw [sum_range_eq_zero]
    exact forall_congr' (fun i => imp_congr Iff.rfl (repeats_eq_zero _))
  have hc : colRepeats N val = 0 ↔ ∀ j < N, (columnOf N val j).Nodup := by
    unfold colRepeats
    rw [sum_range_eq_zero]
    exact forall_congr' (fun i => imp_congr Iff.rfl (repeats_eq_zero _))
  have hv : violatedCount val f.Constraints = 0 ↔
      ∀ c ∈ f.Constraints, val c.Inf.X c.Inf.Y < val c.Sup.X c.Sup.Y := by
    unfold violatedCount
    rw [List.length_eq_zero, List.filter_eq_nil_iff]
    apply forall_congr'
    intro c
    apply imp_congr Iff.rfl
    unfold violated
    simp
  rw [← hr, ← hc, ← hv]
  constructor
  · intro h
    have := Option.some.inj h
    omega
  · rintro ⟨h1, h2, h3⟩
    rw [h1, h2, h3]

/-- The 2×2 grid of rows `1 2` and `1 1` with the inequality
`(0, 0) < (0, 1)`: one repeated occurrence in row `1`, one in column `0`, no
violated inequality; the count is `2`. -/
theorem violations_count_witness :
    (gridOf 2 [[1, 2], [1, 1]]
      [InferiorConstraint.new (Coord.mk 0 0) Direction.Right]).getViolationsCount = some 2 ∧
    (gridOf 2 [[1, 2], [1, 1]]
      [InferiorConstraint.new (Coord.mk 0 0) Direction.Right]).getViolationsCount =
      some (rowRepeats 2 (fun i j => (([[1, 2], [1, 1]] : List (List Nat)).getD i []).getD j 0) +
        colRepeats 2 (fun i j => (([[1, 2], [1, 1]] : List (List Nat)).getD i []).getD j 0) +
        violatedCount (fun i j => (([[1, 2], [1, 1]] : List (List Nat)).getD i []).getD j 0)
          [InferiorConstraint.new (Coord.mk 0 0) Direction.Right]) :=
  ⟨by decide!,
   (violations_count
      (gridOf 2 [[1, 2], [1, 1]] [InferiorConstraint.new (Coord.mk 0 0) Direction.Right])
      (fun i j => (([[1, 2], [1, 1]] : List (List Nat)).getD i []).getD j 0)
      (by decide) (by decide) (by decide)).1⟩

end Futoshiki

end tda
